import Mathlib

/-!
LU factorization with Suhl-Suhl updates: `src/util/lp/lu.hpp`

A shallow embedding of the class `lu<T, X>` of `src/util/lp/lu.hpp` and of the
auxiliary class `one_elem_on_diag<T, X>` defined in the same file.

Conventions of the embedding.

* The coefficient types `T` and `X` are both the rationals.  The regime
  `numeric_traits<T>::precise()` is the boolean `lu_deps.precise`; it decides whether
  the drop tolerance is engaged.  In the inexact regime the control flow, the tolerance
  tests and the order of the arithmetic operations are those of the source.  The
  rounding of the arithmetic of `T` is the function `lu_deps.round`, applied in
  `find_error_of_yB_indexed`, where the order of the operations decides the result.
* `vector<T>` of length `m_dim` is a function `Fin n → ℚ`; a loop
  `unsigned i = m_dim; while (i--) body` is a left fold over the reversed index list.
* `lu.hpp` only orchestrates classes that are declared in other headers
  (`sparse_matrix`, `permutation_matrix`, `eta_matrix`, `row_eta_matrix`,
  `square_dense_submatrix`, `static_matrix`, `indexed_vector`, `lp_settings`).  Their
  member functions are taken as parameters, collected in `lu_deps`; the theorems state
  what they need from them as hypotheses.  The functions of `lu.hpp` itself are
  translated line by line on top of these parameters.
* `dense_deps` is a reference implementation of the parameters on dense matrices; it
  is used to run the functions on concrete inputs.  `double_deps` is the same with the
  rounding of IEEE double precision, `round_to_double`.
-/

namespace LU

open Matrix

/-! ## Data model -/

/-- A `vector<T>` of length `m_dim`. -/
abbrev Vec (n : Nat) := Fin n → ℚ

/-- A `dense_matrix<T, X>` of size `m_dim × m_dim`. -/
abbrev Mat (n : Nat) := Matrix (Fin n) (Fin n) ℚ

/-- The enumeration `LU_status`. -/
inductive LU_status
  | OK
  | Degenerated
  deriving DecidableEq, Repr

/-- Modelled from the spec: `lp_settings` (declared in the absent `lp_settings.h`), the
configuration object exposing the pivot tolerance, the drop tolerance and the density
threshold. -/
structure lp_settings where
  pivot_tolerance : ℚ
  drop_tolerance : ℚ
  density_threshold : ℚ
  c_partial_pivoting : Nat

/-- Modelled from the spec: `lp_settings::abs_val_is_smaller_than_drop_tolerance<T>`, the
drop tolerance being the magnitude below which an inexact-arithmetic value is treated as
zero.  The numeric regime of `T` decides whether the tolerance is engaged at all: for an
exact `T` (`precise` true) only zero is treated as zero. -/
def lp_settings.abs_val_is_smaller_than_drop_tolerance (st : lp_settings) (precise : Bool)
    (t : ℚ) : Bool :=
  if precise then decide (t = 0) else decide (|t| < st.drop_tolerance)

/-- Modelled from the spec: `lp_settings::abs_val_is_smaller_than_pivot_tolerance`, a
diagonal magnitude below the pivot tolerance being unusable. -/
def lp_settings.abs_val_is_smaller_than_pivot_tolerance (st : lp_settings) (t : ℚ) : Bool :=
  decide (|t| < st.pivot_tolerance)

/-- The class `indexed_vector<T>` through the two members `lu.hpp` reads and writes
directly: the dense data and the list of indices. -/
structure indexed_vector (n : Nat) where
  m_data : Vec n
  m_index : List (Fin n)

/-- The class `permutation_matrix<T, X>` through the array accessed by `operator[]`. -/
structure permutation_matrix (n : Nat) where
  m_permutation : Fin n → Fin n

/-- The fields of `one_elem_on_diag<T, X>` copied by its copy constructor. -/
structure one_elem_on_diag (n : Nat) where
  m_i : Fin n
  m_val : ℚ

/-- A `row_eta_matrix<T, X>` as `lu.hpp` builds it: the two constructor arguments and the
entries added by `push_back`, in the order they were pushed. -/
structure row_eta_matrix (n : Nat) where
  m_row_start : Fin n
  m_row : Fin n
  m_row_vector : List (Fin n × ℚ)

/-- An entry of `m_tail`: one of the four classes derived from `tail_matrix<T, X>` that
`lu.hpp` pushes to the tail. -/
inductive tail_matrix (n : Nat) (EM DM : Type)
  | eta (e : EM)
  | row_eta (r : row_eta_matrix n)
  | one_elem (l : one_elem_on_diag n)
  | dense (m : DM)

/-- The virtual interface of a class derived from `tail_matrix<T, X>`. -/
structure tail_matrix_ops (n : Nat) (M : Type) where
  apply_from_left : M → Vec n → lp_settings → Vec n
  apply_from_left_to_T : M → indexed_vector n → lp_settings → indexed_vector n
  apply_from_right : M → Vec n → Vec n
  apply_from_right_indexed : M → indexed_vector n → indexed_vector n
  conjugate_by_permutation : M → permutation_matrix n → M
  get_elem : M → Fin n → Fin n → ℚ

/-- The class `indexed_vector<unsigned>` of the member `m_ii`. -/
structure indexed_vector_unsigned (n : Nat) where
  m_data : Fin n → Nat
  m_index : List (Fin n)

/-- The member functions of `permutation_matrix<T, X>` called by `lu.hpp`. -/
structure permutation_matrix_ops (n : Nat) where
  apply_reverse_from_left_to_X : permutation_matrix n → Vec n → Vec n
  apply_reverse_from_left_to_T : permutation_matrix n → Vec n → Vec n
  apply_reverse_from_left : permutation_matrix n → indexed_vector n → indexed_vector n
  apply_reverse_from_right_to_T : permutation_matrix n → Vec n → Vec n
  apply_reverse_from_right_to_T_indexed :
    permutation_matrix n → indexed_vector n → indexed_vector n
  apply_reverse : permutation_matrix n → Fin n → Fin n
  transpose_from_left : permutation_matrix n → Nat → Nat → permutation_matrix n
  transpose_from_right : permutation_matrix n → Nat → Nat → permutation_matrix n
  multiply_by_permutation_from_right :
    permutation_matrix n → permutation_matrix n → permutation_matrix n
  multiply_by_permutation_reverse_from_left :
    permutation_matrix n → permutation_matrix n → permutation_matrix n

/-- An `indexed_value<T>`: an entry of a row of the sparse matrix. -/
structure indexed_value where
  m_value : ℚ
  m_index : Nat

/-- A cell of a row of the `static_matrix`: the column `m_j` and the value `get_val()`. -/
structure row_cell where
  m_j : Nat
  m_value : ℚ

/-- The member functions of `sparse_matrix<T, X>` called by `lu.hpp` on `m_U`.
`create` is the constructor `m_U(A, basis)`, `elem` is `operator()`.  Functions that
return a `bool` or write through reference arguments return tuples. -/
structure sparse_matrix_ops (n : Nat) (SM EM AM : Type) where
  create : AM → (Fin n → Nat) → SM
  elem : SM → Fin n → Fin n → ℚ
  solve_U_y : SM → Vec n → Vec n
  double_solve_U_y : SM → Vec n → Vec n
  solve_U_y_indexed_only : SM → indexed_vector n → lp_settings → indexed_vector n
  double_solve_U_y_indexed : SM → indexed_vector n → lp_settings → indexed_vector n
  solve_y_U : SM → Vec n → Vec n
  solve_y_U_indexed : SM → indexed_vector n → lp_settings → indexed_vector n
  prepare_for_factorization : SM → SM
  get_pivot_for_column : SM → Nat → Nat → Bool × Nat × Nat × SM
  swap_rows : SM → Nat → Nat → SM
  swap_columns : SM → Nat → Nat → SM
  fill_eta_matrix : SM → Nat → Bool × Option EM
  shorten_active_matrix : SM → Nat → SM
  pivot_with_eta : SM → Nat → EM → lp_settings → Bool × SM
  get_n_of_active_elems : SM → Nat
  replace_column : SM → Fin n → indexed_vector n → lp_settings → SM
  lowest_row_in_column : SM → Fin n → Fin n
  multiply_from_right : SM → permutation_matrix n → SM
  multiply_from_left_with_reverse : SM → permutation_matrix n → SM
  adjust_row : SM → Fin n → Nat
  adjust_column_inverse : SM → Nat → Fin n
  get_row_values : SM → Nat → List indexed_value
  set_row_from_work_vector_and_clean_work_vector_not_adjusted :
    SM → Nat → indexed_vector n → lp_settings → SM × indexed_vector n
  divide_row_by_constant : SM → Fin n → ℚ → lp_settings → SM

/-- The member functions of `square_dense_submatrix<T, X>` called by `lu.hpp` on
`m_dense_LU`, besides the `tail_matrix` interface.  `create` is the constructor
`square_dense_submatrix(&m_U, j)`.  The object keeps a pointer to its parent `m_U`, so
`update_parent_matrix` returns the new parent. -/
structure square_dense_submatrix_ops (n : Nat) (SM DM : Type) where
  create : SM → Nat → DM
  find_pivot_column_in_row : DM → Nat → Int
  swap_columns : DM → Nat → Nat → DM
  pivot : DM → Nat → lp_settings → DM
  update_parent_matrix : DM → SM → lp_settings → SM

/-- The member functions and members of `static_matrix<T, X>` used by `lu.hpp` on
`m_A`. -/
structure static_matrix_ops (n : Nat) (AM : Type) where
  get_elem : AM → Fin n → Nat → ℚ
  column_count : AM → Nat
  dot_product_with_column : AM → Vec n → Nat → ℚ
  copy_column_to_indexed_vector : AM → Nat → indexed_vector n → indexed_vector n
  m_rows : AM → Fin n → List row_cell

/-- Everything `lu.hpp` uses from other headers. -/
structure lu_deps (n : Nat) (SM EM DM AM : Type) where
  precise : Bool
  ratio_of_index_size_to_all_size : Nat
  perm : permutation_matrix_ops n
  U : sparse_matrix_ops n SM EM AM
  A : static_matrix_ops n AM
  eta : tail_matrix_ops n EM
  row_eta : tail_matrix_ops n (row_eta_matrix n)
  dense : tail_matrix_ops n DM
  dense_LU : square_dense_submatrix_ops n SM DM
  one_elem_apply_from_left : one_elem_on_diag n → Vec n → lp_settings → Vec n
  one_elem_apply_from_right : one_elem_on_diag n → Vec n → Vec n
  one_elem_apply_from_right_indexed :
    one_elem_on_diag n → indexed_vector n → indexed_vector n
  one_elem_conjugate_by_permutation :
    one_elem_on_diag n → permutation_matrix n → one_elem_on_diag n
  restore_index_and_clean_from_data : indexed_vector n → indexed_vector n
  is_eps_small_general : ℚ → Bool
  /-- the rounding of the arithmetic of `T`: an operation of `T` returns `round` of the
  exact result; the identity for an exact `T`.  It is read where the order of the
  operations decides a claim (`find_error_of_yB_indexed`) -/
  round : ℚ → ℚ

/-- The data members of `lu<T, X>`. -/
structure lu (n : Nat) (SM EM DM AM : Type) where
  m_status : LU_status
  m_A : AM
  m_Q : permutation_matrix n
  m_R : permutation_matrix n
  m_r_wave : permutation_matrix n
  m_U : SM
  m_settings : lp_settings
  m_failure : Bool
  m_row_eta_work_vector : indexed_vector n
  m_refactor_counter : Nat
  m_tail : List (tail_matrix n EM DM)
  m_y_copy : indexed_vector n
  m_ii : indexed_vector_unsigned n
  m_dense_LU : Option DM

variable {n : Nat} {SM EM DM AM : Type}

/-! ## `one_elem_on_diag` (lines 71-106) -/

/-- The debug field `m_one_over_val`, set by the copy constructor to `one() / o.m_val`. -/
def one_elem_on_diag.m_one_over_val (l : one_elem_on_diag n) : ℚ :=
  1 / l.m_val

/-- The function `one_elem_on_diag<T, X>::get_elem` (lines 82-92). -/
def one_elem_on_diag.get_elem (l : one_elem_on_diag n) (i j : Fin n) : ℚ :=
  if i = j then
    if j = l.m_i then l.m_one_over_val else 1
  else 0

/-! ## Virtual dispatch over the tail -/

/-- The virtual call `m_tail[i]->apply_from_left(y, m_settings)`. -/
def tail_matrix.apply_from_left (d : lu_deps n SM EM DM AM) :
    tail_matrix n EM DM → Vec n → lp_settings → Vec n
  | .eta e, y, st => d.eta.apply_from_left e y st
  | .row_eta r, y, st => d.row_eta.apply_from_left r y st
  | .one_elem l, y, st => d.one_elem_apply_from_left l y st
  | .dense m, y, st => d.dense.apply_from_left m y st

/-- The virtual call `(*e)->apply_from_right(y)` on a dense vector. -/
def tail_matrix.apply_from_right (d : lu_deps n SM EM DM AM) :
    tail_matrix n EM DM → Vec n → Vec n
  | .eta e, y => d.eta.apply_from_right e y
  | .row_eta r, y => d.row_eta.apply_from_right r y
  | .one_elem l, y => d.one_elem_apply_from_right l y
  | .dense m, y => d.dense.apply_from_right m y

/-- The virtual call `get_elem` used by the debug matrix product `(*lp) * left_side`. -/
def tail_matrix.get_elem (d : lu_deps n SM EM DM AM) :
    tail_matrix n EM DM → Mat n
  | .eta e => fun i j => d.eta.get_elem e i j
  | .row_eta r => fun i j => d.row_eta.get_elem r i j
  | .one_elem l => fun i j => l.get_elem i j
  | .dense m => fun i j => d.dense.get_elem m i j

/-- Modelled from the spec: the dense form of a `permutation_matrix` (its `get_elem` is in
the absent `permutation_matrix.h`): row `i` has its single one in column
`m_permutation[i]`, so that multiplying from the right by `r_wave` with
`r_wave[bump_start] = bump_end` sends column `bump_start` to `bump_end` (line 769). -/
def permutation_matrix.get_elem (p : permutation_matrix n) : Mat n :=
  fun i j => if p.m_permutation i = j then 1 else 0

/-! ## Debug reconstruction (lines 625-669, 930-942) -/

/-- The function `get_B` (lines 932-941): `B(i, j) = A(i, basis[j])`. -/
def get_B (d : lu_deps n SM EM DM AM) (s : lu n SM EM DM AM) (basis : Fin n → Nat) : Mat n :=
  fun i j => d.A.get_elem s.m_A i (basis j)

/-- The function `lu::tail_product` (lines 642-652). -/
def tail_product (d : lu_deps n SM EM DM AM) (s : lu n SM EM DM AM) : Mat n :=
  s.m_tail.foldl (fun left_side lp => tail_matrix.get_elem d lp * left_side) 1

/-- The function `lu::get_left_side` (lines 654-663). -/
def get_left_side (d : lu_deps n SM EM DM AM) (s : lu n SM EM DM AM)
    (basis : Fin n → Nat) : Mat n :=
  s.m_tail.foldl (fun left_side lp => tail_matrix.get_elem d lp * left_side) (get_B d s basis)

/-- The dense copy `U()` of `m_U`. -/
def U_dense (d : lu_deps n SM EM DM AM) (s : lu n SM EM DM AM) : Mat n :=
  fun i j => d.U.elem s.m_U i j

/-- The function `lu::get_right_side` (lines 665-669). -/
def get_right_side (d : lu_deps n SM EM DM AM) (s : lu n SM EM DM AM) : Mat n :=
  let ret := U_dense d s * s.m_R.get_elem
  s.m_Q.get_elem * ret

/-- The function `lu::is_correct` in a debug build (lines 626-633). -/
def is_correct (d : lu_deps n SM EM DM AM) (s : lu n SM EM DM AM)
    (basis : Fin n → Nat) : Prop :=
  s.m_status = LU_status.OK ∧ get_left_side d s basis = get_right_side d s

/-- Upper triangular: every entry below the diagonal is zero. -/
def is_upper_triangular (M : Mat n) : Prop :=
  ∀ i j : Fin n, j < i → M i j = 0

/-! ## Forward solve (lines 153-175, 482-514) -/

/-- The function `lu::apply_lp_list_to_y` (lines 510-514). -/
def apply_lp_list_to_y (d : lu_deps n SM EM DM AM) (s : lu n SM EM DM AM) (y : Vec n) : Vec n :=
  s.m_tail.foldl (fun y t => tail_matrix.apply_from_left d t y s.m_settings) y

/-- The function `lu::init_vector_y` (lines 483-486). -/
def init_vector_y (d : lu_deps n SM EM DM AM) (s : lu n SM EM DM AM) (y : Vec n) : Vec n :=
  let y := apply_lp_list_to_y d s y
  d.perm.apply_reverse_from_left_to_X s.m_Q y

/-- The function `lu::solve_By_when_y_is_ready_for_X` (lines 160-175). -/
def solve_By_when_y_is_ready_for_X (d : lu_deps n SM EM DM AM) (s : lu n SM EM DM AM)
    (y : Vec n) : Vec n :=
  if d.precise then
    let y := d.U.solve_U_y s.m_U y
    d.perm.apply_reverse_from_left_to_X s.m_R y
  else
    let y := d.U.double_solve_U_y s.m_U y
    let y := d.perm.apply_reverse_from_left_to_X s.m_R y
    (List.finRange n).reverse.foldl
      (fun y i =>
        if y i = 0 then y
        else if s.m_settings.abs_val_is_smaller_than_drop_tolerance d.precise (y i) then
          Function.update y i 0
        else y)
      y

/-- The function `lu::solve_By(vector<X> & y)` (lines 154-157). -/
def solve_By (d : lu_deps n SM EM DM AM) (s : lu n SM EM DM AM) (y : Vec n) : Vec n :=
  let y := init_vector_y d s y
  solve_By_when_y_is_ready_for_X d s y

/-! ## Small members of absent headers -/

/-- Modelled from the spec: `indexed_vector::set_value(value, index)` (absent
`indexed_vector.h`): stores the coefficient and adds the position to the index set. -/
def indexed_vector.set_value (w : indexed_vector n) (value : ℚ) (index : Fin n) :
    indexed_vector n :=
  { m_data := Function.update w.m_data index value, m_index := w.m_index ++ [index] }

/-- Modelled from the spec: `indexed_vector::clear_all()` (absent `indexed_vector.h`):
returns the buffer to the empty, zeroed state. -/
def indexed_vector.clear_all (_w : indexed_vector n) : indexed_vector n :=
  { m_data := fun _ => 0, m_index := [] }

/-- Modelled from the spec: `indexed_vector::clear()` (absent `indexed_vector.h`): zeroes
the positions listed in the index set and empties the index set. -/
def indexed_vector.clear (w : indexed_vector n) : indexed_vector n :=
  { m_data := w.m_index.foldl (fun data i => Function.update data i 0) w.m_data,
    m_index := [] }

/-- Modelled from the spec: `indexed_vector::erase_from_index(j)` (absent
`indexed_vector.h`): removes the position from the index set. -/
def indexed_vector.erase_from_index (w : indexed_vector n) (j : Fin n) : indexed_vector n :=
  { w with m_index := w.m_index.erase j }

/-- Modelled from the spec: `indexed_vector<unsigned>::set_value(value, index)`. -/
def indexed_vector_unsigned.set_value (w : indexed_vector_unsigned n) (value : Nat)
    (index : Fin n) : indexed_vector_unsigned n :=
  { m_data := Function.update w.m_data index value, m_index := w.m_index ++ [index] }

/-- Modelled from the spec: `indexed_vector<unsigned>::clear()`. -/
def indexed_vector_unsigned.clear (w : indexed_vector_unsigned n) :
    indexed_vector_unsigned n :=
  { m_data := w.m_index.foldl (fun data i => Function.update data i 0) w.m_data,
    m_index := [] }

/-- Modelled from the spec: `permutation_matrix::init(dim)` and the constructor
`permutation_matrix(dim)` (absent `permutation_matrix.h`): the identity permutation. -/
def permutation_matrix.init : permutation_matrix n :=
  { m_permutation := fun i => i }

/-- The assignment `p[i] = v` through `permutation_matrix::operator[]`. -/
def permutation_matrix.set (p : permutation_matrix n) (i v : Fin n) : permutation_matrix n :=
  { m_permutation := Function.update p.m_permutation i v }

/-- Modelled from the spec: `lu::set_status` (inline in the absent `lu.h`). -/
def set_status (s : lu n SM EM DM AM) (status : LU_status) : lu n SM EM DM AM :=
  { s with m_status := status }

/-- Modelled from the spec: `lu::get_status` (inline in the absent `lu.h`). -/
def get_status (s : lu n SM EM DM AM) : LU_status :=
  s.m_status

/-- Modelled from the spec: `lu::push_matrix_to_tail` (inline in the absent `lu.h`): the
tail is extended by append. -/
def push_matrix_to_tail (s : lu n SM EM DM AM) (tm : tail_matrix n EM DM) :
    lu n SM EM DM AM :=
  { s with m_tail := s.m_tail ++ [tm] }

/-- The conversion `static_cast<int>(u)` of a 32-bit `unsigned`. -/
def static_cast_int (u : Nat) : Int :=
  if u % 4294967296 < 2147483648 then Int.ofNat (u % 4294967296)
  else Int.ofNat (u % 4294967296) - 4294967296

/-- An `int` used as a position of a vector of length `m_dim`. -/
def to_index (z : Int) : Option (Fin n) :=
  if h : 0 ≤ z ∧ z.toNat < n then some ⟨z.toNat, h.2⟩ else none

/-! ## Backward solve and refinement (lines 264-462) -/

/-- The function `lu::solve_yB` (lines 265-276). -/
def solve_yB (d : lu_deps n SM EM DM AM) (s : lu n SM EM DM AM) (y : Vec n) : Vec n :=
  let y := d.perm.apply_reverse_from_right_to_T s.m_R y
  let y := d.U.solve_y_U s.m_U y
  let y := d.perm.apply_reverse_from_right_to_T s.m_Q y
  s.m_tail.reverse.foldl (fun y e => tail_matrix.apply_from_right d e y) y

/-- The virtual call `(*e)->apply_from_right(y)` on an indexed vector. -/
def tail_matrix.apply_from_right_indexed (d : lu_deps n SM EM DM AM) :
    tail_matrix n EM DM → indexed_vector n → indexed_vector n
  | .eta e, y => d.eta.apply_from_right_indexed e y
  | .row_eta r, y => d.row_eta.apply_from_right_indexed r y
  | .one_elem l, y => d.one_elem_apply_from_right_indexed l y
  | .dense m, y => d.dense.apply_from_right_indexed m y

/-- The function `lu::solve_yB_indexed` (lines 279-295). -/
def solve_yB_indexed (d : lu_deps n SM EM DM AM) (s : lu n SM EM DM AM)
    (y : indexed_vector n) : indexed_vector n :=
  let y := d.perm.apply_reverse_from_right_to_T_indexed s.m_R y
  let y := d.U.solve_y_U_indexed s.m_U y s.m_settings
  let y := d.perm.apply_reverse_from_right_to_T_indexed s.m_Q y
  s.m_tail.reverse.foldl (fun y e => tail_matrix.apply_from_right_indexed d e y) y

/-- The function `lu::add_delta_to_solution` (lines 298-302). -/
def add_delta_to_solution (yc : Vec n) (y : Vec n) : Vec n :=
  (List.finRange n).reverse.foldl (fun y i => Function.update y i (y i + yc i)) y

/-- The function `lu::add_delta_to_solution_indexed` (lines 305-330); it returns the new
state (for `m_ii`) and the new `y`. -/
def add_delta_to_solution_indexed (d : lu_deps n SM EM DM AM) (s : lu n SM EM DM AM)
    (y : indexed_vector n) : lu n SM EM DM AM × indexed_vector n :=
  let ii := s.m_ii.clear
  let ii := y.m_index.foldl (fun ii i => ii.set_value 1 i) ii
  let r := s.m_y_copy.m_index.foldl
    (fun (r : indexed_vector_unsigned n × Vec n) i =>
      let data := Function.update r.2 i (r.2 i + s.m_y_copy.m_data i)
      if r.1.m_data i = 0 then (r.1.set_value 1 i, data) else (r.1, data))
    (ii, y.m_data)
  let y : indexed_vector n := { m_data := r.2, m_index := [] }
  let y := r.1.m_index.foldl
    (fun (y : indexed_vector n) i =>
      let v := y.m_data i
      if !d.is_eps_small_general v then { y with m_index := y.m_index ++ [i] }
      else if v ≠ 0 then { y with m_data := Function.update y.m_data i 0 }
      else y)
    y
  ({ s with m_ii := r.1 }, y)

/-- The function `lu::find_error_of_yB` (lines 333-338). -/
def find_error_of_yB (d : lu_deps n SM EM DM AM) (s : lu n SM EM DM AM)
    (yc : Vec n) (y : Vec n) (m_basis : Fin n → Nat) : Vec n :=
  (List.finRange n).reverse.foldl
    (fun yc i => Function.update yc i (yc i - d.A.dot_product_with_column s.m_A y (m_basis i)))
    yc

/-- The function `lu::find_error_of_yB_indexed` (lines 341-404, the compiled part).  The
product and the difference of line 381 are operations of `T`, rounded by `d.round`. -/
def find_error_of_yB_indexed (d : lu_deps n SM EM DM AM) (s : lu n SM EM DM AM)
    (y : indexed_vector n) (heading : Nat → Int) (settings : lp_settings) :
    lu n SM EM DM AM :=
  let ii := s.m_ii.clear
  let r := y.m_index.foldl
    (fun (r : indexed_vector_unsigned n × Vec n) k =>
      let y_k := y.m_data k
      (d.A.m_rows s.m_A k).foldl
        (fun (r : indexed_vector_unsigned n × Vec n) c =>
          let hj := heading c.m_j
          if hj < 0 then r
          else
            match (to_index hj : Option (Fin n)) with
            | none => r
            | some hj =>
              let ii := if r.1.m_data hj = 0 then r.1.set_value 1 hj else r.1
              (ii, Function.update r.2 hj (d.round (r.2 hj - d.round (c.m_value * y_k)))))
        r)
    (ii, s.m_y_copy.m_data)
  let ii := s.m_y_copy.m_index.foldl
    (fun (ii : indexed_vector_unsigned n) i =>
      if ii.m_data i = 0 then ii.set_value 1 i else ii)
    r.1
  let yc : indexed_vector n := { m_data := r.2, m_index := [] }
  let yc := ii.m_index.foldl
    (fun (yc : indexed_vector n) k =>
      let v := yc.m_data k
      if settings.abs_val_is_smaller_than_drop_tolerance d.precise v then
        { yc with m_data := Function.update yc.m_data k 0 }
      else yc.set_value v k)
    yc
  { s with m_ii := ii, m_y_copy := yc }

/-- The function `lu::solve_yB_with_error_check` (lines 450-462); it returns the new
state (for the scratch vector `m_y_copy`) and the new `y`. -/
def solve_yB_with_error_check (d : lu_deps n SM EM DM AM) (s : lu n SM EM DM AM)
    (y : Vec n) (basis : Fin n → Nat) : lu n SM EM DM AM × Vec n :=
  if d.precise then
    (s, solve_yB d s y)
  else
    let yc := y
    let y := solve_yB d s y
    let yc := find_error_of_yB d s yc y basis
    let yc := solve_yB d s yc
    let y := add_delta_to_solution yc y
    let m_y_copy : indexed_vector n := { s.m_y_copy with m_data := yc }
    ({ s with m_y_copy := m_y_copy.clear_all }, y)

/-- The function `lu::solve_yB_with_error_check_indexed` (lines 412-444). -/
def solve_yB_with_error_check_indexed (d : lu_deps n SM EM DM AM) (s : lu n SM EM DM AM)
    (y : indexed_vector n) (heading : Nat → Int) (basis : Fin n → Nat)
    (settings : lp_settings) : lu n SM EM DM AM × indexed_vector n :=
  if d.precise then
    if y.m_index.length * d.ratio_of_index_size_to_all_size * 3 < d.A.column_count s.m_A then
      (s, solve_yB_indexed d s y)
    else
      let y : indexed_vector n := { y with m_data := solve_yB d s y.m_data }
      (s, d.restore_index_and_clean_from_data y)
  else if y.m_index.length * d.ratio_of_index_size_to_all_size < d.A.column_count s.m_A then
    let s := { s with m_y_copy := y }
    let y := solve_yB_indexed d s y
    if y.m_index.length * d.ratio_of_index_size_to_all_size ≥ d.A.column_count s.m_A then
      let yc := find_error_of_yB d s s.m_y_copy.m_data y.m_data basis
      let yc := solve_yB d s yc
      let y : indexed_vector n := { y with m_data := add_delta_to_solution yc y.m_data }
      let y := d.restore_index_and_clean_from_data y
      let m_y_copy : indexed_vector n := { s.m_y_copy with m_data := yc }
      ({ s with m_y_copy := m_y_copy.clear_all }, y)
    else
      let s := find_error_of_yB_indexed d s y heading settings
      let s := { s with m_y_copy := solve_yB_indexed d s s.m_y_copy }
      add_delta_to_solution_indexed d s y
  else
    let r := solve_yB_with_error_check d s y.m_data basis
    let y : indexed_vector n := { y with m_data := r.2 }
    (r.1, d.restore_index_and_clean_from_data y)

/-! ## Initial factorization (lines 515-562, 603-624, 698-757) -/

/-- The function `lu::swap_rows` (lines 516-521). -/
def swap_rows (d : lu_deps n SM EM DM AM) (s : lu n SM EM DM AM) (j k : Nat) :
    lu n SM EM DM AM :=
  if j ≠ k then
    let s := { s with m_Q := d.perm.transpose_from_left s.m_Q j k }
    { s with m_U := d.U.swap_rows s.m_U j k }
  else s

/-- The function `lu::swap_columns` (lines 524-529). -/
def swap_columns (d : lu_deps n SM EM DM AM) (s : lu n SM EM DM AM) (j pivot_column : Nat) :
    lu n SM EM DM AM :=
  if j = pivot_column then s
  else
    let s := { s with m_R := d.perm.transpose_from_right s.m_R j pivot_column }
    { s with m_U := d.U.swap_columns s.m_U j pivot_column }

/-- The function `lu::get_eta_matrix_for_pivot(unsigned j)` (lines 549-555). -/
def get_eta_matrix_for_pivot (d : lu_deps n SM EM DM AM) (s : lu n SM EM DM AM) (j : Nat) :
    lu n SM EM DM AM × Option EM :=
  let r := d.U.fill_eta_matrix s.m_U j
  if !r.1 then (set_status s LU_status.Degenerated, r.2)
  else (s, r.2)

/-- The function `lu::pivot_the_row` (lines 531-546). -/
def pivot_the_row (d : lu_deps n SM EM DM AM) (s : lu n SM EM DM AM) (row : Nat) :
    lu n SM EM DM AM × Bool :=
  let r := get_eta_matrix_for_pivot d s row
  let s := r.1
  if get_status s ≠ LU_status.OK then (s, false)
  else
    match r.2 with
    | none => ({ s with m_U := d.U.shorten_active_matrix s.m_U row }, true)
    | some eta_matrix =>
      let p := d.U.pivot_with_eta s.m_U row eta_matrix s.m_settings
      let s := { s with m_U := p.2 }
      if !p.1 then (s, false)
      else
        let eta_matrix := d.eta.conjugate_by_permutation eta_matrix s.m_Q
        (push_matrix_to_tail s (tail_matrix.eta eta_matrix), true)

/-- The function `lu::process_column` (lines 604-624). -/
def process_column (d : lu_deps n SM EM DM AM) (s : lu n SM EM DM AM) (j : Nat) :
    lu n SM EM DM AM :=
  let r := d.U.get_pivot_for_column s.m_U s.m_settings.c_partial_pivoting j
  let success := r.1
  let pi := r.2.1
  let pj := r.2.2.1
  let s := { s with m_U := r.2.2.2 }
  if !success then { s with m_failure := true }
  else if static_cast_int pi = -1 then { s with m_failure := true }
  else
    let s := swap_columns d s j pj
    let s := swap_rows d s j pi
    let r := pivot_the_row d s j
    if !r.2 then { r.1 with m_failure := true }
    else r.1

/-- The function `lu::too_dense` (lines 699-707), called with `j < m_dim`.  The product
`r * r` is a product of two `unsigned` values, taken modulo `2^32`, before it is
multiplied by the threshold. -/
def too_dense (d : lu_deps n SM EM DM AM) (s : lu n SM EM DM AM) (j : Nat) : Bool :=
  let r := n - j
  if r < 5 then false
  else decide (((r * r % 4294967296 : Nat) : ℚ) * s.m_settings.density_threshold
    ≤ (d.U.get_n_of_active_elems s.m_U : ℚ))

/-- The function `lu::pivot_in_dense_mode` (lines 709-720). -/
def pivot_in_dense_mode (d : lu_deps n SM EM DM AM) (s : lu n SM EM DM AM) (i : Nat) :
    lu n SM EM DM AM :=
  match s.m_dense_LU with
  | none => s
  | some dense_LU =>
    let j := d.dense_LU.find_pivot_column_in_row dense_LU i
    if j = -1 then { s with m_failure := true }
    else
      let s :=
        if i ≠ j.toNat then
          let s := swap_columns d s i j.toNat
          { s with m_dense_LU := some (d.dense_LU.swap_columns dense_LU i j.toNat) }
        else s
      match s.m_dense_LU with
      | none => s
      | some dense_LU => { s with m_dense_LU := some (d.dense_LU.pivot dense_LU i s.m_settings) }

/-- The first loop of `lu::create_initial_factorization` (lines 725-734), started at
column `j` with `fuel = m_dim - j` iterations left.  The result is the state and the
value of `j` when the loop is left, or `none` when the function returned from inside
the loop. -/
def sparse_pass (d : lu_deps n SM EM DM AM) :
    Nat → Nat → lu n SM EM DM AM → lu n SM EM DM AM × Option Nat
  | 0, j, s => (s, some j)
  | fuel + 1, j, s =>
    let s := process_column d s j
    if s.m_failure then (set_status s LU_status.Degenerated, none)
    else if too_dense d s j then (s, some j)
    else sparse_pass d fuel (j + 1) s

/-- The second loop of `lu::create_initial_factorization` (lines 743-749), started at
row `j` with `fuel = m_dim - j` iterations left.  The boolean tells whether the loop ran
to its end. -/
def dense_pass (d : lu_deps n SM EM DM AM) :
    Nat → Nat → lu n SM EM DM AM → lu n SM EM DM AM × Bool
  | 0, _, s => (s, true)
  | fuel + 1, j, s =>
    let s := pivot_in_dense_mode d s j
    if s.m_failure then (set_status s LU_status.Degenerated, false)
    else dense_pass d fuel (j + 1) s

/-- Lines 750-754 of `lu::create_initial_factorization`: the dense block is written back
to `m_U`, conjugated by `Q` and pushed to the tail. -/
def push_dense_block (d : lu_deps n SM EM DM AM) (s : lu n SM EM DM AM) : lu n SM EM DM AM :=
  match s.m_dense_LU with
  | none => s
  | some dense_LU =>
    let s := { s with m_U := d.dense_LU.update_parent_matrix dense_LU s.m_U s.m_settings }
    let dense_LU := d.dense.conjugate_by_permutation dense_LU s.m_Q
    let s := { s with m_dense_LU := some dense_LU }
    let s := push_matrix_to_tail s (tail_matrix.dense dense_LU)
    { s with m_refactor_counter := 0 }

/-- Lines 741-754 of `lu::create_initial_factorization`: the dense fallback, entered with
the value `j` at which the first loop was left. -/
def finish_in_dense_mode (d : lu_deps n SM EM DM AM) (s : lu n SM EM DM AM) (j : Nat) :
    lu n SM EM DM AM :=
  let j := j + 1
  let s := { s with m_dense_LU := some (d.dense_LU.create s.m_U j) }
  let r := dense_pass d (n - j) j s
  if !r.2 then r.1
  else push_dense_block d r.1

/-- Lines 724-756 of `lu::create_initial_factorization`: everything after
`prepare_for_factorization`. -/
def factorize_prepared (d : lu_deps n SM EM DM AM) (s : lu n SM EM DM AM) :
    lu n SM EM DM AM :=
  let r := sparse_pass d n 0 s
  match r.2 with
  | none => r.1
  | some j =>
    if j = n then r.1
    else finish_in_dense_mode d r.1 j

/-- The function `lu::create_initial_factorization` (lines 722-757). -/
def create_initial_factorization (d : lu_deps n SM EM DM AM) (s : lu n SM EM DM AM) :
    lu n SM EM DM AM :=
  factorize_prepared d { s with m_U := d.U.prepare_for_factorization s.m_U }

/-- The member initializer list of the constructor `lu<T, X>::lu` (lines 114-124). -/
def lu.init (d : lu_deps n SM EM DM AM) (A : AM) (basis : Fin n → Nat)
    (settings : lp_settings) : lu n SM EM DM AM :=
  { m_status := LU_status.OK
    m_A := A
    m_Q := permutation_matrix.init
    m_R := permutation_matrix.init
    m_r_wave := permutation_matrix.init
    m_U := d.U.create A basis
    m_settings := settings
    m_failure := false
    m_row_eta_work_vector := { m_data := fun _ => 0, m_index := [] }
    m_refactor_counter := 0
    m_tail := []
    m_y_copy := { m_data := fun _ => 0, m_index := [] }
    m_ii := { m_data := fun _ => 0, m_index := [] }
    m_dense_LU := none }

/-- The constructor `lu<T, X>::lu` (lines 111-134). -/
def lu.create (d : lu_deps n SM EM DM AM) (A : AM) (basis : Fin n → Nat)
    (settings : lp_settings) : lu n SM EM DM AM :=
  create_initial_factorization d (lu.init d A basis settings)

/-! ## Column replacement (lines 566-571, 759-919) -/

/-- The function `lu::transform_U_to_V_by_replacing_column` (lines 566-571). -/
def transform_U_to_V_by_replacing_column (d : lu_deps n SM EM DM AM)
    (s : lu n SM EM DM AM) (w : indexed_vector n) (leaving_column : Fin n) :
    lu n SM EM DM AM × Fin n :=
  let column_to_replace := d.perm.apply_reverse s.m_R leaving_column
  ({ s with m_U := d.U.replace_column s.m_U column_to_replace w s.m_settings },
    column_to_replace)

/-- The index `i - 1` of line 772. -/
def index_pred (i : Fin n) : Fin n :=
  ⟨i.val - 1, lt_of_le_of_lt (Nat.sub_le _ _) i.isLt⟩

/-- The function `lu::calculate_r_wave_and_update_U` (lines 760-777), called with
`r_wave = m_r_wave`. -/
def calculate_r_wave_and_update_U (d : lu_deps n SM EM DM AM) (s : lu n SM EM DM AM)
    (bump_start bump_end : Fin n) : lu n SM EM DM AM :=
  if bump_start > bump_end then set_status s LU_status.Degenerated
  else if bump_start = bump_end then s
  else
    let r_wave := s.m_r_wave.set bump_start bump_end
    let r_wave := ((List.finRange n).filter (fun i => bump_start < i ∧ i ≤ bump_end)).foldl
      (fun (r_wave : permutation_matrix n) i => r_wave.set i (index_pred i)) r_wave
    let s := { s with m_r_wave := r_wave }
    let s := { s with m_U := d.U.multiply_from_right s.m_U s.m_r_wave }
    { s with m_U := d.U.multiply_from_left_with_reverse s.m_U s.m_r_wave }

/-- The function `lu::scan_last_row_to_work_vector` (lines 779-791). -/
def scan_last_row_to_work_vector (d : lu_deps n SM EM DM AM) (s : lu n SM EM DM AM)
    (lowest_row_of_the_bump : Fin n) : lu n SM EM DM AM :=
  let last_row_vec := d.U.get_row_values s.m_U (d.U.adjust_row s.m_U lowest_row_of_the_bump)
  let w := last_row_vec.foldl
    (fun (w : indexed_vector n) iv =>
      if iv.m_value = 0 then w
      else
        let adjusted_col := d.U.adjust_column_inverse s.m_U iv.m_index
        if adjusted_col < lowest_row_of_the_bump then w.set_value (-iv.m_value) adjusted_col
        else w.set_value iv.m_value adjusted_col)
    s.m_row_eta_work_vector
  { s with m_row_eta_work_vector := w }

/-- The body of the inner loop of `lu::pivot_and_solve_the_system` (lines 802-829) for
one entry `iv` of row `j`, `v` being the multiplier of the row. -/
def pivot_and_solve_step (d : lu_deps n SM EM DM AM) (s : lu n SM EM DM AM)
    (lowest_row_of_the_bump j : Fin n) (v : ℚ) (w : indexed_vector n) (iv : indexed_value) :
    indexed_vector n :=
  let col := d.U.adjust_column_inverse s.m_U iv.m_index
  if col = j then w
  else if iv.m_value = 0 then w
  else
    let delta := if col < lowest_row_of_the_bump then -v * iv.m_value else v * iv.m_value
    if w.m_data col = 0 then
      if !s.m_settings.abs_val_is_smaller_than_drop_tolerance d.precise delta then
        w.set_value delta col
      else w
    else
      let t := w.m_data col + delta
      let w : indexed_vector n := { w with m_data := Function.update w.m_data col t }
      if s.m_settings.abs_val_is_smaller_than_drop_tolerance d.precise t then
        { m_data := Function.update w.m_data col 0, m_index := w.m_index.erase col }
      else w

/-- The function `lu::pivot_and_solve_the_system` (lines 794-831). -/
def pivot_and_solve_the_system (d : lu_deps n SM EM DM AM) (s : lu n SM EM DM AM)
    (replaced_column lowest_row_of_the_bump : Fin n) : lu n SM EM DM AM :=
  let w := ((List.finRange n).filter
      (fun j => replaced_column ≤ j ∧ j < lowest_row_of_the_bump)).foldl
    (fun (w : indexed_vector n) j =>
      let v := w.m_data j
      if v = 0 then w
      else
        let aj := d.U.adjust_row s.m_U j
        let row := d.U.get_row_values s.m_U aj
        row.foldl (pivot_and_solve_step d s lowest_row_of_the_bump j v) w)
    s.m_row_eta_work_vector
  { s with m_row_eta_work_vector := w }

/-- The last loop of `lu::get_row_eta_matrix_and_set_row_vector` (lines 854-864): the
entries of the work vector left of the bump end are moved to the row-eta matrix. -/
def extract_row_eta (d : lu_deps n SM EM DM AM) (s : lu n SM EM DM AM)
    (replaced_column lowest_row_of_the_bump : Fin n) :
    lu n SM EM DM AM × row_eta_matrix n :=
  let ret : row_eta_matrix n :=
    { m_row_start := replaced_column, m_row := lowest_row_of_the_bump, m_row_vector := [] }
  let r := s.m_row_eta_work_vector.m_index.foldl
    (fun (r : Vec n × row_eta_matrix n) j =>
      if j < lowest_row_of_the_bump then
        let v := r.1 j
        if v ≠ 0 then
          let ret :=
            if !s.m_settings.abs_val_is_smaller_than_drop_tolerance d.precise v then
              { r.2 with m_row_vector := r.2.m_row_vector ++ [(j, v)] }
            else r.2
          (Function.update r.1 j 0, ret)
        else r
      else r)
    (s.m_row_eta_work_vector.m_data, ret)
  ({ s with m_row_eta_work_vector := { s.m_row_eta_work_vector with m_data := r.1 } }, r.2)

/-- The function `lu::get_row_eta_matrix_and_set_row_vector` (lines 835-866); `none` is
the returned `nullptr`. -/
def get_row_eta_matrix_and_set_row_vector (d : lu_deps n SM EM DM AM)
    (s : lu n SM EM DM AM) (replaced_column lowest_row_of_the_bump : Fin n)
    (pivot_elem_for_checking : ℚ) : lu n SM EM DM AM × Option (row_eta_matrix n) :=
  if replaced_column = lowest_row_of_the_bump then (s, none)
  else
    let s := scan_last_row_to_work_vector d s lowest_row_of_the_bump
    let s := pivot_and_solve_the_system d s replaced_column lowest_row_of_the_bump
    if d.precise = false ∧ pivot_elem_for_checking ≠ 0 then
      let denom := max (1 : ℚ) |pivot_elem_for_checking|
      if !s.m_settings.abs_val_is_smaller_than_pivot_tolerance
          ((s.m_row_eta_work_vector.m_data lowest_row_of_the_bump - pivot_elem_for_checking)
            / denom) then
        (set_status s LU_status.Degenerated, none)
      else
        let r := extract_row_eta d s replaced_column lowest_row_of_the_bump
        (r.1, some r.2)
    else
      let r := extract_row_eta d s replaced_column lowest_row_of_the_bump
      (r.1, some r.2)

/-- The function `lu::calculate_Lwave_Pwave_for_last_row` (lines 911-919).  The object
`l` is conjugated after its pointer was pushed, so the last tail entry is replaced by
the conjugated object. -/
def calculate_Lwave_Pwave_for_last_row (d : lu_deps n SM EM DM AM) (s : lu n SM EM DM AM)
    (lowest_row_of_the_bump : Fin n) (diagonal_element : ℚ) : lu n SM EM DM AM :=
  let l : one_elem_on_diag n := { m_i := lowest_row_of_the_bump, m_val := diagonal_element }
  let s := push_matrix_to_tail s (tail_matrix.one_elem l)
  let s := { s with m_U :=
    d.U.divide_row_by_constant s.m_U lowest_row_of_the_bump diagonal_element s.m_settings }
  let l := d.one_elem_conjugate_by_permutation l s.m_Q
  { s with m_tail := s.m_tail.dropLast ++ [tail_matrix.one_elem l] }

/-- The function `lu::calculate_Lwave_Pwave_for_bump` (lines 892-908). -/
def calculate_Lwave_Pwave_for_bump (d : lu_deps n SM EM DM AM) (s : lu n SM EM DM AM)
    (replaced_column lowest_row_of_the_bump : Fin n) : lu n SM EM DM AM :=
  let r : lu n SM EM DM AM × ℚ :=
    if replaced_column < lowest_row_of_the_bump then
      let diagonal_elem := s.m_row_eta_work_vector.m_data lowest_row_of_the_bump
      let p := d.U.set_row_from_work_vector_and_clean_work_vector_not_adjusted s.m_U
        (d.U.adjust_row s.m_U lowest_row_of_the_bump) s.m_row_eta_work_vector s.m_settings
      ({ s with m_U := p.1, m_row_eta_work_vector := p.2 }, diagonal_elem)
    else
      (s, d.U.elem s.m_U lowest_row_of_the_bump lowest_row_of_the_bump)
  let s := r.1
  let diagonal_elem := r.2
  if s.m_settings.abs_val_is_smaller_than_pivot_tolerance diagonal_elem then
    set_status s LU_status.Degenerated
  else
    calculate_Lwave_Pwave_for_last_row d s lowest_row_of_the_bump diagonal_elem

/-- Lines 870-874 of `lu::replace_column`: the counter is increased, `w` is spliced into
`U`, the bump is located and `U` is rotated.  The result is the state together with
`replaced_column` and `lowest_row_of_the_bump`. -/
def replace_column_rotate (d : lu_deps n SM EM DM AM) (s : lu n SM EM DM AM)
    (w : indexed_vector n) (leaving_column_of_U : Fin n) :
    lu n SM EM DM AM × Fin n × Fin n :=
  let s := { s with m_refactor_counter := s.m_refactor_counter + 1 }
  let r := transform_U_to_V_by_replacing_column d s w leaving_column_of_U
  let s := r.1
  let replaced_column := r.2
  let lowest_row_of_the_bump := d.U.lowest_row_in_column s.m_U replaced_column
  let s := { s with m_r_wave := permutation_matrix.init }
  let s := calculate_r_wave_and_update_U d s replaced_column lowest_row_of_the_bump
  (s, replaced_column, lowest_row_of_the_bump)

/-- Lines 881-886 of `lu::replace_column`: the rotation is composed into `Q` and `R` and
the row-eta matrix, when there is one, is conjugated and pushed to the tail. -/
def replace_column_compose (d : lu_deps n SM EM DM AM) (s : lu n SM EM DM AM)
    (row_eta : Option (row_eta_matrix n)) : lu n SM EM DM AM :=
  let s := { s with m_Q := d.perm.multiply_by_permutation_from_right s.m_Q s.m_r_wave }
  let s := { s with m_R := d.perm.multiply_by_permutation_reverse_from_left s.m_R s.m_r_wave }
  match row_eta with
  | some row_eta =>
    let row_eta := d.row_eta.conjugate_by_permutation row_eta s.m_Q
    push_matrix_to_tail s (tail_matrix.row_eta row_eta)
  | none => s

/-- The function `lu::replace_column` (lines 869-890). -/
def replace_column (d : lu_deps n SM EM DM AM) (s : lu n SM EM DM AM)
    (pivot_elem_for_checking : ℚ) (w : indexed_vector n) (leaving_column_of_U : Fin n) :
    lu n SM EM DM AM :=
  let r := replace_column_rotate d s w leaving_column_of_U
  let s := r.1
  let replaced_column := r.2.1
  let lowest_row_of_the_bump := r.2.2
  let r := get_row_eta_matrix_and_set_row_vector d s replaced_column lowest_row_of_the_bump
    pivot_elem_for_checking
  let s := r.1
  let row_eta := r.2
  if get_status s = LU_status.Degenerated then
    { s with m_row_eta_work_vector := s.m_row_eta_work_vector.clear_all }
  else
    let s := replace_column_compose d s row_eta
    calculate_Lwave_Pwave_for_bump d s replaced_column lowest_row_of_the_bump

/-- The diagonal value recomputed for the last row of the bump: the entry
`m_row_eta_work_vector[lowest_row_of_the_bump]` after lines 837-838 of
`lu::get_row_eta_matrix_and_set_row_vector`, in a call of `lu::replace_column`. -/
def recomputed_diagonal (d : lu_deps n SM EM DM AM) (s : lu n SM EM DM AM)
    (w : indexed_vector n) (leaving_column_of_U : Fin n) : ℚ :=
  let r := replace_column_rotate d s w leaving_column_of_U
  let s := scan_last_row_to_work_vector d r.1 r.2.2
  let s := pivot_and_solve_the_system d s r.2.1 r.2.2
  s.m_row_eta_work_vector.m_data r.2.2

/-- The state at the head of the first loop of `lu::create_initial_factorization` after
`i` iterations, started at column `j`, none of which failed or left the loop; `none`
when the loop did not get that far. -/
def sparse_pass_head (d : lu_deps n SM EM DM AM) :
    Nat → Nat → lu n SM EM DM AM → Option (lu n SM EM DM AM)
  | 0, _, s => some s
  | i + 1, j, s =>
    let s := process_column d s j
    if s.m_failure then none
    else if too_dense d s j then none
    else sparse_pass_head d i (j + 1) s

/-- The state at the head of the second loop of `lu::create_initial_factorization` after
`i` iterations, started at row `j`, none of which failed; `none` when the loop did not
get that far. -/
def dense_pass_head (d : lu_deps n SM EM DM AM) :
    Nat → Nat → lu n SM EM DM AM → Option (lu n SM EM DM AM)
  | 0, _, s => some s
  | i + 1, j, s =>
    let s := pivot_in_dense_mode d s j
    if s.m_failure then none
    else dense_pass_head d i (j + 1) s

/-! ## Reference implementation of the dependencies on dense matrices

The sparse matrix `m_U`, the eta matrices and the original matrix are dense matrices, a
permutation acts as the matrix `permutation_matrix.get_elem`, and every member function
does to the dense matrix what its name says.  The internal row and column numbering of
the sparse matrix is the external one (`adjust_row` is the identity). -/

/-- The position `p⁻¹(j)`, found by search. -/
def perm_inverse (p : Fin n → Fin n) (j : Fin n) : Fin n :=
  ((List.finRange n).find? (fun k => p k = j)).getD j

/-- The transposition of the positions `j` and `k`. -/
def swap_index (j k : Nat) (x : Fin n) : Fin n :=
  if x.val = j then (if h : k < n then ⟨k, h⟩ else x)
  else if x.val = k then (if h : j < n then ⟨j, h⟩ else x)
  else x

/-- The index set of a dense vector: the positions of its non-zero entries. -/
def index_of_data (data : Vec n) : List (Fin n) :=
  (List.finRange n).filter (fun i => data i ≠ 0)

/-- The indexed vector of a dense vector. -/
def indexed_of_data (data : Vec n) : indexed_vector n :=
  { m_data := data, m_index := index_of_data data }

/-- Reference `permutation_matrix` member functions. -/
def dense_perm_ops (n : Nat) : permutation_matrix_ops n where
  apply_reverse_from_left_to_X p y := fun i => y (perm_inverse p.m_permutation i)
  apply_reverse_from_left_to_T p y := fun i => y (perm_inverse p.m_permutation i)
  apply_reverse_from_left p w :=
    indexed_of_data (fun i => w.m_data (perm_inverse p.m_permutation i))
  apply_reverse_from_right_to_T p y := fun i => y (p.m_permutation i)
  apply_reverse_from_right_to_T_indexed p w :=
    indexed_of_data (fun i => w.m_data (p.m_permutation i))
  apply_reverse p i := perm_inverse p.m_permutation i
  transpose_from_left p j k := { m_permutation := fun x => swap_index j k (p.m_permutation x) }
  transpose_from_right p j k := { m_permutation := fun x => p.m_permutation (swap_index j k x) }
  multiply_by_permutation_from_right q p :=
    { m_permutation := fun x => p.m_permutation (q.m_permutation x) }
  multiply_by_permutation_reverse_from_left r p :=
    { m_permutation := fun x => r.m_permutation (perm_inverse p.m_permutation x) }

/-- Back substitution for `U·x = y`, from the last row up. -/
def dense_solve_U_y (U : Mat n) (y : Vec n) : Vec n :=
  (List.finRange n).reverse.foldl
    (fun x i => Function.update x i ((y i - ∑ j, if i < j then U i j * x j else 0) / U i i)) y

/-- Forward substitution for `x·U = y`, from the first column on. -/
def dense_solve_y_U (U : Mat n) (y : Vec n) : Vec n :=
  (List.finRange n).foldl
    (fun x j => Function.update x j ((y j - ∑ i, if i < j then x i * U i j else 0) / U j j)) y

/-- The eta matrix that clears column `j` of `U` below the diagonal and scales the
pivot to one. -/
def dense_eta (U : Mat n) (j : Fin n) : Mat n :=
  fun a b =>
    if b = j then (if a = j then 1 / U j j else if j < a then -(U a j) / U j j else 0)
    else if a = b then 1 else 0

/-- Reference `sparse_matrix` member functions. -/
def dense_U_ops (n : Nat) [NeZero n] :
    sparse_matrix_ops n (Mat n) (Mat n) (Fin n → Nat → ℚ) where
  create A basis := fun i j => A i (basis j)
  elem U := U
  solve_U_y U y := dense_solve_U_y U y
  double_solve_U_y U y := dense_solve_U_y U y
  solve_U_y_indexed_only U w _ := indexed_of_data (dense_solve_U_y U w.m_data)
  double_solve_U_y_indexed U w _ := indexed_of_data (dense_solve_U_y U w.m_data)
  solve_y_U U y := dense_solve_y_U U y
  solve_y_U_indexed U w _ := indexed_of_data (dense_solve_y_U U w.m_data)
  prepare_for_factorization U := U
  get_pivot_for_column U _ j :=
    match (List.finRange n).find? (fun i => j ≤ i.val ∧ ∃ c : Fin n, c.val = j ∧ U i c ≠ 0) with
    | some i => (true, i.val, j, U)
    | none => (false, 0, 0, U)
  swap_rows U j k := fun a b => U (swap_index j k a) b
  swap_columns U j k := fun a b => U a (swap_index j k b)
  fill_eta_matrix U j :=
    if h : j < n then
      let c : Fin n := ⟨j, h⟩
      if U c c = 0 then (false, none)
      else if U c c = 1 ∧ ∀ i : Fin n, c < i → U i c = 0 then (true, none)
      else (true, some (dense_eta U c))
    else (false, none)
  shorten_active_matrix U _ := U
  pivot_with_eta U _ e _ := (true, e * U)
  get_n_of_active_elems U :=
    ((List.finRange n).map (fun i => ((List.finRange n).filter (fun j => U i j ≠ 0)).length)).sum
  replace_column U r w _ := fun a b => if b = r then w.m_data a else U a b
  lowest_row_in_column U r :=
    ((List.finRange n).reverse.find? (fun i => U i r ≠ 0)).getD r
  multiply_from_right U p := U * p.get_elem
  multiply_from_left_with_reverse U p := p.get_elem.transpose * U
  adjust_row _ i := i.val
  adjust_column_inverse _ j :=
    if h : j < n then ⟨j, h⟩ else ⟨0, Nat.pos_of_ne_zero (NeZero.ne n)⟩
  get_row_values U i :=
    if h : i < n then
      ((List.finRange n).filter (fun j => U ⟨i, h⟩ j ≠ 0)).map
        (fun j => { m_value := U ⟨i, h⟩ j, m_index := j.val })
    else []
  set_row_from_work_vector_and_clean_work_vector_not_adjusted U i w _ :=
    (fun a b => if a.val = i then w.m_data b else U a b, w.clear_all)
  divide_row_by_constant U i t _ := fun a b => if a = i then U a b / t else U a b

/-- Reference `square_dense_submatrix`: the accumulated multipliers `m_L`, the reduced
copy `m_work` of the parent matrix, and the first row of the block. -/
structure dense_block (n : Nat) where
  m_L : Mat n
  m_work : Mat n
  m_index_start : Nat

/-- Reference `square_dense_submatrix` member functions. -/
def dense_block_ops (n : Nat) : square_dense_submatrix_ops n (Mat n) (dense_block n) where
  create U j := { m_L := 1, m_work := U, m_index_start := j }
  find_pivot_column_in_row D i :=
    match (List.finRange n).find? (fun c => i ≤ c.val ∧ ∃ r : Fin n, r.val = i ∧ D.m_work r c ≠ 0) with
    | some c => Int.ofNat c.val
    | none => -1
  swap_columns D i j := { D with m_work := fun a b => D.m_work a (swap_index i j b) }
  pivot D i _ :=
    if h : i < n then
      let e := dense_eta D.m_work ⟨i, h⟩
      { D with m_L := e * D.m_L, m_work := e * D.m_work }
    else D
  update_parent_matrix D _ _ := D.m_work

/-- Reference `tail_matrix` interface of a dense matrix. -/
def dense_matrix_tail_ops (n : Nat) : tail_matrix_ops n (Mat n) where
  apply_from_left e y _ := e *ᵥ y
  apply_from_left_to_T e w _ := indexed_of_data (e *ᵥ w.m_data)
  apply_from_right e y := y ᵥ* e
  apply_from_right_indexed e w := indexed_of_data (w.m_data ᵥ* e)
  conjugate_by_permutation e q := q.get_elem * e * q.get_elem.transpose
  get_elem e := e

/-- Reference `tail_matrix` interface of the dense block. -/
def dense_block_tail_ops (n : Nat) : tail_matrix_ops n (dense_block n) where
  apply_from_left D y _ := D.m_L *ᵥ y
  apply_from_left_to_T D w _ := indexed_of_data (D.m_L *ᵥ w.m_data)
  apply_from_right D y := y ᵥ* D.m_L
  apply_from_right_indexed D w := indexed_of_data (w.m_data ᵥ* D.m_L)
  conjugate_by_permutation D q :=
    { D with m_L := q.get_elem * D.m_L * q.get_elem.transpose }
  get_elem D := D.m_L

/-- The dense form of a row-eta matrix: the identity plus the pushed entries in row
`m_row`. -/
def row_eta_matrix.dense_elem (r : row_eta_matrix n) : Mat n :=
  fun i j =>
    (if i = j then 1 else 0)
      + (if i = r.m_row then ((r.m_row_vector.filter (fun e => e.1 = j)).map Prod.snd).sum else 0)

/-- Reference `tail_matrix` interface of `row_eta_matrix`. -/
def dense_row_eta_ops (n : Nat) : tail_matrix_ops n (row_eta_matrix n) where
  apply_from_left r y _ := r.dense_elem *ᵥ y
  apply_from_left_to_T r w _ := indexed_of_data (r.dense_elem *ᵥ w.m_data)
  apply_from_right r y := y ᵥ* r.dense_elem
  apply_from_right_indexed r w := indexed_of_data (w.m_data ᵥ* r.dense_elem)
  conjugate_by_permutation r q :=
    { m_row_start := perm_inverse q.m_permutation r.m_row_start
      m_row := perm_inverse q.m_permutation r.m_row
      m_row_vector := r.m_row_vector.map (fun e => (perm_inverse q.m_permutation e.1, e.2)) }
  get_elem r := r.dense_elem

/-- The original matrix of the reference implementation: its entries, by row and column
number, and the number of columns. -/
def dense_A_ops (n : Nat) (columns : Nat) : static_matrix_ops n (Fin n → Nat → ℚ) where
  get_elem A i j := A i j
  column_count _ := columns
  dot_product_with_column A y j := ∑ i, y i * A i j
  copy_column_to_indexed_vector A j w :=
    ((List.finRange n).filter (fun i => A i j ≠ 0)).foldl (fun w i => w.set_value (A i j) i) w
  m_rows A i :=
    ((List.range columns).filter (fun j => A i j ≠ 0)).map
      (fun j => { m_j := j, m_value := A i j })

/-- The reference implementation of everything `lu.hpp` uses from other headers. -/
def dense_deps (n : Nat) [NeZero n] (precise : Bool) (ratio columns : Nat) :
    lu_deps n (Mat n) (Mat n) (dense_block n) (Fin n → Nat → ℚ) where
  precise := precise
  ratio_of_index_size_to_all_size := ratio
  perm := dense_perm_ops n
  U := dense_U_ops n
  A := dense_A_ops n columns
  eta := dense_matrix_tail_ops n
  row_eta := dense_row_eta_ops n
  dense := dense_block_tail_ops n
  dense_LU := dense_block_ops n
  one_elem_apply_from_left l y _ := Function.update y l.m_i (y l.m_i / l.m_val)
  one_elem_apply_from_right l y := Function.update y l.m_i (y l.m_i / l.m_val)
  one_elem_apply_from_right_indexed l w :=
    indexed_of_data (Function.update w.m_data l.m_i (w.m_data l.m_i / l.m_val))
  one_elem_conjugate_by_permutation l q :=
    { m_i := perm_inverse q.m_permutation l.m_i, m_val := l.m_val }
  restore_index_and_clean_from_data w :=
    let small : ℚ → Bool := fun v =>
      if precise then decide (v = 0) else decide (|v| < 1 / 100000000000000)
    { m_data := fun i => if small (w.m_data i) then 0 else w.m_data i
      m_index := (List.finRange n).filter (fun i => !small (w.m_data i)) }
  is_eps_small_general v :=
    if precise then decide (v = 0) else decide (|v| < 1 / 100000000000000)
  round x := x

/-! ## A concrete factorization of dimension 2 -/

/-- The original matrix of the example: `B = [[0, 2], [2, 6]]`. -/
def example_A : Fin 2 → Nat → ℚ :=
  fun i j => if i.val = 0 ∧ j = 1 then 2 else if i.val = 1 ∧ j = 0 then 2
    else if i.val = 1 ∧ j = 1 then 6 else 0

/-- The settings of the examples. -/
def example_settings : lp_settings :=
  { pivot_tolerance := 1 / 1000000, drop_tolerance := 1 / 1000000000000,
    density_threshold := 1 / 2, c_partial_pivoting := 4 }

/-- A factorization of `example_A` with the basis `0, 1`: `Q` swaps the two rows, `R` is
the identity, `U = [[1, 3], [0, 2]]` and the tail holds the scaling of row 1 by `1/2`. -/
def example_lu : lu 2 (Mat 2) (Mat 2) (dense_block 2) (Fin 2 → Nat → ℚ) :=
  { m_status := LU_status.OK
    m_A := example_A
    m_Q := { m_permutation := ![1, 0] }
    m_R := permutation_matrix.init
    m_r_wave := permutation_matrix.init
    m_U := !![1, 3; 0, 2]
    m_settings := example_settings
    m_failure := false
    m_row_eta_work_vector := { m_data := fun _ => 0, m_index := [] }
    m_refactor_counter := 0
    m_tail := [tail_matrix.one_elem { m_i := 1, m_val := 2 }]
    m_y_copy := { m_data := fun _ => 0, m_index := [] }
    m_ii := { m_data := fun _ => 0, m_index := [] }
    m_dense_LU := none }

/-- The original matrix of the second example: `B = [[1, 3], [0, 1]]`. -/
def example_A_unit : Fin 2 → Nat → ℚ :=
  fun i j => if i.val = 0 ∧ j = 0 then 1 else if i.val = 0 ∧ j = 1 then 3
    else if i.val = 1 ∧ j = 1 then 1 else 0

/-- The factorization of `example_A_unit` with the basis `0, 1`, as construction leaves
it: `Q` and `R` are the identity, `U = [[1, 3], [0, 1]]` has a unit diagonal and the tail
is empty. -/
def example_lu_unit : lu 2 (Mat 2) (Mat 2) (dense_block 2) (Fin 2 → Nat → ℚ) :=
  { m_status := LU_status.OK
    m_A := example_A_unit
    m_Q := permutation_matrix.init
    m_R := permutation_matrix.init
    m_r_wave := permutation_matrix.init
    m_U := !![1, 3; 0, 1]
    m_settings := example_settings
    m_failure := false
    m_row_eta_work_vector := { m_data := fun _ => 0, m_index := [] }
    m_refactor_counter := 0
    m_tail := []
    m_y_copy := { m_data := fun _ => 0, m_index := [] }
    m_ii := { m_data := fun _ => 0, m_index := [] }
    m_dense_LU := none }

/-- The state in which `lu::replace_column` calls `calculate_Lwave_Pwave_for_bump`
(line 887), with the two arguments of the call. -/
def replace_column_before_diagonal (d : lu_deps n SM EM DM AM) (s : lu n SM EM DM AM)
    (pivot_elem_for_checking : ℚ) (w : indexed_vector n) (leaving_column_of_U : Fin n) :
    lu n SM EM DM AM × Fin n × Fin n :=
  let r := replace_column_rotate d s w leaving_column_of_U
  let e := get_row_eta_matrix_and_set_row_vector d r.1 r.2.1 r.2.2 pivot_elem_for_checking
  (replace_column_compose d e.1 e.2, r.2.1, r.2.2)

/-- A call of `lu::replace_column` reaches the diagonal step when the status tested in
line 877 is not `Degenerated`. -/
def reaches_diagonal_step (d : lu_deps n SM EM DM AM) (s : lu n SM EM DM AM)
    (pivot_elem_for_checking : ℚ) (w : indexed_vector n) (leaving_column_of_U : Fin n) :
    Prop :=
  let r := replace_column_rotate d s w leaving_column_of_U
  get_status
    (get_row_eta_matrix_and_set_row_vector d r.1 r.2.1 r.2.2 pivot_elem_for_checking).1
      ≠ LU_status.Degenerated

/-- The variable `diagonal_elem` of `lu::calculate_Lwave_Pwave_for_bump` (lines
893-900). -/
def diagonal_elem (d : lu_deps n SM EM DM AM) (s : lu n SM EM DM AM)
    (replaced_column lowest_row_of_the_bump : Fin n) : ℚ :=
  if replaced_column < lowest_row_of_the_bump then
    s.m_row_eta_work_vector.m_data lowest_row_of_the_bump
  else d.U.elem s.m_U lowest_row_of_the_bump lowest_row_of_the_bump

/-- A matrix with two identical columns: `[[1, 1], [1, 1]]`. -/
def example_A_singular : Fin 2 → Nat → ℚ :=
  fun _ j => if j < 2 then 1 else 0

/-- The state in which the constructor enters `create_initial_factorization` for
`example_A_singular` and the basis `0, 1`. -/
def example_singular_init : lu 2 (Mat 2) (Mat 2) (dense_block 2) (Fin 2 → Nat → ℚ) :=
  lu.init (dense_deps 2 true 10 2) example_A_singular (fun j => j.val) example_settings

/-- The state of the construction for `example_A_singular` at the head of the first loop. -/
def example_singular_start : lu 2 (Mat 2) (Mat 2) (dense_block 2) (Fin 2 → Nat → ℚ) :=
  { example_singular_init with
    m_U := (dense_deps 2 true 10 2).U.prepare_for_factorization example_singular_init.m_U }

/-! ## What the theorems on construction need from the absent classes -/

/-- The map of a `permutation_matrix` is a permutation of `{0..dim)`. -/
def permutation_matrix.is_permutation (p : permutation_matrix n) : Prop :=
  Function.Bijective p.m_permutation

/-- The dense matrix held by a `sparse_matrix`: the entries `m_U(i, j)`. -/
def dense_of (d : lu_deps n SM EM DM AM) (U : SM) : Mat n :=
  fun i j => d.U.elem U i j

/-- The dense matrix of an `eta_matrix`. -/
def eta_dense (d : lu_deps n SM EM DM AM) (e : EM) : Mat n :=
  fun i j => d.eta.get_elem e i j

/-- The dense matrix of a `square_dense_submatrix`. -/
def block_dense (d : lu_deps n SM EM DM AM) (D : DM) : Mat n :=
  fun i j => d.dense.get_elem D i j

/-- The contract of the member functions called during the initial factorization, in
terms of the dense matrices the objects stand for.  `J D U` relates a
`square_dense_submatrix` to its parent matrix. -/
structure construction_contract (d : lu_deps n SM EM DM AM) (basis : Fin n → Nat)
    (J : DM → SM → Prop) : Prop where
  /-- the constructor `m_U(A, basis)` copies the basis columns of `A` -/
  create_elem : ∀ A, dense_of d (d.U.create A basis) = fun i j => d.A.get_elem A i (basis j)
  /-- `prepare_for_factorization` does not change the entries -/
  prepare_elem : ∀ U, dense_of d (d.U.prepare_for_factorization U) = dense_of d U
  /-- `get_pivot_for_column` does not change the entries -/
  get_pivot_elem : ∀ U c j, dense_of d (d.U.get_pivot_for_column U c j).2.2.2 = dense_of d U
  /-- swapping two columns of `U` and transposing `R` from the right keeps `U·R` -/
  swap_columns_R : ∀ U (R : permutation_matrix n) j k,
    dense_of d (d.U.swap_columns U j k) * (d.perm.transpose_from_right R j k).get_elem
      = dense_of d U * R.get_elem
  /-- swapping two rows of `U` and transposing `Q` from the left keeps `Q·U` -/
  swap_rows_Q : ∀ U (Q : permutation_matrix n) j k,
    (d.perm.transpose_from_left Q j k).get_elem * dense_of d (d.U.swap_rows U j k)
      = Q.get_elem * dense_of d U
  /-- a transposition keeps `Q` a permutation -/
  transpose_is_permutation : ∀ (Q : permutation_matrix n) j k,
    Q.is_permutation → (d.perm.transpose_from_left Q j k).is_permutation
  /-- `shorten_active_matrix` does not change the entries -/
  shorten_elem : ∀ U row, dense_of d (d.U.shorten_active_matrix U row) = dense_of d U
  /-- a successful `pivot_with_eta` multiplies `U` from the left by the eta matrix -/
  pivot_with_eta_elem : ∀ U row e st, (d.U.pivot_with_eta U row e st).1 = true →
    dense_of d (d.U.pivot_with_eta U row e st).2 = eta_dense d e * dense_of d U
  /-- conjugation by `Q` re-expresses the eta matrix under `Q` -/
  eta_conjugate : ∀ e (Q : permutation_matrix n), Q.is_permutation →
    eta_dense d (d.eta.conjugate_by_permutation e Q) * Q.get_elem = Q.get_elem * eta_dense d e
  /-- a new dense block is related to its parent -/
  dense_create : ∀ U j, J (d.dense_LU.create U j) U
  /-- swapping the same two columns in the block and in the parent keeps them related -/
  dense_swap : ∀ D U i j, J D U → J (d.dense_LU.swap_columns D i j) (d.U.swap_columns U i j)
  /-- a dense pivot step keeps the block related to its parent -/
  dense_pivot : ∀ D U i st, J D U → J (d.dense_LU.pivot D i st) U
  /-- `update_parent_matrix` multiplies the parent from the left by the block's matrix -/
  dense_update : ∀ D U st, J D U →
    dense_of d (d.dense_LU.update_parent_matrix D U st) = block_dense d D * dense_of d U
  /-- conjugation by `Q` re-expresses the dense block under `Q` -/
  dense_conjugate : ∀ D (Q : permutation_matrix n), Q.is_permutation →
    block_dense d (d.dense.conjugate_by_permutation D Q) * Q.get_elem
      = Q.get_elem * block_dense d D

/-- The invariant of the two loops of `create_initial_factorization`: no failure so far,
`Q` is a permutation and the factorization identity holds. -/
def construction_invariant (d : lu_deps n SM EM DM AM) (basis : Fin n → Nat)
    (s : lu n SM EM DM AM) : Prop :=
  s.m_status = LU_status.OK ∧ s.m_failure = false ∧ s.m_Q.is_permutation ∧
    get_left_side d s basis = get_right_side d s

/-- The relation between a reference dense block and its parent matrix: the reduced copy
is the accumulated multiplier matrix times the parent. -/
def dense_block_related (D : dense_block n) (U : Mat n) : Prop :=
  D.m_work = D.m_L * U

/-! ## What the theorems on column replacement need from the absent classes -/

/-- Every non-zero position of the data is listed in the index set. -/
def indexed_vector.covers (w : indexed_vector n) : Prop :=
  ∀ i, w.m_data i ≠ 0 → i ∈ w.m_index

/-- The drop-tolerance test holds for no non-zero value: no value is discarded.  This is
so in exact arithmetic. -/
def lp_settings.drop_is_exact (st : lp_settings) (precise : Bool) : Prop :=
  ∀ t : ℚ, st.abs_val_is_smaller_than_drop_tolerance precise t = true → t = 0

/-- The external column of an entry of a row of the sparse matrix (lines 784, 803). -/
def entry_column (d : lu_deps n SM EM DM AM) (U : SM) (iv : indexed_value) : Fin n :=
  d.U.adjust_column_inverse U iv.m_index

/-- The list `get_row_values(adjust_row(i))` holds row `i` of the matrix: no column occurs
twice and the entry of a column is the value listed for it, zero when none is listed. -/
def row_represents (d : lu_deps n SM EM DM AM) (U : SM) (i : Fin n) : Prop :=
  ((d.U.get_row_values U (d.U.adjust_row U i)).map (entry_column d U)).Nodup ∧
    ∀ c, dense_of d U i c
      = (((d.U.get_row_values U (d.U.adjust_row U i)).filter
          (fun iv => entry_column d U iv = c)).map (fun iv => iv.m_value)).sum

/-- The dense matrix of a `row_eta_matrix`. -/
def row_eta_dense (d : lu_deps n SM EM DM AM) (r : row_eta_matrix n) : Mat n :=
  fun i j => d.row_eta.get_elem r i j

/-- The dense matrix of a `one_elem_on_diag`, by its `get_elem` (lines 82-92). -/
def one_elem_dense (l : one_elem_on_diag n) : Mat n :=
  fun i j => l.get_elem i j

/-- The contract of the member functions called by `lu::replace_column`, in terms of the
dense matrices the objects stand for. -/
structure update_contract (d : lu_deps n SM EM DM AM) : Prop where
  /-- `apply_reverse` finds the position a permutation maps to the given index -/
  apply_reverse_spec : ∀ (R : permutation_matrix n) (l : Fin n), R.is_permutation →
    R.m_permutation (d.perm.apply_reverse R l) = l
  /-- `sparse_matrix::replace_column` overwrites one column with the data of `w` -/
  replace_column_elem : ∀ U r (w : indexed_vector n) (st : lp_settings),
    st.drop_is_exact d.precise → w.covers →
    dense_of d (d.U.replace_column U r w st)
      = fun a b => if b = r then w.m_data a else dense_of d U a b
  /-- below `lowest_row_in_column` the column is zero -/
  lowest_row_spec : ∀ U r a, d.U.lowest_row_in_column U r < a → dense_of d U a r = 0
  /-- `multiply_from_right` multiplies by the permutation matrix from the right -/
  multiply_from_right_elem : ∀ U (p : permutation_matrix n),
    dense_of d (d.U.multiply_from_right U p) = dense_of d U * p.get_elem
  /-- `multiply_from_left_with_reverse` multiplies by the inverse permutation matrix from
  the left -/
  multiply_from_left_with_reverse_elem : ∀ U (p : permutation_matrix n), p.is_permutation →
    p.get_elem * dense_of d (d.U.multiply_from_left_with_reverse U p) = dense_of d U
  /-- the row lists hold the rows of the matrix -/
  row_values : ∀ U i, row_represents d U i
  /-- `set_row_from_work_vector_and_clean_work_vector_not_adjusted` overwrites one row with
  the data of the work vector -/
  set_row_elem : ∀ U i (w : indexed_vector n) (st : lp_settings),
    st.drop_is_exact d.precise → w.covers →
    dense_of d (d.U.set_row_from_work_vector_and_clean_work_vector_not_adjusted U
        (d.U.adjust_row U i) w st).1
      = fun a b => if a = i then w.m_data b else dense_of d U a b
  /-- `divide_row_by_constant` divides one row -/
  divide_row_elem : ∀ U i (t : ℚ) (st : lp_settings), st.drop_is_exact d.precise →
    dense_of d (d.U.divide_row_by_constant U i t st)
      = fun a b => if a = i then dense_of d U a b / t else dense_of d U a b
  /-- `multiply_by_permutation_from_right` multiplies the permutation matrices -/
  Q_multiply_elem : ∀ (Q p : permutation_matrix n),
    (d.perm.multiply_by_permutation_from_right Q p).get_elem = Q.get_elem * p.get_elem
  /-- the product of two permutations is a permutation -/
  Q_multiply_is_permutation : ∀ (Q p : permutation_matrix n), Q.is_permutation →
    p.is_permutation → (d.perm.multiply_by_permutation_from_right Q p).is_permutation
  /-- `multiply_by_permutation_reverse_from_left` multiplies by the inverse from the left -/
  R_multiply_elem : ∀ (R p : permutation_matrix n), p.is_permutation →
    p.get_elem * (d.perm.multiply_by_permutation_reverse_from_left R p).get_elem = R.get_elem
  /-- a row-eta matrix is the identity plus its entries in row `m_row` -/
  row_eta_elem : ∀ r : row_eta_matrix n, row_eta_dense d r = r.dense_elem
  /-- conjugation by `Q` re-expresses the row-eta matrix under `Q` -/
  row_eta_conjugate : ∀ (r : row_eta_matrix n) (Q : permutation_matrix n), Q.is_permutation →
    row_eta_dense d (d.row_eta.conjugate_by_permutation r Q) * Q.get_elem
      = Q.get_elem * row_eta_dense d r
  /-- conjugation by `Q` re-expresses the diagonal-scaling matrix under `Q` -/
  one_elem_conjugate : ∀ (l : one_elem_on_diag n) (Q : permutation_matrix n),
    Q.is_permutation →
    one_elem_dense (d.one_elem_conjugate_by_permutation l Q) * Q.get_elem
      = Q.get_elem * one_elem_dense l

/-- The map `r_wave` of lines 769-773: `bump_start ↦ bump_end`, `i ↦ i - 1` inside the
bump, the identity elsewhere. -/
def r_wave_map (bump_start bump_end : Fin n) (i : Fin n) : Fin n :=
  if bump_start < i ∧ i ≤ bump_end then index_pred i
  else if i = bump_start then bump_end
  else i

/-- The inverse of `r_wave_map`: `bump_end ↦ bump_start`, `i ↦ i + 1` inside the bump. -/
def r_wave_inverse (bump_start bump_end : Fin n) (j : Fin n) : Fin n :=
  if h : bump_start ≤ j ∧ j < bump_end then ⟨j.val + 1, lt_of_le_of_lt h.2 bump_end.isLt⟩
  else if j = bump_end then bump_start
  else j

/-- The invariant of the outer loop of `lu::pivot_and_solve_the_system` before row `m`,
for the work vector `W`, the rotated matrix `X`, the replaced column `r` and the last bump
row `k`: left of the bump the work vector is zero; from column `m` on it holds row `k`
plus the multiples `W c` of the rows `c` already processed, negated left of `k`; and in
the columns already processed that combination is zero. -/
def elimination_invariant (X : Mat n) (r k : Fin n) (m : Nat) (W : Vec n) : Prop :=
  (∀ b : Fin n, b < r → W b = 0) ∧
  (∀ b : Fin n, m ≤ b.val →
    W b = (if b < k then -1 else 1)
      * (X k b + ∑ c, if r ≤ c ∧ c.val < m then W c * X c b else 0)) ∧
  (∀ b : Fin n, r ≤ b → b.val < m →
    X k b + (∑ c, if r ≤ c ∧ c.val < m then W c * X c b else 0) = 0)

/-- Settings that drop nothing: the drop tolerance is zero. -/
def example_settings_exact : lp_settings :=
  { pivot_tolerance := 1 / 1000000, drop_tolerance := 0,
    density_threshold := 1 / 2, c_partial_pivoting := 4 }

/-- The original matrix of the update example: the columns `(1, 0)`, `(1/10^13, 1)` and
`(1, 1)`. -/
def example_A_update : Fin 2 → Nat → ℚ :=
  fun i j =>
    if j = 0 then (if i.val = 0 then 1 else 0)
    else if j = 1 then (if i.val = 0 then 1 / 10000000000000 else 1)
    else if j = 2 then 1
    else 0

/-- The factorization of the first two columns of `example_A_update` under the given
settings: `Q` and `R` are the identity, `U = [[1, 1/10^13], [0, 1]]` and the tail is
empty. -/
def example_lu_update (st : lp_settings) :
    lu 2 (Mat 2) (Mat 2) (dense_block 2) (Fin 2 → Nat → ℚ) :=
  { m_status := LU_status.OK
    m_A := example_A_update
    m_Q := permutation_matrix.init
    m_R := permutation_matrix.init
    m_r_wave := permutation_matrix.init
    m_U := !![1, 1 / 10000000000000; 0, 1]
    m_settings := st
    m_failure := false
    m_row_eta_work_vector := { m_data := fun _ => 0, m_index := [] }
    m_refactor_counter := 0
    m_tail := []
    m_y_copy := { m_data := fun _ => 0, m_index := [] }
    m_ii := { m_data := fun _ => 0, m_index := [] }
    m_dense_LU := none }

/-- The original matrix of the density example: the identity of dimension five. -/
def example_A_identity : Fin 5 → Nat → ℚ :=
  fun i j => if i.val = j then 1 else 0

/-- Settings with the density threshold `1/5`. -/
def example_settings_fifth : lp_settings :=
  { pivot_tolerance := 1 / 1000000, drop_tolerance := 1 / 1000000000000,
    density_threshold := 1 / 5, c_partial_pivoting := 4 }

/-- A state whose `U` is a rotated matrix with the bump `0..1`: row 0 is upper triangular
with unit diagonal, row 1 is the row to eliminate, `U = [[1, 1/10^13], [1, 0]]`. -/
def example_lu_rotated (st : lp_settings) :
    lu 2 (Mat 2) (Mat 2) (dense_block 2) (Fin 2 → Nat → ℚ) :=
  { example_lu_update st with m_U := !![1, 1 / 10000000000000; 1, 0] }

/-! ## Column-extraction solve (lines 94-106, 177-212, 245-256, 488-508) -/

/-- The function `one_elem_on_diag<T, X>::apply_from_left_to_T` (lines 94-106). -/
def one_elem_on_diag.apply_from_left_to_T (precise : Bool) (l : one_elem_on_diag n)
    (w : indexed_vector n) (settings : lp_settings) : indexed_vector n :=
  let t := w.m_data l.m_i
  if t = 0 then w
  else
    let t := t / l.m_val
    let w : indexed_vector n := { w with m_data := Function.update w.m_data l.m_i t }
    if precise then w
    else if settings.abs_val_is_smaller_than_drop_tolerance precise t then
      let w := w.erase_from_index l.m_i
      { w with m_data := Function.update w.m_data l.m_i 0 }
    else w

/-- The virtual call `m_tail[i]->apply_from_left_to_T(w, m_settings)`. -/
def tail_matrix.apply_from_left_to_T (d : lu_deps n SM EM DM AM) :
    tail_matrix n EM DM → indexed_vector n → lp_settings → indexed_vector n
  | .eta e, w, st => d.eta.apply_from_left_to_T e w st
  | .row_eta r, w, st => d.row_eta.apply_from_left_to_T r w st
  | .one_elem l, w, st => l.apply_from_left_to_T d.precise w st
  | .dense m, w, st => d.dense.apply_from_left_to_T m w st

/-- The function `lu::apply_lp_list_to_w` (lines 503-508). -/
def apply_lp_list_to_w (d : lu_deps n SM EM DM AM) (s : lu n SM EM DM AM)
    (w : indexed_vector n) : indexed_vector n :=
  s.m_tail.foldl (fun w t => tail_matrix.apply_from_left_to_T d t w s.m_settings) w

/-- The function `lu::perform_transformations_on_w` (lines 489-493). -/
def perform_transformations_on_w (d : lu_deps n SM EM DM AM) (s : lu n SM EM DM AM)
    (w : indexed_vector n) : indexed_vector n :=
  let w := apply_lp_list_to_w d s w
  d.perm.apply_reverse_from_left s.m_Q w

/-- The function `lu::init_vector_w` (lines 497-501). -/
def init_vector_w (d : lu_deps n SM EM DM AM) (s : lu n SM EM DM AM) (entering : Nat)
    (w : indexed_vector n) : indexed_vector n :=
  let w := w.clear
  let w := d.A.copy_column_to_indexed_vector s.m_A entering w
  perform_transformations_on_w d s w

/-- The function `lu::solve_By_when_y_is_ready_for_T` (lines 178-200); it returns the new
`y` and the new `index`. -/
def solve_By_when_y_is_ready_for_T (d : lu_deps n SM EM DM AM) (s : lu n SM EM DM AM)
    (y : Vec n) (index : List (Fin n)) : Vec n × List (Fin n) :=
  if d.precise then
    let y := d.U.solve_U_y s.m_U y
    let y := d.perm.apply_reverse_from_left_to_T s.m_R y
    let index := (List.finRange n).reverse.foldl
      (fun (index : List (Fin n)) j => if y j ≠ 0 then index ++ [j] else index) index
    (y, index)
  else
    let y := d.U.double_solve_U_y s.m_U y
    let y := d.perm.apply_reverse_from_left_to_T s.m_R y
    (List.finRange n).reverse.foldl
      (fun (r : Vec n × List (Fin n)) i =>
        if r.1 i = 0 then r
        else if s.m_settings.abs_val_is_smaller_than_drop_tolerance d.precise (r.1 i) then
          (Function.update r.1 i 0, r.2)
        else (r.1, r.2 ++ [i]))
      (y, index)

/-- The function `lu::solve_By_for_T_indexed_only` (lines 203-212). -/
def solve_By_for_T_indexed_only (d : lu_deps n SM EM DM AM) (s : lu n SM EM DM AM)
    (y : indexed_vector n) (settings : lp_settings) : indexed_vector n :=
  if d.precise then
    let y := d.U.solve_U_y_indexed_only s.m_U y settings
    d.perm.apply_reverse_from_left s.m_R y
  else
    let y := d.U.double_solve_U_y_indexed s.m_U y s.m_settings
    d.perm.apply_reverse_from_left s.m_R y

/-- The function `lu::solve_Bd` (lines 245-256); it returns the new `d` and the new `w`. 
The length `d.m_data.size()` is the dimension. -/
def solve_Bd (d : lu_deps n SM EM DM AM) (s : lu n SM EM DM AM) (a_column : Nat)
    (dv w : indexed_vector n) : indexed_vector n × indexed_vector n :=
  let w := init_vector_w d s a_column w
  if w.m_index.length * d.ratio_of_index_size_to_all_size < n then
    let dv := w
    (solve_By_for_T_indexed_only d s dv s.m_settings, w)
  else
    let dv : indexed_vector n := { dv with m_data := w.m_data }
    let dv : indexed_vector n := { dv with m_index := [] }
    let r := solve_By_when_y_is_ready_for_T d s dv.m_data dv.m_index
    ({ m_data := r.1, m_index := r.2 }, w)

/-- The data the dense path of `solve_Bd` leaves in `d` (lines 179-199): the solution of
the triangular system, permuted by `R` reversed, and for inexact arithmetic with every
value below the drop tolerance set to zero. -/
def dense_path_data (d : lu_deps n SM EM DM AM) (s : lu n SM EM DM AM) (y : Vec n) : Vec n :=
  if d.precise then d.perm.apply_reverse_from_left_to_T s.m_R (d.U.solve_U_y s.m_U y)
  else fun i =>
    if s.m_settings.abs_val_is_smaller_than_drop_tolerance d.precise
        (d.perm.apply_reverse_from_left_to_T s.m_R (d.U.double_solve_U_y s.m_U y) i) then 0
    else d.perm.apply_reverse_from_left_to_T s.m_R (d.U.double_solve_U_y s.m_U y) i

/-- The function `lu::solve_By(indexed_vector<X> & y)` (lines 146-150).  Its body is
`lean_assert(false); // not implemented`: a debug build stops at the assertion (`none`),
a release build compiles the assertion away and returns with `y` untouched. -/
def solve_By_indexed (_d : lu_deps n SM EM DM AM) (_s : lu n SM EM DM AM) (debug : Bool)
    (y : indexed_vector n) : Option (indexed_vector n) :=
  if debug then none else some y

/-- The exponent of the leading binary digit by halving, with fuel. -/
def binary_exponent_aux : Nat → Nat → Nat
  | 0, _ => 0
  | fuel + 1, k => if k < 2 then 0 else binary_exponent_aux fuel (k / 2) + 1

/-- The exponent of the leading binary digit of a natural number, `⌊log₂ k⌋`; zero for
`k < 2`. -/
def binary_exponent (k : Nat) : Nat :=
  binary_exponent_aux k k

/-- The rounding of IEEE 754 double precision (round to nearest, ties to even) for a
value in the normal range: with `2^e ≤ |x| < 2^(e+1)`, the nearest multiple of `2^(e-52)`
and, of two nearest ones, the even multiple. -/
def round_to_double (x : ℚ) : ℚ :=
  if x = 0 then 0
  else
    let a := |x|
    let e : Int :=
      if 1 ≤ a then (binary_exponent ⌊a⌋₊ : Int)
      else -((binary_exponent (⌈a⁻¹⌉₊ - 1) + 1 : Nat) : Int)
    let u : ℚ :=
      if 52 ≤ e then ((2 ^ (e - 52).toNat : Nat) : ℚ) else 1 / ((2 ^ (52 - e).toNat : Nat) : ℚ)
    let q := a / u
    let m : Int := ⌊q⌋
    let f := q - m
    let m : Int :=
      if f < 1 / 2 then m else if 1 / 2 < f then m + 1 else if m % 2 = 0 then m else m + 1
    (if x < 0 then -1 else 1) * (m : ℚ) * u

/-- The reference implementation for `T = double`: the inexact regime with every
arithmetic result rounded by `round_to_double` in the operations the examples run, the
product and difference of `find_error_of_yB_indexed`, the sum of rounded products of
`dot_product_with_column` over the non-zero entries of the column, and the division of
the diagonal-scaling matrix.  The other members are those of `dense_deps`; on a
factorization with `U`, `Q` and `R` the identity and diagonal-scaling matrices in the
tail they do no arithmetic. -/
def double_deps (n : Nat) [NeZero n] (ratio columns : Nat) :
    lu_deps n (Mat n) (Mat n) (dense_block n) (Fin n → Nat → ℚ) :=
  { dense_deps n false ratio columns with
    round := round_to_double
    A :=
      { dense_A_ops n columns with
        dot_product_with_column := fun A y j =>
          ((List.finRange n).filter (fun i => A i j ≠ 0)).foldl
            (fun ret i => round_to_double (ret + round_to_double (y i * A i j))) 0 }
    one_elem_apply_from_left := fun l y _ =>
      Function.update y l.m_i (round_to_double (y l.m_i / l.m_val))
    one_elem_apply_from_right := fun l y =>
      Function.update y l.m_i (round_to_double (y l.m_i / l.m_val))
    one_elem_apply_from_right_indexed := fun l w =>
      indexed_of_data
        (Function.update w.m_data l.m_i (round_to_double (w.m_data l.m_i / l.m_val))) }

/-- The original matrix of the refinement example: one row, `49` in column 0 and zero in
every other column. -/
def example_A_row : Fin 1 → Nat → ℚ :=
  fun _ j => if j = 0 then 49 else 0

/-- The factorization of the basis `B = [[49]]` of `example_A_row`: `U = [[1]]`, `Q` and
`R` the identity, the tail holding the scaling by `1/49`, and the scratch vectors clear. -/
def example_lu_row : lu 1 (Mat 1) (Mat 1) (dense_block 1) (Fin 1 → Nat → ℚ) :=
  { m_status := LU_status.OK
    m_A := example_A_row
    m_Q := permutation_matrix.init
    m_R := permutation_matrix.init
    m_r_wave := permutation_matrix.init
    m_U := !![1]
    m_settings := example_settings
    m_failure := false
    m_row_eta_work_vector := { m_data := fun _ => 0, m_index := [] }
    m_refactor_counter := 0
    m_tail := [tail_matrix.one_elem { m_i := 0, m_val := 49 }]
    m_y_copy := { m_data := fun _ => 0, m_index := [] }
    m_ii := { m_data := fun _ => 0, m_index := [] }
    m_dense_LU := none }

/-- The heading of the basis `0` of `example_A_row`: column 0 is basic at position 0,
every other column is not basic. -/
def example_heading_row : Nat → Int :=
  fun j => if j = 0 then 0 else -1

/-! ## Sequences of operations on one factorization object -/

/-- The member functions of `lu<T, X>` a caller runs on a factorization object, with
their arguments: the construction step, the column replacement and the solves. -/
inductive lu_operation (n : Nat)
  | construct
  | update (pivot_elem_for_checking : ℚ) (w : indexed_vector n) (leaving : Fin n)
  | forward_solve (y : Vec n)
  | backward_solve (y : Vec n)
  | backward_solve_checked (y : Vec n) (basis : Fin n → Nat)
  | backward_solve_checked_indexed (y : indexed_vector n) (heading : Nat → Int)
      (basis : Fin n → Nat) (settings : lp_settings)
  | column_solve (a_column : Nat) (dv w : indexed_vector n)

/-- The state of the object after one operation: `create_initial_factorization`,
`replace_column`, `solve_By`, `solve_yB`, `solve_yB_with_error_check`,
`solve_yB_with_error_check_indexed` and `solve_Bd`.  The solves that only write to their
arguments leave the object as it is. -/
def apply_operation (d : lu_deps n SM EM DM AM) (s : lu n SM EM DM AM) :
    lu_operation n → lu n SM EM DM AM
  | .construct => create_initial_factorization d s
  | .update p w leaving => replace_column d s p w leaving
  | .forward_solve _ => s
  | .backward_solve _ => s
  | .backward_solve_checked y basis => (solve_yB_with_error_check d s y basis).1
  | .backward_solve_checked_indexed y heading basis settings =>
    (solve_yB_with_error_check_indexed d s y heading basis settings).1
  | .column_solve _ _ _ => s

/-- The state of the object after a sequence of operations. -/
def run_operations (d : lu_deps n SM EM DM AM) (s : lu n SM EM DM AM)
    (ops : List (lu_operation n)) : lu n SM EM DM AM :=
  ops.foldl (apply_operation d) s

/-- The entries of a tail matrix that is a row-eta matrix, `none` for the other kinds. -/
def tail_matrix.row_eta_entries : tail_matrix n EM DM → Option (List (Fin n × ℚ))
  | .row_eta r => some r.m_row_vector
  | _ => none

/-- The original matrix of the second update example: the columns `(1, 0)`, `(0, 1)` and
`(1, 1)`. -/
def example_A_eye : Fin 2 → Nat → ℚ :=
  fun i j =>
    if j = 0 then (if i.val = 0 then 1 else 0)
    else if j = 1 then (if i.val = 1 then 1 else 0)
    else if j = 2 then 1
    else 0

/-- The factorization of the first two columns of `example_A_eye`: `Q`, `R` and `U` are
the identity and the tail is empty. -/
def example_lu_eye : lu 2 (Mat 2) (Mat 2) (dense_block 2) (Fin 2 → Nat → ℚ) :=
  { example_lu_unit with m_A := example_A_eye, m_U := !![1, 0; 0, 1] }

/-- The marker vector is consistent: no position is listed twice and the listed positions
are the non-zero ones. -/
def indexed_vector_unsigned.is_marked (w : indexed_vector_unsigned n) : Prop :=
  w.m_index.Nodup ∧ ∀ i, w.m_data i ≠ 0 ↔ i ∈ w.m_index

/-- The updates the inner loop of `find_error_of_yB_indexed` (lines 375-382) makes for one
row of `A` and the value `y_k`: for every entry of a basic column, the position
`heading[j]` and the product subtracted there. -/
def row_touches (round : ℚ → ℚ) (heading : Nat → Int) (y_k : ℚ) (row : List row_cell) :
    List (Fin n × ℚ) :=
  row.filterMap (fun c =>
    if heading c.m_j < 0 then none
    else (to_index (heading c.m_j) : Option (Fin n)).map
      (fun hj => (hj, round (c.m_value * y_k))))

/-- The residual at position `i` as the loops of `find_error_of_yB_indexed` compute it
(lines 372-383): starting from `c[i]`, for every listed position `k` of `y`, in the order
of the index, and every entry of row `k` of `A` in the column `basis[i]`, the rounded
product of the entry with `y[k]` is subtracted and the difference is rounded. -/
def residual_in_loop_order (d : lu_deps n SM EM DM AM) (s : lu n SM EM DM AM)
    (y : indexed_vector n) (basis : Fin n → Nat) (i : Fin n) : ℚ :=
  y.m_index.foldl
    (fun a k =>
      ((d.A.m_rows s.m_A k).filter (fun c => c.m_j = basis i)).foldl
        (fun a c => d.round (a - d.round (c.m_value * y.m_data k))) a)
    (s.m_y_copy.m_data i)

/-- The disabled reference version of `lu::find_error_of_yB_indexed` (lines 342-366, "a
non efficient version"): every position, from the last to the first, gets
`c[i] - y * column d_basis[i]`, the difference rounded by `d.round`, is zeroed when that
is below the drop tolerance and is listed otherwise.  `d_basis` is the array the block
fills from `heading` (lines 349-354). -/
def find_error_of_yB_indexed_reference (d : lu_deps n SM EM DM AM) (s : lu n SM EM DM AM)
    (y : indexed_vector n) (d_basis : Fin n → Nat) (settings : lp_settings) :
    indexed_vector n :=
  (List.finRange n).reverse.foldl
    (fun (yc : indexed_vector n) i =>
      let v :=
        d.round (yc.m_data i - d.A.dot_product_with_column s.m_A y.m_data (d_basis i))
      if settings.abs_val_is_smaller_than_drop_tolerance d.precise v then
        { yc with m_data := Function.update yc.m_data i 0 }
      else { m_data := Function.update yc.m_data i v, m_index := yc.m_index ++ [i] })
    { m_data := s.m_y_copy.m_data, m_index := [] }

/-- The heading of the basis `0, 1` of `example_A`: column `j` is basic at position `j`
for `j < 2`, every other column is not basic. -/
def example_heading : Nat → Int :=
  fun j => if j = 0 then 0 else if j = 1 then 1 else -1

/-- The factorization `example_lu` with `c = (2, 9)` in the scratch vector `m_y_copy`. -/
def example_lu_residual : lu 2 (Mat 2) (Mat 2) (dense_block 2) (Fin 2 → Nat → ℚ) :=
  { example_lu with m_y_copy := indexed_of_data ![2, 9] }

/-- An original matrix with cancellation: the columns `(10¹⁶, -10¹⁶)` and `(0, 1)`. -/
def example_A_cancel : Fin 2 → Nat → ℚ :=
  fun i j =>
    if j = 0 then (if i.val = 0 then 10000000000000000 else -10000000000000000)
    else if j = 1 then (if i.val = 1 then 1 else 0)
    else 0

/-- An object with the original matrix `example_A_cancel` and `c = (1, 5)` in the scratch
vector `m_y_copy`; `find_error_of_yB_indexed` reads no other member. -/
def example_lu_cancel : lu 2 (Mat 2) (Mat 2) (dense_block 2) (Fin 2 → Nat → ℚ) :=
  { example_lu with m_A := example_A_cancel, m_y_copy := indexed_of_data ![1, 5] }

/-- Every non-zero position of the marker vector is listed in its index set. -/
def indexed_vector_unsigned.covers (w : indexed_vector_unsigned n) : Prop :=
  ∀ i, w.m_data i ≠ 0 → i ∈ w.m_index

/-- The state `example_lu` with a delta in `m_y_copy`: `(-1 + 10⁻¹⁵, -1 + 10⁻¹³)`. -/
def example_lu_delta : lu 2 (Mat 2) (Mat 2) (dense_block 2) (Fin 2 → Nat → ℚ) :=
  { example_lu with
    m_y_copy := indexed_of_data ![-1 + 1 / 1000000000000000, -1 + 1 / 10000000000000] }

/-! ## Theorems -/

/-- In exact arithmetic the drop-tolerance test holds for zero only. -/
theorem drop_is_exact_of_precise (st : lp_settings) : st.drop_is_exact true := by
  intro t h
  simpa [lp_settings.abs_val_is_smaller_than_drop_tolerance] using h

theorem apply_lp_list_eq_aux (d : lu_deps n SM EM DM AM) (st : lp_settings)
    (l : List (tail_matrix n EM DM))
    (h : ∀ t ∈ l, ∀ y, tail_matrix.apply_from_left d t y st = tail_matrix.get_elem d t *ᵥ y)
    (M : Mat n) (b y : Vec n) (hy : y = M *ᵥ b) :
    l.foldl (fun y t => tail_matrix.apply_from_left d t y st) y
      = (l.foldl (fun left_side lp => tail_matrix.get_elem d lp * left_side) M) *ᵥ b := by
  induction l generalizing M y with
  | nil => simpa using hy
  | cons t l ih =>
    simp only [List.foldl_cons]
    apply ih
    · intro t' ht' y'
      exact h t' (List.mem_cons_of_mem _ ht') y'
    · rw [h t (List.mem_cons_self _ _), hy, Matrix.mulVec_mulVec]

theorem foldl_mul_right (d : lu_deps n SM EM DM AM) (l : List (tail_matrix n EM DM))
    (M B : Mat n) :
    l.foldl (fun left_side lp => tail_matrix.get_elem d lp * left_side) (M * B)
      = (l.foldl (fun left_side lp => tail_matrix.get_elem d lp * left_side) M) * B := by
  induction l generalizing M with
  | nil => rfl
  | cons t l ih =>
    simp only [List.foldl_cons]
    rw [← Matrix.mul_assoc]
    exact ih _

theorem get_left_side_eq (d : lu_deps n SM EM DM AM) (s : lu n SM EM DM AM)
    (basis : Fin n → Nat) :
    get_left_side d s basis = tail_product d s * get_B d s basis := by
  unfold get_left_side tail_product
  rw [← foldl_mul_right, Matrix.one_mul]

theorem eq_inv_mulVec_of_mulVec_eq {A : Mat n} (hA : IsUnit A.det) {x y : Vec n}
    (h : A *ᵥ x = y) : x = A⁻¹ *ᵥ y := by
  rw [← h, Matrix.mulVec_mulVec, Matrix.nonsing_inv_mul A hA, Matrix.one_mulVec]

theorem isUnit_det_of_mulVec_right_inverse {A : Mat n} (f : Vec n → Vec n)
    (h : ∀ y, A *ᵥ f y = y) : IsUnit A.det := by
  have hs : Function.Surjective A.mulVec := fun y => ⟨f y, h y⟩
  exact (Matrix.isUnit_iff_isUnit_det A).1 (Matrix.mulVec_surjective_iff_isUnit.1 hs)

theorem isUnit_det_tail_product (d : lu_deps n SM EM DM AM) (s : lu n SM EM DM AM)
    (basis : Fin n → Nat)
    (hQ : IsUnit s.m_Q.get_elem.det) (hR : IsUnit s.m_R.get_elem.det)
    (hU : IsUnit (U_dense d s).det)
    (h_id : get_left_side d s basis = get_right_side d s) :
    IsUnit (tail_product d s).det := by
  have h1 : IsUnit (get_right_side d s).det := by
    unfold get_right_side
    simp only [Matrix.det_mul]
    exact hQ.mul (hU.mul hR)
  rw [← h_id, get_left_side_eq, Matrix.det_mul] at h1
  exact isUnit_of_mul_isUnit_left h1

/-- C1. Exact arithmetic, dense right-hand side `b`: when the tail matrices, `Q`, `R`
and the triangular solve act as the matrices they stand for, the factorization identity
`left_side = right_side` holds and `U` is upper triangular and non-singular, `solve_By`
returns the vector `x` with `B·x = b`, namely `x = R⁻¹·U⁻¹·Q⁻¹·T_{n-1}⋯T_0·b`. -/
theorem solve_By_correct (d : lu_deps n SM EM DM AM) (s : lu n SM EM DM AM)
    (basis : Fin n → Nat) (b : Vec n)
    (h_precise : d.precise = true)
    (h_tail : ∀ t ∈ s.m_tail, ∀ y,
      tail_matrix.apply_from_left d t y s.m_settings = tail_matrix.get_elem d t *ᵥ y)
    (h_Q : ∀ y, s.m_Q.get_elem *ᵥ d.perm.apply_reverse_from_left_to_X s.m_Q y = y)
    (h_R : ∀ y, s.m_R.get_elem *ᵥ d.perm.apply_reverse_from_left_to_X s.m_R y = y)
    (h_U : is_upper_triangular (U_dense d s) → (U_dense d s).det ≠ 0 →
      ∀ y, U_dense d s *ᵥ d.U.solve_U_y s.m_U y = y)
    (h_id : get_left_side d s basis = get_right_side d s)
    (h_tri : is_upper_triangular (U_dense d s))
    (h_ns : (U_dense d s).det ≠ 0) :
    get_B d s basis *ᵥ solve_By d s b = b ∧
    solve_By d s b =
      s.m_R.get_elem⁻¹ *ᵥ ((U_dense d s)⁻¹ *ᵥ (s.m_Q.get_elem⁻¹ *ᵥ (tail_product d s *ᵥ b))) := by
  have hQu : IsUnit s.m_Q.get_elem.det := isUnit_det_of_mulVec_right_inverse _ h_Q
  have hRu : IsUnit s.m_R.get_elem.det := isUnit_det_of_mulVec_right_inverse _ h_R
  have hUu : IsUnit (U_dense d s).det := isUnit_iff_ne_zero.2 h_ns
  have hTu := isUnit_det_tail_product d s basis hQu hRu hUu h_id
  have hy0 : apply_lp_list_to_y d s b = tail_product d s *ᵥ b := by
    unfold apply_lp_list_to_y tail_product
    exact apply_lp_list_eq_aux d s.m_settings s.m_tail h_tail 1 b b (by simp)
  have hx : solve_By d s b = d.perm.apply_reverse_from_left_to_X s.m_R
      (d.U.solve_U_y s.m_U (d.perm.apply_reverse_from_left_to_X s.m_Q
        (tail_product d s *ᵥ b))) := by
    simp [solve_By, solve_By_when_y_is_ready_for_X, init_vector_y, h_precise, hy0]
  have e1 := h_R (d.U.solve_U_y s.m_U (d.perm.apply_reverse_from_left_to_X s.m_Q
        (tail_product d s *ᵥ b)))
  have e2 := h_U h_tri h_ns (d.perm.apply_reverse_from_left_to_X s.m_Q
        (tail_product d s *ᵥ b))
  have e3 := h_Q (tail_product d s *ᵥ b)
  rw [← hx] at e1
  constructor
  · have h4 : tail_product d s *ᵥ (get_B d s basis *ᵥ solve_By d s b)
        = tail_product d s *ᵥ b := by
      rw [Matrix.mulVec_mulVec, ← get_left_side_eq, h_id]
      unfold get_right_side
      simp only [← Matrix.mulVec_mulVec]
      rw [e1, e2, e3]
    have hinj : Function.Injective (tail_product d s).mulVec :=
      Matrix.mulVec_injective_iff_isUnit.2 ((Matrix.isUnit_iff_isUnit_det _).2 hTu)
    exact hinj h4
  · rw [← eq_inv_mulVec_of_mulVec_eq hQu e3, ← eq_inv_mulVec_of_mulVec_eq hUu e2]
    exact eq_inv_mulVec_of_mulVec_eq hRu e1

theorem solve_By_correct_witness :
    get_B (dense_deps 2 true 10 2) example_lu (fun j => j.val) *ᵥ
        solve_By (dense_deps 2 true 10 2) example_lu ![2, 8] = ![2, 8] ∧
      solve_By (dense_deps 2 true 10 2) example_lu ![2, 8] =
        example_lu.m_R.get_elem⁻¹ *ᵥ ((U_dense (dense_deps 2 true 10 2) example_lu)⁻¹ *ᵥ
          (example_lu.m_Q.get_elem⁻¹ *ᵥ
            (tail_product (dense_deps 2 true 10 2) example_lu *ᵥ ![2, 8]))) :=
  solve_By_correct (dense_deps 2 true 10 2) example_lu (fun j => j.val) ![2, 8] rfl
    (by
      intro t ht y
      simp only [example_lu, List.mem_singleton] at ht
      subst ht
      funext i
      fin_cases i <;>
        simp [tail_matrix.apply_from_left, tail_matrix.get_elem, dense_deps,
          one_elem_on_diag.get_elem, one_elem_on_diag.m_one_over_val, Matrix.mulVec,
          Matrix.dotProduct, Fin.sum_univ_two, Function.update, div_eq_inv_mul])
    (by
      intro y
      funext i
      fin_cases i <;>
        simp [example_lu, permutation_matrix.get_elem, dense_deps, dense_perm_ops,
          perm_inverse, Matrix.mulVec, Matrix.dotProduct, Fin.sum_univ_two, List.finRange])
    (by
      intro y
      funext i
      fin_cases i <;>
        simp [example_lu, permutation_matrix.get_elem, permutation_matrix.init, dense_deps,
          dense_perm_ops, perm_inverse, Matrix.mulVec, Matrix.dotProduct, Fin.sum_univ_two,
          List.finRange])
    (by
      intro _ _ y
      funext i
      fin_cases i <;>
        simp [example_lu, U_dense, dense_deps, dense_U_ops, dense_solve_U_y, Matrix.mulVec,
          Matrix.dotProduct, Fin.sum_univ_two, List.finRange, Function.update]; ring)
    (by
      ext i j
      fin_cases i <;> fin_cases j <;>
        simp [get_left_side, get_right_side, get_B, example_lu, example_A, U_dense, dense_deps,
          dense_U_ops, dense_A_ops, tail_matrix.get_elem, one_elem_on_diag.get_elem,
          one_elem_on_diag.m_one_over_val, permutation_matrix.get_elem,
          permutation_matrix.init, Matrix.mul_apply, Fin.sum_univ_two]; norm_num)
    (by
      intro i j hij
      fin_cases i <;> fin_cases j <;>
        simp_all [example_lu, U_dense, dense_deps, dense_U_ops])
    (by
      simp [example_lu, U_dense, dense_deps, dense_U_ops, Matrix.det_fin_two])

theorem vecMul_eq_of_vecMul_eq {A : Mat n} (hA : IsUnit A.det) {x y : Vec n}
    (h : x ᵥ* A = y) : x = y ᵥ* A⁻¹ := by
  rw [← h, Matrix.vecMul_vecMul, Matrix.mul_nonsing_inv A hA, Matrix.vecMul_one]

theorem isUnit_det_of_vecMul_right_inverse {A : Mat n} (f : Vec n → Vec n)
    (h : ∀ y, f y ᵥ* A = y) : IsUnit A.det := by
  have hs : Function.Surjective A.vecMul := fun y => ⟨f y, h y⟩
  exact (Matrix.isUnit_iff_isUnit_det A).1 (Matrix.vecMul_surjective_iff_isUnit.1 hs)

theorem apply_from_right_list_eq (d : lu_deps n SM EM DM AM) (l : List (tail_matrix n EM DM))
    (h : ∀ t ∈ l, ∀ y, tail_matrix.apply_from_right d t y = y ᵥ* tail_matrix.get_elem d t)
    (y : Vec n) :
    l.reverse.foldl (fun y e => tail_matrix.apply_from_right d e y) y
      = l.foldr (fun t y => y ᵥ* tail_matrix.get_elem d t) y := by
  rw [List.foldl_reverse]
  induction l with
  | nil => rfl
  | cons t l ih =>
    simp only [List.foldr_cons]
    rw [ih (fun t' ht' => h t' (List.mem_cons_of_mem _ ht'))]
    exact h t (List.mem_cons_self _ _) _

theorem foldr_vecMul_eq (d : lu_deps n SM EM DM AM) (l : List (tail_matrix n EM DM))
    (y : Vec n) :
    l.foldr (fun t y => y ᵥ* tail_matrix.get_elem d t) y
      = y ᵥ* l.foldl (fun left_side lp => tail_matrix.get_elem d lp * left_side) 1 := by
  induction l with
  | nil => simp
  | cons t l ih =>
    simp only [List.foldr_cons, List.foldl_cons]
    rw [ih, Matrix.vecMul_vecMul]
    rw [← foldl_mul_right, Matrix.one_mul, Matrix.mul_one]

/-- C2. Exact or inexact control flow alike, `solve_yB` is one pipeline: when the tail
matrices, `Q`, `R` and the triangular solve act from the right as the matrices they stand
for, the factorization identity holds and `U` is upper triangular and non-singular,
`solve_yB` returns the vector `y` with `y·B = c`; it is `c·R⁻¹·U⁻¹·Q⁻¹` multiplied from
the right by the tail matrices, the last appended one first. -/
theorem solve_yB_correct (d : lu_deps n SM EM DM AM) (s : lu n SM EM DM AM)
    (basis : Fin n → Nat) (c : Vec n)
    (h_tail : ∀ t ∈ s.m_tail, ∀ y,
      tail_matrix.apply_from_right d t y = y ᵥ* tail_matrix.get_elem d t)
    (h_Q : ∀ y, d.perm.apply_reverse_from_right_to_T s.m_Q y ᵥ* s.m_Q.get_elem = y)
    (h_R : ∀ y, d.perm.apply_reverse_from_right_to_T s.m_R y ᵥ* s.m_R.get_elem = y)
    (h_U : is_upper_triangular (U_dense d s) → (U_dense d s).det ≠ 0 →
      ∀ y, d.U.solve_y_U s.m_U y ᵥ* U_dense d s = y)
    (h_id : get_left_side d s basis = get_right_side d s)
    (h_tri : is_upper_triangular (U_dense d s))
    (h_ns : (U_dense d s).det ≠ 0) :
    solve_yB d s c ᵥ* get_B d s basis = c ∧
    solve_yB d s c =
      s.m_tail.foldr (fun t y => y ᵥ* tail_matrix.get_elem d t)
        (((c ᵥ* s.m_R.get_elem⁻¹) ᵥ* (U_dense d s)⁻¹) ᵥ* s.m_Q.get_elem⁻¹) := by
  have hQu : IsUnit s.m_Q.get_elem.det := isUnit_det_of_vecMul_right_inverse _ h_Q
  have hRu : IsUnit s.m_R.get_elem.det := isUnit_det_of_vecMul_right_inverse _ h_R
  have hUu : IsUnit (U_dense d s).det := isUnit_iff_ne_zero.2 h_ns
  have e1 := h_R c
  have e2 := h_U h_tri h_ns (d.perm.apply_reverse_from_right_to_T s.m_R c)
  have e3 := h_Q (d.U.solve_y_U s.m_U (d.perm.apply_reverse_from_right_to_T s.m_R c))
  have hx : solve_yB d s c = s.m_tail.foldr (fun t y => y ᵥ* tail_matrix.get_elem d t)
      (d.perm.apply_reverse_from_right_to_T s.m_Q
        (d.U.solve_y_U s.m_U (d.perm.apply_reverse_from_right_to_T s.m_R c))) := by
    unfold solve_yB
    exact apply_from_right_list_eq d s.m_tail h_tail _
  constructor
  · rw [hx, foldr_vecMul_eq, Matrix.vecMul_vecMul]
    have h5 : s.m_tail.foldl (fun left_side lp => tail_matrix.get_elem d lp * left_side) 1
        * get_B d s basis = get_right_side d s := by
      rw [← h_id, get_left_side_eq]
      rfl
    rw [h5]
    unfold get_right_side
    simp only [← Matrix.vecMul_vecMul]
    rw [e3, e2, e1]
  · rw [hx]
    congr 1
    rw [← vecMul_eq_of_vecMul_eq hRu e1, ← vecMul_eq_of_vecMul_eq hUu e2]
    exact vecMul_eq_of_vecMul_eq hQu e3

theorem solve_yB_correct_witness :
    solve_yB (dense_deps 2 true 10 2) example_lu ![2, 8] ᵥ*
        get_B (dense_deps 2 true 10 2) example_lu (fun j => j.val) = ![2, 8] ∧
      solve_yB (dense_deps 2 true 10 2) example_lu ![2, 8] =
        example_lu.m_tail.foldr
          (fun t y => y ᵥ* tail_matrix.get_elem (dense_deps 2 true 10 2) t)
          (((![2, 8] ᵥ* example_lu.m_R.get_elem⁻¹) ᵥ*
            (U_dense (dense_deps 2 true 10 2) example_lu)⁻¹) ᵥ* example_lu.m_Q.get_elem⁻¹) :=
  solve_yB_correct (dense_deps 2 true 10 2) example_lu (fun j => j.val) ![2, 8]
    (by
      intro t ht y
      simp only [example_lu, List.mem_singleton] at ht
      subst ht
      funext i
      fin_cases i <;>
        simp [tail_matrix.apply_from_right, tail_matrix.get_elem, dense_deps,
          one_elem_on_diag.get_elem, one_elem_on_diag.m_one_over_val, Matrix.vecMul,
          Matrix.dotProduct, Fin.sum_univ_two, Function.update, div_eq_mul_inv])
    (by
      intro y
      funext i
      fin_cases i <;>
        simp [example_lu, permutation_matrix.get_elem, dense_deps, dense_perm_ops,
          Matrix.vecMul, Matrix.dotProduct, Fin.sum_univ_two])
    (by
      intro y
      funext i
      fin_cases i <;>
        simp [example_lu, permutation_matrix.get_elem, permutation_matrix.init, dense_deps,
          dense_perm_ops, Matrix.vecMul, Matrix.dotProduct, Fin.sum_univ_two])
    (by
      intro _ _ y
      funext i
      fin_cases i <;>
        simp [example_lu, U_dense, dense_deps, dense_U_ops, dense_solve_y_U, Matrix.vecMul,
          Matrix.dotProduct, Fin.sum_univ_two, List.finRange, Function.update])
    (by
      ext i j
      fin_cases i <;> fin_cases j <;>
        simp [get_left_side, get_right_side, get_B, example_lu, example_A, U_dense, dense_deps,
          dense_U_ops, dense_A_ops, tail_matrix.get_elem, one_elem_on_diag.get_elem,
          one_elem_on_diag.m_one_over_val, permutation_matrix.get_elem,
          permutation_matrix.init, Matrix.mul_apply, Fin.sum_univ_two]; norm_num)
    (by
      intro i j hij
      fin_cases i <;> fin_cases j <;>
        simp_all [example_lu, U_dense, dense_deps, dense_U_ops])
    (by
      simp [example_lu, U_dense, dense_deps, dense_U_ops, Matrix.det_fin_two])

theorem foldl_update_eq {ι α : Type} [DecidableEq ι] (g : ι → α → α) (l : List ι)
    (hl : l.Nodup) (y : ι → α) :
    l.foldl (fun y i => Function.update y i (g i (y i))) y
      = fun i => if i ∈ l then g i (y i) else y i := by
  induction l generalizing y with
  | nil => simp
  | cons a l ih =>
    have ha : a ∉ l := (List.nodup_cons.1 hl).1
    simp only [List.foldl_cons]
    rw [ih (List.nodup_cons.1 hl).2]
    funext i
    by_cases hia : i = a
    · subst hia
      simp [ha]
    · by_cases hil : i ∈ l
      · simp [hia, hil, Function.update_noteq hia]
      · simp [hia, hil, Function.update_noteq hia]

theorem find_error_of_yB_eq (d : lu_deps n SM EM DM AM) (s : lu n SM EM DM AM)
    (yc y : Vec n) (m_basis : Fin n → Nat) :
    find_error_of_yB d s yc y m_basis
      = fun i => yc i - d.A.dot_product_with_column s.m_A y (m_basis i) := by
  unfold find_error_of_yB
  rw [foldl_update_eq (fun i v => v - d.A.dot_product_with_column s.m_A y (m_basis i)) _
    (List.nodup_reverse.2 (List.nodup_finRange n))]
  funext i
  simp

theorem add_delta_to_solution_eq (yc y : Vec n) :
    add_delta_to_solution yc y = fun i => y i + yc i := by
  unfold add_delta_to_solution
  rw [foldl_update_eq (fun i v => v + yc i) _ (List.nodup_reverse.2 (List.nodup_finRange n))]
  funext i
  simp

theorem solve_yB_indexed_data (d : lu_deps n SM EM DM AM) (s : lu n SM EM DM AM)
    (I : indexed_vector n → Prop)
    (h_perm : ∀ p w, I w → I (d.perm.apply_reverse_from_right_to_T_indexed p w) ∧
      (d.perm.apply_reverse_from_right_to_T_indexed p w).m_data
        = d.perm.apply_reverse_from_right_to_T p w.m_data)
    (h_U : ∀ w, I w → I (d.U.solve_y_U_indexed s.m_U w s.m_settings) ∧
      (d.U.solve_y_U_indexed s.m_U w s.m_settings).m_data = d.U.solve_y_U s.m_U w.m_data)
    (h_tail : ∀ t ∈ s.m_tail, ∀ w, I w → I (tail_matrix.apply_from_right_indexed d t w) ∧
      (tail_matrix.apply_from_right_indexed d t w).m_data
        = tail_matrix.apply_from_right d t w.m_data)
    (y : indexed_vector n) (hy : I y) :
    (solve_yB_indexed d s y).m_data = solve_yB d s y.m_data := by
  unfold solve_yB_indexed solve_yB
  have h1 := h_perm s.m_R y hy
  have h2 := h_U _ h1.1
  have h3 := h_perm s.m_Q _ h2.1
  simp only []
  rw [← h1.2, ← h2.2, ← h3.2]
  generalize d.perm.apply_reverse_from_right_to_T_indexed s.m_Q
    (d.U.solve_y_U_indexed s.m_U (d.perm.apply_reverse_from_right_to_T_indexed s.m_R y)
      s.m_settings) = w at h3 ⊢
  have hw := h3.1
  have h_tail' : ∀ t ∈ s.m_tail.reverse, ∀ w, I w →
      I (tail_matrix.apply_from_right_indexed d t w) ∧
      (tail_matrix.apply_from_right_indexed d t w).m_data
        = tail_matrix.apply_from_right d t w.m_data :=
    fun t ht => h_tail t (List.mem_reverse.1 ht)
  clear h1 h2 h3 h_tail
  generalize s.m_tail.reverse = l at h_tail'
  induction l generalizing w with
  | nil => rfl
  | cons t l ih =>
    simp only [List.foldl_cons]
    have ht := h_tail' t (List.mem_cons_self _ _) w hw
    rw [← ht.2]
    exact ih _ ht.1 (fun t' ht' => h_tail' t' (List.mem_cons_of_mem _ ht'))

/-- C5. Exact arithmetic: `solve_yB_with_error_check` is `solve_yB` and leaves the state
(so also `m_y_copy`) as it was; `solve_yB_with_error_check_indexed` leaves the state as it
was and its data vector is the result of `solve_yB` on the data of its argument, provided
the indexed versions of the absent operations agree with the dense ones on vectors
satisfying an invariant `I` they preserve, and `restore_index_and_clean_from_data` keeps
the data. -/
theorem exact_refinement_changes_nothing (d : lu_deps n SM EM DM AM) (s : lu n SM EM DM AM)
    (I : indexed_vector n → Prop)
    (h_precise : d.precise = true)
    (h_perm : ∀ p w, I w → I (d.perm.apply_reverse_from_right_to_T_indexed p w) ∧
      (d.perm.apply_reverse_from_right_to_T_indexed p w).m_data
        = d.perm.apply_reverse_from_right_to_T p w.m_data)
    (h_U : ∀ w, I w → I (d.U.solve_y_U_indexed s.m_U w s.m_settings) ∧
      (d.U.solve_y_U_indexed s.m_U w s.m_settings).m_data = d.U.solve_y_U s.m_U w.m_data)
    (h_tail : ∀ t ∈ s.m_tail, ∀ w, I w → I (tail_matrix.apply_from_right_indexed d t w) ∧
      (tail_matrix.apply_from_right_indexed d t w).m_data
        = tail_matrix.apply_from_right d t w.m_data)
    (h_restore : ∀ w, (d.restore_index_and_clean_from_data w).m_data = w.m_data)
    (y : Vec n) (yi : indexed_vector n) (hyi : I yi)
    (heading : Nat → Int) (basis : Fin n → Nat) (settings : lp_settings) :
    solve_yB_with_error_check d s y basis = (s, solve_yB d s y) ∧
    (solve_yB_with_error_check_indexed d s yi heading basis settings).1 = s ∧
    (solve_yB_with_error_check_indexed d s yi heading basis settings).2.m_data
      = solve_yB d s yi.m_data := by
  refine ⟨by simp [solve_yB_with_error_check, h_precise], ?_, ?_⟩
  · unfold solve_yB_with_error_check_indexed
    simp only [h_precise, if_true]
    split <;> rfl
  · unfold solve_yB_with_error_check_indexed
    simp only [h_precise, if_true]
    split
    · exact solve_yB_indexed_data d s I h_perm h_U h_tail yi hyi
    · rw [h_restore]

/-- C6. Inexact arithmetic: `find_error_of_yB` turns the copy of `c` into the residual
`c − y1·B`, computed against the columns `basis[i]` of the original matrix, and
`solve_yB_with_error_check` returns `y1 + S(c − y1·B)` with `y1 = S(c)`, `S` being
`solve_yB`: one refinement pass.  When `y1·B = c` already and `S` maps zero to zero, the
output is `y1`. -/
theorem one_refinement_pass (d : lu_deps n SM EM DM AM) (s : lu n SM EM DM AM)
    (c : Vec n) (basis : Fin n → Nat) (h_inexact : d.precise = false) :
    (∀ y1 : Vec n, find_error_of_yB d s c y1 basis
      = fun i => c i - d.A.dot_product_with_column s.m_A y1 (basis i)) ∧
    (solve_yB_with_error_check d s c basis).2
      = (fun i => solve_yB d s c i
          + solve_yB d s
              (fun k => c k - d.A.dot_product_with_column s.m_A (solve_yB d s c) (basis k)) i) ∧
    ((∀ i, d.A.dot_product_with_column s.m_A (solve_yB d s c) (basis i) = c i) →
      solve_yB d s (fun _ => 0) = (fun _ => 0) →
      (solve_yB_with_error_check d s c basis).2 = solve_yB d s c) := by
  have h2 : (solve_yB_with_error_check d s c basis).2
      = (fun i => solve_yB d s c i
          + solve_yB d s
              (fun k => c k - d.A.dot_product_with_column s.m_A (solve_yB d s c) (basis k)) i) := by
    simp [solve_yB_with_error_check, h_inexact, find_error_of_yB_eq, add_delta_to_solution_eq]
  refine ⟨fun y1 => find_error_of_yB_eq d s c y1 basis, h2, ?_⟩
  intro hres hzero
  rw [h2]
  funext i
  have : (fun k => c k - d.A.dot_product_with_column s.m_A (solve_yB d s c) (basis k))
      = fun _ => 0 := by
    funext k
    rw [hres k, sub_self]
  rw [this, hzero, add_zero]

theorem exact_refinement_changes_nothing_witness :
    solve_yB_with_error_check (dense_deps 2 true 10 2) example_lu ![2, 8] (fun j => j.val)
      = (example_lu, solve_yB (dense_deps 2 true 10 2) example_lu ![2, 8]) ∧
    (solve_yB_with_error_check_indexed (dense_deps 2 true 10 2) example_lu
      (indexed_of_data ![2, 8]) (fun j => Int.ofNat j) (fun j => j.val) example_settings).1
        = example_lu ∧
    (solve_yB_with_error_check_indexed (dense_deps 2 true 10 2) example_lu
      (indexed_of_data ![2, 8]) (fun j => Int.ofNat j) (fun j => j.val)
        example_settings).2.m_data
      = solve_yB (dense_deps 2 true 10 2) example_lu (indexed_of_data ![2, 8]).m_data :=
  exact_refinement_changes_nothing (dense_deps 2 true 10 2) example_lu
    (fun w => w.m_index = index_of_data w.m_data) rfl
    (fun _ _ _ => ⟨rfl, rfl⟩)
    (fun _ _ => ⟨rfl, rfl⟩)
    (by
      intro t ht w _
      simp only [example_lu, List.mem_singleton] at ht
      subst ht
      exact ⟨rfl, rfl⟩)
    (by
      intro w
      funext i
      by_cases h : w.m_data i = 0 <;> simp [dense_deps, h])
    ![2, 8] (indexed_of_data ![2, 8]) rfl (fun j => Int.ofNat j) (fun j => j.val)
    example_settings

theorem one_refinement_pass_witness :
    (∀ y1 : Vec 2, find_error_of_yB (dense_deps 2 false 10 2) example_lu ![2, 8] y1
        (fun j => j.val)
      = fun i => ![2, 8] i - (dense_deps 2 false 10 2).A.dot_product_with_column
          example_lu.m_A y1 i.val) ∧
    (solve_yB_with_error_check (dense_deps 2 false 10 2) example_lu ![2, 8]
        (fun j => j.val)).2
      = (fun i => solve_yB (dense_deps 2 false 10 2) example_lu ![2, 8] i
          + solve_yB (dense_deps 2 false 10 2) example_lu
              (fun k => ![2, 8] k - (dense_deps 2 false 10 2).A.dot_product_with_column
                example_lu.m_A (solve_yB (dense_deps 2 false 10 2) example_lu ![2, 8])
                  k.val) i) ∧
    ((∀ i : Fin 2, (dense_deps 2 false 10 2).A.dot_product_with_column example_lu.m_A
        (solve_yB (dense_deps 2 false 10 2) example_lu ![2, 8]) i.val = ![2, 8] i) →
      solve_yB (dense_deps 2 false 10 2) example_lu (fun _ => 0) = (fun _ => 0) →
      (solve_yB_with_error_check (dense_deps 2 false 10 2) example_lu ![2, 8]
        (fun j => j.val)).2 = solve_yB (dense_deps 2 false 10 2) example_lu ![2, 8]) :=
  one_refinement_pass (dense_deps 2 false 10 2) example_lu ![2, 8] (fun j => j.val) rfl

theorem scan_last_row_frame (d : lu_deps n SM EM DM AM) (s : lu n SM EM DM AM) (l : Fin n) :
    scan_last_row_to_work_vector d s l
      = { s with m_row_eta_work_vector := (scan_last_row_to_work_vector d s l).m_row_eta_work_vector } :=
  rfl

theorem pivot_and_solve_frame (d : lu_deps n SM EM DM AM) (s : lu n SM EM DM AM) (r l : Fin n) :
    pivot_and_solve_the_system d s r l
      = { s with m_row_eta_work_vector := (pivot_and_solve_the_system d s r l).m_row_eta_work_vector } :=
  rfl

/-- What `get_row_eta_matrix_and_set_row_vector` leaves alone: everything except the work
vector and the status, and the status can only change to `Degenerated`. -/
theorem get_row_eta_frame (d : lu_deps n SM EM DM AM) (s : lu n SM EM DM AM) (r l : Fin n)
    (p : ℚ) :
    let s' := (get_row_eta_matrix_and_set_row_vector d s r l p).1
    s'.m_U = s.m_U ∧ s'.m_Q = s.m_Q ∧ s'.m_R = s.m_R ∧ s'.m_tail = s.m_tail ∧
      s'.m_r_wave = s.m_r_wave ∧ s'.m_settings = s.m_settings ∧
      s'.m_refactor_counter = s.m_refactor_counter ∧
      (s'.m_status = s.m_status ∨ s'.m_status = LU_status.Degenerated) := by
  intro s'
  simp only [s', get_row_eta_matrix_and_set_row_vector]
  split
  · simp
  · split
    · split
      · simp [set_status, pivot_and_solve_the_system, scan_last_row_to_work_vector]
      · simp [extract_row_eta, pivot_and_solve_the_system, scan_last_row_to_work_vector]
    · simp [extract_row_eta, pivot_and_solve_the_system, scan_last_row_to_work_vector]

theorem replace_column_invalid_bump (d : lu_deps n SM EM DM AM) (s : lu n SM EM DM AM)
    (pivot_elem_for_checking : ℚ) (w : indexed_vector n) (leaving_column_of_U : Fin n)
    (h : d.U.lowest_row_in_column
        (d.U.replace_column s.m_U (d.perm.apply_reverse s.m_R leaving_column_of_U) w
          s.m_settings)
        (d.perm.apply_reverse s.m_R leaving_column_of_U)
      < d.perm.apply_reverse s.m_R leaving_column_of_U) :
    (replace_column d s pivot_elem_for_checking w leaving_column_of_U).m_status
        = LU_status.Degenerated ∧
      (replace_column d s pivot_elem_for_checking w leaving_column_of_U).m_U
        = d.U.replace_column s.m_U (d.perm.apply_reverse s.m_R leaving_column_of_U) w
            s.m_settings ∧
      (replace_column d s pivot_elem_for_checking w leaving_column_of_U).m_Q = s.m_Q ∧
      (replace_column d s pivot_elem_for_checking w leaving_column_of_U).m_R = s.m_R ∧
      (replace_column d s pivot_elem_for_checking w leaving_column_of_U).m_tail = s.m_tail := by
  have hrot : replace_column_rotate d s w leaving_column_of_U
      = (set_status
          { s with
            m_refactor_counter := s.m_refactor_counter + 1
            m_U := d.U.replace_column s.m_U (d.perm.apply_reverse s.m_R leaving_column_of_U) w
              s.m_settings
            m_r_wave := permutation_matrix.init } LU_status.Degenerated,
          d.perm.apply_reverse s.m_R leaving_column_of_U,
          d.U.lowest_row_in_column
            (d.U.replace_column s.m_U (d.perm.apply_reverse s.m_R leaving_column_of_U) w
              s.m_settings)
            (d.perm.apply_reverse s.m_R leaving_column_of_U)) := by
    simp only [replace_column_rotate, transform_U_to_V_by_replacing_column,
      calculate_r_wave_and_update_U]
    rw [if_pos h]
  have hf := get_row_eta_frame d (replace_column_rotate d s w leaving_column_of_U).1
    (replace_column_rotate d s w leaving_column_of_U).2.1
    (replace_column_rotate d s w leaving_column_of_U).2.2 pivot_elem_for_checking
  simp only [] at hf
  obtain ⟨hU, hQ, hR, hT, -, -, -, hS⟩ := hf
  have hS' : (get_row_eta_matrix_and_set_row_vector d
      (replace_column_rotate d s w leaving_column_of_U).1
      (replace_column_rotate d s w leaving_column_of_U).2.1
      (replace_column_rotate d s w leaving_column_of_U).2.2 pivot_elem_for_checking).1.m_status
      = LU_status.Degenerated := by
    rcases hS with hS | hS
    · rw [hS, hrot]
      rfl
    · exact hS
  have h1 : (replace_column_rotate d s w leaving_column_of_U).1.m_U
      = d.U.replace_column s.m_U (d.perm.apply_reverse s.m_R leaving_column_of_U) w
          s.m_settings := by rw [hrot]; rfl
  have h2 : (replace_column_rotate d s w leaving_column_of_U).1.m_Q = s.m_Q := by
    rw [hrot]; rfl
  have h3 : (replace_column_rotate d s w leaving_column_of_U).1.m_R = s.m_R := by
    rw [hrot]; rfl
  have h4 : (replace_column_rotate d s w leaving_column_of_U).1.m_tail = s.m_tail := by
    rw [hrot]; rfl
  unfold replace_column
  simp only [get_status]
  rw [if_pos hS']
  exact ⟨hS', hU.trans h1, hQ.trans h2, hR.trans h3, hT.trans h4⟩

/-- C9. When the replaced column of `U` lies below the lowest non-zero of that column
after `w` was spliced in, `replace_column` ends with status `Degenerated`; `U` is the
spliced matrix (it is not rotated), and `Q`, `R` and the tail are the ones before the
call. -/
theorem invalid_bump_degenerates (d : lu_deps n SM EM DM AM) (s : lu n SM EM DM AM)
    (pivot_elem_for_checking : ℚ) (w : indexed_vector n) (leaving_column_of_U : Fin n)
    (h : d.U.lowest_row_in_column
        (d.U.replace_column s.m_U (d.perm.apply_reverse s.m_R leaving_column_of_U) w
          s.m_settings)
        (d.perm.apply_reverse s.m_R leaving_column_of_U)
      < d.perm.apply_reverse s.m_R leaving_column_of_U) :
    (replace_column d s pivot_elem_for_checking w leaving_column_of_U).m_status
        = LU_status.Degenerated ∧
      (replace_column d s pivot_elem_for_checking w leaving_column_of_U).m_U
        = d.U.replace_column s.m_U (d.perm.apply_reverse s.m_R leaving_column_of_U) w
            s.m_settings ∧
      (replace_column d s pivot_elem_for_checking w leaving_column_of_U).m_Q = s.m_Q ∧
      (replace_column d s pivot_elem_for_checking w leaving_column_of_U).m_R = s.m_R ∧
      (replace_column d s pivot_elem_for_checking w leaving_column_of_U).m_tail = s.m_tail :=
  replace_column_invalid_bump d s pivot_elem_for_checking w leaving_column_of_U h

theorem invalid_bump_degenerates_witness :
    (replace_column (dense_deps 2 true 10 2) example_lu_unit 1 (indexed_of_data ![5, 0])
        1).m_status = LU_status.Degenerated ∧
      (replace_column (dense_deps 2 true 10 2) example_lu_unit 1 (indexed_of_data ![5, 0]) 1).m_U
        = (dense_deps 2 true 10 2).U.replace_column example_lu_unit.m_U
            ((dense_deps 2 true 10 2).perm.apply_reverse example_lu_unit.m_R 1)
            (indexed_of_data ![5, 0]) example_lu_unit.m_settings ∧
      (replace_column (dense_deps 2 true 10 2) example_lu_unit 1 (indexed_of_data ![5, 0]) 1).m_Q
        = example_lu_unit.m_Q ∧
      (replace_column (dense_deps 2 true 10 2) example_lu_unit 1 (indexed_of_data ![5, 0]) 1).m_R
        = example_lu_unit.m_R ∧
      (replace_column (dense_deps 2 true 10 2) example_lu_unit 1 (indexed_of_data ![5, 0])
        1).m_tail = example_lu_unit.m_tail :=
  invalid_bump_degenerates (dense_deps 2 true 10 2) example_lu_unit 1 (indexed_of_data ![5, 0]) 1
    (by decide!)

theorem rotate_frame (d : lu_deps n SM EM DM AM) (s : lu n SM EM DM AM)
    (w : indexed_vector n) (leaving : Fin n) :
    (replace_column_rotate d s w leaving).1.m_tail = s.m_tail ∧
      (replace_column_rotate d s w leaving).1.m_settings = s.m_settings ∧
      (replace_column_rotate d s w leaving).1.m_Q = s.m_Q ∧
      (replace_column_rotate d s w leaving).1.m_R = s.m_R ∧
      (replace_column_rotate d s w leaving).1.m_refactor_counter = s.m_refactor_counter + 1 := by
  simp only [replace_column_rotate, transform_U_to_V_by_replacing_column,
    calculate_r_wave_and_update_U]
  split
  · simp [set_status]
  · split <;> simp

theorem compose_frame (d : lu_deps n SM EM DM AM) (s : lu n SM EM DM AM)
    (row_eta : Option (row_eta_matrix n)) :
    (replace_column_compose d s row_eta).m_settings = s.m_settings ∧
      (replace_column_compose d s row_eta).m_status = s.m_status ∧
      (replace_column_compose d s row_eta).m_U = s.m_U ∧
      (replace_column_compose d s row_eta).m_row_eta_work_vector = s.m_row_eta_work_vector ∧
      ((replace_column_compose d s row_eta).m_tail = s.m_tail ∨
        ∃ r, (replace_column_compose d s row_eta).m_tail = s.m_tail ++ [tail_matrix.row_eta r]) := by
  cases row_eta with
  | none => simp [replace_column_compose]
  | some r => simp [replace_column_compose, push_matrix_to_tail]

theorem before_diagonal_settings (d : lu_deps n SM EM DM AM) (s : lu n SM EM DM AM)
    (p : ℚ) (w : indexed_vector n) (leaving : Fin n) :
    (replace_column_before_diagonal d s p w leaving).1.m_settings = s.m_settings := by
  unfold replace_column_before_diagonal
  simp only []
  rw [(compose_frame d _ _).1, (get_row_eta_frame d _ _ _ _).2.2.2.2.2.1, (rotate_frame d s w leaving).2.1]

theorem before_diagonal_tail (d : lu_deps n SM EM DM AM) (s : lu n SM EM DM AM)
    (p : ℚ) (w : indexed_vector n) (leaving : Fin n) :
    (replace_column_before_diagonal d s p w leaving).1.m_tail = s.m_tail ∨
      ∃ r, (replace_column_before_diagonal d s p w leaving).1.m_tail
        = s.m_tail ++ [tail_matrix.row_eta r] := by
  unfold replace_column_before_diagonal
  simp only []
  have h := (compose_frame d
    (get_row_eta_matrix_and_set_row_vector d (replace_column_rotate d s w leaving).1
      (replace_column_rotate d s w leaving).2.1 (replace_column_rotate d s w leaving).2.2 p).1
    (get_row_eta_matrix_and_set_row_vector d (replace_column_rotate d s w leaving).1
      (replace_column_rotate d s w leaving).2.1 (replace_column_rotate d s w leaving).2.2 p).2).2.2.2.2
  rw [(get_row_eta_frame d _ _ _ _).2.2.2.1, (rotate_frame d s w leaving).1] at h
  exact h

theorem replace_column_of_reaches (d : lu_deps n SM EM DM AM) (s : lu n SM EM DM AM)
    (p : ℚ) (w : indexed_vector n) (leaving : Fin n)
    (h_reach : reaches_diagonal_step d s p w leaving) :
    replace_column d s p w leaving
      = calculate_Lwave_Pwave_for_bump d (replace_column_before_diagonal d s p w leaving).1
          (replace_column_before_diagonal d s p w leaving).2.1
          (replace_column_before_diagonal d s p w leaving).2.2 := by
  unfold reaches_diagonal_step at h_reach
  unfold replace_column replace_column_before_diagonal
  simp only [] at h_reach ⊢
  rw [if_neg h_reach]

theorem small_diagonal_bump (d : lu_deps n SM EM DM AM) (s : lu n SM EM DM AM)
    (rc lowest : Fin n)
    (h_small : |diagonal_elem d s rc lowest| < s.m_settings.pivot_tolerance) :
    (calculate_Lwave_Pwave_for_bump d s rc lowest).m_status = LU_status.Degenerated ∧
      (calculate_Lwave_Pwave_for_bump d s rc lowest).m_tail = s.m_tail ∧
      (calculate_Lwave_Pwave_for_bump d s rc lowest).m_U
        = if rc < lowest then
            (d.U.set_row_from_work_vector_and_clean_work_vector_not_adjusted s.m_U
              (d.U.adjust_row s.m_U lowest) s.m_row_eta_work_vector s.m_settings).1
          else s.m_U := by
  unfold diagonal_elem at h_small
  unfold calculate_Lwave_Pwave_for_bump
  by_cases hlt : rc < lowest
  · simp only [hlt, if_true] at h_small ⊢
    simp [lp_settings.abs_val_is_smaller_than_pivot_tolerance, h_small, set_status]
  · simp only [hlt, if_false] at h_small ⊢
    simp [lp_settings.abs_val_is_smaller_than_pivot_tolerance, h_small, set_status]

/-- C10. In a call of `replace_column` that reaches the diagonal step with a diagonal
element (the recomputed work-vector entry for a non-empty bump, `U(k,k)` for an empty
one) below the pivot tolerance in absolute value: the status ends `Degenerated`, the tail
is the one before the diagonal step (the old tail, followed at most by the row-eta
matrix, so no diagonal-scaling matrix is appended), and `U` is the matrix before the
division of its row. -/
theorem small_diagonal_degenerates (d : lu_deps n SM EM DM AM) (s : lu n SM EM DM AM)
    (p : ℚ) (w : indexed_vector n) (leaving : Fin n)
    (h_reach : reaches_diagonal_step d s p w leaving)
    (h_small : |diagonal_elem d (replace_column_before_diagonal d s p w leaving).1
        (replace_column_before_diagonal d s p w leaving).2.1
        (replace_column_before_diagonal d s p w leaving).2.2| < s.m_settings.pivot_tolerance) :
    (replace_column d s p w leaving).m_status = LU_status.Degenerated ∧
      (replace_column d s p w leaving).m_tail
        = (replace_column_before_diagonal d s p w leaving).1.m_tail ∧
      ((replace_column d s p w leaving).m_tail = s.m_tail ∨
        ∃ r, (replace_column d s p w leaving).m_tail = s.m_tail ++ [tail_matrix.row_eta r]) ∧
      (replace_column d s p w leaving).m_U
        = if (replace_column_before_diagonal d s p w leaving).2.1
              < (replace_column_before_diagonal d s p w leaving).2.2 then
            (d.U.set_row_from_work_vector_and_clean_work_vector_not_adjusted
              (replace_column_before_diagonal d s p w leaving).1.m_U
              (d.U.adjust_row (replace_column_before_diagonal d s p w leaving).1.m_U
                (replace_column_before_diagonal d s p w leaving).2.2)
              (replace_column_before_diagonal d s p w leaving).1.m_row_eta_work_vector
              (replace_column_before_diagonal d s p w leaving).1.m_settings).1
          else (replace_column_before_diagonal d s p w leaving).1.m_U := by
  rw [← before_diagonal_settings d s p w leaving] at h_small
  have h := small_diagonal_bump d _ _ _ h_small
  rw [replace_column_of_reaches d s p w leaving h_reach]
  refine ⟨h.1, h.2.1, ?_, h.2.2⟩
  rw [h.2.1]
  exact before_diagonal_tail d s p w leaving

theorem small_diagonal_degenerates_witness :
    (replace_column (dense_deps 2 true 10 2) example_lu_unit 0 (indexed_of_data ![3, 1])
        0).m_status = LU_status.Degenerated :=
  (small_diagonal_degenerates (dense_deps 2 true 10 2) example_lu_unit 0
    (indexed_of_data ![3, 1]) 0 (by unfold reaches_diagonal_step; decide!) (by decide!)).1

/-- C8, as amended.  Inexact arithmetic, a non-zero expected pivot and a bump that is not
empty: when the recomputed diagonal value differs from the expected one by at least the
pivot tolerance times `max(1, |expected|)`, `replace_column` ends with status
`Degenerated`. -/
theorem pivot_mismatch_degenerates (d : lu_deps n SM EM DM AM) (s : lu n SM EM DM AM)
    (p : ℚ) (w : indexed_vector n) (leaving : Fin n)
    (h_inexact : d.precise = false) (h_p : p ≠ 0)
    (h_bump : (replace_column_rotate d s w leaving).2.1
      ≠ (replace_column_rotate d s w leaving).2.2)
    (h_off : ¬ abs ((recomputed_diagonal d s w leaving - p) / max 1 (abs p))
      < s.m_settings.pivot_tolerance) :
    (replace_column d s p w leaving).m_status = LU_status.Degenerated := by
  have hset : (pivot_and_solve_the_system d
      (scan_last_row_to_work_vector d (replace_column_rotate d s w leaving).1
        (replace_column_rotate d s w leaving).2.2)
      (replace_column_rotate d s w leaving).2.1
      (replace_column_rotate d s w leaving).2.2).m_settings = s.m_settings :=
    (rotate_frame d s w leaving).2.1
  unfold recomputed_diagonal at h_off
  simp only [] at h_off
  rw [← hset] at h_off
  have hS : (get_row_eta_matrix_and_set_row_vector d (replace_column_rotate d s w leaving).1
      (replace_column_rotate d s w leaving).2.1 (replace_column_rotate d s w leaving).2.2
      p).1.m_status = LU_status.Degenerated := by
    unfold get_row_eta_matrix_and_set_row_vector
    rw [if_neg h_bump]
    simp only []
    rw [if_pos ⟨h_inexact, h_p⟩]
    simp only [lp_settings.abs_val_is_smaller_than_pivot_tolerance, decide_eq_true_eq,
      Bool.not_eq_true', decide_eq_false_iff_not]
    rw [if_pos h_off]
    rfl
  unfold replace_column
  simp only [get_status]
  rw [if_pos hS]
  exact hS
theorem pivot_mismatch_degenerates_witness :
    (replace_column (dense_deps 2 false 10 2) example_lu_unit 5 (indexed_of_data ![2, 4])
        0).m_status = LU_status.Degenerated :=
  pivot_mismatch_degenerates (dense_deps 2 false 10 2) example_lu_unit 5
    (indexed_of_data ![2, 4]) 0 rfl (by norm_num) (by decide!) (by decide!)

/-- C8 fails as stated.  On the factorization `example_lu_unit`, replacing column 0:
(a) exact arithmetic, the recomputed diagonal is `-10`, the expected pivot `5`, the status
stays `OK`; (b) inexact arithmetic and expected pivot `0`: the status stays `OK`;
(c) inexact arithmetic, recomputed diagonal `1/2`, expected pivot `1/2 + 3/4000000`: the
difference exceeds the pivot tolerance `1/1000000` scaled by the expected pivot, the status
stays `OK`; (d) inexact arithmetic and an empty bump with diagonal `4`, expected pivot `1`:
the status stays `OK`. -/
theorem pivot_mismatch_not_always_degenerated :
    (recomputed_diagonal (dense_deps 2 true 10 2) example_lu_unit (indexed_of_data ![2, 4]) 0
          = -10 ∧
        example_lu_unit.m_settings.pivot_tolerance * abs (5 : ℚ) < abs ((-10 : ℚ) - 5) ∧
        (replace_column (dense_deps 2 true 10 2) example_lu_unit 5 (indexed_of_data ![2, 4])
          0).m_status = LU_status.OK) ∧
      (recomputed_diagonal (dense_deps 2 false 10 2) example_lu_unit (indexed_of_data ![2, 4]) 0
          = -10 ∧
        example_lu_unit.m_settings.pivot_tolerance * abs (0 : ℚ) < abs ((-10 : ℚ) - 0) ∧
        (replace_column (dense_deps 2 false 10 2) example_lu_unit 0 (indexed_of_data ![2, 4])
          0).m_status = LU_status.OK) ∧
      (recomputed_diagonal (dense_deps 2 false 10 2) example_lu_unit
          (indexed_of_data ![7 / 2, 1]) 0 = 1 / 2 ∧
        example_lu_unit.m_settings.pivot_tolerance * abs ((1 : ℚ) / 2 + 3 / 4000000)
          < abs ((1 : ℚ) / 2 - (1 / 2 + 3 / 4000000)) ∧
        (replace_column (dense_deps 2 false 10 2) example_lu_unit (1 / 2 + 3 / 4000000)
          (indexed_of_data ![7 / 2, 1]) 0).m_status = LU_status.OK) ∧
      (diagonal_elem (dense_deps 2 false 10 2)
          (replace_column_before_diagonal (dense_deps 2 false 10 2) example_lu_unit 1
            (indexed_of_data ![4, 0]) 0).1
          (replace_column_before_diagonal (dense_deps 2 false 10 2) example_lu_unit 1
            (indexed_of_data ![4, 0]) 0).2.1
          (replace_column_before_diagonal (dense_deps 2 false 10 2) example_lu_unit 1
            (indexed_of_data ![4, 0]) 0).2.2 = 4 ∧
        example_lu_unit.m_settings.pivot_tolerance * abs (1 : ℚ) < abs ((4 : ℚ) - 1) ∧
        (replace_column (dense_deps 2 false 10 2) example_lu_unit 1 (indexed_of_data ![4, 0])
          0).m_status = LU_status.OK) := by
  refine ⟨⟨?_, ?_, ?_⟩, ⟨?_, ?_, ?_⟩, ⟨?_, ?_, ?_⟩, ⟨?_, ?_, ?_⟩⟩ <;> decide!

theorem sparse_pass_of_head (d : lu_deps n SM EM DM AM) (fuel : Nat) :
    ∀ (i j : Nat) (s s_i : lu n SM EM DM AM), sparse_pass_head d i j s = some s_i →
      sparse_pass d (i + fuel) j s = sparse_pass d fuel (j + i) s_i := by
  intro i
  induction i with
  | zero =>
    intro j s s_i h
    simp only [sparse_pass_head, Option.some.injEq] at h
    subst h
    simp
  | succ i ih =>
    intro j s s_i h
    simp only [sparse_pass_head] at h
    have e : i + 1 + fuel = (i + fuel) + 1 := by omega
    rw [e]
    simp only [sparse_pass]
    split at h
    · exact absurd h (by simp)
    · split at h
      · exact absurd h (by simp)
      · rename_i h1 h2
        rw [if_neg h1, if_neg h2, ih (j + 1) _ s_i h]
        congr 1
        omega

theorem dense_pass_of_head (d : lu_deps n SM EM DM AM) (fuel : Nat) :
    ∀ (i j : Nat) (s s_i : lu n SM EM DM AM), dense_pass_head d i j s = some s_i →
      dense_pass d (i + fuel) j s = dense_pass d fuel (j + i) s_i := by
  intro i
  induction i with
  | zero =>
    intro j s s_i h
    simp only [dense_pass_head, Option.some.injEq] at h
    subst h
    simp
  | succ i ih =>
    intro j s s_i h
    simp only [dense_pass_head] at h
    have e : i + 1 + fuel = (i + fuel) + 1 := by omega
    rw [e]
    simp only [dense_pass]
    split at h
    · exact absurd h (by simp)
    · rename_i h1
      rw [if_neg h1, ih (j + 1) _ s_i h]
      congr 1
      omega

theorem swap_columns_tail (d : lu_deps n SM EM DM AM) (s : lu n SM EM DM AM) (j k : Nat) :
    (swap_columns d s j k).m_tail = s.m_tail := by
  unfold swap_columns
  split <;> rfl

theorem pivot_in_dense_mode_tail (d : lu_deps n SM EM DM AM) (s : lu n SM EM DM AM) (i : Nat) :
    (pivot_in_dense_mode d s i).m_tail = s.m_tail := by
  unfold pivot_in_dense_mode
  split
  · rfl
  · rename_i D hD
    simp only []
    by_cases hj : d.dense_LU.find_pivot_column_in_row D i = -1
    · rw [if_pos hj]
    · rw [if_neg hj]
      by_cases hij : i ≠ (d.dense_LU.find_pivot_column_in_row D i).toNat
      · rw [if_pos hij]
        simp [swap_columns_tail]
      · rw [if_neg hij]
        split <;> simp

theorem dense_pass_head_tail (d : lu_deps n SM EM DM AM) :
    ∀ (i j : Nat) (s s_i : lu n SM EM DM AM), dense_pass_head d i j s = some s_i →
      s_i.m_tail = s.m_tail := by
  intro i
  induction i with
  | zero =>
    intro j s s_i h
    simp only [dense_pass_head, Option.some.injEq] at h
    rw [h]
  | succ i ih =>
    intro j s s_i h
    simp only [dense_pass_head] at h
    split at h
    · exact absurd h (by simp)
    · rw [ih (j + 1) _ s_i h, pivot_in_dense_mode_tail]

theorem pivot_the_row_fill_fails (d : lu_deps n SM EM DM AM) (s : lu n SM EM DM AM)
    (row : Nat) (h : (d.U.fill_eta_matrix s.m_U row).1 = false) :
    (pivot_the_row d s row).2 = false ∧
      (pivot_the_row d s row).1.m_status = LU_status.Degenerated := by
  simp [pivot_the_row, get_eta_matrix_for_pivot, h, set_status, get_status]

theorem pivot_the_row_pivot_fails (d : lu_deps n SM EM DM AM) (s : lu n SM EM DM AM)
    (row : Nat) (e : EM) (h : d.U.fill_eta_matrix s.m_U row = (true, some e))
    (hp : (d.U.pivot_with_eta s.m_U row e s.m_settings).1 = false) :
    (pivot_the_row d s row).2 = false := by
  simp only [pivot_the_row, get_eta_matrix_for_pivot, h, get_status]
  by_cases hs : s.m_status = LU_status.OK
  · simp [hs, hp]
  · simp [hs]

theorem sparse_failure_aborts (d : lu_deps n SM EM DM AM) (s0 : lu n SM EM DM AM)
    (k : Nat) (s_k : lu n SM EM DM AM) (hk : k < n)
    (h_reach : sparse_pass_head d k 0
      { s0 with m_U := d.U.prepare_for_factorization s0.m_U } = some s_k)
    (h_fail : (process_column d s_k k).m_failure = true) :
    create_initial_factorization d s0
      = set_status (process_column d s_k k) LU_status.Degenerated := by
  obtain ⟨m, hm⟩ : ∃ m, n = k + (m + 1) := ⟨n - k - 1, by omega⟩
  have h := sparse_pass_of_head d (m + 1) k 0 _ s_k h_reach
  rw [← hm] at h
  have h2 : sparse_pass d (m + 1) (0 + k) s_k
      = (set_status (process_column d s_k k) LU_status.Degenerated, none) := by
    simp [sparse_pass, h_fail]
  unfold create_initial_factorization factorize_prepared
  simp only []
  rw [h, h2]

theorem dense_failure_aborts (d : lu_deps n SM EM DM AM) (s0 s2 : lu n SM EM DM AM)
    (j i : Nat) (s_i : lu n SM EM DM AM)
    (h_sparse : sparse_pass d n 0 { s0 with m_U := d.U.prepare_for_factorization s0.m_U }
      = (s2, some j))
    (hj : j ≠ n) (hi : j + 1 + i < n)
    (h_reach : dense_pass_head d i (j + 1)
      { s2 with m_dense_LU := some (d.dense_LU.create s2.m_U (j + 1)) } = some s_i)
    (h_fail : (pivot_in_dense_mode d s_i (j + 1 + i)).m_failure = true) :
    create_initial_factorization d s0
        = set_status (pivot_in_dense_mode d s_i (j + 1 + i)) LU_status.Degenerated ∧
      (create_initial_factorization d s0).m_tail = s2.m_tail := by
  obtain ⟨m, hm⟩ : ∃ m, n - (j + 1) = i + (m + 1) := ⟨n - (j + 1) - i - 1, by omega⟩
  have h := dense_pass_of_head d (m + 1) i (j + 1) _ s_i h_reach
  rw [← hm] at h
  have h2 : dense_pass d (m + 1) (j + 1 + i) s_i
      = (set_status (pivot_in_dense_mode d s_i (j + 1 + i)) LU_status.Degenerated, false) := by
    simp [dense_pass, h_fail]
  have h3 : create_initial_factorization d s0
      = set_status (pivot_in_dense_mode d s_i (j + 1 + i)) LU_status.Degenerated := by
    unfold create_initial_factorization factorize_prepared
    simp only []
    rw [h_sparse]
    simp only [if_neg hj, finish_in_dense_mode]
    rw [h, h2]
    simp
  refine ⟨h3, ?_⟩
  rw [h3]
  simp only [set_status]
  rw [pivot_in_dense_mode_tail, dense_pass_head_tail d i (j + 1) _ s_i h_reach]

/-- C7. Every pivot failure of construction raises `m_failure`: `get_pivot_for_column`
returning `false` or the row `-1`, `fill_eta_matrix` or `pivot_with_eta` failing inside
`pivot_the_row`, `find_pivot_column_in_row` returning `-1`.  When the step of a column
`k` reached by the sparse pass, or of a row reached by the dense pass, raises `m_failure`,
`create_initial_factorization` returns the state right after that step with the status
set to `Degenerated`: nothing later is processed, and in the dense pass the tail is the
one the sparse pass left, without the dense block. -/
theorem construction_failure_aborts (d : lu_deps n SM EM DM AM) (s0 : lu n SM EM DM AM) :
    (∀ (s : lu n SM EM DM AM) (j : Nat),
      (d.U.get_pivot_for_column s.m_U s.m_settings.c_partial_pivoting j).1 = false ∨
        static_cast_int (d.U.get_pivot_for_column s.m_U s.m_settings.c_partial_pivoting j).2.1
          = -1 →
      (process_column d s j).m_failure = true) ∧
    (∀ (s : lu n SM EM DM AM) (row : Nat), (d.U.fill_eta_matrix s.m_U row).1 = false →
      (pivot_the_row d s row).2 = false) ∧
    (∀ (s : lu n SM EM DM AM) (row : Nat) (e : EM),
      d.U.fill_eta_matrix s.m_U row = (true, some e) →
      (d.U.pivot_with_eta s.m_U row e s.m_settings).1 = false →
      (pivot_the_row d s row).2 = false) ∧
    (∀ (s : lu n SM EM DM AM) (j : Nat),
      (d.U.get_pivot_for_column s.m_U s.m_settings.c_partial_pivoting j).1 = true →
      static_cast_int (d.U.get_pivot_for_column s.m_U s.m_settings.c_partial_pivoting j).2.1
        ≠ -1 →
      (pivot_the_row d
        (swap_rows d
          (swap_columns d
            { s with m_U :=
              (d.U.get_pivot_for_column s.m_U s.m_settings.c_partial_pivoting j).2.2.2 }
            j (d.U.get_pivot_for_column s.m_U s.m_settings.c_partial_pivoting j).2.2.1)
          j (d.U.get_pivot_for_column s.m_U s.m_settings.c_partial_pivoting j).2.1)
        j).2 = false →
      (process_column d s j).m_failure = true) ∧
    (∀ (s : lu n SM EM DM AM) (i : Nat) (D : DM), s.m_dense_LU = some D →
      d.dense_LU.find_pivot_column_in_row D i = -1 →
      (pivot_in_dense_mode d s i).m_failure = true) ∧
    (∀ (k : Nat) (s_k : lu n SM EM DM AM), k < n →
      sparse_pass_head d k 0 { s0 with m_U := d.U.prepare_for_factorization s0.m_U }
        = some s_k →
      (process_column d s_k k).m_failure = true →
      create_initial_factorization d s0
        = set_status (process_column d s_k k) LU_status.Degenerated) ∧
    (∀ (s2 : lu n SM EM DM AM) (j i : Nat) (s_i : lu n SM EM DM AM),
      sparse_pass d n 0 { s0 with m_U := d.U.prepare_for_factorization s0.m_U }
        = (s2, some j) →
      j ≠ n → j + 1 + i < n →
      dense_pass_head d i (j + 1)
        { s2 with m_dense_LU := some (d.dense_LU.create s2.m_U (j + 1)) } = some s_i →
      (pivot_in_dense_mode d s_i (j + 1 + i)).m_failure = true →
      create_initial_factorization d s0
          = set_status (pivot_in_dense_mode d s_i (j + 1 + i)) LU_status.Degenerated ∧
        (create_initial_factorization d s0).m_tail = s2.m_tail) := by
  refine ⟨?_, ?_, ?_, ?_, ?_, ?_, ?_⟩
  · intro s j h
    rcases h with h | h
    · simp [process_column, h]
    · by_cases h1 : (d.U.get_pivot_for_column s.m_U s.m_settings.c_partial_pivoting j).1
      · simp [process_column, h, h1]
      · simp [process_column, h1]
  · intro s row h
    exact (pivot_the_row_fill_fails d s row h).1
  · intro s row e h hp
    exact pivot_the_row_pivot_fails d s row e h hp
  · intro s j h1 h2 h3
    simp [process_column, h1, h2, h3]
  · intro s i D hD h
    simp [pivot_in_dense_mode, hD, h]
  · intro k s_k hk h_reach h_fail
    exact sparse_failure_aborts d s0 k s_k hk h_reach h_fail
  · intro s2 j i s_i h_sparse hj hi h_reach h_fail
    exact dense_failure_aborts d s0 s2 j i s_i h_sparse hj hi h_reach h_fail

theorem construction_failure_aborts_witness :
    create_initial_factorization (dense_deps 2 true 10 2) example_singular_init
        = set_status
            (process_column (dense_deps 2 true 10 2)
              (process_column (dense_deps 2 true 10 2) example_singular_start 0) 1)
            LU_status.Degenerated :=
  (construction_failure_aborts (dense_deps 2 true 10 2) example_singular_init).2.2.2.2.2.1 1
    (process_column (dense_deps 2 true 10 2) example_singular_start 0) (by decide)
    (by
      have h1 : (process_column (dense_deps 2 true 10 2) example_singular_start 0).m_failure
          = false := by decide!
      show sparse_pass_head (dense_deps 2 true 10 2) 1 0 example_singular_start = _
      simp [sparse_pass_head, h1, too_dense])
    (by decide!)

theorem get_left_side_push (d : lu_deps n SM EM DM AM) (s : lu n SM EM DM AM)
    (basis : Fin n → Nat) (t : tail_matrix n EM DM) :
    get_left_side d (push_matrix_to_tail s t) basis
      = tail_matrix.get_elem d t * get_left_side d s basis := by
  change List.foldl _ (get_B d s basis) (s.m_tail ++ [t]) = _
  rw [List.foldl_append]
  rfl

theorem swap_columns_invariant (d : lu_deps n SM EM DM AM) (basis : Fin n → Nat)
    (J : DM → SM → Prop) (hc : construction_contract d basis J)
    (s : lu n SM EM DM AM) (j k : Nat) (h : construction_invariant d basis s) :
    construction_invariant d basis (swap_columns d s j k) := by
  unfold swap_columns
  split
  · exact h
  · obtain ⟨h1, h2, h3, h4⟩ := h
    refine ⟨h1, h2, h3, ?_⟩
    change get_left_side d s basis = s.m_Q.get_elem
      * (dense_of d (d.U.swap_columns s.m_U j k) * (d.perm.transpose_from_right s.m_R j k).get_elem)
    rw [hc.swap_columns_R]
    exact h4

theorem swap_rows_invariant (d : lu_deps n SM EM DM AM) (basis : Fin n → Nat)
    (J : DM → SM → Prop) (hc : construction_contract d basis J)
    (s : lu n SM EM DM AM) (j k : Nat) (h : construction_invariant d basis s) :
    construction_invariant d basis (swap_rows d s j k) := by
  unfold swap_rows
  split
  · obtain ⟨h1, h2, h3, h4⟩ := h
    refine ⟨h1, h2, hc.transpose_is_permutation _ j k h3, ?_⟩
    change get_left_side d s basis = (d.perm.transpose_from_left s.m_Q j k).get_elem
      * (dense_of d (d.U.swap_rows s.m_U j k) * s.m_R.get_elem)
    rw [← Matrix.mul_assoc, hc.swap_rows_Q, Matrix.mul_assoc]
    exact h4
  · exact h

theorem pivot_the_row_invariant (d : lu_deps n SM EM DM AM) (basis : Fin n → Nat)
    (J : DM → SM → Prop) (hc : construction_contract d basis J)
    (s : lu n SM EM DM AM) (row : Nat) (h : construction_invariant d basis s)
    (hr : (pivot_the_row d s row).2 = true) :
    construction_invariant d basis (pivot_the_row d s row).1 := by
  obtain ⟨h1, h2, h3, h4⟩ := h
  unfold pivot_the_row get_eta_matrix_for_pivot at hr ⊢
  by_cases hf : (d.U.fill_eta_matrix s.m_U row).1 = true
  · have hst : ¬ (s.m_status ≠ LU_status.OK) := by simp [h1]
    simp only [hf, Bool.not_true, Bool.false_eq_true, if_false, get_status, if_neg hst] at hr ⊢
    cases he : (d.U.fill_eta_matrix s.m_U row).2 with
    | none =>
      simp only [he] at hr ⊢
      refine ⟨h1, h2, h3, ?_⟩
      change get_left_side d s basis = s.m_Q.get_elem
        * (dense_of d (d.U.shorten_active_matrix s.m_U row) * s.m_R.get_elem)
      rw [hc.shorten_elem]
      exact h4
    | some eta =>
      simp only [he] at hr ⊢
      by_cases hp : (d.U.pivot_with_eta s.m_U row eta s.m_settings).1 = true
      · simp only [hp, Bool.not_true, Bool.false_eq_true, if_false] at hr ⊢
        refine ⟨h1, h2, h3, ?_⟩
        rw [get_left_side_push]
        change eta_dense d (d.eta.conjugate_by_permutation eta s.m_Q) * get_left_side d s basis
          = s.m_Q.get_elem
            * (dense_of d (d.U.pivot_with_eta s.m_U row eta s.m_settings).2 * s.m_R.get_elem)
        rw [hc.pivot_with_eta_elem s.m_U row eta s.m_settings hp, h4]
        change eta_dense d (d.eta.conjugate_by_permutation eta s.m_Q)
            * (s.m_Q.get_elem * (dense_of d s.m_U * s.m_R.get_elem)) = _
        rw [← Matrix.mul_assoc, hc.eta_conjugate eta s.m_Q h3, Matrix.mul_assoc,
          Matrix.mul_assoc]
      · simp [hp] at hr
  · simp [hf, set_status, get_status] at hr

theorem process_column_invariant (d : lu_deps n SM EM DM AM) (basis : Fin n → Nat)
    (J : DM → SM → Prop) (hc : construction_contract d basis J)
    (s : lu n SM EM DM AM) (j : Nat) (h : construction_invariant d basis s)
    (hf : (process_column d s j).m_failure = false) :
    construction_invariant d basis (process_column d s j) := by
  unfold process_column at hf ⊢
  simp only [] at hf ⊢
  by_cases h1 : (d.U.get_pivot_for_column s.m_U s.m_settings.c_partial_pivoting j).1 = true
  · by_cases h2 : static_cast_int
        (d.U.get_pivot_for_column s.m_U s.m_settings.c_partial_pivoting j).2.1 = -1
    · simp [h1, h2] at hf
    · simp only [h1, h2, Bool.not_true, Bool.false_eq_true, if_false] at hf ⊢
      have h0 : construction_invariant d basis
          { s with m_U :=
            (d.U.get_pivot_for_column s.m_U s.m_settings.c_partial_pivoting j).2.2.2 } := by
        obtain ⟨a1, a2, a3, a4⟩ := h
        refine ⟨a1, a2, a3, ?_⟩
        change get_left_side d s basis = s.m_Q.get_elem
          * (dense_of d (d.U.get_pivot_for_column s.m_U s.m_settings.c_partial_pivoting j).2.2.2
            * s.m_R.get_elem)
        rw [hc.get_pivot_elem]
        exact a4
      have h3 := swap_rows_invariant d basis J hc _ j
        (d.U.get_pivot_for_column s.m_U s.m_settings.c_partial_pivoting j).2.1
        (swap_columns_invariant d basis J hc _ j
          (d.U.get_pivot_for_column s.m_U s.m_settings.c_partial_pivoting j).2.2.1 h0)
      split at hf
      · simp at hf
      · rename_i hr
        rw [if_neg hr]
        exact pivot_the_row_invariant d basis J hc _ j h3 (by simpa using hr)
  · simp [h1] at hf

theorem sparse_pass_invariant (d : lu_deps n SM EM DM AM) (basis : Fin n → Nat)
    (J : DM → SM → Prop) (hc : construction_contract d basis J) :
    ∀ (fuel j : Nat) (s : lu n SM EM DM AM), construction_invariant d basis s →
      (∀ j', (sparse_pass d fuel j s).2 = some j' →
        construction_invariant d basis (sparse_pass d fuel j s).1) ∧
      ((sparse_pass d fuel j s).2 = none →
        (sparse_pass d fuel j s).1.m_status = LU_status.Degenerated) := by
  intro fuel
  induction fuel with
  | zero =>
    intro j s h
    simp [sparse_pass, h]
  | succ fuel ih =>
    intro j s h
    simp only [sparse_pass]
    by_cases hf : (process_column d s j).m_failure = true
    · simp [hf, set_status]
    · have hf' : (process_column d s j).m_failure = false := by simpa using hf
      have hi := process_column_invariant d basis J hc s j h hf'
      rw [if_neg hf]
      by_cases hd : too_dense d (process_column d s j) j = true
      · rw [if_pos hd]
        simp [hi]
      · rw [if_neg hd]
        exact ih (j + 1) _ hi

theorem pivot_in_dense_mode_invariant (d : lu_deps n SM EM DM AM) (basis : Fin n → Nat)
    (J : DM → SM → Prop) (hc : construction_contract d basis J)
    (s : lu n SM EM DM AM) (i : Nat) (h : construction_invariant d basis s)
    (hD : ∃ D, s.m_dense_LU = some D ∧ J D s.m_U)
    (hf : (pivot_in_dense_mode d s i).m_failure = false) :
    construction_invariant d basis (pivot_in_dense_mode d s i) ∧
      ∃ D, (pivot_in_dense_mode d s i).m_dense_LU = some D ∧
        J D (pivot_in_dense_mode d s i).m_U := by
  obtain ⟨D, hD1, hD2⟩ := hD
  unfold pivot_in_dense_mode at hf ⊢
  simp only [hD1] at hf ⊢
  by_cases hj : d.dense_LU.find_pivot_column_in_row D i = -1
  · simp [hj] at hf
  · rw [if_neg hj] at hf ⊢
    by_cases hij : i ≠ (d.dense_LU.find_pivot_column_in_row D i).toNat
    · rw [if_pos hij]
      have h1 := swap_columns_invariant d basis J hc s i
        (d.dense_LU.find_pivot_column_in_row D i).toNat h
      have h2 : (swap_columns d s i (d.dense_LU.find_pivot_column_in_row D i).toNat).m_U
          = d.U.swap_columns s.m_U i (d.dense_LU.find_pivot_column_in_row D i).toNat := by
        unfold swap_columns
        rw [if_neg hij]
      refine ⟨h1, _, rfl, ?_⟩
      change J _ (swap_columns d s i (d.dense_LU.find_pivot_column_in_row D i).toNat).m_U
      rw [h2]
      exact hc.dense_pivot _ _ _ _ (hc.dense_swap _ _ _ _ hD2)
    · rw [if_neg hij]
      simp only [hD1]
      exact ⟨h, _, rfl, hc.dense_pivot _ _ _ _ hD2⟩

theorem dense_pass_invariant (d : lu_deps n SM EM DM AM) (basis : Fin n → Nat)
    (J : DM → SM → Prop) (hc : construction_contract d basis J) :
    ∀ (fuel j : Nat) (s : lu n SM EM DM AM), construction_invariant d basis s →
      (∃ D, s.m_dense_LU = some D ∧ J D s.m_U) →
      ((dense_pass d fuel j s).2 = true →
        construction_invariant d basis (dense_pass d fuel j s).1 ∧
          ∃ D, (dense_pass d fuel j s).1.m_dense_LU = some D ∧
            J D (dense_pass d fuel j s).1.m_U) ∧
      ((dense_pass d fuel j s).2 = false →
        (dense_pass d fuel j s).1.m_status = LU_status.Degenerated) := by
  intro fuel
  induction fuel with
  | zero =>
    intro j s h hD
    simp [dense_pass, h, hD]
  | succ fuel ih =>
    intro j s h hD
    simp only [dense_pass]
    by_cases hf : (pivot_in_dense_mode d s j).m_failure = true
    · simp [hf, set_status]
    · have hf' : (pivot_in_dense_mode d s j).m_failure = false := by simpa using hf
      have hi := pivot_in_dense_mode_invariant d basis J hc s j h hD hf'
      rw [if_neg hf]
      exact ih (j + 1) _ hi.1 hi.2

theorem init_invariant (d : lu_deps n SM EM DM AM) (basis : Fin n → Nat)
    (J : DM → SM → Prop) (hc : construction_contract d basis J) (A : AM)
    (settings : lp_settings) :
    construction_invariant d basis
      { lu.init d A basis settings with
        m_U := (d.U.prepare_for_factorization (lu.init d A basis settings).m_U) } := by
  refine ⟨rfl, rfl, Function.bijective_id, ?_⟩
  change (fun i j => d.A.get_elem A i (basis j))
    = (permutation_matrix.init : permutation_matrix n).get_elem
      * (dense_of d (d.U.prepare_for_factorization (d.U.create A basis))
        * (permutation_matrix.init : permutation_matrix n).get_elem)
  have h1 : (permutation_matrix.init : permutation_matrix n).get_elem = 1 := by
    ext i j
    simp [permutation_matrix.get_elem, permutation_matrix.init, Matrix.one_apply]
  rw [h1, Matrix.one_mul, Matrix.mul_one, hc.prepare_elem, hc.create_elem]

theorem push_dense_block_invariant (d : lu_deps n SM EM DM AM) (basis : Fin n → Nat)
    (J : DM → SM → Prop) (hc : construction_contract d basis J)
    (s : lu n SM EM DM AM) (h : construction_invariant d basis s)
    (hD : ∃ D, s.m_dense_LU = some D ∧ J D s.m_U) :
    get_left_side d (push_dense_block d s) basis = get_right_side d (push_dense_block d s) := by
  obtain ⟨D, hD1, hD2⟩ := hD
  obtain ⟨-, -, hQ, hid⟩ := h
  unfold push_dense_block
  simp only [hD1]
  change get_left_side d (push_matrix_to_tail s
      (tail_matrix.dense (d.dense.conjugate_by_permutation D s.m_Q))) basis
    = s.m_Q.get_elem
      * (dense_of d (d.dense_LU.update_parent_matrix D s.m_U s.m_settings) * s.m_R.get_elem)
  rw [get_left_side_push, hc.dense_update D s.m_U s.m_settings hD2, hid]
  change block_dense d (d.dense.conjugate_by_permutation D s.m_Q)
      * (s.m_Q.get_elem * (dense_of d s.m_U * s.m_R.get_elem)) = _
  rw [← Matrix.mul_assoc, hc.dense_conjugate D s.m_Q hQ, Matrix.mul_assoc, Matrix.mul_assoc]

theorem factorize_prepared_invariant (d : lu_deps n SM EM DM AM) (basis : Fin n → Nat)
    (J : DM → SM → Prop) (hc : construction_contract d basis J)
    (s : lu n SM EM DM AM) (h : construction_invariant d basis s)
    (h_ok : (factorize_prepared d s).m_status = LU_status.OK) :
    get_left_side d (factorize_prepared d s) basis = get_right_side d (factorize_prepared d s) := by
  have hs := sparse_pass_invariant d basis J hc n 0 s h
  unfold factorize_prepared at h_ok ⊢
  simp only [] at h_ok ⊢
  generalize sparse_pass d n 0 s = r at hs h_ok ⊢
  obtain ⟨s1, o⟩ := r
  cases o with
  | none =>
    have hdeg := hs.2 rfl
    simp only [] at h_ok hdeg
    rw [hdeg] at h_ok
    exact absurd h_ok (by decide)
  | some j =>
    have hj := hs.1 j rfl
    simp only [] at h_ok hj ⊢
    by_cases hjn : j = n
    · rw [if_pos hjn]
      exact hj.2.2.2
    · rw [if_neg hjn] at h_ok ⊢
      have hd := dense_pass_invariant d basis J hc (n - (j + 1)) (j + 1)
        { s1 with m_dense_LU := some (d.dense_LU.create s1.m_U (j + 1)) }
        hj ⟨_, rfl, hc.dense_create _ _⟩
      unfold finish_in_dense_mode at h_ok ⊢
      simp only [] at h_ok ⊢
      generalize dense_pass d (n - (j + 1)) (j + 1)
        { s1 with m_dense_LU := some (d.dense_LU.create s1.m_U (j + 1)) } = r2 at hd h_ok ⊢
      obtain ⟨s2, b⟩ := r2
      cases b with
      | true =>
        obtain ⟨hI, hD⟩ := hd.1 rfl
        simp only [Bool.not_true, Bool.false_eq_true, if_false]
        exact push_dense_block_invariant d basis J hc s2 hI hD
      | false =>
        have hdeg := hd.2 rfl
        simp only [Bool.not_false, if_true] at h_ok hdeg
        rw [hdeg] at h_ok
        exact absurd h_ok (by decide)

/-- C4. When construction ends with status `OK`, the factorization identity checked by
`is_correct` holds exactly: the tail matrices applied in insertion order to the basis
columns of `A` give `Q·U·R`.  The hypothesis `hc` is the contract of the absent member
functions; the statement covers the run in which the sparse pass processes every column
and the run finished by the dense fallback. -/
theorem construction_reconstructs (d : lu_deps n SM EM DM AM) (basis : Fin n → Nat)
    (J : DM → SM → Prop) (hc : construction_contract d basis J) (A : AM)
    (settings : lp_settings)
    (h_ok : (lu.create d A basis settings).m_status = LU_status.OK) :
    is_correct d (lu.create d A basis settings) basis :=
  ⟨h_ok, factorize_prepared_invariant d basis J hc _ (init_invariant d basis J hc A settings)
    h_ok⟩

theorem swap_index_involutive (j k : Nat) :
    Function.Involutive (swap_index j k : Fin n → Fin n) := by
  intro x
  apply Fin.ext
  unfold swap_index
  split_ifs <;> simp_all <;> omega

theorem perm_transpose_mul_self (p : permutation_matrix n) (hp : p.is_permutation) :
    p.get_elem.transpose * p.get_elem = 1 := by
  ext a b
  simp only [Matrix.mul_apply, Matrix.transpose_apply, permutation_matrix.get_elem,
    Matrix.one_apply]
  obtain ⟨c, hc⟩ := hp.2 a
  rw [Finset.sum_eq_single c]
  · simp [hc]
  · intro c' _ hne
    have : p.m_permutation c' ≠ a := fun h => hne (hp.1 (h.trans hc.symm))
    simp [this]
  · simp

theorem perm_conjugate_mul (p : permutation_matrix n) (hp : p.is_permutation) (e : Mat n) :
    p.get_elem * e * p.get_elem.transpose * p.get_elem = p.get_elem * e := by
  rw [Matrix.mul_assoc, perm_transpose_mul_self p hp, Matrix.mul_one]

/-- The reference implementation meets the contract of the construction. -/
theorem dense_deps_construction_contract (n : Nat) [NeZero n] (precise : Bool)
    (ratio columns : Nat) (basis : Fin n → Nat) :
    construction_contract (dense_deps n precise ratio columns) basis dense_block_related where
  create_elem _ := rfl
  prepare_elem _ := rfl
  get_pivot_elem U c j := by
    unfold dense_of
    funext a b
    simp only [dense_deps, dense_U_ops]
    split <;> rfl
  swap_columns_R U R j k := by
    ext a b
    simp only [Matrix.mul_apply, dense_of, dense_deps, dense_U_ops, dense_perm_ops,
      permutation_matrix.get_elem]
    exact Equiv.sum_comp (swap_index_involutive j k).toPerm
      (fun c => U a c * (if R.m_permutation c = b then 1 else 0))
  swap_rows_Q U Q j k := by
    ext a b
    simp only [Matrix.mul_apply, dense_of, dense_deps, dense_U_ops, dense_perm_ops,
      permutation_matrix.get_elem]
    simp [swap_index_involutive j k _]
  transpose_is_permutation Q j k hQ :=
    (swap_index_involutive j k).bijective.comp hQ
  shorten_elem _ _ := rfl
  pivot_with_eta_elem _ _ _ _ _ := rfl
  eta_conjugate e Q hQ := perm_conjugate_mul Q hQ e
  dense_create U j := by
    simp [dense_block_related, dense_deps, dense_block_ops]
  dense_swap D U i j h := by
    unfold dense_block_related at h ⊢
    simp only [dense_deps, dense_block_ops, dense_U_ops]
    ext a b
    rw [h]
    simp [Matrix.mul_apply]
  dense_pivot D U i st h := by
    unfold dense_block_related at h ⊢
    simp only [dense_deps, dense_block_ops]
    split
    · simp only []
      rw [h, Matrix.mul_assoc]
    · exact h
  dense_update D U st h := h
  dense_conjugate D Q hQ := perm_conjugate_mul Q hQ D.m_L

theorem construction_reconstructs_witness :
    is_correct (dense_deps 2 true 10 2)
      (lu.create (dense_deps 2 true 10 2) example_A (fun j => j.val) example_settings)
      (fun j => j.val) :=
  construction_reconstructs (dense_deps 2 true 10 2) (fun j => j.val) dense_block_related
    (dense_deps_construction_contract 2 true 10 2 (fun j => j.val)) example_A example_settings
    (by decide!)

theorem foldl_set_eq (f : Fin n → Fin n) (l : List (Fin n)) (p : permutation_matrix n) :
    (l.foldl (fun (q : permutation_matrix n) i => q.set i (f i)) p).m_permutation
      = l.foldl (fun g i => Function.update g i (f i)) p.m_permutation := by
  induction l generalizing p with
  | nil => rfl
  | cons a l ih => simp only [List.foldl_cons]; rw [ih]; rfl

/-- The permutation built by lines 769-773 is `r_wave_map`. -/
theorem r_wave_closed_form (bump_start bump_end : Fin n) :
    (((List.finRange n).filter (fun i => bump_start < i ∧ i ≤ bump_end)).foldl
      (fun (r_wave : permutation_matrix n) i => r_wave.set i (index_pred i))
      ((permutation_matrix.init : permutation_matrix n).set bump_start bump_end)).m_permutation
      = r_wave_map bump_start bump_end := by
  rw [foldl_set_eq index_pred]
  rw [foldl_update_eq (fun i _ => index_pred i) _ ((List.nodup_finRange n).filter _)]
  funext i
  simp only [List.mem_filter, List.mem_finRange, true_and, decide_eq_true_eq, r_wave_map,
    permutation_matrix.set, permutation_matrix.init]
  split
  · rfl
  · by_cases h : i = bump_start
    · subst h
      simp
    · simp [h, Function.update_noteq h]

theorem r_wave_map_val (r k i : Fin n) :
    (r_wave_map r k i).val
      = if r.val < i.val ∧ i.val ≤ k.val then i.val - 1
        else if i.val = r.val then k.val else i.val := by
  unfold r_wave_map index_pred
  simp only [Fin.lt_def, Fin.le_def, Fin.ext_iff]
  split_ifs <;> rfl

theorem r_wave_inverse_val (r k j : Fin n) :
    (r_wave_inverse r k j).val
      = if r.val ≤ j.val ∧ j.val < k.val then j.val + 1
        else if j.val = k.val then r.val else j.val := by
  unfold r_wave_inverse
  simp only [Fin.lt_def, Fin.le_def, Fin.ext_iff]
  split_ifs <;> rfl

theorem r_wave_map_inverse (r k : Fin n) (hrk : r ≤ k) (j : Fin n) :
    r_wave_map r k (r_wave_inverse r k j) = j := by
  apply Fin.ext
  rw [Fin.le_def] at hrk
  rw [r_wave_map_val, r_wave_inverse_val]
  split_ifs <;> omega

theorem r_wave_inverse_map (r k : Fin n) (hrk : r ≤ k) (i : Fin n) :
    r_wave_inverse r k (r_wave_map r k i) = i := by
  apply Fin.ext
  rw [Fin.le_def] at hrk
  rw [r_wave_inverse_val, r_wave_map_val]
  split_ifs <;> omega

theorem r_wave_map_bijective (r k : Fin n) (hrk : r ≤ k) :
    Function.Bijective (r_wave_map r k) :=
  ⟨Function.LeftInverse.injective (r_wave_inverse_map r k hrk),
    Function.RightInverse.surjective (r_wave_map_inverse r k hrk)⟩

/-- Multiplying by a permutation matrix from the left permutes the rows. -/
theorem perm_mul_apply (p : permutation_matrix n) (X : Mat n) (i j : Fin n) :
    (p.get_elem * X) i j = X (p.m_permutation i) j := by
  simp [Matrix.mul_apply, permutation_matrix.get_elem]

/-- Multiplying by a permutation matrix from the right permutes the columns. -/
theorem mul_perm_apply (p : permutation_matrix n) (q : Fin n → Fin n)
    (hq : ∀ j, p.m_permutation (q j) = j) (hp : Function.Injective p.m_permutation)
    (X : Mat n) (i j : Fin n) :
    (X * p.get_elem) i j = X i (q j) := by
  simp only [Matrix.mul_apply, permutation_matrix.get_elem]
  rw [Finset.sum_eq_single (q j)]
  · simp [hq]
  · intro c _ hne
    have : p.m_permutation c ≠ j := fun h => hne (hp (h.trans (hq j).symm))
    simp [this]
  · simp

theorem foldl_add_at {α : Type} (col : α → Fin n) (f : α → ℚ) (L : List α) (data : Vec n) :
    L.foldl (fun data iv => Function.update data (col iv) (data (col iv) + f iv)) data
      = fun c => data c + ((L.filter (fun iv => col iv = c)).map f).sum := by
  induction L generalizing data with
  | nil => simp
  | cons a L ih =>
    simp only [List.foldl_cons]
    rw [ih]
    funext c
    by_cases h : col a = c
    · subst h
      simp [List.filter_cons, add_assoc]
    · have h' : c ≠ col a := fun e => h e.symm
      simp [List.filter_cons, h, Function.update_noteq h']

theorem set_value_covers (w : indexed_vector n) (v : ℚ) (c : Fin n) (h : w.covers) :
    (w.set_value v c).covers := by
  intro i hi
  simp only [indexed_vector.set_value] at hi ⊢
  by_cases hic : i = c
  · simp [hic]
  · rw [Function.update_noteq hic] at hi
    exact List.mem_append_left _ (h i hi)

/-- The sign with which line 786/810 enters a column in the work vector. -/
theorem scan_fold_data (col : indexed_value → Fin n) (k : Fin n) (L : List indexed_value)
    (w : indexed_vector n) (hL : (L.map col).Nodup) (hw : ∀ iv ∈ L, w.m_data (col iv) = 0) :
    (L.foldl
      (fun (w : indexed_vector n) iv =>
        if iv.m_value = 0 then w
        else if col iv < k then w.set_value (-iv.m_value) (col iv)
        else w.set_value iv.m_value (col iv)) w).m_data
      = fun c => w.m_data c + ((L.filter (fun iv => col iv = c)).map
          (fun iv => if col iv < k then -iv.m_value else iv.m_value)).sum := by
  induction L generalizing w with
  | nil => simp
  | cons a L ih =>
    simp only [List.foldl_cons]
    have hnd : col a ∉ L.map col ∧ (L.map col).Nodup := List.nodup_cons.1 hL
    have ha0 : w.m_data (col a) = 0 := hw a (List.mem_cons_self _ _)
    have hstep : (if a.m_value = 0 then w
        else if col a < k then w.set_value (-a.m_value) (col a)
        else w.set_value a.m_value (col a)).m_data
        = Function.update w.m_data (col a)
            (if col a < k then -a.m_value else a.m_value) := by
      by_cases hv : a.m_value = 0
      · simp only [hv, if_true, neg_zero, ite_self]
        rw [← ha0, Function.update_eq_self]
      · simp only [hv, if_false]
        split <;> rfl
    rw [ih _ hnd.2]
    · funext c
      rw [hstep]
      by_cases h : col a = c
      · subst h
        simp [List.filter_cons, ha0]
      · have h' : c ≠ col a := fun e => h e.symm
        simp [List.filter_cons, h, Function.update_noteq h']
    · intro iv hiv
      rw [hstep]
      have hne : col iv ≠ col a := by
        intro e
        exact hnd.1 (e ▸ List.mem_map_of_mem col hiv)
      rw [Function.update_noteq hne]
      exact hw iv (List.mem_cons_of_mem _ hiv)

theorem scan_fold_covers (col : indexed_value → Fin n) (k : Fin n) (L : List indexed_value)
    (w : indexed_vector n) (hw : w.covers) :
    (L.foldl
      (fun (w : indexed_vector n) iv =>
        if iv.m_value = 0 then w
        else if col iv < k then w.set_value (-iv.m_value) (col iv)
        else w.set_value iv.m_value (col iv)) w).covers := by
  induction L generalizing w with
  | nil => exact hw
  | cons a L ih =>
    simp only [List.foldl_cons]
    apply ih
    split
    · exact hw
    · split <;> exact set_value_covers _ _ _ hw

/-- The effect of one pass of the inner loop body (lines 803-828) on the data. -/
theorem pivot_and_solve_step_data (d : lu_deps n SM EM DM AM) (s : lu n SM EM DM AM)
    (h_drop : s.m_settings.drop_is_exact d.precise) (k j : Fin n) (v : ℚ) (w : indexed_vector n)
    (iv : indexed_value) :
    (pivot_and_solve_step d s k j v w iv).m_data
      = Function.update w.m_data (entry_column d s.m_U iv)
          (w.m_data (entry_column d s.m_U iv)
            + (if entry_column d s.m_U iv = j then 0
               else if entry_column d s.m_U iv < k then -v * iv.m_value else v * iv.m_value)) := by
  unfold pivot_and_solve_step entry_column
  simp only []
  by_cases hcj : d.U.adjust_column_inverse s.m_U iv.m_index = j
  · simp [hcj]
  · simp only [hcj, if_false]
    by_cases hv : iv.m_value = 0
    · simp [hv]
    · simp only [hv, if_false]
      generalize (if d.U.adjust_column_inverse s.m_U iv.m_index < k then -v * iv.m_value
        else v * iv.m_value) = δ
      by_cases h0 : w.m_data (d.U.adjust_column_inverse s.m_U iv.m_index) = 0
      · simp only [h0, if_true, zero_add]
        by_cases hd : s.m_settings.abs_val_is_smaller_than_drop_tolerance d.precise δ = true
        · have := h_drop _ hd
          simp only [hd, Bool.not_true, Bool.false_eq_true, if_false]
          rw [this, ← h0, Function.update_eq_self]
        · simp only [hd, Bool.not_eq_true] at hd ⊢
          simp [hd, indexed_vector.set_value]
      · simp only [h0, if_false]
        by_cases hd : s.m_settings.abs_val_is_smaller_than_drop_tolerance d.precise
            (w.m_data (d.U.adjust_column_inverse s.m_U iv.m_index) + δ) = true
        · have := h_drop _ hd
          rw [if_pos hd]
          simp only []
          rw [Function.update_idem, this]
        · rw [if_neg hd]

theorem pivot_and_solve_step_covers (d : lu_deps n SM EM DM AM) (s : lu n SM EM DM AM)
    (k j : Fin n) (v : ℚ) (w : indexed_vector n) (iv : indexed_value) (hw : w.covers) :
    (pivot_and_solve_step d s k j v w iv).covers := by
  unfold pivot_and_solve_step
  simp only []
  by_cases hcj : d.U.adjust_column_inverse s.m_U iv.m_index = j
  · rw [if_pos hcj]; exact hw
  · rw [if_neg hcj]
    by_cases hv : iv.m_value = 0
    · rw [if_pos hv]; exact hw
    · rw [if_neg hv]
      generalize (if d.U.adjust_column_inverse s.m_U iv.m_index < k then -v * iv.m_value
        else v * iv.m_value) = δ
      by_cases h0 : w.m_data (d.U.adjust_column_inverse s.m_U iv.m_index) = 0
      · rw [if_pos h0]
        split
        · exact set_value_covers _ _ _ hw
        · exact hw
      · rw [if_neg h0]
        split
        · intro i hi
          simp only [] at hi ⊢
          by_cases hic : i = d.U.adjust_column_inverse s.m_U iv.m_index
          · rw [hic, Function.update_same] at hi
            exact absurd rfl hi
          · rw [Function.update_noteq hic, Function.update_noteq hic] at hi
            exact (List.mem_erase_of_ne hic).2 (hw i hi)
        · intro i hi
          simp only [] at hi ⊢
          by_cases hic : i = d.U.adjust_column_inverse s.m_U iv.m_index
          · rw [hic]
            exact hw _ h0
          · rw [Function.update_noteq hic] at hi
            exact hw i hi

theorem foldl_data_of_step {α : Type} (col : α → Fin n) (f : α → ℚ)
    (step : indexed_vector n → α → indexed_vector n)
    (hstep : ∀ w a, (step w a).m_data
      = Function.update w.m_data (col a) (w.m_data (col a) + f a))
    (L : List α) (w : indexed_vector n) :
    (L.foldl step w).m_data
      = fun c => w.m_data c + ((L.filter (fun iv => col iv = c)).map f).sum := by
  rw [← foldl_add_at col f L w.m_data]
  induction L generalizing w with
  | nil => rfl
  | cons a L ih =>
    simp only [List.foldl_cons]
    rw [ih, hstep]

theorem foldl_covers_of_step {α : Type} (step : indexed_vector n → α → indexed_vector n)
    (hstep : ∀ w a, w.covers → (step w a).covers) (L : List α) (w : indexed_vector n)
    (hw : w.covers) : (L.foldl step w).covers := by
  induction L generalizing w with
  | nil => exact hw
  | cons a L ih => exact ih _ (hstep w a hw)

/-- The inner loop of `pivot_and_solve_the_system` for row `j` with multiplier `v` adds
`∓v` times row `j` to the work vector, except at column `j`. -/
theorem pivot_row_fold_data (d : lu_deps n SM EM DM AM) (s : lu n SM EM DM AM)
    (h_drop : s.m_settings.drop_is_exact d.precise) (k j : Fin n) (v : ℚ)
    (hrow : row_represents d s.m_U j) (w : indexed_vector n) :
    ((d.U.get_row_values s.m_U (d.U.adjust_row s.m_U j)).foldl
        (pivot_and_solve_step d s k j v) w).m_data
      = fun c => w.m_data c
          + (if c = j then 0 else (if c < k then -v else v) * dense_of d s.m_U j c) := by
  rw [foldl_data_of_step (entry_column d s.m_U)
    (fun iv => if entry_column d s.m_U iv = j then 0
      else if entry_column d s.m_U iv < k then -v * iv.m_value else v * iv.m_value)
    (pivot_and_solve_step d s k j v) (pivot_and_solve_step_data d s h_drop k j v)]
  funext c
  congr 1
  rw [hrow.2 c]
  by_cases hcj : c = j
  · rw [if_pos hcj]
    apply List.sum_eq_zero
    intro x hx
    obtain ⟨iv, hiv, rfl⟩ := List.mem_map.1 hx
    have hc : entry_column d s.m_U iv = c := by simpa using (List.mem_filter.1 hiv).2
    simp [hc, hcj]
  · rw [if_neg hcj, ← List.sum_map_mul_left]
    congr 1
    apply List.map_congr_left
    intro iv hiv
    have hc : entry_column d s.m_U iv = c := by simpa using (List.mem_filter.1 hiv).2
    simp only [hc, hcj, if_false]
    split <;> ring

/-- The work vector after `scan_last_row_to_work_vector`, started from a zero vector:
row `k` of `U`, negated left of the bump end. -/
theorem scan_last_row_data (d : lu_deps n SM EM DM AM) (s : lu n SM EM DM AM) (k : Fin n)
    (hrow : row_represents d s.m_U k) (h_work : ∀ i, s.m_row_eta_work_vector.m_data i = 0) :
    (scan_last_row_to_work_vector d s k).m_row_eta_work_vector.m_data
      = fun c => if c < k then -dense_of d s.m_U k c else dense_of d s.m_U k c := by
  unfold scan_last_row_to_work_vector
  simp only []
  have h := scan_fold_data (entry_column d s.m_U) k
    (d.U.get_row_values s.m_U (d.U.adjust_row s.m_U k)) s.m_row_eta_work_vector hrow.1
    (fun iv _ => h_work _)
  unfold entry_column at h
  rw [h]
  funext c
  rw [h_work c, zero_add, hrow.2 c]
  unfold entry_column
  by_cases hck : c < k
  · rw [if_pos hck, neg_eq_neg_one_mul, ← List.sum_map_mul_left]
    congr 1
    apply List.map_congr_left
    intro iv hiv
    have hc : d.U.adjust_column_inverse s.m_U iv.m_index = c := by
      simpa [entry_column] using (List.mem_filter.1 hiv).2
    simp [hc, hck]
  · rw [if_neg hck]
    congr 1
    apply List.map_congr_left
    intro iv hiv
    have hc : d.U.adjust_column_inverse s.m_U iv.m_index = c := by
      simpa [entry_column] using (List.mem_filter.1 hiv).2
    simp [hc, hck]

theorem scan_last_row_covers (d : lu_deps n SM EM DM AM) (s : lu n SM EM DM AM) (k : Fin n)
    (hw : s.m_row_eta_work_vector.covers) :
    (scan_last_row_to_work_vector d s k).m_row_eta_work_vector.covers := by
  unfold scan_last_row_to_work_vector
  exact scan_fold_covers (fun iv => d.U.adjust_column_inverse s.m_U iv.m_index) k _ _ hw

theorem filter_interval_cons (m : Nat) (k : Fin n) (hm : m < k.val) :
    (List.finRange n).filter (fun j => m ≤ j.val ∧ j < k)
      = ⟨m, lt_trans hm k.isLt⟩ :: (List.finRange n).filter (fun j => m + 1 ≤ j.val ∧ j < k) := by
  apply List.eq_of_perm_of_sorted (r := (· < ·))
  · apply (List.perm_ext_iff_of_nodup ((List.nodup_finRange n).filter _) _).2
    · intro a
      simp only [List.mem_filter, List.mem_finRange, true_and, decide_eq_true_eq,
        List.mem_cons, Fin.ext_iff, Fin.lt_def]
      omega
    · apply List.nodup_cons.2
      refine ⟨?_, (List.nodup_finRange n).filter _⟩
      simp only [List.mem_filter, List.mem_finRange, true_and, decide_eq_true_eq]
      omega
  · exact (List.pairwise_lt_finRange n).filter _
  · apply List.sorted_cons.2
    refine ⟨?_, (List.pairwise_lt_finRange n).filter _⟩
    intro b hb
    simp only [List.mem_filter, List.mem_finRange, true_and, decide_eq_true_eq] at hb
    show m < b.val
    omega

theorem elimination_step (X : Mat n) (r k : Fin n) (m : Nat) (hm1 : r.val ≤ m)
    (hm2 : m < k.val) (W : Vec n)
    (S1 : ∀ a : Fin n, r ≤ a → a < k → ∀ b, b < a → X a b = 0)
    (S2 : ∀ a : Fin n, r ≤ a → a < k → X a a = 1)
    (h : elimination_invariant X r k m W) :
    elimination_invariant X r k (m + 1)
      (fun c => W c + (if c = (⟨m, lt_trans hm2 k.isLt⟩ : Fin n) then 0
        else (if c < k then -(W ⟨m, lt_trans hm2 k.isLt⟩) else W ⟨m, lt_trans hm2 k.isLt⟩)
          * X ⟨m, lt_trans hm2 k.isLt⟩ c)) := by
  obtain ⟨h1, h2, h3⟩ := h
  generalize hj : (⟨m, lt_trans hm2 k.isLt⟩ : Fin n) = j
  have hjv : j.val = m := by rw [← hj]
  have hrj : r ≤ j := by rw [Fin.le_def]; omega
  have hjk : j < k := by rw [Fin.lt_def]; omega
  have hA : ∀ c : Fin n, c.val ≤ m →
      W c + (if c = j then 0 else (if c < k then -(W j) else W j) * X j c) = W c := by
    intro c hc
    by_cases hcj : c = j
    · simp [hcj]
    · have : c < j := by rw [Fin.lt_def]; have := Fin.val_ne_of_ne hcj; omega
      simp [hcj, S1 j hrj hjk c this]
  have hB : ∀ b : Fin n,
      (∑ c, if r ≤ c ∧ c.val < m + 1 then
        (W c + (if c = j then 0 else (if c < k then -(W j) else W j) * X j c)) * X c b else 0)
      = (∑ c, if r ≤ c ∧ c.val < m then W c * X c b else 0) + W j * X j b := by
    intro b
    have e : W j * X j b = ∑ c, if c = j then W j * X j b else 0 := by
      rw [Finset.sum_ite_eq' Finset.univ j]
      simp
    rw [e, ← Finset.sum_add_distrib]
    apply Finset.sum_congr rfl
    intro c _
    by_cases hcm : c.val < m
    · have hcj : c ≠ j := fun e => by rw [e] at hcm; omega
      rw [hA c (le_of_lt hcm)]
      by_cases hrc : r ≤ c
      · simp [hrc, hcm, hcj, Nat.lt_succ_of_lt hcm]
      · simp [hrc, hcj]
    · by_cases hcj : c = j
      · subst hcj
        simp [hrj, hjv]
      · have : ¬ c.val < m + 1 := by
          have := Fin.val_ne_of_ne hcj
          omega
        simp [hcm, this, hcj]
  refine ⟨?_, ?_, ?_⟩
  · intro b hb
    beta_reduce
    rw [hA b (by rw [Fin.lt_def] at hb; omega)]
    exact h1 b hb
  · intro b hb
    beta_reduce
    rw [hB b]
    have hbj : b ≠ j := fun e => by rw [e] at hb; omega
    rw [if_neg hbj, h2 b (by omega)]
    by_cases hbk : b < k
    · simp only [hbk, if_true]; ring
    · simp only [hbk, if_false]; ring
  · intro b hrb hb
    beta_reduce
    rw [hB b]
    by_cases hbm : b.val < m
    · have hbj : b < j := by rw [Fin.lt_def]; omega
      rw [S1 j hrj hjk b hbj, mul_zero, add_zero]
      exact h3 b hrb hbm
    · have hbj : b = j := Fin.ext (by omega)
      subst hbj
      have e := h2 b (by omega)
      rw [if_pos hjk] at e
      rw [S2 b hrj hjk, mul_one, ← add_assoc]
      rw [e]
      ring

theorem pivot_and_solve_fold (d : lu_deps n SM EM DM AM) (s : lu n SM EM DM AM)
    (h_drop : s.m_settings.drop_is_exact d.precise) (hrows : ∀ i, row_represents d s.m_U i)
    (r k : Fin n)
    (S1 : ∀ a : Fin n, r ≤ a → a < k → ∀ b, b < a → dense_of d s.m_U a b = 0)
    (S2 : ∀ a : Fin n, r ≤ a → a < k → dense_of d s.m_U a a = 1) :
    ∀ (t m : Nat), m + t = k.val → r.val ≤ m → ∀ w : indexed_vector n, w.covers →
      elimination_invariant (dense_of d s.m_U) r k m w.m_data →
      (((List.finRange n).filter (fun j => m ≤ j.val ∧ j < k)).foldl
        (fun (w : indexed_vector n) j =>
          let v := w.m_data j
          if v = 0 then w
          else
            let aj := d.U.adjust_row s.m_U j
            let row := d.U.get_row_values s.m_U aj
            row.foldl (pivot_and_solve_step d s k j v) w) w).covers ∧
      elimination_invariant (dense_of d s.m_U) r k k.val
        (((List.finRange n).filter (fun j => m ≤ j.val ∧ j < k)).foldl
          (fun (w : indexed_vector n) j =>
            let v := w.m_data j
            if v = 0 then w
            else
              let aj := d.U.adjust_row s.m_U j
              let row := d.U.get_row_values s.m_U aj
              row.foldl (pivot_and_solve_step d s k j v) w) w).m_data := by
  intro t
  induction t with
  | zero =>
    intro m hm _ w hw hI
    have hnil : (List.finRange n).filter (fun j => m ≤ j.val ∧ j < k) = [] := by
      apply List.filter_eq_nil_iff.2
      intro a _
      simp only [decide_eq_true_eq, Fin.lt_def]
      omega
    rw [hnil]
    have : m = k.val := by omega
    subst this
    exact ⟨hw, hI⟩
  | succ t ih =>
    intro m hm hrm w hw hI
    have hmk : m < k.val := by omega
    rw [filter_interval_cons m k hmk]
    simp only [List.foldl_cons]
    apply ih (m + 1) (by omega) (by omega)
    · split
      · exact hw
      · exact foldl_covers_of_step _ (fun w a h => pivot_and_solve_step_covers d s k _ _ w a h) _ _ hw
    · have hdata : (if w.m_data ⟨m, lt_trans hmk k.isLt⟩ = 0 then w
          else (d.U.get_row_values s.m_U (d.U.adjust_row s.m_U ⟨m, lt_trans hmk k.isLt⟩)).foldl
            (pivot_and_solve_step d s k ⟨m, lt_trans hmk k.isLt⟩
              (w.m_data ⟨m, lt_trans hmk k.isLt⟩)) w).m_data
          = fun c => w.m_data c + (if c = (⟨m, lt_trans hmk k.isLt⟩ : Fin n) then 0
              else (if c < k then -(w.m_data ⟨m, lt_trans hmk k.isLt⟩)
                else w.m_data ⟨m, lt_trans hmk k.isLt⟩)
                * dense_of d s.m_U ⟨m, lt_trans hmk k.isLt⟩ c) := by
        by_cases hv : w.m_data ⟨m, lt_trans hmk k.isLt⟩ = 0
        · rw [if_pos hv]
          funext c
          simp [hv]
        · rw [if_neg hv]
          exact pivot_row_fold_data d s h_drop k _ _ (hrows _) w
      simp only [] at hdata ⊢
      rw [hdata]
      exact elimination_step (dense_of d s.m_U) r k m hrm hmk w.m_data S1 S2 hI

/-- The row elimination of lines 837-838, on a matrix whose rows `r..k-1` are upper
triangular with unit diagonal and whose row `k` is zero left of column `r`: the work
vector holds the multipliers left of `k` and the combined row from `k` on. -/
theorem row_elimination_result (d : lu_deps n SM EM DM AM) (s : lu n SM EM DM AM)
    (h_drop : s.m_settings.drop_is_exact d.precise) (hrows : ∀ i, row_represents d s.m_U i)
    (r k : Fin n) (hrk : r < k)
    (S1 : ∀ a : Fin n, r ≤ a → a < k → ∀ b, b < a → dense_of d s.m_U a b = 0)
    (S2 : ∀ a : Fin n, r ≤ a → a < k → dense_of d s.m_U a a = 1)
    (S3 : ∀ b : Fin n, b < r → dense_of d s.m_U k b = 0)
    (h_work : ∀ i, s.m_row_eta_work_vector.m_data i = 0) :
    (pivot_and_solve_the_system d (scan_last_row_to_work_vector d s k) r
        k).m_row_eta_work_vector.covers ∧
    (∀ b : Fin n, b < r →
      (pivot_and_solve_the_system d (scan_last_row_to_work_vector d s k) r
        k).m_row_eta_work_vector.m_data b = 0) ∧
    (∀ b : Fin n, k ≤ b →
      (pivot_and_solve_the_system d (scan_last_row_to_work_vector d s k) r
        k).m_row_eta_work_vector.m_data b
        = dense_of d s.m_U k b + ∑ c, (if c < k then
            (pivot_and_solve_the_system d (scan_last_row_to_work_vector d s k) r
              k).m_row_eta_work_vector.m_data c else 0) * dense_of d s.m_U c b) ∧
    (∀ b : Fin n, b < k →
      dense_of d s.m_U k b + (∑ c, (if c < k then
            (pivot_and_solve_the_system d (scan_last_row_to_work_vector d s k) r
              k).m_row_eta_work_vector.m_data c else 0) * dense_of d s.m_U c b) = 0) := by
  have hcov0 : s.m_row_eta_work_vector.covers := fun i hi => absurd (h_work i) hi
  have hW0 := scan_last_row_data d s k (hrows k) h_work
  have hI0 : elimination_invariant (dense_of d s.m_U) r k r.val
      (scan_last_row_to_work_vector d s k).m_row_eta_work_vector.m_data := by
    rw [hW0]
    refine ⟨?_, ?_, ?_⟩
    · intro b hb
      beta_reduce
      rw [if_pos (lt_trans hb hrk), S3 b hb, neg_zero]
    · intro b hb
      beta_reduce
      have : (∑ c : Fin n, if r ≤ c ∧ c.val < r.val then
          (if c < k then -dense_of d s.m_U k c else dense_of d s.m_U k c) * dense_of d s.m_U c b
          else 0) = 0 := by
        apply Finset.sum_eq_zero
        intro c _
        have : ¬ (r ≤ c ∧ c.val < r.val) := by rw [Fin.le_def]; omega
        rw [if_neg this]
      rw [this, add_zero]
      split <;> ring
    · intro b hrb hb
      rw [Fin.le_def] at hrb
      omega
  have hfold := pivot_and_solve_fold d (scan_last_row_to_work_vector d s k) h_drop hrows r k
    S1 S2 (k.val - r.val) r.val (by rw [Fin.lt_def] at hrk; omega) (le_refl _)
    (scan_last_row_to_work_vector d s k).m_row_eta_work_vector
    (scan_last_row_covers d s k hcov0) hI0
  have hlist : (List.finRange n).filter (fun j => r ≤ j ∧ j < k)
      = (List.finRange n).filter (fun j => r.val ≤ j.val ∧ j < k) := by
    rfl
  have hsys : (pivot_and_solve_the_system d (scan_last_row_to_work_vector d s k) r
      k).m_row_eta_work_vector
      = ((List.finRange n).filter (fun j => r.val ≤ j.val ∧ j < k)).foldl
        (fun (w : indexed_vector n) j =>
          let v := w.m_data j
          if v = 0 then w
          else
            let aj := d.U.adjust_row (scan_last_row_to_work_vector d s k).m_U j
            let row := d.U.get_row_values (scan_last_row_to_work_vector d s k).m_U aj
            row.foldl (pivot_and_solve_step d (scan_last_row_to_work_vector d s k) k j v) w)
        (scan_last_row_to_work_vector d s k).m_row_eta_work_vector := by
    unfold pivot_and_solve_the_system
    simp only []
    rw [hlist]
  rw [hsys]
  obtain ⟨hcov, hI1, hI2, hI3⟩ := hfold
  generalize ((List.finRange n).filter (fun j => r.val ≤ j.val ∧ j < k)).foldl
        (fun (w : indexed_vector n) j =>
          let v := w.m_data j
          if v = 0 then w
          else
            let aj := d.U.adjust_row (scan_last_row_to_work_vector d s k).m_U j
            let row := d.U.get_row_values (scan_last_row_to_work_vector d s k).m_U aj
            row.foldl (pivot_and_solve_step d (scan_last_row_to_work_vector d s k) k j v) w)
        (scan_last_row_to_work_vector d s k).m_row_eta_work_vector = w at hcov hI1 hI2 hI3 ⊢
  have hU : (scan_last_row_to_work_vector d s k).m_U = s.m_U := rfl
  rw [hU] at hI2 hI3
  have hsum : ∀ b : Fin n,
      (∑ c, if r ≤ c ∧ c.val < k.val then w.m_data c * dense_of d s.m_U c b else 0)
        = ∑ c, (if c < k then w.m_data c else 0) * dense_of d s.m_U c b := by
    intro b
    apply Finset.sum_congr rfl
    intro c _
    by_cases hck : c < k
    · by_cases hrc : r ≤ c
      · simp [hck, hrc, Fin.lt_def.1 hck]
      · have : c < r := not_le.1 hrc
        simp [hck, hrc, hI1 c this]
    · have : ¬ c.val < k.val := fun h => hck (Fin.lt_def.2 h)
      simp [hck, this]
  refine ⟨hcov, hI1, ?_, ?_⟩
  · intro b hb
    have e := hI2 b (Fin.le_def.1 hb)
    rw [if_neg (not_lt.2 hb), one_mul, hsum b] at e
    exact e
  · intro b hb
    rw [← hsum b]
    by_cases hrb : r ≤ b
    · exact hI3 b hrb (Fin.lt_def.1 hb)
    · have hbr : b < r := not_le.1 hrb
      have : (∑ c, if r ≤ c ∧ c.val < k.val then w.m_data c * dense_of d s.m_U c b else 0)
          = 0 := by
        apply Finset.sum_eq_zero
        intro c _
        by_cases hc : r ≤ c ∧ c.val < k.val
        · rw [if_pos hc, S1 c hc.1 (Fin.lt_def.2 hc.2) b (lt_of_lt_of_le hbr hc.1), mul_zero]
        · rw [if_neg hc]
      rw [this, add_zero]
      exact S3 b hbr

theorem extract_fold {precise : Bool} (st : lp_settings) (h_drop : st.drop_is_exact precise) (k : Fin n)
    (l : List (Fin n)) (data0 : Vec n) (ret0 : row_eta_matrix n) :
    (l.foldl
      (fun (r : Vec n × row_eta_matrix n) j =>
        if j < k then
          let v := r.1 j
          if v ≠ 0 then
            let ret :=
              if !st.abs_val_is_smaller_than_drop_tolerance precise v then
                { r.2 with m_row_vector := r.2.m_row_vector ++ [(j, v)] }
              else r.2
            (Function.update r.1 j 0, ret)
          else r
        else r) (data0, ret0)).1
      = (fun c => if c < k ∧ c ∈ l then 0 else data0 c) ∧
    (l.foldl
      (fun (r : Vec n × row_eta_matrix n) j =>
        if j < k then
          let v := r.1 j
          if v ≠ 0 then
            let ret :=
              if !st.abs_val_is_smaller_than_drop_tolerance precise v then
                { r.2 with m_row_vector := r.2.m_row_vector ++ [(j, v)] }
              else r.2
            (Function.update r.1 j 0, ret)
          else r
        else r) (data0, ret0)).2.m_row = ret0.m_row ∧
    ∀ c, (((l.foldl
      (fun (r : Vec n × row_eta_matrix n) j =>
        if j < k then
          let v := r.1 j
          if v ≠ 0 then
            let ret :=
              if !st.abs_val_is_smaller_than_drop_tolerance precise v then
                { r.2 with m_row_vector := r.2.m_row_vector ++ [(j, v)] }
              else r.2
            (Function.update r.1 j 0, ret)
          else r
        else r) (data0, ret0)).2.m_row_vector.filter (fun e => e.1 = c)).map Prod.snd).sum
      = ((ret0.m_row_vector.filter (fun e => e.1 = c)).map Prod.snd).sum
        + (if c < k ∧ c ∈ l then data0 c else 0) := by
  induction l generalizing data0 ret0 with
  | nil => simp
  | cons a l ih =>
    simp only [List.foldl_cons]
    by_cases hak : a < k
    · by_cases hv : data0 a = 0
      · simp only [hak, if_true, hv, ne_eq, not_true_eq_false, if_false]
        obtain ⟨i1, i2, i3⟩ := ih data0 ret0
        refine ⟨?_, i2, ?_⟩
        · rw [i1]
          funext c
          by_cases hca : c = a
          · subst hca
            simp [hv]
          · simp [hca]
        · intro c
          rw [i3 c]
          by_cases hca : c = a
          · subst hca
            simp [hv]
          · simp [hca]
      · have hnd : st.abs_val_is_smaller_than_drop_tolerance precise (data0 a) = false := by
          by_contra hd
          exact hv (h_drop _ (by simpa using hd))
        simp only [hak, if_true, hv, ne_eq, not_false_eq_true, hnd, Bool.not_false]
        obtain ⟨i1, i2, i3⟩ := ih (Function.update data0 a 0)
          { ret0 with m_row_vector := ret0.m_row_vector ++ [(a, data0 a)] }
        refine ⟨?_, i2, ?_⟩
        · rw [i1]
          funext c
          by_cases hca : c = a
          · subst hca
            simp [hak]
          · simp [hca, Function.update_noteq hca]
        · intro c
          rw [i3 c]
          by_cases hca : c = a
          · subst hca
            simp [hak, List.filter_append, List.filter_cons]
          · have hac : ¬ a = c := fun e => hca e.symm
            simp [hca, hac, Function.update_noteq hca, List.filter_append, List.filter_cons]
    · simp only [hak, if_false]
      obtain ⟨i1, i2, i3⟩ := ih data0 ret0
      refine ⟨?_, i2, ?_⟩
      · rw [i1]
        funext c
        by_cases hca : c = a
        · subst hca
          simp [hak]
        · simp [hca]
      · intro c
        rw [i3 c]
        by_cases hca : c = a
        · subst hca
          simp [hak]
        · simp [hca]

theorem init_get_elem : (permutation_matrix.init : permutation_matrix n).get_elem = 1 := by
  ext a b
  simp [permutation_matrix.get_elem, permutation_matrix.init, Matrix.one_apply]

theorem init_is_permutation : (permutation_matrix.init : permutation_matrix n).is_permutation :=
  Function.bijective_id

/-- Multiplying by the matrix of a `one_elem_on_diag` from the left divides one row. -/
theorem one_elem_mul (l : one_elem_on_diag n) (X : Mat n) :
    one_elem_dense l * X = fun a b => if a = l.m_i then X a b / l.m_val else X a b := by
  funext a b
  simp only [Matrix.mul_apply, one_elem_dense, one_elem_on_diag.get_elem,
    one_elem_on_diag.m_one_over_val]
  rw [Finset.sum_eq_single a]
  · by_cases h : a = l.m_i
    · simp [h, div_eq_inv_mul]
    · simp [h]
  · intro c _ hne
    simp [Ne.symm hne]
  · simp

/-- Multiplying by the dense form of a row-eta matrix from the left adds a combination of
the rows to row `m_row`. -/
theorem row_eta_mul (r : row_eta_matrix n) (X : Mat n) (a b : Fin n) :
    (r.dense_elem * X) a b
      = X a b + (if a = r.m_row then
          ∑ c, ((r.m_row_vector.filter (fun e => e.1 = c)).map Prod.snd).sum * X c b else 0) := by
  simp only [Matrix.mul_apply, row_eta_matrix.dense_elem, add_mul, Finset.sum_add_distrib]
  congr 1
  · rw [Finset.sum_eq_single a]
    · simp
    · intro c _ hne
      simp [Ne.symm hne]
    · simp
  · by_cases h : a = r.m_row
    · simp [h]
    · simp [h]

/-- The rotation keeps the product: from `L = Q·V·R`, `P·X = V·P`, `Q′ = Q·P` and
`P·R′ = R` follows `L = Q′·X·R′`. -/
theorem rotation_identity (L Q V R P X Q' R' : Mat n)
    (h1 : L = Q * (V * R)) (hX : P * X = V * P) (hQ : Q' = Q * P) (hR : P * R' = R) :
    L = Q' * (X * R') := by
  rw [h1, ← hR, hQ, ← Matrix.mul_assoc V, ← hX]
  simp only [Matrix.mul_assoc]

/-- A matrix conjugated by `Q′`, `Ē·Q′ = Q′·E`, moves through `Q′` onto `U`. -/
theorem conjugate_identity (L Q' X R' E E' : Mat n)
    (h : L = Q' * (X * R')) (hE : E' * Q' = Q' * E) :
    E' * L = Q' * (E * X * R') := by
  rw [h, ← Matrix.mul_assoc E', hE]
  simp only [Matrix.mul_assoc]

theorem get_left_side_append (d : lu_deps n SM EM DM AM) (s s' : lu n SM EM DM AM)
    (basis : Fin n → Nat) (l : List (tail_matrix n EM DM))
    (hT : s'.m_tail = s.m_tail ++ l) (hA : s'.m_A = s.m_A) :
    get_left_side d s' basis
      = l.foldl (fun left_side lp => tail_matrix.get_elem d lp * left_side)
          (get_left_side d s basis) := by
  unfold get_left_side get_B
  rw [hT, hA, List.foldl_append]

/-- Splicing `w` into column `r` of `U`, with `R(r) = leaving` and `Q·w = T·a`: the tail
applied to the new basis matrix is `Q·V·R`. -/
theorem spliced_identity (d : lu_deps n SM EM DM AM) (hc : update_contract d)
    (s : lu n SM EM DM AM) (basis : Fin n → Nat) (w : Vec n) (leaving : Fin n)
    (entering : Nat)
    (h_id : get_left_side d s basis = get_right_side d s)
    (h_R : s.m_R.is_permutation)
    (h_w : s.m_Q.get_elem *ᵥ w
      = tail_product d s *ᵥ (fun i => d.A.get_elem s.m_A i entering)) :
    get_left_side d s (Function.update basis leaving entering)
      = s.m_Q.get_elem * (Matrix.of (fun a b =>
          if b = d.perm.apply_reverse s.m_R leaving then w a else dense_of d s.m_U a b)
            * s.m_R.get_elem) := by
  have hq := fun j => hc.apply_reverse_spec s.m_R j h_R
  ext i j
  rw [perm_mul_apply, mul_perm_apply s.m_R (d.perm.apply_reverse s.m_R) hq h_R.1]
  rw [get_left_side_eq]
  by_cases hj : j = leaving
  · subst hj
    rw [Matrix.of_apply, if_pos rfl]
    have e1 := congrFun h_w i
    simp only [Matrix.mulVec, Matrix.dotProduct] at e1
    simp only [Matrix.mul_apply, get_B, Function.update_same]
    rw [← e1]
    simp [permutation_matrix.get_elem]
  · have hne : d.perm.apply_reverse s.m_R j ≠ d.perm.apply_reverse s.m_R leaving := by
      intro e
      apply hj
      rw [← hq j, e, hq leaving]
    rw [Matrix.of_apply, if_neg hne]
    have e2 := congrFun (congrFun h_id i) j
    rw [get_left_side_eq] at e2
    unfold get_right_side at e2
    rw [perm_mul_apply, mul_perm_apply s.m_R (d.perm.apply_reverse s.m_R) hq h_R.1] at e2
    rw [← show U_dense d s = dense_of d s.m_U from rfl, ← e2]
    simp only [Matrix.mul_apply, get_B, Function.update_noteq hj]

/-- The fields of the state after `calculate_r_wave_and_update_U` for a valid bump: the
rotation is `r_wave_map`, the new `U` is `P⁻¹·V·P`, stated as `P·U′ = V·P`. -/
theorem calculate_r_wave_fields (d : lu_deps n SM EM DM AM) (hc : update_contract d)
    (s : lu n SM EM DM AM) (r k : Fin n) (hle : r ≤ k)
    (hinit : s.m_r_wave = permutation_matrix.init) :
    (calculate_r_wave_and_update_U d s r k).m_r_wave.m_permutation = r_wave_map r k ∧
    (calculate_r_wave_and_update_U d s r k).m_r_wave.get_elem
        * dense_of d (calculate_r_wave_and_update_U d s r k).m_U
      = dense_of d s.m_U * (calculate_r_wave_and_update_U d s r k).m_r_wave.get_elem ∧
    (calculate_r_wave_and_update_U d s r k).m_A = s.m_A ∧
    (calculate_r_wave_and_update_U d s r k).m_row_eta_work_vector = s.m_row_eta_work_vector ∧
    (calculate_r_wave_and_update_U d s r k).m_status = s.m_status ∧
    (calculate_r_wave_and_update_U d s r k).m_Q = s.m_Q ∧
    (calculate_r_wave_and_update_U d s r k).m_R = s.m_R ∧
    (calculate_r_wave_and_update_U d s r k).m_tail = s.m_tail ∧
    (calculate_r_wave_and_update_U d s r k).m_settings = s.m_settings := by
  unfold calculate_r_wave_and_update_U
  rw [if_neg (not_lt.2 hle)]
  by_cases hrk : r = k
  · rw [if_pos hrk]
    subst hrk
    refine ⟨?_, ?_, rfl, rfl, rfl, rfl, rfl, rfl, rfl⟩
    · rw [hinit]
      funext i
      apply Fin.ext
      rw [r_wave_map_val]
      simp only [permutation_matrix.init]
      split_ifs <;> omega
    · rw [hinit, init_get_elem, Matrix.one_mul, Matrix.mul_one]
  · rw [if_neg hrk]
    simp only []
    rw [hinit]
    have hperm := r_wave_closed_form r k
    refine ⟨hperm, ?_, ?_⟩
    swap
    · simp
    have hbij : permutation_matrix.is_permutation
        (((List.finRange n).filter (fun i => r < i ∧ i ≤ k)).foldl
          (fun (r_wave : permutation_matrix n) i => r_wave.set i (index_pred i))
          ((permutation_matrix.init : permutation_matrix n).set r k)) := by
      unfold permutation_matrix.is_permutation
      rw [hperm]
      exact r_wave_map_bijective r k hle
    rw [hc.multiply_from_left_with_reverse_elem _ _ hbij, hc.multiply_from_right_elem]

/-- The entries of the rotated matrix: `X(a, b) = V(q a, q b)` for the inverse `q` of the
rotation. -/
theorem rotated_elem (V X : Mat n) (p : permutation_matrix n) (r k : Fin n) (hrk : r ≤ k)
    (hp : p.m_permutation = r_wave_map r k)
    (hX : p.get_elem * X = V * p.get_elem) (a b : Fin n) :
    X a b = V (r_wave_inverse r k a) (r_wave_inverse r k b) := by
  have hq : ∀ j, p.m_permutation (r_wave_inverse r k j) = j := by
    intro j
    rw [hp]
    exact r_wave_map_inverse r k hrk j
  have hinj : Function.Injective p.m_permutation := by
    rw [hp]
    exact (r_wave_map_bijective r k hrk).1
  have e := congrFun (congrFun hX (r_wave_inverse r k a)) b
  rw [perm_mul_apply, mul_perm_apply p (r_wave_inverse r k) hq hinj, hq] at e
  exact e

/-- The shape of the rotated matrix: off row `k` it is upper triangular with unit
diagonal, and row `k` is zero left of the bump. -/
theorem rotated_rows (U V X : Mat n) (r k : Fin n) (hrk : r ≤ k)
    (h_tri : is_upper_triangular U) (h_unit : ∀ i, U i i = 1)
    (hV : ∀ a b, b ≠ r → V a b = U a b) (hlow : ∀ a, k < a → V a r = 0)
    (hX : ∀ a b, X a b = V (r_wave_inverse r k a) (r_wave_inverse r k b)) :
    (∀ a, a ≠ k → ∀ b, b < a → X a b = 0) ∧ (∀ a, a ≠ k → X a a = 1) ∧
      (∀ b, b < r → X k b = 0) := by
  have hrk' := Fin.le_def.1 hrk
  refine ⟨?_, ?_, ?_⟩
  · intro a hak b hba
    have hak' : a.val ≠ k.val := fun e => hak (Fin.ext e)
    have hba' := Fin.lt_def.1 hba
    rw [hX]
    by_cases hbk : b = k
    · subst hbk
      have e1 : r_wave_inverse r b b = r := by
        apply Fin.ext
        rw [r_wave_inverse_val]
        split_ifs <;> omega
      have e2 : r_wave_inverse r b a = a := by
        apply Fin.ext
        rw [r_wave_inverse_val]
        split_ifs <;> omega
      rw [e1, e2]
      exact hlow a hba
    · have hbk' : b.val ≠ k.val := fun e => hbk (Fin.ext e)
      have hne : r_wave_inverse r k b ≠ r := by
        intro e
        have := congrArg Fin.val e
        rw [r_wave_inverse_val] at this
        split_ifs at this <;> omega
      rw [hV _ _ hne]
      apply h_tri
      rw [Fin.lt_def, r_wave_inverse_val, r_wave_inverse_val]
      split_ifs <;> omega
  · intro a hak
    have hak' : a.val ≠ k.val := fun e => hak (Fin.ext e)
    have hne : r_wave_inverse r k a ≠ r := by
      intro e
      have := congrArg Fin.val e
      rw [r_wave_inverse_val] at this
      split_ifs at this <;> omega
    rw [hX, hV _ _ hne]
    exact h_unit _
  · intro b hbr
    have hbr' := Fin.lt_def.1 hbr
    have e1 : r_wave_inverse r k k = r := by
      apply Fin.ext
      rw [r_wave_inverse_val]
      split_ifs <;> omega
    have e2 : r_wave_inverse r k b = b := by
      apply Fin.ext
      rw [r_wave_inverse_val]
      split_ifs <;> omega
    rw [hX, e1, e2, hV _ _ (ne_of_lt hbr)]
    exact h_tri r b hbr

/-- The last loop of `get_row_eta_matrix_and_set_row_vector` (lines 854-864) when no
value is dropped: the entries left of `k` move to the row-eta matrix and are zeroed. -/
theorem extract_row_eta_fields (d : lu_deps n SM EM DM AM) (s : lu n SM EM DM AM)
    (r k : Fin n)
    (h_drop : s.m_settings.drop_is_exact d.precise) (hcov : s.m_row_eta_work_vector.covers) :
    (extract_row_eta d s r k).1.m_row_eta_work_vector.m_data
        = (fun c => if c < k then 0 else s.m_row_eta_work_vector.m_data c) ∧
    (extract_row_eta d s r k).1.m_row_eta_work_vector.covers ∧
    (extract_row_eta d s r k).2.m_row = k ∧
    ∀ c, (((extract_row_eta d s r k).2.m_row_vector.filter (fun e => e.1 = c)).map Prod.snd).sum
      = if c < k then s.m_row_eta_work_vector.m_data c else 0 := by
  obtain ⟨h1, h2, h3⟩ := extract_fold s.m_settings h_drop k s.m_row_eta_work_vector.m_index
    s.m_row_eta_work_vector.m_data { m_row_start := r, m_row := k, m_row_vector := [] }
  have hdata : (extract_row_eta d s r k).1.m_row_eta_work_vector.m_data
      = (fun c => if c < k then 0 else s.m_row_eta_work_vector.m_data c) := by
    unfold extract_row_eta
    simp only []
    rw [h1]
    funext c
    by_cases hck : c < k
    · by_cases hmem : c ∈ s.m_row_eta_work_vector.m_index
      · simp [hck, hmem]
      · have : s.m_row_eta_work_vector.m_data c = 0 := by
          by_contra hne
          exact hmem (hcov c hne)
        simp [hck, hmem, this]
    · simp [hck]
  refine ⟨hdata, ?_, ?_, ?_⟩
  · intro i hi
    rw [hdata] at hi
    beta_reduce at hi
    by_cases hik : i < k
    · rw [if_pos hik] at hi
      exact absurd rfl hi
    · rw [if_neg hik] at hi
      exact hcov i hi
  · unfold extract_row_eta
    simp only []
    rw [h2]
  · intro c
    unfold extract_row_eta
    simp only []
    rw [h3 c]
    by_cases hck : c < k
    · by_cases hmem : c ∈ s.m_row_eta_work_vector.m_index
      · simp [hck, hmem]
      · have : s.m_row_eta_work_vector.m_data c = 0 := by
          by_contra hne
          exact hmem (hcov c hne)
        simp [hck, hmem, this]
    · simp [hck]

/-- For a bump that is not empty, `get_row_eta_matrix_and_set_row_vector` either sets the
status `Degenerated` or returns the row-eta matrix extracted after the elimination. -/
theorem get_row_eta_of_not_degenerated (d : lu_deps n SM EM DM AM) (s : lu n SM EM DM AM)
    (r k : Fin n) (p : ℚ) (hrk : r ≠ k)
    (h : (get_row_eta_matrix_and_set_row_vector d s r k p).1.m_status
      ≠ LU_status.Degenerated) :
    get_row_eta_matrix_and_set_row_vector d s r k p
      = ((extract_row_eta d (pivot_and_solve_the_system d
            (scan_last_row_to_work_vector d s k) r k) r k).1,
          some (extract_row_eta d (pivot_and_solve_the_system d
            (scan_last_row_to_work_vector d s k) r k) r k).2) := by
  unfold get_row_eta_matrix_and_set_row_vector at h ⊢
  rw [if_neg hrk] at h ⊢
  simp only [] at h ⊢
  split
  · split
    · rename_i h1 h2
      rw [if_pos h1, if_pos h2] at h
      exact absurd rfl h
    · rfl
  · rfl

/-- `calculate_Lwave_Pwave_for_last_row` keeps the identity: the scaling matrix is
conjugated by `Q` and pushed, and the row of `U` is divided. -/
theorem last_row_identity (d : lu_deps n SM EM DM AM) (hc : update_contract d)
    (s : lu n SM EM DM AM) (basis : Fin n → Nat) (k : Fin n) (t : ℚ)
    (h_drop : s.m_settings.drop_is_exact d.precise) (hQ : s.m_Q.is_permutation)
    (h_id : get_left_side d s basis = get_right_side d s) :
    get_left_side d (calculate_Lwave_Pwave_for_last_row d s k t) basis
        = get_right_side d (calculate_Lwave_Pwave_for_last_row d s k t) ∧
      dense_of d (calculate_Lwave_Pwave_for_last_row d s k t).m_U
        = (fun a b => if a = k then dense_of d s.m_U a b / t else dense_of d s.m_U a b) ∧
      (calculate_Lwave_Pwave_for_last_row d s k t).m_status = s.m_status := by
  have hT : (calculate_Lwave_Pwave_for_last_row d s k t).m_tail
      = s.m_tail ++ [tail_matrix.one_elem
          (d.one_elem_conjugate_by_permutation { m_i := k, m_val := t } s.m_Q)] := by
    unfold calculate_Lwave_Pwave_for_last_row push_matrix_to_tail
    simp only [List.dropLast_concat]
  have hU : dense_of d (calculate_Lwave_Pwave_for_last_row d s k t).m_U
      = (fun a b => if a = k then dense_of d s.m_U a b / t else dense_of d s.m_U a b) := by
    have := hc.divide_row_elem s.m_U k t s.m_settings h_drop
    exact this
  refine ⟨?_, hU, rfl⟩
  rw [get_left_side_append d s _ basis _ hT rfl]
  simp only [List.foldl_cons, List.foldl_nil]
  change one_elem_dense (d.one_elem_conjugate_by_permutation { m_i := k, m_val := t } s.m_Q)
      * get_left_side d s basis
    = s.m_Q.get_elem * (dense_of d (calculate_Lwave_Pwave_for_last_row d s k t).m_U
        * s.m_R.get_elem)
  rw [hU, h_id]
  have hD := hc.one_elem_conjugate { m_i := k, m_val := t } s.m_Q hQ
  have hm := one_elem_mul { m_i := k, m_val := t } (dense_of d s.m_U)
  simp only [] at hm
  rw [← hm]
  change _ * (s.m_Q.get_elem * (dense_of d s.m_U * s.m_R.get_elem)) = _
  rw [← Matrix.mul_assoc, hD]
  simp only [Matrix.mul_assoc]

/-- The diagonal step `calculate_Lwave_Pwave_for_bump` (lines 892-908) when it ends with
status `OK`: the identity holds for the new row `k` of `U`, divided by the diagonal
element. -/
theorem bump_identity (d : lu_deps n SM EM DM AM) (hc : update_contract d)
    (s : lu n SM EM DM AM) (basis : Fin n → Nat) (r k : Fin n) (Y : Mat n)
    (h_drop : s.m_settings.drop_is_exact d.precise) (hQ : s.m_Q.is_permutation)
    (hcov : s.m_row_eta_work_vector.covers)
    (hY : Y = if r < k then
        Matrix.of (fun a b => if a = k then s.m_row_eta_work_vector.m_data b
          else dense_of d s.m_U a b)
      else dense_of d s.m_U)
    (hLS : get_left_side d s basis = s.m_Q.get_elem * (Y * s.m_R.get_elem))
    (h_ok : (calculate_Lwave_Pwave_for_bump d s r k).m_status = LU_status.OK) :
    get_left_side d (calculate_Lwave_Pwave_for_bump d s r k) basis
        = get_right_side d (calculate_Lwave_Pwave_for_bump d s r k) ∧
      ∃ t : ℚ, dense_of d (calculate_Lwave_Pwave_for_bump d s r k).m_U
        = fun a b => if a = k then Y a b / t else Y a b := by
  unfold calculate_Lwave_Pwave_for_bump at h_ok ⊢
  by_cases hlt : r < k
  · rw [if_pos hlt] at hY h_ok ⊢
    simp only [] at h_ok ⊢
    by_cases htest : s.m_settings.abs_val_is_smaller_than_pivot_tolerance
        (s.m_row_eta_work_vector.m_data k) = true
    · rw [if_pos htest] at h_ok
      exact absurd h_ok (by simp [set_status])
    · rw [if_neg htest]
      have hU : dense_of d (d.U.set_row_from_work_vector_and_clean_work_vector_not_adjusted
          s.m_U (d.U.adjust_row s.m_U k) s.m_row_eta_work_vector s.m_settings).1 = Y := by
        rw [hc.set_row_elem s.m_U k s.m_row_eta_work_vector s.m_settings h_drop hcov, hY]
        rfl
      have h := last_row_identity d hc
        { s with
          m_U := (d.U.set_row_from_work_vector_and_clean_work_vector_not_adjusted s.m_U
            (d.U.adjust_row s.m_U k) s.m_row_eta_work_vector s.m_settings).1
          m_row_eta_work_vector :=
            (d.U.set_row_from_work_vector_and_clean_work_vector_not_adjusted s.m_U
              (d.U.adjust_row s.m_U k) s.m_row_eta_work_vector s.m_settings).2 }
        basis k (s.m_row_eta_work_vector.m_data k) h_drop hQ
        (by
          change get_left_side d s basis = s.m_Q.get_elem
            * (dense_of d (d.U.set_row_from_work_vector_and_clean_work_vector_not_adjusted
                s.m_U (d.U.adjust_row s.m_U k) s.m_row_eta_work_vector s.m_settings).1
              * s.m_R.get_elem)
          rw [hU, hLS])
      refine ⟨h.1, s.m_row_eta_work_vector.m_data k, ?_⟩
      rw [h.2.1]
      simp only []
      rw [hU]
  · rw [if_neg hlt] at hY h_ok ⊢
    simp only [] at h_ok ⊢
    by_cases htest : s.m_settings.abs_val_is_smaller_than_pivot_tolerance
        (d.U.elem s.m_U k k) = true
    · rw [if_pos htest] at h_ok
      exact absurd h_ok (by simp [set_status])
    · rw [if_neg htest]
      have h := last_row_identity d hc s basis k (d.U.elem s.m_U k k) h_drop hQ
        (by
          change get_left_side d s basis = s.m_Q.get_elem
            * (dense_of d s.m_U * s.m_R.get_elem)
          rw [hLS, hY])
      refine ⟨h.1, d.U.elem s.m_U k k, ?_⟩
      rw [h.2.1, hY]

/-- The fields of the state after lines 881-886 with a row-eta matrix. -/
theorem compose_fields (d : lu_deps n SM EM DM AM) (hc : update_contract d)
    (s : lu n SM EM DM AM) (e : row_eta_matrix n)
    (hQ : s.m_Q.is_permutation) (hP : s.m_r_wave.is_permutation) :
    (replace_column_compose d s (some e)).m_Q.get_elem
        = s.m_Q.get_elem * s.m_r_wave.get_elem ∧
      s.m_r_wave.get_elem * (replace_column_compose d s (some e)).m_R.get_elem
        = s.m_R.get_elem ∧
      (replace_column_compose d s (some e)).m_Q.is_permutation ∧
      (replace_column_compose d s (some e)).m_tail
        = s.m_tail ++ [tail_matrix.row_eta (d.row_eta.conjugate_by_permutation e
            (replace_column_compose d s (some e)).m_Q)] ∧
      (replace_column_compose d s (some e)).m_U = s.m_U ∧
      (replace_column_compose d s (some e)).m_A = s.m_A ∧
      (replace_column_compose d s (some e)).m_settings = s.m_settings ∧
      (replace_column_compose d s (some e)).m_row_eta_work_vector
        = s.m_row_eta_work_vector :=
  ⟨hc.Q_multiply_elem s.m_Q s.m_r_wave, hc.R_multiply_elem s.m_R s.m_r_wave hP,
    hc.Q_multiply_is_permutation s.m_Q s.m_r_wave hQ hP, rfl, rfl, rfl, rfl, rfl⟩

/-- The fields of the state after lines 881-886 without a row-eta matrix. -/
theorem compose_fields_none (d : lu_deps n SM EM DM AM) (hc : update_contract d)
    (s : lu n SM EM DM AM)
    (hQ : s.m_Q.is_permutation) (hP : s.m_r_wave.is_permutation) :
    (replace_column_compose d s none).m_Q.get_elem
        = s.m_Q.get_elem * s.m_r_wave.get_elem ∧
      s.m_r_wave.get_elem * (replace_column_compose d s none).m_R.get_elem
        = s.m_R.get_elem ∧
      (replace_column_compose d s none).m_Q.is_permutation ∧
      (replace_column_compose d s none).m_tail = s.m_tail ∧
      (replace_column_compose d s none).m_U = s.m_U ∧
      (replace_column_compose d s none).m_A = s.m_A ∧
      (replace_column_compose d s none).m_settings = s.m_settings ∧
      (replace_column_compose d s none).m_row_eta_work_vector
        = s.m_row_eta_work_vector :=
  ⟨hc.Q_multiply_elem s.m_Q s.m_r_wave, hc.R_multiply_elem s.m_R s.m_r_wave hP,
    hc.Q_multiply_is_permutation s.m_Q s.m_r_wave hQ hP, rfl, rfl, rfl, rfl, rfl⟩

/-- Lines 875-886 of `replace_column` for a bump that is not empty, from the rotated
state: after the row elimination, the composition of the permutations and the push of the
conjugated row-eta matrix, the left side is `Q′·Y·R′` for `Y` the rotated matrix with row
`k` replaced by the work vector, which is zero left of `k`. -/
theorem row_eta_phase (d : lu_deps n SM EM DM AM) (hc : update_contract d)
    (s : lu n SM EM DM AM) (basis : Fin n → Nat) (r k : Fin n) (p : ℚ) (hrk : r < k)
    (V : Mat n)
    (h_drop : s.m_settings.drop_is_exact d.precise)
    (hQ : s.m_Q.is_permutation) (hP : s.m_r_wave.is_permutation)
    (h_work : ∀ i, s.m_row_eta_work_vector.m_data i = 0)
    (hL : get_left_side d s basis = s.m_Q.get_elem * (V * s.m_R.get_elem))
    (hPX : s.m_r_wave.get_elem * dense_of d s.m_U = V * s.m_r_wave.get_elem)
    (S1 : ∀ a : Fin n, r ≤ a → a < k → ∀ b, b < a → dense_of d s.m_U a b = 0)
    (S2 : ∀ a : Fin n, r ≤ a → a < k → dense_of d s.m_U a a = 1)
    (S3 : ∀ b : Fin n, b < r → dense_of d s.m_U k b = 0)
    (h_nd : (get_row_eta_matrix_and_set_row_vector d s r k p).1.m_status
      ≠ LU_status.Degenerated) :
    (replace_column_compose d (get_row_eta_matrix_and_set_row_vector d s r k p).1
        (get_row_eta_matrix_and_set_row_vector d s r k p).2).m_settings = s.m_settings ∧
    (replace_column_compose d (get_row_eta_matrix_and_set_row_vector d s r k p).1
        (get_row_eta_matrix_and_set_row_vector d s r k p).2).m_Q.is_permutation ∧
    (replace_column_compose d (get_row_eta_matrix_and_set_row_vector d s r k p).1
        (get_row_eta_matrix_and_set_row_vector d s r k p).2).m_row_eta_work_vector.covers ∧
    (∀ b, b < k →
      (replace_column_compose d (get_row_eta_matrix_and_set_row_vector d s r k p).1
        (get_row_eta_matrix_and_set_row_vector d s r k p).2).m_row_eta_work_vector.m_data b
        = 0) ∧
    (replace_column_compose d (get_row_eta_matrix_and_set_row_vector d s r k p).1
        (get_row_eta_matrix_and_set_row_vector d s r k p).2).m_U = s.m_U ∧
    get_left_side d
        (replace_column_compose d (get_row_eta_matrix_and_set_row_vector d s r k p).1
          (get_row_eta_matrix_and_set_row_vector d s r k p).2) basis
      = (replace_column_compose d (get_row_eta_matrix_and_set_row_vector d s r k p).1
          (get_row_eta_matrix_and_set_row_vector d s r k p).2).m_Q.get_elem
        * (Matrix.of (fun a b => if a = k then
              (replace_column_compose d (get_row_eta_matrix_and_set_row_vector d s r k p).1
                (get_row_eta_matrix_and_set_row_vector d s r k
                  p).2).m_row_eta_work_vector.m_data b
            else dense_of d s.m_U a b)
          * (replace_column_compose d (get_row_eta_matrix_and_set_row_vector d s r k p).1
              (get_row_eta_matrix_and_set_row_vector d s r k p).2).m_R.get_elem) := by
  rw [get_row_eta_of_not_degenerated d s r k p (ne_of_lt hrk) h_nd]
  simp only []
  obtain ⟨hcov3, R1, R2, R3⟩ := row_elimination_result d s h_drop
    (fun i => hc.row_values s.m_U i) r k hrk S1 S2 S3 h_work
  obtain ⟨hdata, hcov4, hrow, hsum⟩ := extract_row_eta_fields d
    (pivot_and_solve_the_system d (scan_last_row_to_work_vector d s k) r k) r k h_drop hcov3
  obtain ⟨cQ, cR, cQp, cT, cU, cA, cS, cW⟩ := compose_fields d hc
    (extract_row_eta d (pivot_and_solve_the_system d (scan_last_row_to_work_vector d s k) r k)
      r k).1
    (extract_row_eta d (pivot_and_solve_the_system d (scan_last_row_to_work_vector d s k) r k)
      r k).2 hQ hP
  refine ⟨cS, cQp, ?_, ?_, cU, ?_⟩
  · rw [cW]
    exact hcov4
  · intro b hb
    rw [cW, hdata]
    beta_reduce
    rw [if_pos hb]
  · rw [get_left_side_append d s _ basis _ cT cA]
    simp only [List.foldl_cons, List.foldl_nil]
    have hL2 := rotation_identity _ _ _ _ _ _ _ _ hL hPX cQ cR
    have hE := hc.row_eta_conjugate
      (extract_row_eta d (pivot_and_solve_the_system d (scan_last_row_to_work_vector d s k) r k)
        r k).2 _ cQp
    have h3 := conjugate_identity _ _ _ _ _ _ hL2 hE
    refine Eq.trans h3 ?_
    congr 2
    rw [hc.row_eta_elem]
    funext a b
    rw [row_eta_mul, hrow, Matrix.of_apply, cW, hdata]
    beta_reduce
    by_cases hak : a = k
    · subst hak
      rw [if_pos rfl, if_pos rfl]
      simp only [hsum]
      by_cases hb : b < a
      · rw [if_pos hb]
        exact R3 b hb
      · rw [if_neg hb]
        exact (R2 b (not_lt.1 hb)).symm
    · rw [if_neg hak, if_neg hak, add_zero]

/-- Lines 875-886 of `replace_column` for an empty bump, from the state after line 874:
no row-eta matrix is built and the permutations are composed with the identity. -/
theorem empty_bump_phase (d : lu_deps n SM EM DM AM) (hc : update_contract d)
    (s : lu n SM EM DM AM) (basis : Fin n → Nat) (k : Fin n) (p : ℚ)
    (V : Mat n)
    (hQ : s.m_Q.is_permutation) (hP : s.m_r_wave.is_permutation)
    (hL : get_left_side d s basis = s.m_Q.get_elem * (V * s.m_R.get_elem))
    (hPX : s.m_r_wave.get_elem * dense_of d s.m_U = V * s.m_r_wave.get_elem) :
    (replace_column_compose d (get_row_eta_matrix_and_set_row_vector d s k k p).1
        (get_row_eta_matrix_and_set_row_vector d s k k p).2).m_settings = s.m_settings ∧
    (replace_column_compose d (get_row_eta_matrix_and_set_row_vector d s k k p).1
        (get_row_eta_matrix_and_set_row_vector d s k k p).2).m_Q.is_permutation ∧
    (replace_column_compose d (get_row_eta_matrix_and_set_row_vector d s k k p).1
        (get_row_eta_matrix_and_set_row_vector d s k k p).2).m_row_eta_work_vector
      = s.m_row_eta_work_vector ∧
    (replace_column_compose d (get_row_eta_matrix_and_set_row_vector d s k k p).1
        (get_row_eta_matrix_and_set_row_vector d s k k p).2).m_U = s.m_U ∧
    get_left_side d
        (replace_column_compose d (get_row_eta_matrix_and_set_row_vector d s k k p).1
          (get_row_eta_matrix_and_set_row_vector d s k k p).2) basis
      = (replace_column_compose d (get_row_eta_matrix_and_set_row_vector d s k k p).1
          (get_row_eta_matrix_and_set_row_vector d s k k p).2).m_Q.get_elem
        * (dense_of d s.m_U
          * (replace_column_compose d (get_row_eta_matrix_and_set_row_vector d s k k p).1
              (get_row_eta_matrix_and_set_row_vector d s k k p).2).m_R.get_elem) := by
  have hg : get_row_eta_matrix_and_set_row_vector d s k k p = (s, none) := by
    unfold get_row_eta_matrix_and_set_row_vector
    rw [if_pos rfl]
  rw [hg]
  simp only []
  obtain ⟨cQ, cR, cQp, cT, cU, cA, cS, cW⟩ := compose_fields_none d hc s hQ hP
  refine ⟨cS, cQp, cW, cU, ?_⟩
  rw [get_left_side_append d s _ basis [] (by rw [cT, List.append_nil]) cA]
  simp only [List.foldl_nil]
  exact rotation_identity _ _ _ _ _ _ _ _ hL hPX cQ cR

/-- C3. For exact arithmetic: if the factorization identity holds for the basis, `U` is
upper triangular with unit diagonal, `Q` and `R` are permutations, the work vector is
clear, `w` is the entering column transformed by the tail and by `Q` reversed
(`Q·w = T·a`), and `replace_column` ends with status `OK`, then the identity holds for the
basis with the leaving column replaced by the entering one, and the new `U` is upper
triangular. -/
theorem replace_column_keeps_identity (d : lu_deps n SM EM DM AM) (s : lu n SM EM DM AM)
    (basis : Fin n → Nat) (p : ℚ) (w : indexed_vector n) (leaving : Fin n) (entering : Nat)
    (hc : update_contract d) (h_precise : d.precise = true)
    (h_id : get_left_side d s basis = get_right_side d s)
    (h_tri : is_upper_triangular (U_dense d s)) (h_unit : ∀ i, U_dense d s i i = 1)
    (h_Q : s.m_Q.is_permutation) (h_R : s.m_R.is_permutation)
    (h_work : ∀ i, s.m_row_eta_work_vector.m_data i = 0)
    (h_w : s.m_Q.get_elem *ᵥ w.m_data
      = tail_product d s *ᵥ (fun i => d.A.get_elem s.m_A i entering))
    (h_w_covers : w.covers)
    (h_ok : (replace_column d s p w leaving).m_status = LU_status.OK) :
    get_left_side d (replace_column d s p w leaving) (Function.update basis leaving entering)
        = get_right_side d (replace_column d s p w leaving) ∧
      is_upper_triangular (U_dense d (replace_column d s p w leaving)) := by
  have h_drop : s.m_settings.drop_is_exact d.precise := by
    rw [h_precise]
    exact drop_is_exact_of_precise _
  have h_reach : reaches_diagonal_step d s p w leaving := by
    intro hdeg
    have hst : (replace_column d s p w leaving).m_status = LU_status.Degenerated := by
      unfold replace_column
      simp only []
      rw [if_pos hdeg]
      exact hdeg
    rw [hst] at h_ok
    cases h_ok
  have hle : (replace_column_rotate d s w leaving).2.1
      ≤ (replace_column_rotate d s w leaving).2.2 := by
    by_contra hlt
    have := (replace_column_invalid_bump d s p w leaving (not_le.1 hlt)).1
    rw [this] at h_ok
    cases h_ok
  rw [replace_column_of_reaches d s p w leaving h_reach] at h_ok ⊢
  unfold reaches_diagonal_step at h_reach
  unfold replace_column_before_diagonal at h_ok ⊢
  simp only [get_status] at h_reach h_ok ⊢
  -- the state after line 874
  have hf : (replace_column_rotate d s w leaving).1.m_r_wave.m_permutation
        = r_wave_map (replace_column_rotate d s w leaving).2.1
            (replace_column_rotate d s w leaving).2.2 ∧
      (replace_column_rotate d s w leaving).1.m_r_wave.get_elem
          * dense_of d (replace_column_rotate d s w leaving).1.m_U
        = dense_of d (d.U.replace_column s.m_U (d.perm.apply_reverse s.m_R leaving) w
            s.m_settings) * (replace_column_rotate d s w leaving).1.m_r_wave.get_elem ∧
      (replace_column_rotate d s w leaving).1.m_A = s.m_A ∧
      (replace_column_rotate d s w leaving).1.m_row_eta_work_vector
        = s.m_row_eta_work_vector ∧
      (replace_column_rotate d s w leaving).1.m_status = s.m_status ∧
      (replace_column_rotate d s w leaving).1.m_Q = s.m_Q ∧
      (replace_column_rotate d s w leaving).1.m_R = s.m_R ∧
      (replace_column_rotate d s w leaving).1.m_tail = s.m_tail ∧
      (replace_column_rotate d s w leaving).1.m_settings = s.m_settings :=
    calculate_r_wave_fields d hc
      { s with
        m_refactor_counter := s.m_refactor_counter + 1
        m_U := d.U.replace_column s.m_U (d.perm.apply_reverse s.m_R leaving) w s.m_settings
        m_r_wave := permutation_matrix.init }
      (replace_column_rotate d s w leaving).2.1 (replace_column_rotate d s w leaving).2.2
      hle rfl
  obtain ⟨hp, hPX, fA, fW, -, fQ, fR, fT, fS⟩ := hf
  have hVe := hc.replace_column_elem s.m_U (d.perm.apply_reverse s.m_R leaving) w
    s.m_settings h_drop h_w_covers
  have hVU : ∀ a b, b ≠ (replace_column_rotate d s w leaving).2.1 →
      dense_of d (d.U.replace_column s.m_U (d.perm.apply_reverse s.m_R leaving) w
        s.m_settings) a b = U_dense d s a b := by
    intro a b hb
    rw [hVe]
    exact if_neg hb
  have hlow : ∀ a, (replace_column_rotate d s w leaving).2.2 < a →
      dense_of d (d.U.replace_column s.m_U (d.perm.apply_reverse s.m_R leaving) w
        s.m_settings) a (replace_column_rotate d s w leaving).2.1 = 0 :=
    fun a ha => hc.lowest_row_spec _ _ a ha
  have hL : get_left_side d (replace_column_rotate d s w leaving).1
        (Function.update basis leaving entering)
      = (replace_column_rotate d s w leaving).1.m_Q.get_elem
        * (dense_of d (d.U.replace_column s.m_U (d.perm.apply_reverse s.m_R leaving) w
            s.m_settings) * (replace_column_rotate d s w leaving).1.m_R.get_elem) := by
    rw [get_left_side_append d s _ _ [] (by rw [fT, List.append_nil]) fA, fQ, fR, hVe]
    exact spliced_identity d hc s basis w.m_data leaving entering h_id h_R h_w
  have hQ1 : (replace_column_rotate d s w leaving).1.m_Q.is_permutation := by
    rw [fQ]
    exact h_Q
  have hW1 : ∀ i, (replace_column_rotate d s w leaving).1.m_row_eta_work_vector.m_data i
      = 0 := by
    rw [fW]
    exact h_work
  have hD1 : (replace_column_rotate d s w leaving).1.m_settings.drop_is_exact d.precise := by
    rw [fS]
    exact h_drop
  clear hVe fA fW fQ fR fT fS
  generalize dense_of d (d.U.replace_column s.m_U (d.perm.apply_reverse s.m_R leaving) w
    s.m_settings) = V at hPX hVU hlow hL
  generalize replace_column_rotate d s w leaving = rot at *
  obtain ⟨s1, r, k⟩ := rot
  simp only [] at *
  have hP1 : s1.m_r_wave.is_permutation := by
    unfold permutation_matrix.is_permutation
    rw [hp]
    exact r_wave_map_bijective r k hle
  have hXe := rotated_elem V (dense_of d s1.m_U) s1.m_r_wave r k hle hp hPX
  obtain ⟨T1, T2, T3⟩ := rotated_rows (U_dense d s) V (dense_of d s1.m_U) r k hle h_tri
    h_unit hVU hlow hXe
  rcases lt_or_eq_of_le hle with hrk | hrk
  · obtain ⟨gS, gQ, gC, gZ, gU, gL⟩ := row_eta_phase d hc s1
      (Function.update basis leaving entering) r k p hrk V hD1 hQ1 hP1 hW1 hL hPX
      (fun a _ hak b hba => T1 a (ne_of_lt hak) b hba)
      (fun a _ hak => T2 a (ne_of_lt hak)) T3 h_reach
    obtain ⟨hid, t, hU⟩ := bump_identity d hc _ (Function.update basis leaving entering) r k
      _ (by rw [gS]; exact hD1) gQ gC (by rw [if_pos hrk, gU]) gL h_ok
    refine ⟨hid, ?_⟩
    intro a b hba
    change dense_of d _ a b = 0
    rw [hU]
    beta_reduce
    by_cases hak : a = k
    · subst hak
      rw [if_pos rfl, Matrix.of_apply, if_pos rfl, gZ b hba, zero_div]
    · rw [if_neg hak, Matrix.of_apply, if_neg hak]
      exact T1 a hak b hba
  · subst hrk
    obtain ⟨gS, gQ, gW, gU, gL⟩ := empty_bump_phase d hc s1
      (Function.update basis leaving entering) r p V hQ1 hP1 hL hPX
    obtain ⟨hid, t, hU⟩ := bump_identity d hc _ (Function.update basis leaving entering) r r
      _ (by rw [gS]; exact hD1) gQ
      (by rw [gW]; exact fun i hi => absurd (hW1 i) hi)
      (by rw [if_neg (lt_irrefl r), gU]) gL h_ok
    refine ⟨hid, ?_⟩
    intro a b hba
    change dense_of d _ a b = 0
    rw [hU]
    beta_reduce
    by_cases hak : a = r
    · subst hak
      rw [if_pos rfl, T3 b hba, zero_div]
    · rw [if_neg hak]
      exact T1 a hak b hba

theorem perm_inverse_spec (p : Fin n → Fin n) (hp : Function.Surjective p) (j : Fin n) :
    p (perm_inverse p j) = j := by
  unfold perm_inverse
  obtain ⟨k, hk⟩ := hp j
  cases h : (List.finRange n).find? (fun k => p k = j) with
  | none =>
    rw [List.find?_eq_none] at h
    have := h k (List.mem_finRange k)
    simp [hk] at this
  | some x =>
    have := List.find?_some h
    simpa using this

theorem perm_inverse_left (p : Fin n → Fin n) (hp : Function.Bijective p) (i : Fin n) :
    perm_inverse p (p i) = i :=
  hp.1 (perm_inverse_spec p hp.2 (p i))

theorem perm_inverse_eq_iff (p : Fin n → Fin n) (hp : Function.Bijective p) (a b : Fin n) :
    a = perm_inverse p b ↔ p a = b := by
  constructor
  · intro h
    rw [h, perm_inverse_spec p hp.2]
  · intro h
    rw [← h, perm_inverse_left p hp]

theorem perm_inverse_injective (p : Fin n → Fin n) (hp : Function.Bijective p) :
    Function.Injective (perm_inverse p) := by
  intro a b h
  rw [← perm_inverse_spec p hp.2 a, h, perm_inverse_spec p hp.2]

theorem perm_mul_transpose_self (p : permutation_matrix n) (hp : p.is_permutation) :
    p.get_elem * p.get_elem.transpose = 1 :=
  Matrix.mul_eq_one_comm.1 (perm_transpose_mul_self p hp)

/-- In a list in descending order the first element with a property is the largest. -/
theorem find_descending (P : Fin n → Bool) (l : List (Fin n))
    (hl : l.Pairwise (fun x y => y < x)) (a : Fin n) (ha : a ∈ l) (hP : P a = true) :
    ∃ i, l.find? P = some i ∧ a ≤ i := by
  induction l with
  | nil => cases ha
  | cons x xs ih =>
    rw [List.pairwise_cons] at hl
    by_cases hx : P x = true
    · refine ⟨x, by simp [List.find?, hx], ?_⟩
      rcases List.mem_cons.1 ha with e | e
      · exact le_of_eq e
      · exact le_of_lt (hl.1 a e)
    · have hne : a ≠ x := fun e => hx (e ▸ hP)
      have hmem : a ∈ xs := by
        rcases List.mem_cons.1 ha with e | e
        · exact absurd e hne
        · exact e
      obtain ⟨i, hi, hai⟩ := ih hl.2 hmem
      refine ⟨i, ?_, hai⟩
      simp only [List.find?, Bool.not_eq_true] at hx ⊢
      rw [hx]
      exact hi

theorem sum_filter_eq (l : List (Fin n)) (hl : l.Nodup) (g : Fin n → ℚ) (c : Fin n) :
    ((l.filter (fun j => j = c)).map g).sum = if c ∈ l then g c else 0 := by
  induction l with
  | nil => simp
  | cons x xs ih =>
    rw [List.nodup_cons] at hl
    by_cases hx : x = c
    · subst hx
      have : xs.filter (fun j => j = x) = [] := by
        rw [List.filter_eq_nil_iff]
        intro y hy
        simp only [decide_eq_true_eq]
        intro e
        exact hl.1 (e ▸ hy)
      simp [List.filter_cons, this]
    · have hne : ¬ c = x := fun e => hx e.symm
      simp [List.filter_cons, hx, hne, ih hl.2]

/-- The reference implementation meets the contract of the column replacement. -/
theorem dense_deps_update_contract (n : Nat) [NeZero n] (precise : Bool)
    (ratio columns : Nat) : update_contract (dense_deps n precise ratio columns) where
  apply_reverse_spec R l hR := perm_inverse_spec R.m_permutation hR.2 l
  replace_column_elem _ _ _ _ _ _ := rfl
  lowest_row_spec U r a h := by
    by_contra hne
    have hP : (fun i : Fin n => decide (U i r ≠ 0)) a = true := by
      simpa using hne
    obtain ⟨i, hi, hai⟩ := find_descending (fun i : Fin n => decide (U i r ≠ 0))
      (List.finRange n).reverse
      (by
        rw [List.pairwise_reverse]
        exact List.pairwise_lt_finRange n)
      a (by simp) hP
    have hlow : (dense_deps n precise ratio columns).U.lowest_row_in_column U r = i := by
      simp only [dense_deps, dense_U_ops]
      rw [hi]
      rfl
    rw [hlow] at h
    exact absurd hai (not_le.2 h)
  multiply_from_right_elem _ _ := rfl
  multiply_from_left_with_reverse_elem U p hp := by
    change p.get_elem * (p.get_elem.transpose * U) = U
    rw [← Matrix.mul_assoc, perm_mul_transpose_self p hp, Matrix.one_mul]
  row_values U i := by
    have hrow : (dense_deps n precise ratio columns).U.get_row_values U
        ((dense_deps n precise ratio columns).U.adjust_row U i)
        = ((List.finRange n).filter (fun j => U i j ≠ 0)).map
            (fun j => ({ m_value := U i j, m_index := j.val } : indexed_value)) := by
      simp only [dense_deps, dense_U_ops]
      rw [dif_pos i.isLt]
    have hcol : ∀ j : Fin n, entry_column (dense_deps n precise ratio columns) U
        ({ m_value := U i j, m_index := j.val } : indexed_value) = j := by
      intro j
      simp only [entry_column, dense_deps, dense_U_ops]
      rw [dif_pos j.isLt]
    have hmap : (((List.finRange n).filter (fun j => U i j ≠ 0)).map
          (fun j => ({ m_value := U i j, m_index := j.val } : indexed_value))).map
          (entry_column (dense_deps n precise ratio columns) U)
        = (List.finRange n).filter (fun j => U i j ≠ 0) := by
      rw [List.map_map]
      conv_rhs => rw [← List.map_id ((List.finRange n).filter (fun j => U i j ≠ 0))]
      apply List.map_congr_left
      intro j _
      exact hcol j
    unfold row_represents
    rw [hrow]
    refine ⟨?_, ?_⟩
    · rw [hmap]
      exact (List.nodup_finRange n).filter _
    · intro c
      rw [List.filter_map, List.map_map]
      have hf : ((List.finRange n).filter (fun j => U i j ≠ 0)).filter
            ((fun iv => decide (entry_column (dense_deps n precise ratio columns) U iv = c))
              ∘ (fun j => ({ m_value := U i j, m_index := j.val } : indexed_value)))
          = ((List.finRange n).filter (fun j => U i j ≠ 0)).filter (fun j => j = c) := by
        apply List.filter_congr
        intro j _
        simp only [Function.comp, hcol j]
      rw [hf]
      have hg : ((fun iv : indexed_value => iv.m_value)
          ∘ (fun j => ({ m_value := U i j, m_index := j.val } : indexed_value)))
          = fun j => U i j := rfl
      rw [hg, sum_filter_eq _ ((List.nodup_finRange n).filter _)]
      by_cases h0 : U i c = 0
      · have : dense_of (dense_deps n precise ratio columns) U i c = 0 := h0
        rw [this, h0]
        simp
      · have hmem : c ∈ (List.finRange n).filter (fun j => U i j ≠ 0) := by
          simp [h0]
        rw [if_pos hmem]
        rfl
  set_row_elem U i w st _ _ := by
    funext a b
    change (if a.val = i.val then w.m_data b else U a b) = if a = i then w.m_data b else U a b
    by_cases h : a = i
    · subst h
      simp
    · have : a.val ≠ i.val := fun e => h (Fin.ext e)
      simp [h, this]
  divide_row_elem _ _ _ _ _ := rfl
  Q_multiply_elem Q p := by
    ext a b
    rw [perm_mul_apply]
    rfl
  Q_multiply_is_permutation Q p hQ hp := hp.comp hQ
  R_multiply_elem R p hp := by
    ext a b
    rw [perm_mul_apply]
    simp only [permutation_matrix.get_elem, dense_deps, dense_perm_ops,
      perm_inverse_left p.m_permutation hp]
  row_eta_elem _ := rfl
  row_eta_conjugate r Q hQ := by
    ext a b
    rw [perm_mul_apply,
      mul_perm_apply Q (perm_inverse Q.m_permutation) (perm_inverse_spec _ hQ.2) hQ.1]
    change row_eta_matrix.dense_elem _ a (perm_inverse Q.m_permutation b)
      = row_eta_matrix.dense_elem r (Q.m_permutation a) b
    simp only [row_eta_matrix.dense_elem, dense_deps, dense_row_eta_ops]
    have e1 : (a = perm_inverse Q.m_permutation b) = (Q.m_permutation a = b) :=
      propext (perm_inverse_eq_iff _ hQ a b)
    have e2 : (a = perm_inverse Q.m_permutation r.m_row) = (Q.m_permutation a = r.m_row) :=
      propext (perm_inverse_eq_iff _ hQ a r.m_row)
    have e3 : (((r.m_row_vector.map (fun e => (perm_inverse Q.m_permutation e.1, e.2))).filter
          (fun e => e.1 = perm_inverse Q.m_permutation b)).map Prod.snd)
        = ((r.m_row_vector.filter (fun e => e.1 = b)).map Prod.snd) := by
      rw [List.filter_map, List.map_map]
      have : r.m_row_vector.filter
            ((fun e : Fin n × ℚ => decide (e.1 = perm_inverse Q.m_permutation b))
              ∘ (fun e => (perm_inverse Q.m_permutation e.1, e.2)))
          = r.m_row_vector.filter (fun e => e.1 = b) := by
        apply List.filter_congr
        intro e _
        simp only [Function.comp, decide_eq_decide]
        exact (perm_inverse_injective _ hQ).eq_iff
      rw [this]
      rfl
    simp only [e1, e2, e3]
  one_elem_conjugate l Q hQ := by
    ext a b
    rw [perm_mul_apply,
      mul_perm_apply Q (perm_inverse Q.m_permutation) (perm_inverse_spec _ hQ.2) hQ.1]
    simp only [one_elem_dense, one_elem_on_diag.get_elem, one_elem_on_diag.m_one_over_val,
      dense_deps]
    have e1 : (a = perm_inverse Q.m_permutation b) = (Q.m_permutation a = b) :=
      propext (perm_inverse_eq_iff _ hQ a b)
    have e2 : (perm_inverse Q.m_permutation b = perm_inverse Q.m_permutation l.m_i)
        = (b = l.m_i) := propext (perm_inverse_injective _ hQ).eq_iff
    simp only [e1, e2]

theorem replace_column_keeps_identity_witness :
    get_left_side (dense_deps 2 true 10 3)
        (replace_column (dense_deps 2 true 10 3) (example_lu_update example_settings) 1
          (indexed_of_data ![1, 1]) 0)
        (Function.update (fun j : Fin 2 => j.val) 0 2)
      = get_right_side (dense_deps 2 true 10 3)
        (replace_column (dense_deps 2 true 10 3) (example_lu_update example_settings) 1
          (indexed_of_data ![1, 1]) 0) ∧
    is_upper_triangular (U_dense (dense_deps 2 true 10 3)
      (replace_column (dense_deps 2 true 10 3) (example_lu_update example_settings) 1
        (indexed_of_data ![1, 1]) 0)) :=
  replace_column_keeps_identity (dense_deps 2 true 10 3)
    (example_lu_update example_settings) (fun j => j.val) 1 (indexed_of_data ![1, 1]) 0 2
    (dense_deps_update_contract 2 true 10 3)
    rfl
    (by decide!) (by unfold is_upper_triangular; decide!) (by decide!)
    init_is_permutation init_is_permutation
    (fun _ => rfl) (by decide!) (by unfold indexed_vector.covers; decide!) (by decide!)

/-- C20. In exact arithmetic: let `r < k`, let rows `r..k-1` of `U` be upper triangular
with unit diagonal, row
`k` zero left of column `r`, and the work vector clear.  After
`scan_last_row_to_work_vector(k)` and `pivot_and_solve_the_system(r, k)` the work-vector
entries `m_j`, `r ≤ j < k`, are multipliers for which `row_k + Σ_j m_j·row_j` is zero at
every column in `[r, k)`, and the entries at the positions `≥ k` are the entries of that
combined row. -/
theorem row_eta_computation_correct (d : lu_deps n SM EM DM AM) (s : lu n SM EM DM AM)
    (r k : Fin n) (hrk : r < k)
    (h_precise : d.precise = true) (hrows : ∀ i, row_represents d s.m_U i)
    (S1 : ∀ a : Fin n, r ≤ a → a < k → ∀ b, b < a → dense_of d s.m_U a b = 0)
    (S2 : ∀ a : Fin n, r ≤ a → a < k → dense_of d s.m_U a a = 1)
    (S3 : ∀ b : Fin n, b < r → dense_of d s.m_U k b = 0)
    (h_work : ∀ i, s.m_row_eta_work_vector.m_data i = 0) :
    (∀ b : Fin n, r ≤ b → b < k →
      dense_of d s.m_U k b + (∑ j, if r ≤ j ∧ j < k then
          (pivot_and_solve_the_system d (scan_last_row_to_work_vector d s k) r
            k).m_row_eta_work_vector.m_data j * dense_of d s.m_U j b else 0) = 0) ∧
    (∀ b : Fin n, k ≤ b →
      (pivot_and_solve_the_system d (scan_last_row_to_work_vector d s k) r
          k).m_row_eta_work_vector.m_data b
        = dense_of d s.m_U k b + ∑ j, if r ≤ j ∧ j < k then
          (pivot_and_solve_the_system d (scan_last_row_to_work_vector d s k) r
            k).m_row_eta_work_vector.m_data j * dense_of d s.m_U j b else 0) := by
  have h_drop : s.m_settings.drop_is_exact d.precise := by
    rw [h_precise]
    exact drop_is_exact_of_precise _
  obtain ⟨-, R1, R2, R3⟩ := row_elimination_result d s h_drop hrows r k hrk S1 S2 S3 h_work
  generalize (pivot_and_solve_the_system d (scan_last_row_to_work_vector d s k) r
    k).m_row_eta_work_vector.m_data = W at R1 R2 R3
  have hsum : ∀ b : Fin n,
      (∑ j, if r ≤ j ∧ j < k then W j * dense_of d s.m_U j b else 0)
        = ∑ c, (if c < k then W c else 0) * dense_of d s.m_U c b := by
    intro b
    apply Finset.sum_congr rfl
    intro c _
    by_cases hck : c < k
    · by_cases hrc : r ≤ c
      · simp [hck, hrc]
      · simp [hck, hrc, R1 c (not_le.1 hrc)]
    · simp [hck]
  refine ⟨?_, ?_⟩
  · intro b _ hb
    rw [hsum b]
    exact R3 b hb
  · intro b hb
    rw [hsum b]
    exact R2 b hb

theorem row_eta_computation_correct_witness :
    (∀ b : Fin 2, 0 ≤ b → b < 1 →
      dense_of (dense_deps 2 true 10 3) (example_lu_rotated example_settings).m_U 1 b
        + (∑ j, if (0 : Fin 2) ≤ j ∧ j < 1 then
          (pivot_and_solve_the_system (dense_deps 2 true 10 3)
            (scan_last_row_to_work_vector (dense_deps 2 true 10 3)
              (example_lu_rotated example_settings) 1) 0
            1).m_row_eta_work_vector.m_data j
          * dense_of (dense_deps 2 true 10 3) (example_lu_rotated example_settings).m_U
            j b else 0) = 0) ∧
    (∀ b : Fin 2, 1 ≤ b →
      (pivot_and_solve_the_system (dense_deps 2 true 10 3)
          (scan_last_row_to_work_vector (dense_deps 2 true 10 3)
            (example_lu_rotated example_settings) 1) 0
          1).m_row_eta_work_vector.m_data b
        = dense_of (dense_deps 2 true 10 3) (example_lu_rotated example_settings).m_U 1 b
          + ∑ j, if (0 : Fin 2) ≤ j ∧ j < 1 then
          (pivot_and_solve_the_system (dense_deps 2 true 10 3)
            (scan_last_row_to_work_vector (dense_deps 2 true 10 3)
              (example_lu_rotated example_settings) 1) 0
            1).m_row_eta_work_vector.m_data j
          * dense_of (dense_deps 2 true 10 3) (example_lu_rotated example_settings).m_U
            j b else 0) :=
  row_eta_computation_correct (dense_deps 2 true 10 3)
    (example_lu_rotated example_settings) 0 1 (by decide)
    rfl
    (fun i => (dense_deps_update_contract 2 true 10 3).row_values _ i)
    (by decide!) (by decide!) (by decide!) (fun _ => rfl)

theorem index_fold_precise (y : Vec n) (l idx : List (Fin n)) :
    l.foldl (fun (index : List (Fin n)) j => if y j ≠ 0 then index ++ [j] else index) idx
      = idx ++ l.filter (fun j => y j ≠ 0) := by
  induction l generalizing idx with
  | nil => simp
  | cons a l ih =>
    simp only [List.foldl_cons]
    rw [ih]
    by_cases h : y a = 0
    · simp [h]
    · simp [h]

theorem index_fold_inexact {precise : Bool} (st : lp_settings) (l : List (Fin n)) (hl : l.Nodup) (y : Vec n)
    (idx : List (Fin n)) :
    l.foldl
      (fun (r : Vec n × List (Fin n)) i =>
        if r.1 i = 0 then r
        else if st.abs_val_is_smaller_than_drop_tolerance precise (r.1 i) then
          (Function.update r.1 i 0, r.2)
        else (r.1, r.2 ++ [i]))
      (y, idx)
      = (fun i => if i ∈ l ∧ st.abs_val_is_smaller_than_drop_tolerance precise (y i) = true then 0
          else y i,
        idx ++ l.filter (fun i => y i ≠ 0
          ∧ ¬ st.abs_val_is_smaller_than_drop_tolerance precise (y i) = true)) := by
  induction l generalizing y idx with
  | nil => simp
  | cons a l ih =>
    rw [List.nodup_cons] at hl
    simp only [List.foldl_cons]
    by_cases h0 : y a = 0
    · rw [if_pos h0, ih hl.2]
      congr 1
      · funext i
        by_cases hia : i = a
        · subst hia
          simp [h0, hl.1]
        · simp [hia]
      · simp [h0]
    · rw [if_neg h0]
      by_cases hd : st.abs_val_is_smaller_than_drop_tolerance precise (y a) = true
      · rw [if_pos hd, ih hl.2]
        congr 1
        · funext i
          by_cases hia : i = a
          · subst hia
            simp [hd, hl.1]
          · simp [hia, Function.update_noteq hia]
        · congr 1
          simp only [List.filter_cons, hd, not_true_eq_false, and_false, decide_False,
            Bool.false_eq_true, if_false]
          apply List.filter_congr
          intro i hi
          have hia : i ≠ a := fun e => hl.1 (e ▸ hi)
          simp [Function.update_noteq hia]
      · rw [if_neg hd, ih hl.2]
        congr 1
        · funext i
          by_cases hia : i = a
          · subst hia
            simp [hd, hl.1]
          · simp [hia]
        · simp [List.filter_cons, h0, hd]

/-- C15. `solve_Bd` leaves in `w` the transformed column and takes the indexed path
exactly when the number of indices of `w` times the index-overhead ratio is smaller than
the dimension.  Otherwise `d` holds the dense solution (for inexact arithmetic with the
values below the drop tolerance set to zero) and its index is rebuilt as the list of the
positions with a non-zero value, from the last position down: each listed once, and no
other position listed. -/
theorem solve_Bd_path_and_index (d : lu_deps n SM EM DM AM) (s : lu n SM EM DM AM)
    (a_column : Nat) (dv w : indexed_vector n) :
    (solve_Bd d s a_column dv w).2 = init_vector_w d s a_column w ∧
    (solve_Bd d s a_column dv w).1
      = (if (init_vector_w d s a_column w).m_index.length * d.ratio_of_index_size_to_all_size
            < n then
          solve_By_for_T_indexed_only d s (init_vector_w d s a_column w) s.m_settings
        else
          { m_data := dense_path_data d s (init_vector_w d s a_column w).m_data
            m_index := (List.finRange n).reverse.filter
              (fun i => dense_path_data d s (init_vector_w d s a_column w).m_data i ≠ 0) }) ∧
    ((init_vector_w d s a_column w).m_index.length * d.ratio_of_index_size_to_all_size < n ∨
      ((solve_Bd d s a_column dv w).1.m_index.Nodup ∧
        ∀ i, i ∈ (solve_Bd d s a_column dv w).1.m_index
          ↔ (solve_Bd d s a_column dv w).1.m_data i ≠ 0)) := by
  have h2 : (solve_Bd d s a_column dv w).2 = init_vector_w d s a_column w := by
    unfold solve_Bd
    simp only []
    split <;> rfl
  have h1 : (solve_Bd d s a_column dv w).1
      = (if (init_vector_w d s a_column w).m_index.length * d.ratio_of_index_size_to_all_size
            < n then
          solve_By_for_T_indexed_only d s (init_vector_w d s a_column w) s.m_settings
        else
          { m_data := dense_path_data d s (init_vector_w d s a_column w).m_data
            m_index := (List.finRange n).reverse.filter
              (fun i => dense_path_data d s (init_vector_w d s a_column w).m_data i
                ≠ 0) }) := by
    unfold solve_Bd
    simp only []
    by_cases hc : (init_vector_w d s a_column w).m_index.length
        * d.ratio_of_index_size_to_all_size < n
    · rw [if_pos hc, if_pos hc]
    · rw [if_neg hc, if_neg hc]
      simp only []
      unfold solve_By_when_y_is_ready_for_T dense_path_data
      by_cases hp : d.precise = true
      · simp only [hp, if_true]
        rw [index_fold_precise]
        simp
      · simp only [hp, Bool.false_eq_true, if_false]
        rw [index_fold_inexact s.m_settings _ (List.nodup_reverse.2 (List.nodup_finRange n))]
        simp only [List.nil_append, List.mem_reverse, List.mem_finRange, true_and]
        congr 1
        apply List.filter_congr
        intro i _
        by_cases hd : s.m_settings.abs_val_is_smaller_than_drop_tolerance false
            (d.perm.apply_reverse_from_left_to_T s.m_R
              (d.U.double_solve_U_y s.m_U (init_vector_w d s a_column w).m_data) i) = true
        · simp [hd]
        · simp [hd]
  refine ⟨h2, h1, ?_⟩
  by_cases hc : (init_vector_w d s a_column w).m_index.length
      * d.ratio_of_index_size_to_all_size < n
  · exact Or.inl hc
  · right
    rw [h1, if_neg hc]
    refine ⟨(List.nodup_reverse.2 (List.nodup_finRange n)).filter _, ?_⟩
    intro i
    simp

/-- C16. The overload of `solve_By` for an indexed vector is not implemented: a debug
build stops at its assertion, and a release build returns with the vector as it was
passed in. -/
theorem solve_By_indexed_not_implemented (d : lu_deps n SM EM DM AM) (s : lu n SM EM DM AM)
    (y : indexed_vector n) :
    solve_By_indexed d s true y = none ∧ solve_By_indexed d s false y = some y :=
  ⟨rfl, rfl⟩

/-- For the factorization `example_lu` of `B = [[0, 2], [2, 6]]` and the right-hand side
`b = (2, 8)`: the dense `solve_By` returns `x = (1, 1)` with `B·x = b`, while the overload
for an indexed vector returns `b` itself in a release build, which does not solve
`B·x = b`, and returns nothing in a debug build. -/
theorem solve_By_indexed_does_not_solve :
    solve_By (dense_deps 2 true 10 2) example_lu ![2, 8] = ![1, 1] ∧
    get_B (dense_deps 2 true 10 2) example_lu (fun j => j.val) *ᵥ ![1, 1] = ![2, 8] ∧
    solve_By_indexed (dense_deps 2 true 10 2) example_lu false (indexed_of_data ![2, 8])
      = some (indexed_of_data ![2, 8]) ∧
    get_B (dense_deps 2 true 10 2) example_lu (fun j => j.val)
        *ᵥ (indexed_of_data ![2, 8]).m_data ≠ ![2, 8] ∧
    (indexed_of_data ![2, 8]).m_data ≠ solve_By (dense_deps 2 true 10 2) example_lu ![2, 8] ∧
    solve_By_indexed (dense_deps 2 true 10 2) example_lu true (indexed_of_data ![2, 8])
      = none := by
  refine ⟨by decide!, by decide!, rfl, by decide!, by decide!, rfl⟩

/-- The scratch vector after the error check, path by path, for inexact arithmetic: after
`solve_yB_with_error_check` the vector `m_y_copy` is empty and all-zero (line 461).  After
`solve_yB_with_error_check_indexed` it is empty and all-zero on the paths that use the
dense solve (line 433, and line 461 through the call of line 441); on the path that stays indexed (the index of `y` is
small before and after the first solve) no `clear_all` is called and it holds the solved
correction, `solve_yB_indexed` of the residual. -/
theorem y_copy_after_error_check (d : lu_deps n SM EM DM AM) (s : lu n SM EM DM AM)
    (yd : Vec n) (y : indexed_vector n) (heading : Nat → Int) (basis : Fin n → Nat)
    (settings : lp_settings) (hp : d.precise = false) :
    (solve_yB_with_error_check d s yd basis).1.m_y_copy
        = { m_data := fun _ => 0, m_index := [] } ∧
    (solve_yB_with_error_check_indexed d s y heading basis settings).1.m_y_copy
      = if y.m_index.length * d.ratio_of_index_size_to_all_size < d.A.column_count s.m_A
          ∧ (solve_yB_indexed d s y).m_index.length * d.ratio_of_index_size_to_all_size
            < d.A.column_count s.m_A then
          solve_yB_indexed d s
            (find_error_of_yB_indexed d { s with m_y_copy := y } (solve_yB_indexed d s y)
              heading settings).m_y_copy
        else { m_data := fun _ => 0, m_index := [] } := by
  refine ⟨?_, ?_⟩
  · unfold solve_yB_with_error_check
    simp [hp, indexed_vector.clear_all]
  · unfold solve_yB_with_error_check_indexed
    simp only [hp, Bool.false_eq_true, if_false]
    by_cases h1 : y.m_index.length * d.ratio_of_index_size_to_all_size
        < d.A.column_count s.m_A
    · rw [if_pos h1]
      have e : solve_yB_indexed d { s with m_y_copy := y } y = solve_yB_indexed d s y := rfl
      rw [e]
      by_cases h2 : (solve_yB_indexed d s y).m_index.length
          * d.ratio_of_index_size_to_all_size < d.A.column_count s.m_A
      · rw [if_neg (not_le.2 h2), if_pos ⟨h1, h2⟩]
        rfl
      · rw [if_pos (not_lt.1 h2), if_neg (fun h => h2 h.2)]
        rfl
    · rw [if_neg h1, if_neg (fun h => h1 h.1)]
      unfold solve_yB_with_error_check
      simp [hp, indexed_vector.clear_all]

theorem y_copy_after_error_check_witness :
    (solve_yB_with_error_check (dense_deps 2 false 10 2) example_lu ![2, 8]
        (fun j => j.val)).1.m_y_copy = { m_data := fun _ => 0, m_index := [] } ∧
    (solve_yB_with_error_check_indexed (dense_deps 2 false 10 2) example_lu
        (indexed_of_data ![2, 8]) (fun j => (j : Int)) (fun j => j.val)
        example_settings).1.m_y_copy
      = if (indexed_of_data ![2, 8]).m_index.length
            * (dense_deps 2 false 10 2).ratio_of_index_size_to_all_size
            < (dense_deps 2 false 10 2).A.column_count example_lu.m_A
          ∧ (solve_yB_indexed (dense_deps 2 false 10 2) example_lu
              (indexed_of_data ![2, 8])).m_index.length
            * (dense_deps 2 false 10 2).ratio_of_index_size_to_all_size
            < (dense_deps 2 false 10 2).A.column_count example_lu.m_A then
          solve_yB_indexed (dense_deps 2 false 10 2) example_lu
            (find_error_of_yB_indexed (dense_deps 2 false 10 2)
              { example_lu with m_y_copy := indexed_of_data ![2, 8] }
              (solve_yB_indexed (dense_deps 2 false 10 2) example_lu
                (indexed_of_data ![2, 8]))
              (fun j => (j : Int)) example_settings).m_y_copy
        else { m_data := fun _ => 0, m_index := [] } :=
  y_copy_after_error_check (dense_deps 2 false 10 2) example_lu ![2, 8]
    (indexed_of_data ![2, 8]) (fun j => (j : Int)) (fun j => j.val) example_settings rfl

/-- The two frame properties of the construction steps: the status stays or becomes
`Degenerated`, and the update counter stays or becomes zero. -/
theorem swap_rows_keeps (d : lu_deps n SM EM DM AM) (s : lu n SM EM DM AM) (j k : Nat) :
    (swap_rows d s j k).m_status = s.m_status ∧
      (swap_rows d s j k).m_refactor_counter = s.m_refactor_counter := by
  unfold swap_rows
  split <;> exact ⟨rfl, rfl⟩

theorem swap_columns_keeps (d : lu_deps n SM EM DM AM) (s : lu n SM EM DM AM) (j k : Nat) :
    (swap_columns d s j k).m_status = s.m_status ∧
      (swap_columns d s j k).m_refactor_counter = s.m_refactor_counter := by
  unfold swap_columns
  split <;> exact ⟨rfl, rfl⟩

theorem pivot_the_row_keeps (d : lu_deps n SM EM DM AM) (s : lu n SM EM DM AM) (row : Nat) :
    ((pivot_the_row d s row).1.m_status = s.m_status
        ∨ (pivot_the_row d s row).1.m_status = LU_status.Degenerated) ∧
      (pivot_the_row d s row).1.m_refactor_counter = s.m_refactor_counter := by
  unfold pivot_the_row get_eta_matrix_for_pivot
  simp only []
  split <;> split <;> try split
  all_goals try split
  all_goals simp [set_status, push_matrix_to_tail]

theorem process_column_keeps (d : lu_deps n SM EM DM AM) (s : lu n SM EM DM AM) (j : Nat) :
    ((process_column d s j).m_status = s.m_status
        ∨ (process_column d s j).m_status = LU_status.Degenerated) ∧
      (process_column d s j).m_refactor_counter = s.m_refactor_counter := by
  unfold process_column
  simp only []
  split
  · exact ⟨Or.inl rfl, rfl⟩
  · split
    · exact ⟨Or.inl rfl, rfl⟩
    · have h1 := swap_columns_keeps d
        { s with m_U := (d.U.get_pivot_for_column s.m_U s.m_settings.c_partial_pivoting
          j).2.2.2 } j
        (d.U.get_pivot_for_column s.m_U s.m_settings.c_partial_pivoting j).2.2.1
      have h2 := swap_rows_keeps d (swap_columns d
        { s with m_U := (d.U.get_pivot_for_column s.m_U s.m_settings.c_partial_pivoting
          j).2.2.2 } j
        (d.U.get_pivot_for_column s.m_U s.m_settings.c_partial_pivoting j).2.2.1) j
        (d.U.get_pivot_for_column s.m_U s.m_settings.c_partial_pivoting j).2.1
      have h3 := pivot_the_row_keeps d (swap_rows d (swap_columns d
        { s with m_U := (d.U.get_pivot_for_column s.m_U s.m_settings.c_partial_pivoting
          j).2.2.2 } j
        (d.U.get_pivot_for_column s.m_U s.m_settings.c_partial_pivoting j).2.2.1) j
        (d.U.get_pivot_for_column s.m_U s.m_settings.c_partial_pivoting j).2.1) j
      rw [h2.1, h1.1, h2.2, h1.2] at h3
      split
      · exact h3
      · exact h3

theorem pivot_in_dense_mode_keeps (d : lu_deps n SM EM DM AM) (s : lu n SM EM DM AM)
    (i : Nat) :
    (pivot_in_dense_mode d s i).m_status = s.m_status ∧
      (pivot_in_dense_mode d s i).m_refactor_counter = s.m_refactor_counter := by
  unfold pivot_in_dense_mode
  split
  · exact ⟨rfl, rfl⟩
  · rename_i D hD
    simp only []
    by_cases hj : d.dense_LU.find_pivot_column_in_row D i = -1
    · rw [if_pos hj]
      exact ⟨rfl, rfl⟩
    · rw [if_neg hj]
      by_cases hij : i ≠ (d.dense_LU.find_pivot_column_in_row D i).toNat
      · rw [if_pos hij]
        simp [(swap_columns_keeps d s _ _).1, (swap_columns_keeps d s _ _).2]
      · rw [if_neg hij]
        split <;> simp

theorem sparse_pass_keeps (d : lu_deps n SM EM DM AM) (fuel : Nat) :
    ∀ (j : Nat) (s : lu n SM EM DM AM),
      ((sparse_pass d fuel j s).1.m_status = s.m_status
          ∨ (sparse_pass d fuel j s).1.m_status = LU_status.Degenerated) ∧
        (sparse_pass d fuel j s).1.m_refactor_counter = s.m_refactor_counter := by
  induction fuel with
  | zero => intro j s; exact ⟨Or.inl rfl, rfl⟩
  | succ fuel ih =>
    intro j s
    have hp := process_column_keeps d s j
    rw [sparse_pass]
    split
    · exact ⟨Or.inr rfl, hp.2⟩
    · split
      · exact hp
      · have h := ih (j + 1) (process_column d s j)
        rw [hp.2] at h
        refine ⟨?_, h.2⟩
        rcases h.1 with h1 | h1
        · rcases hp.1 with h2 | h2
          · exact Or.inl (h1.trans h2)
          · exact Or.inr (h1.trans h2)
        · exact Or.inr h1

theorem dense_pass_keeps (d : lu_deps n SM EM DM AM) (fuel : Nat) :
    ∀ (j : Nat) (s : lu n SM EM DM AM),
      ((dense_pass d fuel j s).1.m_status = s.m_status
          ∨ (dense_pass d fuel j s).1.m_status = LU_status.Degenerated) ∧
        (dense_pass d fuel j s).1.m_refactor_counter = s.m_refactor_counter := by
  induction fuel with
  | zero => intro j s; exact ⟨Or.inl rfl, rfl⟩
  | succ fuel ih =>
    intro j s
    have hp := pivot_in_dense_mode_keeps d s j
    rw [dense_pass]
    split
    · exact ⟨Or.inr rfl, hp.2⟩
    · have h := ih (j + 1) (pivot_in_dense_mode d s j)
      rw [hp.1, hp.2] at h
      exact h

theorem create_initial_factorization_keeps (d : lu_deps n SM EM DM AM)
    (s : lu n SM EM DM AM) :
    ((create_initial_factorization d s).m_status = s.m_status
        ∨ (create_initial_factorization d s).m_status = LU_status.Degenerated) ∧
      ((create_initial_factorization d s).m_refactor_counter = s.m_refactor_counter
        ∨ (create_initial_factorization d s).m_refactor_counter = 0) := by
  unfold create_initial_factorization factorize_prepared
  simp only []
  have h1 := sparse_pass_keeps d n 0 { s with m_U := d.U.prepare_for_factorization s.m_U }
  generalize sparse_pass d n 0 { s with m_U := d.U.prepare_for_factorization s.m_U } = r
    at h1 ⊢
  obtain ⟨s1, o⟩ := r
  simp only [] at h1 ⊢
  cases o with
  | none => exact ⟨h1.1, Or.inl h1.2⟩
  | some j =>
    simp only []
    split
    · exact ⟨h1.1, Or.inl h1.2⟩
    · unfold finish_in_dense_mode
      simp only []
      have h2 := dense_pass_keeps d (n - (j + 1)) (j + 1)
        { s1 with m_dense_LU := some (d.dense_LU.create s1.m_U (j + 1)) }
      generalize dense_pass d (n - (j + 1)) (j + 1)
        { s1 with m_dense_LU := some (d.dense_LU.create s1.m_U (j + 1)) } = r2 at h2 ⊢
      obtain ⟨s2, b⟩ := r2
      simp only [] at h2 ⊢
      have hst : s2.m_status = s.m_status ∨ s2.m_status = LU_status.Degenerated := by
        rcases h2.1 with e | e
        · rcases h1.1 with e1 | e1
          · exact Or.inl (e.trans e1)
          · exact Or.inr (e.trans e1)
        · exact Or.inr e
      split
      · exact ⟨hst, Or.inl (h2.2.trans h1.2)⟩
      · unfold push_dense_block
        split
        · exact ⟨hst, Or.inl (h2.2.trans h1.2)⟩
        · exact ⟨hst, Or.inr rfl⟩

theorem rotate_status (d : lu_deps n SM EM DM AM) (s : lu n SM EM DM AM)
    (w : indexed_vector n) (leaving : Fin n) :
    ((replace_column_rotate d s w leaving).1.m_status = s.m_status
        ∨ (replace_column_rotate d s w leaving).1.m_status = LU_status.Degenerated) ∧
      (replace_column_rotate d s w leaving).1.m_row_eta_work_vector
        = s.m_row_eta_work_vector ∧
      ((replace_column_rotate d s w leaving).2.2 < (replace_column_rotate d s w leaving).2.1 →
        (replace_column_rotate d s w leaving).1.m_status = LU_status.Degenerated) := by
  simp only [replace_column_rotate, transform_U_to_V_by_replacing_column,
    calculate_r_wave_and_update_U]
  split
  · simp [set_status]
  · rename_i h
    split
    · refine ⟨Or.inl rfl, rfl, fun h2 => absurd h2 h⟩
    · refine ⟨Or.inl rfl, rfl, fun h2 => absurd h2 h⟩

/-- The diagonal step either sets the status `Degenerated` and leaves the tail alone, or
keeps the status and appends one diagonal-scaling matrix; the work vector is the one
returned by `set_row_from_work_vector_and_clean_work_vector_not_adjusted` for a bump that
is not empty, and untouched otherwise. -/
theorem bump_fields (d : lu_deps n SM EM DM AM) (s : lu n SM EM DM AM) (r k : Fin n) :
    (calculate_Lwave_Pwave_for_bump d s r k).m_refactor_counter = s.m_refactor_counter ∧
    (((calculate_Lwave_Pwave_for_bump d s r k).m_status = LU_status.Degenerated ∧
        (calculate_Lwave_Pwave_for_bump d s r k).m_tail = s.m_tail) ∨
      ((calculate_Lwave_Pwave_for_bump d s r k).m_status = s.m_status ∧
        ∃ l, (calculate_Lwave_Pwave_for_bump d s r k).m_tail
          = s.m_tail ++ [tail_matrix.one_elem l])) ∧
    (calculate_Lwave_Pwave_for_bump d s r k).m_row_eta_work_vector
      = if r < k then
          (d.U.set_row_from_work_vector_and_clean_work_vector_not_adjusted s.m_U
            (d.U.adjust_row s.m_U k) s.m_row_eta_work_vector s.m_settings).2
        else s.m_row_eta_work_vector := by
  unfold calculate_Lwave_Pwave_for_bump
  by_cases hlt : r < k
  · rw [if_pos hlt, if_pos hlt]
    simp only []
    split
    · exact ⟨rfl, Or.inl ⟨rfl, rfl⟩, rfl⟩
    · refine ⟨rfl, Or.inr ⟨rfl, ?_⟩, rfl⟩
      unfold calculate_Lwave_Pwave_for_last_row push_matrix_to_tail
      simp only [List.dropLast_concat]
      exact ⟨_, rfl⟩
  · rw [if_neg hlt, if_neg hlt]
    simp only []
    split
    · exact ⟨rfl, Or.inl ⟨rfl, rfl⟩, rfl⟩
    · refine ⟨rfl, Or.inr ⟨rfl, ?_⟩, rfl⟩
      unfold calculate_Lwave_Pwave_for_last_row push_matrix_to_tail
      simp only [List.dropLast_concat]
      exact ⟨_, rfl⟩

/-- The outcomes of `replace_column`: the counter is increased by one; the call ends
`Degenerated` with the old tail, followed at most by a row-eta matrix, or it keeps the
status and appends the diagonal-scaling matrix, preceded by a row-eta matrix exactly when
the bump is not empty. -/
theorem replace_column_cases (d : lu_deps n SM EM DM AM) (s : lu n SM EM DM AM)
    (p : ℚ) (w : indexed_vector n) (leaving : Fin n) :
    (replace_column d s p w leaving).m_refactor_counter = s.m_refactor_counter + 1 ∧
    (((replace_column d s p w leaving).m_status = LU_status.Degenerated ∧
        ((replace_column d s p w leaving).m_tail = s.m_tail ∨
          ∃ e, (replace_column d s p w leaving).m_tail
            = s.m_tail ++ [tail_matrix.row_eta e])) ∨
      ((replace_column d s p w leaving).m_status = s.m_status ∧
        (replace_column_rotate d s w leaving).2.1 = (replace_column_rotate d s w leaving).2.2 ∧
        ∃ l, (replace_column d s p w leaving).m_tail
          = s.m_tail ++ [tail_matrix.one_elem l]) ∨
      ((replace_column d s p w leaving).m_status = s.m_status ∧
        (replace_column_rotate d s w leaving).2.1 < (replace_column_rotate d s w leaving).2.2 ∧
        ∃ e l, (replace_column d s p w leaving).m_tail
          = s.m_tail ++ [tail_matrix.row_eta e, tail_matrix.one_elem l])) := by
  obtain ⟨fT, -, -, -, fC⟩ := rotate_frame d s w leaving
  obtain ⟨fS, -, fD⟩ := rotate_status d s w leaving
  have hg := get_row_eta_frame d (replace_column_rotate d s w leaving).1
    (replace_column_rotate d s w leaving).2.1 (replace_column_rotate d s w leaving).2.2 p
  simp only [] at hg
  obtain ⟨-, -, -, gT, -, -, gC, gS⟩ := hg
  by_cases hdeg : get_status (get_row_eta_matrix_and_set_row_vector d
      (replace_column_rotate d s w leaving).1 (replace_column_rotate d s w leaving).2.1
      (replace_column_rotate d s w leaving).2.2 p).1 = LU_status.Degenerated
  · have hrc : replace_column d s p w leaving
        = { (get_row_eta_matrix_and_set_row_vector d
              (replace_column_rotate d s w leaving).1
              (replace_column_rotate d s w leaving).2.1
              (replace_column_rotate d s w leaving).2.2 p).1 with
            m_row_eta_work_vector := (get_row_eta_matrix_and_set_row_vector d
              (replace_column_rotate d s w leaving).1
              (replace_column_rotate d s w leaving).2.1
              (replace_column_rotate d s w leaving).2.2
              p).1.m_row_eta_work_vector.clear_all } := by
      unfold replace_column
      simp only []
      rw [if_pos hdeg]
    rw [hrc]
    refine ⟨gC.trans fC, Or.inl ⟨hdeg, Or.inl (gT.trans fT)⟩⟩
  · have hreach : reaches_diagonal_step d s p w leaving := hdeg
    rw [replace_column_of_reaches d s p w leaving hreach]
    unfold replace_column_before_diagonal
    simp only [get_status] at hdeg ⊢
    have hgS : (get_row_eta_matrix_and_set_row_vector d
        (replace_column_rotate d s w leaving).1 (replace_column_rotate d s w leaving).2.1
        (replace_column_rotate d s w leaving).2.2 p).1.m_status = s.m_status := by
      rcases gS with e | e
      · rcases fS with e1 | e1
        · exact e.trans e1
        · exact absurd (e.trans e1) hdeg
      · exact absurd e hdeg
    have hle : (replace_column_rotate d s w leaving).2.1
        ≤ (replace_column_rotate d s w leaving).2.2 := by
      by_contra hlt
      have e1 := fD (not_le.1 hlt)
      rcases gS with e | e
      · exact hdeg (e.trans e1)
      · exact hdeg e
    generalize replace_column_rotate d s w leaving = rot at *
    obtain ⟨s1, r, k⟩ := rot
    simp only [] at *
    obtain ⟨bC, bT, -⟩ := bump_fields d
      (replace_column_compose d (get_row_eta_matrix_and_set_row_vector d s1 r k p).1
        (get_row_eta_matrix_and_set_row_vector d s1 r k p).2) r k
    obtain ⟨-, cS, -, -, -⟩ := compose_frame d
      (get_row_eta_matrix_and_set_row_vector d s1 r k p).1
      (get_row_eta_matrix_and_set_row_vector d s1 r k p).2
    have cC : (replace_column_compose d (get_row_eta_matrix_and_set_row_vector d s1 r k p).1
        (get_row_eta_matrix_and_set_row_vector d s1 r k p).2).m_refactor_counter
        = (get_row_eta_matrix_and_set_row_vector d s1 r k p).1.m_refactor_counter := by
      unfold replace_column_compose
      split <;> rfl
    refine ⟨bC.trans (cC.trans (gC.trans fC)), ?_⟩
    rcases lt_or_eq_of_le hle with hrk | hrk
    · have hG := get_row_eta_of_not_degenerated d s1 r k p (ne_of_lt hrk) hdeg
      have cT : (replace_column_compose d (get_row_eta_matrix_and_set_row_vector d s1 r k p).1
          (get_row_eta_matrix_and_set_row_vector d s1 r k p).2).m_tail
          = s.m_tail ++ [tail_matrix.row_eta (d.row_eta.conjugate_by_permutation
              (extract_row_eta d (pivot_and_solve_the_system d
                (scan_last_row_to_work_vector d s1 k) r k) r k).2
              (replace_column_compose d (get_row_eta_matrix_and_set_row_vector d s1 r k p).1
                (get_row_eta_matrix_and_set_row_vector d s1 r k p).2).m_Q)] := by
        rw [← fT, ← gT]
        rw [hG]
        rfl
      rcases bT with ⟨b1, b2⟩ | ⟨b1, l, b2⟩
      · exact Or.inl ⟨b1, Or.inr ⟨_, b2.trans cT⟩⟩
      · rw [cT, List.append_assoc] at b2
        exact Or.inr (Or.inr ⟨b1.trans (cS.trans hgS), hrk, _, l, b2⟩)
    · subst hrk
      have hG : get_row_eta_matrix_and_set_row_vector d s1 r r p = (s1, none) := by
        unfold get_row_eta_matrix_and_set_row_vector
        rw [if_pos rfl]
      have cT : (replace_column_compose d (get_row_eta_matrix_and_set_row_vector d s1 r r p).1
          (get_row_eta_matrix_and_set_row_vector d s1 r r p).2).m_tail = s.m_tail := by
        rw [hG]
        exact fT
      rcases bT with ⟨b1, b2⟩ | ⟨b1, l, b2⟩
      · exact Or.inl ⟨b1, Or.inl (b2.trans cT)⟩
      · rw [cT] at b2
        exact Or.inr (Or.inl ⟨b1.trans (cS.trans hgS), rfl, l, b2⟩)

theorem error_check_keeps (d : lu_deps n SM EM DM AM) (s : lu n SM EM DM AM) (y : Vec n)
    (basis : Fin n → Nat) :
    (solve_yB_with_error_check d s y basis).1.m_status = s.m_status ∧
      (solve_yB_with_error_check d s y basis).1.m_refactor_counter
        = s.m_refactor_counter := by
  unfold solve_yB_with_error_check
  split <;> exact ⟨rfl, rfl⟩

theorem error_check_indexed_keeps (d : lu_deps n SM EM DM AM) (s : lu n SM EM DM AM)
    (y : indexed_vector n) (heading : Nat → Int) (basis : Fin n → Nat)
    (settings : lp_settings) :
    (solve_yB_with_error_check_indexed d s y heading basis settings).1.m_status
        = s.m_status ∧
      (solve_yB_with_error_check_indexed d s y heading basis settings).1.m_refactor_counter
        = s.m_refactor_counter := by
  unfold solve_yB_with_error_check_indexed
  split
  · split <;> exact ⟨rfl, rfl⟩
  · split
    · simp only []
      split
      · exact ⟨rfl, rfl⟩
      · exact ⟨rfl, rfl⟩
    · exact error_check_keeps d s y.m_data basis

theorem apply_operation_degenerated (d : lu_deps n SM EM DM AM) (s : lu n SM EM DM AM)
    (op : lu_operation n) (h : s.m_status = LU_status.Degenerated) :
    (apply_operation d s op).m_status = LU_status.Degenerated := by
  cases op with
  | construct =>
    rcases (create_initial_factorization_keeps d s).1 with e | e
    · exact e.trans h
    · exact e
  | update p w leaving =>
    rcases (replace_column_cases d s p w leaving).2 with ⟨e, -⟩ | ⟨e, -⟩ | ⟨e, -⟩
    · exact e
    · exact e.trans h
    · exact e.trans h
  | forward_solve y => exact h
  | backward_solve y => exact h
  | backward_solve_checked y basis => exact (error_check_keeps d s y basis).1.trans h
  | backward_solve_checked_indexed y heading basis settings =>
    exact (error_check_indexed_keeps d s y heading basis settings).1.trans h
  | column_solve a dv w => exact h

/-- C11. Once the status of a factorization object is `Degenerated`, it is `Degenerated`
after every sequence of operations on the object: `create_initial_factorization`,
`replace_column` and the solves never set the status back to `OK`. -/
theorem degenerated_is_terminal (d : lu_deps n SM EM DM AM) (s : lu n SM EM DM AM)
    (ops : List (lu_operation n)) (h : s.m_status = LU_status.Degenerated) :
    (run_operations d s ops).m_status = LU_status.Degenerated := by
  unfold run_operations
  induction ops generalizing s with
  | nil => exact h
  | cons op ops ih =>
    rw [List.foldl_cons]
    exact ih (apply_operation d s op) (apply_operation_degenerated d s op h)

theorem degenerated_is_terminal_witness :
    (run_operations (dense_deps 2 true 10 2)
      (replace_column (dense_deps 2 true 10 2) example_lu_unit 1 (indexed_of_data ![5, 0]) 1)
      [lu_operation.update 1 (indexed_of_data ![1, 1]) 0,
        lu_operation.backward_solve_checked ![2, 8] (fun j => j.val),
        lu_operation.construct,
        lu_operation.update 1 (indexed_of_data ![0, 1]) 1]).m_status
      = LU_status.Degenerated :=
  degenerated_is_terminal (dense_deps 2 true 10 2)
    (replace_column (dense_deps 2 true 10 2) example_lu_unit 1 (indexed_of_data ![5, 0]) 1)
    [lu_operation.update 1 (indexed_of_data ![1, 1]) 0,
      lu_operation.backward_solve_checked ![2, 8] (fun j => j.val),
      lu_operation.construct,
      lu_operation.update 1 (indexed_of_data ![0, 1]) 1]
    (by decide!)

/-- C12. The update counter is zero after the constructor, every call of `replace_column`
increases it by one whatever status the call ends with, and the solves that change the
object leave it as it is. -/
theorem update_counter_counts (d : lu_deps n SM EM DM AM) (s : lu n SM EM DM AM)
    (A : AM) (basis : Fin n → Nat) (settings : lp_settings)
    (p : ℚ) (w : indexed_vector n) (leaving : Fin n)
    (yd : Vec n) (y : indexed_vector n) (heading : Nat → Int) :
    (lu.create d A basis settings).m_refactor_counter = 0 ∧
    (replace_column d s p w leaving).m_refactor_counter = s.m_refactor_counter + 1 ∧
    (solve_yB_with_error_check d s yd basis).1.m_refactor_counter = s.m_refactor_counter ∧
    (solve_yB_with_error_check_indexed d s y heading basis settings).1.m_refactor_counter
      = s.m_refactor_counter := by
  refine ⟨?_, (replace_column_cases d s p w leaving).1, (error_check_keeps d s yd basis).2,
    (error_check_indexed_keeps d s y heading basis settings).2⟩
  unfold lu.create
  rcases (create_initial_factorization_keeps d (lu.init d A basis settings)).2 with e | e
  · exact e
  · exact e

/-- C13. A call of `replace_column` extends the tail by append: the tail before the call
is the beginning of the tail after it, followed by at most two entries; and a call that
ends with status `OK` appends either one diagonal-scaling matrix, or a row-eta matrix and
after it one diagonal-scaling matrix. -/
theorem tail_extended_by_append (d : lu_deps n SM EM DM AM) (s : lu n SM EM DM AM)
    (p : ℚ) (w : indexed_vector n) (leaving : Fin n) :
    (∃ l, (replace_column d s p w leaving).m_tail = s.m_tail ++ l ∧ l.length ≤ 2) ∧
    ((replace_column d s p w leaving).m_status = LU_status.OK →
      (∃ l, (replace_column d s p w leaving).m_tail
          = s.m_tail ++ [tail_matrix.one_elem l]) ∨
        ∃ e l, (replace_column d s p w leaving).m_tail
          = s.m_tail ++ [tail_matrix.row_eta e, tail_matrix.one_elem l]) := by
  rcases (replace_column_cases d s p w leaving).2 with
    ⟨e, h | ⟨r, h⟩⟩ | ⟨-, -, l, h⟩ | ⟨-, -, r, l, h⟩
  · refine ⟨⟨[], by rw [h, List.append_nil], by simp⟩, ?_⟩
    intro hok
    rw [e] at hok
    cases hok
  · refine ⟨⟨_, h, by simp⟩, ?_⟩
    intro hok
    rw [e] at hok
    cases hok
  · exact ⟨⟨_, h, by simp⟩, fun _ => Or.inl ⟨l, h⟩⟩
  · exact ⟨⟨_, h, by simp⟩, fun _ => Or.inr ⟨r, l, h⟩⟩

theorem tail_extended_by_append_witness :
    (∃ l, (replace_column (dense_deps 2 true 10 3) example_lu_eye 1 (indexed_of_data ![1, 1])
        0).m_tail = example_lu_eye.m_tail ++ [tail_matrix.one_elem l]) ∨
      ∃ e l, (replace_column (dense_deps 2 true 10 3) example_lu_eye 1
        (indexed_of_data ![1, 1]) 0).m_tail
          = example_lu_eye.m_tail ++ [tail_matrix.row_eta e, tail_matrix.one_elem l] :=
  (tail_extended_by_append (dense_deps 2 true 10 3) example_lu_eye 1 (indexed_of_data ![1, 1])
    0).2 (by decide!)

/-- C14. In a call of `replace_column` that ends with status `OK` the row-eta matrix is
appended to the tail exactly when the bump is not empty, that is when the replaced column
differs from the lowest row of the bump: for an empty bump only the diagonal-scaling
matrix is appended, otherwise a row-eta matrix and after it the diagonal-scaling
matrix. -/
theorem row_eta_appended_for_bump (d : lu_deps n SM EM DM AM) (s : lu n SM EM DM AM)
    (p : ℚ) (w : indexed_vector n) (leaving : Fin n)
    (h_ok : (replace_column d s p w leaving).m_status = LU_status.OK) :
    (d.perm.apply_reverse s.m_R leaving
        = d.U.lowest_row_in_column
            (d.U.replace_column s.m_U (d.perm.apply_reverse s.m_R leaving) w s.m_settings)
            (d.perm.apply_reverse s.m_R leaving) →
      ∃ l, (replace_column d s p w leaving).m_tail
        = s.m_tail ++ [tail_matrix.one_elem l]) ∧
    (d.perm.apply_reverse s.m_R leaving
        ≠ d.U.lowest_row_in_column
            (d.U.replace_column s.m_U (d.perm.apply_reverse s.m_R leaving) w s.m_settings)
            (d.perm.apply_reverse s.m_R leaving) →
      ∃ e l, (replace_column d s p w leaving).m_tail
        = s.m_tail ++ [tail_matrix.row_eta e, tail_matrix.one_elem l]) := by
  rcases (replace_column_cases d s p w leaving).2 with
    ⟨e, -⟩ | ⟨-, hrk, l, h⟩ | ⟨-, hrk, r, l, h⟩
  · rw [e] at h_ok
    cases h_ok
  · exact ⟨fun _ => ⟨l, h⟩, fun hne => absurd hrk hne⟩
  · exact ⟨fun he => absurd he (ne_of_lt hrk), fun _ => ⟨r, l, h⟩⟩

theorem row_eta_appended_for_bump_witness :
    ((dense_deps 2 true 10 3).perm.apply_reverse example_lu_eye.m_R 0
        = (dense_deps 2 true 10 3).U.lowest_row_in_column
            ((dense_deps 2 true 10 3).U.replace_column example_lu_eye.m_U
              ((dense_deps 2 true 10 3).perm.apply_reverse example_lu_eye.m_R 0)
              (indexed_of_data ![2, 0]) example_lu_eye.m_settings)
            ((dense_deps 2 true 10 3).perm.apply_reverse example_lu_eye.m_R 0) →
      ∃ l, (replace_column (dense_deps 2 true 10 3) example_lu_eye 1
        (indexed_of_data ![2, 0]) 0).m_tail
        = example_lu_eye.m_tail ++ [tail_matrix.one_elem l]) ∧
    ((dense_deps 2 true 10 3).perm.apply_reverse example_lu_eye.m_R 0
        ≠ (dense_deps 2 true 10 3).U.lowest_row_in_column
            ((dense_deps 2 true 10 3).U.replace_column example_lu_eye.m_U
              ((dense_deps 2 true 10 3).perm.apply_reverse example_lu_eye.m_R 0)
              (indexed_of_data ![2, 0]) example_lu_eye.m_settings)
            ((dense_deps 2 true 10 3).perm.apply_reverse example_lu_eye.m_R 0) →
      ∃ e l, (replace_column (dense_deps 2 true 10 3) example_lu_eye 1
        (indexed_of_data ![2, 0]) 0).m_tail
        = example_lu_eye.m_tail ++ [tail_matrix.row_eta e, tail_matrix.one_elem l]) :=
  row_eta_appended_for_bump (dense_deps 2 true 10 3) example_lu_eye 1
    (indexed_of_data ![2, 0]) 0 (by decide!)

/-- For `U` the identity of dimension two and `w = (1, 1)` spliced into column 0: the bump
is `0..1`, the recomputed row has no multiplier (the work vector is zero at position 0),
the call ends with status `OK`, and the tail holds a row-eta matrix without entries
followed by the diagonal-scaling matrix. -/
theorem empty_row_eta_is_appended :
    (pivot_and_solve_the_system (dense_deps 2 true 10 3)
        (scan_last_row_to_work_vector (dense_deps 2 true 10 3)
          (replace_column_rotate (dense_deps 2 true 10 3) example_lu_eye
            (indexed_of_data ![1, 1]) 0).1
          (replace_column_rotate (dense_deps 2 true 10 3) example_lu_eye
            (indexed_of_data ![1, 1]) 0).2.2)
        (replace_column_rotate (dense_deps 2 true 10 3) example_lu_eye
          (indexed_of_data ![1, 1]) 0).2.1
        (replace_column_rotate (dense_deps 2 true 10 3) example_lu_eye
          (indexed_of_data ![1, 1]) 0).2.2).m_row_eta_work_vector.m_data 0 = 0 ∧
    (replace_column (dense_deps 2 true 10 3) example_lu_eye 1 (indexed_of_data ![1, 1])
      0).m_status = LU_status.OK ∧
    example_lu_eye.m_tail = [] ∧
    (replace_column (dense_deps 2 true 10 3) example_lu_eye 1 (indexed_of_data ![1, 1])
      0).m_tail.map tail_matrix.row_eta_entries = [some [], none] := by
  refine ⟨by decide!, by decide!, rfl, by decide!⟩

theorem pivot_and_solve_covers (d : lu_deps n SM EM DM AM) (s : lu n SM EM DM AM)
    (r k : Fin n) (hw : s.m_row_eta_work_vector.covers) :
    (pivot_and_solve_the_system d s r k).m_row_eta_work_vector.covers := by
  unfold pivot_and_solve_the_system
  simp only []
  apply foldl_covers_of_step _ _ _ _ hw
  intro w j hcov
  split
  · exact hcov
  · exact foldl_covers_of_step _
      (fun w iv h => pivot_and_solve_step_covers d s k j _ w iv h) _ _ hcov

/-- The data of the work vector after the last loop of
`get_row_eta_matrix_and_set_row_vector`: the listed positions left of `k` are zeroed,
whether their values are pushed to the row-eta matrix or dropped. -/
theorem extract_fold_data {precise : Bool} (st : lp_settings) (k : Fin n) (l : List (Fin n)) (data0 : Vec n)
    (ret0 : row_eta_matrix n) :
    (l.foldl
      (fun (r : Vec n × row_eta_matrix n) j =>
        if j < k then
          let v := r.1 j
          if v ≠ 0 then
            let ret :=
              if !st.abs_val_is_smaller_than_drop_tolerance precise v then
                { r.2 with m_row_vector := r.2.m_row_vector ++ [(j, v)] }
              else r.2
            (Function.update r.1 j 0, ret)
          else r
        else r) (data0, ret0)).1
      = (fun c => if c < k ∧ c ∈ l then 0 else data0 c) := by
  induction l generalizing data0 ret0 with
  | nil => simp
  | cons a l ih =>
    simp only [List.foldl_cons]
    by_cases hak : a < k
    · by_cases hv : data0 a = 0
      · simp only [hak, if_true, hv, ne_eq, not_true_eq_false, if_false]
        rw [ih]
        funext c
        by_cases hca : c = a
        · subst hca
          simp [hv]
        · simp [hca]
      · simp only [hak, if_true, hv, ne_eq, not_false_eq_true]
        rw [ih]
        funext c
        by_cases hca : c = a
        · subst hca
          simp [hak]
        · simp [hca, Function.update_noteq hca]
    · simp only [hak, if_false]
      rw [ih]
      funext c
      by_cases hca : c = a
      · subst hca
        simp [hak]
      · simp [hca]

theorem extract_row_eta_covers (d : lu_deps n SM EM DM AM) (s : lu n SM EM DM AM)
    (r k : Fin n)
    (hw : s.m_row_eta_work_vector.covers) :
    (extract_row_eta d s r k).1.m_row_eta_work_vector.covers := by
  intro i hi
  have hd : (extract_row_eta d s r k).1.m_row_eta_work_vector.m_data
      = (fun c => if c < k ∧ c ∈ s.m_row_eta_work_vector.m_index then 0
          else s.m_row_eta_work_vector.m_data c) := by
    unfold extract_row_eta
    simp only []
    rw [extract_fold_data]
  rw [hd] at hi
  beta_reduce at hi
  have hm : (extract_row_eta d s r k).1.m_row_eta_work_vector.m_index
      = s.m_row_eta_work_vector.m_index := rfl
  rw [hm]
  apply hw
  intro h0
  apply hi
  rw [h0]
  simp

theorem get_row_eta_covers (d : lu_deps n SM EM DM AM) (s : lu n SM EM DM AM) (r k : Fin n)
    (p : ℚ) (hw : s.m_row_eta_work_vector.covers) :
    (get_row_eta_matrix_and_set_row_vector d s r k p).1.m_row_eta_work_vector.covers := by
  have h3 := pivot_and_solve_covers d (scan_last_row_to_work_vector d s k) r k
    (scan_last_row_covers d s k hw)
  unfold get_row_eta_matrix_and_set_row_vector
  split
  · exact hw
  · simp only []
    split
    · split
      · exact h3
      · exact extract_row_eta_covers d _ r k h3
    · exact extract_row_eta_covers d _ r k h3

/-- C18. When `set_row_from_work_vector_and_clean_work_vector_not_adjusted` returns a
cleared work vector for every work vector whose index lists its non-zero positions, and
`m_row_eta_work_vector` is empty and all-zero before a call of `replace_column`, it is
empty and all-zero after the call. -/
theorem work_vector_cleared (d : lu_deps n SM EM DM AM) (s : lu n SM EM DM AM)
    (p : ℚ) (w : indexed_vector n) (leaving : Fin n)
    (h_clean : ∀ U i (wv : indexed_vector n) st, wv.covers →
      (d.U.set_row_from_work_vector_and_clean_work_vector_not_adjusted U i wv st).2
        = { m_data := fun _ => 0, m_index := [] })
    (h_before : s.m_row_eta_work_vector = { m_data := fun _ => 0, m_index := [] }) :
    (replace_column d s p w leaving).m_row_eta_work_vector
      = { m_data := fun _ => 0, m_index := [] } := by
  obtain ⟨fS, fW, fD⟩ := rotate_status d s w leaving
  have hg := get_row_eta_frame d (replace_column_rotate d s w leaving).1
    (replace_column_rotate d s w leaving).2.1 (replace_column_rotate d s w leaving).2.2 p
  simp only [] at hg
  obtain ⟨-, -, -, -, -, -, -, gS⟩ := hg
  have hcov1 : (replace_column_rotate d s w leaving).1.m_row_eta_work_vector.covers := by
    rw [fW, h_before]
    intro i hi
    exact absurd rfl hi
  have hcov := get_row_eta_covers d (replace_column_rotate d s w leaving).1
    (replace_column_rotate d s w leaving).2.1 (replace_column_rotate d s w leaving).2.2 p
    hcov1
  by_cases hdeg : get_status (get_row_eta_matrix_and_set_row_vector d
      (replace_column_rotate d s w leaving).1 (replace_column_rotate d s w leaving).2.1
      (replace_column_rotate d s w leaving).2.2 p).1 = LU_status.Degenerated
  · unfold replace_column
    simp only []
    rw [if_pos hdeg]
    rfl
  · have hreach : reaches_diagonal_step d s p w leaving := hdeg
    rw [replace_column_of_reaches d s p w leaving hreach]
    unfold replace_column_before_diagonal
    simp only [get_status] at hdeg ⊢
    have hle : (replace_column_rotate d s w leaving).2.1
        ≤ (replace_column_rotate d s w leaving).2.2 := by
      by_contra hlt
      have e1 := fD (not_le.1 hlt)
      rcases gS with e | e
      · exact hdeg (e.trans e1)
      · exact hdeg e
    generalize replace_column_rotate d s w leaving = rot at *
    obtain ⟨s1, r, k⟩ := rot
    simp only [] at *
    rw [(bump_fields d _ r k).2.2]
    by_cases hrk : r < k
    · rw [if_pos hrk]
      apply h_clean
      rw [(compose_frame d _ _).2.2.2.1]
      exact hcov
    · rw [if_neg hrk]
      have hrk2 : r = k := le_antisymm hle (not_lt.1 hrk)
      subst hrk2
      have hG : get_row_eta_matrix_and_set_row_vector d s1 r r p = (s1, none) := by
        unfold get_row_eta_matrix_and_set_row_vector
        rw [if_pos rfl]
      rw [hG]
      exact fW.trans h_before

theorem work_vector_cleared_witness :
    (replace_column (dense_deps 2 true 10 3) (example_lu_update example_settings_exact) 1
      (indexed_of_data ![1, 1]) 0).m_row_eta_work_vector
      = { m_data := fun _ => 0, m_index := [] } :=
  work_vector_cleared (dense_deps 2 true 10 3) (example_lu_update example_settings_exact) 1
    (indexed_of_data ![1, 1]) 0 (fun _ _ _ _ _ => rfl) rfl

/-- C21. For a bump `bump_start < bump_end`, entered with `r_wave` the identity (line
873): the `r_wave` built by `calculate_r_wave_and_update_U` maps `bump_start` to
`bump_end`, `i` to `i - 1` for `bump_start < i ≤ bump_end` and every other position to
itself, and it is a permutation; after `U` is multiplied by `r_wave` from the right and by
its reverse from the left (lines 775-776), and `Q` and `R` are multiplied by `r_wave`
(lines 881-882), the product `Q·U·R` is the matrix it was before the rotation. -/
theorem rotation_preserves_product (d : lu_deps n SM EM DM AM) (s : lu n SM EM DM AM)
    (bump_start bump_end : Fin n) (hc : update_contract d)
    (h_bump : bump_start < bump_end) (h_init : s.m_r_wave = permutation_matrix.init) :
    (∀ i, (calculate_r_wave_and_update_U d s bump_start bump_end).m_r_wave.m_permutation i
      = if bump_start < i ∧ i ≤ bump_end then index_pred i
        else if i = bump_start then bump_end else i) ∧
    (calculate_r_wave_and_update_U d s bump_start bump_end).m_r_wave.is_permutation ∧
    get_right_side d
        (replace_column_compose d (calculate_r_wave_and_update_U d s bump_start bump_end) none)
      = get_right_side d s := by
  obtain ⟨hp, hPX, -, -, -, fQ, fR, -, -⟩ :=
    calculate_r_wave_fields d hc s bump_start bump_end (le_of_lt h_bump) h_init
  have hP : (calculate_r_wave_and_update_U d s bump_start bump_end).m_r_wave.is_permutation := by
    unfold permutation_matrix.is_permutation
    rw [hp]
    exact r_wave_map_bijective bump_start bump_end (le_of_lt h_bump)
  refine ⟨fun i => by rw [hp]; rfl, hP, ?_⟩
  have cQ := hc.Q_multiply_elem (calculate_r_wave_and_update_U d s bump_start bump_end).m_Q
    (calculate_r_wave_and_update_U d s bump_start bump_end).m_r_wave
  have cR := hc.R_multiply_elem (calculate_r_wave_and_update_U d s bump_start bump_end).m_R
    (calculate_r_wave_and_update_U d s bump_start bump_end).m_r_wave hP
  have cQ2 := cQ.trans (congrArg (fun q : permutation_matrix n => q.get_elem
    * (calculate_r_wave_and_update_U d s bump_start bump_end).m_r_wave.get_elem) fQ)
  have cR2 := cR.trans (congrArg (fun q : permutation_matrix n => q.get_elem) fR)
  exact (rotation_identity (get_right_side d s) s.m_Q.get_elem (dense_of d s.m_U)
    s.m_R.get_elem _ _ _ _ rfl hPX cQ2 cR2).symm

theorem rotation_preserves_product_witness :
    (∀ i, (calculate_r_wave_and_update_U (dense_deps 2 true 10 2) example_lu 0
        1).m_r_wave.m_permutation i
      = if (0 : Fin 2) < i ∧ i ≤ 1 then index_pred i
        else if i = 0 then 1 else i) ∧
    (calculate_r_wave_and_update_U (dense_deps 2 true 10 2) example_lu 0
      1).m_r_wave.is_permutation ∧
    get_right_side (dense_deps 2 true 10 2)
        (replace_column_compose (dense_deps 2 true 10 2)
          (calculate_r_wave_and_update_U (dense_deps 2 true 10 2) example_lu 0 1) none)
      = get_right_side (dense_deps 2 true 10 2) example_lu :=
  rotation_preserves_product (dense_deps 2 true 10 2) example_lu 0 1
    (dense_deps_update_contract 2 true 10 2) (by decide) rfl

/-- The call `replace_column` for an empty bump on an object with status `OK`: it is the
diagonal step on the state with `w` spliced into `U`, the counter increased, `r_wave` the
identity and `Q`, `R` multiplied by it. -/
theorem replace_column_empty_bump (d : lu_deps n SM EM DM AM) (s : lu n SM EM DM AM)
    (p : ℚ) (w : indexed_vector n) (leaving : Fin n)
    (h_status : s.m_status = LU_status.OK)
    (h_empty : d.U.lowest_row_in_column
        (d.U.replace_column s.m_U (d.perm.apply_reverse s.m_R leaving) w s.m_settings)
        (d.perm.apply_reverse s.m_R leaving) = d.perm.apply_reverse s.m_R leaving) :
    replace_column d s p w leaving
      = calculate_Lwave_Pwave_for_bump d
          { s with
            m_refactor_counter := s.m_refactor_counter + 1
            m_U := d.U.replace_column s.m_U (d.perm.apply_reverse s.m_R leaving) w
              s.m_settings
            m_r_wave := permutation_matrix.init
            m_Q := d.perm.multiply_by_permutation_from_right s.m_Q permutation_matrix.init
            m_R := d.perm.multiply_by_permutation_reverse_from_left s.m_R
              permutation_matrix.init }
          (d.perm.apply_reverse s.m_R leaving) (d.perm.apply_reverse s.m_R leaving) := by
  simp only [replace_column, replace_column_rotate, transform_U_to_V_by_replacing_column,
    calculate_r_wave_and_update_U, get_row_eta_matrix_and_set_row_vector, h_empty,
    gt_iff_lt, lt_self_iff_false, if_false, if_true, get_status, h_status,
    replace_column_compose, reduceCtorEq]

/-- C22. Empty bump, on an object with status `OK`: when the lowest non-zero row of the
replaced column `r` of the spliced matrix `V` is `r` itself, `replace_column` leaves
`r_wave` the identity, so that `Q` and `R` stand for the matrices they stood for and `U`
is not rotated, builds no row-eta matrix and does not read the expected pivot.  When
`V(r, r)` is below the pivot tolerance the status becomes `Degenerated` and nothing else
happens; otherwise one diagonal-scaling matrix for `V(r, r)`, conjugated by `Q`, is
appended to the tail and row `r` of `V` is divided by `V(r, r)`. -/
theorem empty_bump_update (d : lu_deps n SM EM DM AM) (s : lu n SM EM DM AM)
    (p : ℚ) (w : indexed_vector n) (leaving : Fin n) (hc : update_contract d)
    (h_status : s.m_status = LU_status.OK)
    (h_empty : d.U.lowest_row_in_column
        (d.U.replace_column s.m_U (d.perm.apply_reverse s.m_R leaving) w s.m_settings)
        (d.perm.apply_reverse s.m_R leaving) = d.perm.apply_reverse s.m_R leaving) :
    (replace_column d s p w leaving).m_r_wave = permutation_matrix.init ∧
    (replace_column d s p w leaving).m_Q.get_elem = s.m_Q.get_elem ∧
    (replace_column d s p w leaving).m_R.get_elem = s.m_R.get_elem ∧
    (if s.m_settings.abs_val_is_smaller_than_pivot_tolerance
        (d.U.elem (d.U.replace_column s.m_U (d.perm.apply_reverse s.m_R leaving) w
          s.m_settings) (d.perm.apply_reverse s.m_R leaving)
          (d.perm.apply_reverse s.m_R leaving)) = true then
      (replace_column d s p w leaving).m_status = LU_status.Degenerated ∧
      (replace_column d s p w leaving).m_tail = s.m_tail ∧
      (replace_column d s p w leaving).m_U
        = d.U.replace_column s.m_U (d.perm.apply_reverse s.m_R leaving) w s.m_settings
    else
      (replace_column d s p w leaving).m_status = LU_status.OK ∧
      (replace_column d s p w leaving).m_tail
        = s.m_tail ++ [tail_matrix.one_elem (d.one_elem_conjugate_by_permutation
            { m_i := d.perm.apply_reverse s.m_R leaving
              m_val := d.U.elem (d.U.replace_column s.m_U
                (d.perm.apply_reverse s.m_R leaving) w s.m_settings)
                (d.perm.apply_reverse s.m_R leaving) (d.perm.apply_reverse s.m_R leaving) }
            (replace_column d s p w leaving).m_Q)] ∧
      (replace_column d s p w leaving).m_U
        = d.U.divide_row_by_constant
            (d.U.replace_column s.m_U (d.perm.apply_reverse s.m_R leaving) w s.m_settings)
            (d.perm.apply_reverse s.m_R leaving)
            (d.U.elem (d.U.replace_column s.m_U (d.perm.apply_reverse s.m_R leaving) w
              s.m_settings) (d.perm.apply_reverse s.m_R leaving)
              (d.perm.apply_reverse s.m_R leaving)) s.m_settings) ∧
    ∀ p', replace_column d s p' w leaving = replace_column d s p w leaving := by
  have hQ : (d.perm.multiply_by_permutation_from_right s.m_Q
      (permutation_matrix.init : permutation_matrix n)).get_elem = s.m_Q.get_elem := by
    rw [hc.Q_multiply_elem, init_get_elem, Matrix.mul_one]
  have hR : (d.perm.multiply_by_permutation_reverse_from_left s.m_R
      (permutation_matrix.init : permutation_matrix n)).get_elem = s.m_R.get_elem := by
    have := hc.R_multiply_elem s.m_R (permutation_matrix.init : permutation_matrix n)
      init_is_permutation
    rw [init_get_elem, Matrix.one_mul] at this
    exact this
  have key := fun q => replace_column_empty_bump d s q w leaving h_status h_empty
  refine ⟨?_, ?_, ?_, ?_, fun p' => (key p').trans (key p).symm⟩
  · rw [key p]
    unfold calculate_Lwave_Pwave_for_bump
    rw [if_neg (lt_irrefl _)]
    simp only []
    split <;> rfl
  · rw [key p]
    unfold calculate_Lwave_Pwave_for_bump
    rw [if_neg (lt_irrefl _)]
    simp only []
    split <;> exact hQ
  · rw [key p]
    unfold calculate_Lwave_Pwave_for_bump
    rw [if_neg (lt_irrefl _)]
    simp only []
    split <;> exact hR
  · rw [key p]
    unfold calculate_Lwave_Pwave_for_bump
    rw [if_neg (lt_irrefl _)]
    simp only []
    by_cases ht : s.m_settings.abs_val_is_smaller_than_pivot_tolerance
        (d.U.elem (d.U.replace_column s.m_U (d.perm.apply_reverse s.m_R leaving) w
          s.m_settings) (d.perm.apply_reverse s.m_R leaving)
          (d.perm.apply_reverse s.m_R leaving)) = true
    · rw [if_pos ht, if_pos ht]
      exact ⟨rfl, rfl, rfl⟩
    · rw [if_neg ht, if_neg ht]
      refine ⟨h_status, ?_, rfl⟩
      unfold calculate_Lwave_Pwave_for_last_row push_matrix_to_tail
      simp only [List.dropLast_concat]

theorem empty_bump_update_witness :
    (replace_column (dense_deps 2 true 10 3) example_lu_eye 1 (indexed_of_data ![2, 0])
      0).m_r_wave = permutation_matrix.init ∧
    (replace_column (dense_deps 2 true 10 3) example_lu_eye 1 (indexed_of_data ![2, 0])
      0).m_Q.get_elem = example_lu_eye.m_Q.get_elem ∧
    (replace_column (dense_deps 2 true 10 3) example_lu_eye 1 (indexed_of_data ![2, 0])
      0).m_R.get_elem = example_lu_eye.m_R.get_elem :=
  ⟨(empty_bump_update (dense_deps 2 true 10 3) example_lu_eye 1 (indexed_of_data ![2, 0]) 0
      (dense_deps_update_contract 2 true 10 3) rfl (by decide!)).1,
    (empty_bump_update (dense_deps 2 true 10 3) example_lu_eye 1 (indexed_of_data ![2, 0]) 0
      (dense_deps_update_contract 2 true 10 3) rfl (by decide!)).2.1,
    (empty_bump_update (dense_deps 2 true 10 3) example_lu_eye 1 (indexed_of_data ![2, 0]) 0
      (dense_deps_update_contract 2 true 10 3) rfl (by decide!)).2.2.1⟩

/-- The matrix of a `one_elem_on_diag` applied to a vector divides one entry. -/
theorem one_elem_mulVec (l : one_elem_on_diag n) (v : Vec n) :
    one_elem_dense l *ᵥ v = Function.update v l.m_i (v l.m_i / l.m_val) := by
  funext a
  simp only [Matrix.mulVec, Matrix.dotProduct, one_elem_dense, one_elem_on_diag.get_elem,
    one_elem_on_diag.m_one_over_val]
  rw [Finset.sum_eq_single a]
  · by_cases h : a = l.m_i
    · subst h
      simp [div_eq_inv_mul]
    · simp [h, Function.update_noteq h]
  · intro c _ hne
    simp [Ne.symm hne]
  · simp

/-- C23. The function `one_elem_on_diag::apply_from_left_to_T` on an indexed vector `w`.
For exact arithmetic the data become the product of the matrix described by `get_elem`
with the data, that is `w[m_i]` is replaced by `w[m_i] / m_val` and every other entry is
kept, and the index set is kept.  For inexact arithmetic the result is the same, except
that for a non-zero `w[m_i]` with a quotient below the drop tolerance `w[m_i]` is set to
zero and `m_i` is removed from the index set.  When `w[m_i]` is zero, `w` is returned as
it is. -/
theorem one_elem_apply_from_left_to_T_spec (l : one_elem_on_diag n) (w : indexed_vector n)
    (settings : lp_settings) (precise : Bool) :
    (l.apply_from_left_to_T true w settings).m_data = one_elem_dense l *ᵥ w.m_data ∧
    (l.apply_from_left_to_T true w settings).m_data
      = Function.update w.m_data l.m_i (w.m_data l.m_i / l.m_val) ∧
    (l.apply_from_left_to_T true w settings).m_index = w.m_index ∧
    l.apply_from_left_to_T false w settings
      = (if w.m_data l.m_i ≠ 0
            ∧ settings.abs_val_is_smaller_than_drop_tolerance false (w.m_data l.m_i / l.m_val)
              = true then
          { m_data := Function.update w.m_data l.m_i 0, m_index := w.m_index.erase l.m_i }
        else l.apply_from_left_to_T true w settings) ∧
    (w.m_data l.m_i ≠ 0 ∨ l.apply_from_left_to_T precise w settings = w) := by
  have hd : (l.apply_from_left_to_T true w settings).m_data
      = Function.update w.m_data l.m_i (w.m_data l.m_i / l.m_val) := by
    unfold one_elem_on_diag.apply_from_left_to_T
    simp only []
    by_cases h0 : w.m_data l.m_i = 0
    · rw [if_pos h0, h0, zero_div, ← h0, Function.update_eq_self]
    · rw [if_neg h0]
      rfl
  refine ⟨by rw [hd, one_elem_mulVec], hd, ?_, ?_, ?_⟩
  · unfold one_elem_on_diag.apply_from_left_to_T
    simp only []
    split <;> rfl
  · unfold one_elem_on_diag.apply_from_left_to_T indexed_vector.erase_from_index
    simp only []
    by_cases h0 : w.m_data l.m_i = 0
    · simp [h0]
    · by_cases hdrop : settings.abs_val_is_smaller_than_drop_tolerance false
          (w.m_data l.m_i / l.m_val) = true
      · simp [h0, hdrop]
      · simp [h0, hdrop]
  · by_cases h0 : w.m_data l.m_i = 0
    · right
      unfold one_elem_on_diag.apply_from_left_to_T
      simp only []
      rw [if_pos h0]
    · exact Or.inl h0

theorem too_dense_few_rows (d : lu_deps n SM EM DM AM) (s : lu n SM EM DM AM) (j : Nat)
    (h : n - j < 5) : too_dense d s j = false := by
  unfold too_dense
  simp only []
  rw [if_pos h]

theorem swap_rows_tail (d : lu_deps n SM EM DM AM) (s : lu n SM EM DM AM) (j k : Nat) :
    (swap_rows d s j k).m_tail = s.m_tail := by
  unfold swap_rows
  split <;> rfl

theorem pivot_the_row_tail (d : lu_deps n SM EM DM AM) (s : lu n SM EM DM AM) (row : Nat) :
    (pivot_the_row d s row).1.m_tail = s.m_tail ∨
      ∃ e, (pivot_the_row d s row).1.m_tail = s.m_tail ++ [tail_matrix.eta e] := by
  unfold pivot_the_row get_eta_matrix_for_pivot
  simp only []
  split <;> split <;> try split
  all_goals try split
  all_goals first
    | exact Or.inl rfl
    | exact Or.inr ⟨_, rfl⟩

theorem process_column_tail (d : lu_deps n SM EM DM AM) (s : lu n SM EM DM AM) (j : Nat) :
    (process_column d s j).m_tail = s.m_tail ∨
      ∃ e, (process_column d s j).m_tail = s.m_tail ++ [tail_matrix.eta e] := by
  unfold process_column
  simp only []
  split
  · exact Or.inl rfl
  · split
    · exact Or.inl rfl
    · have h3 := pivot_the_row_tail d (swap_rows d (swap_columns d
        { s with m_U := (d.U.get_pivot_for_column s.m_U s.m_settings.c_partial_pivoting
          j).2.2.2 } j
        (d.U.get_pivot_for_column s.m_U s.m_settings.c_partial_pivoting j).2.2.1) j
        (d.U.get_pivot_for_column s.m_U s.m_settings.c_partial_pivoting j).2.1) j
      rw [swap_rows_tail, swap_columns_tail] at h3
      split
      · exact h3
      · exact h3

/-- The first loop of `create_initial_factorization` appends eta matrices only. -/
theorem sparse_pass_tail (d : lu_deps n SM EM DM AM) (fuel : Nat) :
    ∀ (j : Nat) (s : lu n SM EM DM AM),
      ∃ etas, (sparse_pass d fuel j s).1.m_tail = s.m_tail ++ etas ∧
        ∀ t ∈ etas, ∃ e, t = tail_matrix.eta e := by
  induction fuel with
  | zero => intro j s; exact ⟨[], by simp [sparse_pass], by simp⟩
  | succ fuel ih =>
    intro j s
    have hp : ∃ l, (process_column d s j).m_tail = s.m_tail ++ l ∧
        ∀ t ∈ l, ∃ e, t = tail_matrix.eta e := by
      rcases process_column_tail d s j with h | ⟨e, h⟩
      · exact ⟨[], by rw [h, List.append_nil], by simp⟩
      · exact ⟨[tail_matrix.eta e], h, by simp⟩
    obtain ⟨l, hl, hle⟩ := hp
    rw [sparse_pass]
    split
    · exact ⟨l, hl, hle⟩
    · split
      · exact ⟨l, hl, hle⟩
      · obtain ⟨l2, hl2, hle2⟩ := ih (j + 1) (process_column d s j)
        refine ⟨l ++ l2, ?_, ?_⟩
        · rw [hl2, hl, List.append_assoc]
        · intro t ht
          rcases List.mem_append.1 ht with h | h
          · exact hle t h
          · exact hle2 t h

/-- The first loop of `create_initial_factorization` is left at its end or at a column
for which `too_dense` holds. -/
theorem sparse_pass_exit (d : lu_deps n SM EM DM AM) (fuel : Nat) :
    ∀ (j j' : Nat) (s : lu n SM EM DM AM), (sparse_pass d fuel j s).2 = some j' →
      j' = j + fuel ∨ (j' < j + fuel ∧ too_dense d (sparse_pass d fuel j s).1 j' = true) := by
  induction fuel with
  | zero =>
    intro j j' s h
    simp only [sparse_pass, Option.some.injEq] at h
    left
    omega
  | succ fuel ih =>
    intro j j' s h
    rw [sparse_pass] at h ⊢
    split at h
    · exact absurd h (by simp)
    · rename_i h1
      rw [if_neg h1]
      split at h
      · rename_i h2
        rw [if_pos h2]
        simp only [Option.some.injEq] at h
        right
        subst h
        exact ⟨by omega, h2⟩
      · rename_i h2
        rw [if_neg h2]
        rcases ih (j + 1) j' _ h with e | ⟨e1, e2⟩
        · left
          omega
        · right
          exact ⟨by omega, e2⟩

theorem dense_pass_tail (d : lu_deps n SM EM DM AM) (fuel : Nat) :
    ∀ (j : Nat) (s : lu n SM EM DM AM),
      (dense_pass d fuel j s).1.m_tail = s.m_tail ∧
      (s.m_dense_LU.isSome = true → (dense_pass d fuel j s).1.m_dense_LU.isSome = true) ∧
      ((dense_pass d fuel j s).2 = false →
        (dense_pass d fuel j s).1.m_status = LU_status.Degenerated) := by
  induction fuel with
  | zero => intro j s; exact ⟨rfl, fun h => h, fun h => absurd h (by simp [dense_pass])⟩
  | succ fuel ih =>
    intro j s
    have hS : s.m_dense_LU.isSome = true →
        (pivot_in_dense_mode d s j).m_dense_LU.isSome = true := by
      intro h
      unfold pivot_in_dense_mode
      split
      · rename_i h0
        rw [h0] at h
        exact absurd h (by simp)
      · rename_i D hD
        simp only []
        by_cases hj : d.dense_LU.find_pivot_column_in_row D j = -1
        · rw [if_pos hj]
          exact h
        · rw [if_neg hj]
          by_cases hij : j ≠ (d.dense_LU.find_pivot_column_in_row D j).toNat
          · rw [if_pos hij]
            simp
          · rw [if_neg hij]
            split
            · rename_i h0
              rw [h0] at h
              exact absurd h (by simp)
            · simp
    rw [dense_pass]
    split
    · exact ⟨pivot_in_dense_mode_tail d s j, fun h => hS h, fun _ => rfl⟩
    · obtain ⟨i1, i2, i3⟩ := ih (j + 1) (pivot_in_dense_mode d s j)
      exact ⟨i1.trans (pivot_in_dense_mode_tail d s j), fun h => i2 (hS h), i3⟩

/-- C26. The function `too_dense(j)` is false whenever fewer than five rows are left, so a
construction of dimension below five is the sparse pass alone.  Whenever the sparse pass
is left at a column `j` before its end, at least five rows are left, the dense solver
starts at row `j + 1 ≤ dim - 4`, the tail holds the old entries followed by eta matrices,
and the dense pass either fails with status `Degenerated` and the tail unchanged, or ends
with exactly one matrix, the dense block, appended to the tail. -/
theorem dense_fallback_needs_five_rows (d : lu_deps n SM EM DM AM) (s : lu n SM EM DM AM) :
    (∀ (s' : lu n SM EM DM AM) (j : Nat), n - j < 5 → too_dense d s' j = false) ∧
    (n < 5 → create_initial_factorization d s
      = (sparse_pass d n 0 { s with m_U := d.U.prepare_for_factorization s.m_U }).1) ∧
    (∀ j, (sparse_pass d n 0 { s with m_U := d.U.prepare_for_factorization s.m_U }).2
        = some j → j ≠ n →
      j + 1 ≤ n - 4 ∧ 5 ≤ n ∧
      (∃ etas, (sparse_pass d n 0
          { s with m_U := d.U.prepare_for_factorization s.m_U }).1.m_tail = s.m_tail ++ etas ∧
        ∀ t ∈ etas, ∃ e, t = tail_matrix.eta e) ∧
      (((create_initial_factorization d s).m_status = LU_status.Degenerated ∧
          (create_initial_factorization d s).m_tail
            = (sparse_pass d n 0
                { s with m_U := d.U.prepare_for_factorization s.m_U }).1.m_tail) ∨
        ∃ D, (create_initial_factorization d s).m_tail
          = (sparse_pass d n 0
              { s with m_U := d.U.prepare_for_factorization s.m_U }).1.m_tail
            ++ [tail_matrix.dense D])) := by
  refine ⟨fun s' j h => too_dense_few_rows d s' j h, ?_, ?_⟩
  · intro hn
    unfold create_initial_factorization factorize_prepared
    simp only []
    have hex := fun j' => sparse_pass_exit d n 0 j'
      { s with m_U := d.U.prepare_for_factorization s.m_U }
    generalize sparse_pass d n 0 { s with m_U := d.U.prepare_for_factorization s.m_U } = r
      at hex ⊢
    obtain ⟨s1, o⟩ := r
    cases o with
    | none => rfl
    | some j =>
      simp only []
      split
      · rfl
      · rename_i hj
        rcases hex j rfl with e | ⟨e1, e2⟩
        · exact absurd (by omega) hj
        · rw [too_dense_few_rows d _ j (by omega)] at e2
          exact absurd e2 (by simp)
  · intro j hexit hj
    have hex := sparse_pass_exit d n 0 j
      { s with m_U := d.U.prepare_for_factorization s.m_U } hexit
    obtain ⟨etas, ht, hte⟩ := sparse_pass_tail d n 0
      { s with m_U := d.U.prepare_for_factorization s.m_U }
    have h5 : 5 ≤ n - j := by
      rcases hex with e | ⟨e1, e2⟩
      · exact absurd (by omega) hj
      · by_contra hlt
        rw [too_dense_few_rows d _ j (by omega)] at e2
        exact absurd e2 (by simp)
    refine ⟨by omega, by omega, ⟨etas, ht, hte⟩, ?_⟩
    unfold create_initial_factorization factorize_prepared
    simp only []
    generalize sparse_pass d n 0 { s with m_U := d.U.prepare_for_factorization s.m_U } = r
      at hexit ⊢
    obtain ⟨s1, o⟩ := r
    simp only [] at hexit
    subst hexit
    simp only []
    rw [if_neg hj]
    unfold finish_in_dense_mode
    simp only []
    obtain ⟨d1, d2, d3⟩ := dense_pass_tail d (n - (j + 1)) (j + 1)
      { s1 with m_dense_LU := some (d.dense_LU.create s1.m_U (j + 1)) }
    generalize dense_pass d (n - (j + 1)) (j + 1)
      { s1 with m_dense_LU := some (d.dense_LU.create s1.m_U (j + 1)) } = r2 at d1 d2 d3 ⊢
    obtain ⟨s2, b⟩ := r2
    simp only [] at d1 d2 d3 ⊢
    cases b with
    | false =>
      simp only [Bool.not_false, if_true]
      exact Or.inl ⟨d3 rfl, d1⟩
    | true =>
      simp only [Bool.not_true, Bool.false_eq_true, if_false]
      right
      have hsome := d2 rfl
      unfold push_dense_block
      cases hD : s2.m_dense_LU with
      | none =>
        rw [hD] at hsome
        exact absurd hsome (by simp)
      | some D =>
        simp only [push_matrix_to_tail]
        exact ⟨_, by rw [d1]⟩

theorem dense_fallback_needs_five_rows_witness :
    0 + 1 ≤ 5 - 4 ∧ 5 ≤ 5 ∧
    (∃ etas, (sparse_pass (dense_deps 5 true 10 5) 5 0
        { lu.init (dense_deps 5 true 10 5) example_A_identity (fun j => j.val)
            example_settings_fifth with
          m_U := (dense_deps 5 true 10 5).U.prepare_for_factorization
            (lu.init (dense_deps 5 true 10 5) example_A_identity (fun j => j.val)
              example_settings_fifth).m_U }).1.m_tail
        = (lu.init (dense_deps 5 true 10 5) example_A_identity (fun j => j.val)
            example_settings_fifth).m_tail ++ etas ∧
      ∀ t ∈ etas, ∃ e, t = tail_matrix.eta e) ∧
    (((create_initial_factorization (dense_deps 5 true 10 5)
          (lu.init (dense_deps 5 true 10 5) example_A_identity (fun j => j.val)
            example_settings_fifth)).m_status = LU_status.Degenerated ∧
        (create_initial_factorization (dense_deps 5 true 10 5)
          (lu.init (dense_deps 5 true 10 5) example_A_identity (fun j => j.val)
            example_settings_fifth)).m_tail
          = (sparse_pass (dense_deps 5 true 10 5) 5 0
              { lu.init (dense_deps 5 true 10 5) example_A_identity (fun j => j.val)
                  example_settings_fifth with
                m_U := (dense_deps 5 true 10 5).U.prepare_for_factorization
                  (lu.init (dense_deps 5 true 10 5) example_A_identity (fun j => j.val)
                    example_settings_fifth).m_U }).1.m_tail) ∨
      ∃ D, (create_initial_factorization (dense_deps 5 true 10 5)
          (lu.init (dense_deps 5 true 10 5) example_A_identity (fun j => j.val)
            example_settings_fifth)).m_tail
        = (sparse_pass (dense_deps 5 true 10 5) 5 0
            { lu.init (dense_deps 5 true 10 5) example_A_identity (fun j => j.val)
                example_settings_fifth with
              m_U := (dense_deps 5 true 10 5).U.prepare_for_factorization
                (lu.init (dense_deps 5 true 10 5) example_A_identity (fun j => j.val)
                  example_settings_fifth).m_U }).1.m_tail
          ++ [tail_matrix.dense D]) :=
  (dense_fallback_needs_five_rows (dense_deps 5 true 10 5)
    (lu.init (dense_deps 5 true 10 5) example_A_identity (fun j => j.val)
      example_settings_fifth)).2.2 0 (by decide!) (by decide)

/-- Without the comparison of lines 839-847, `get_row_eta_matrix_and_set_row_vector`
returns `nullptr` for an empty bump and the extracted row-eta matrix otherwise. -/
theorem get_row_eta_no_check (d : lu_deps n SM EM DM AM) (s : lu n SM EM DM AM)
    (r k : Fin n) (p : ℚ)
    (h : d.precise = true ∨ p = 0 ∨ r = k ∨
      (pivot_and_solve_the_system d (scan_last_row_to_work_vector d s k) r
          k).m_settings.abs_val_is_smaller_than_pivot_tolerance
        (((pivot_and_solve_the_system d (scan_last_row_to_work_vector d s k) r
            k).m_row_eta_work_vector.m_data k - p) / max (1 : ℚ) |p|) = true) :
    get_row_eta_matrix_and_set_row_vector d s r k p
      = if r = k then (s, none)
        else ((extract_row_eta d (pivot_and_solve_the_system d
              (scan_last_row_to_work_vector d s k) r k) r k).1,
            some (extract_row_eta d (pivot_and_solve_the_system d
              (scan_last_row_to_work_vector d s k) r k) r k).2) := by
  unfold get_row_eta_matrix_and_set_row_vector
  by_cases hrk : r = k
  · rw [if_pos hrk, if_pos hrk]
  · rw [if_neg hrk, if_neg hrk]
    simp only []
    by_cases hc : d.precise = false ∧ p ≠ 0
    · rw [if_pos hc]
      rcases h with h | h | h | h
      · rw [h] at hc
        cases hc.1
      · exact absurd h hc.2
      · exact absurd h hrk
      · rw [h]
        rfl
    · rw [if_neg hc]

/-- A call of `replace_column` whose expected pivot is not checked, or passes the check of
lines 839-842, returns what the call with the expected pivot zero returns. -/
theorem replace_column_no_check (d : lu_deps n SM EM DM AM) (s : lu n SM EM DM AM)
    (w : indexed_vector n) (leaving : Fin n) (p : ℚ)
    (h : d.precise = true ∨ p = 0
      ∨ (replace_column_rotate d s w leaving).2.1 = (replace_column_rotate d s w leaving).2.2
      ∨ abs ((recomputed_diagonal d s w leaving - p) / max 1 (abs p))
          < s.m_settings.pivot_tolerance) :
    replace_column d s p w leaving = replace_column d s 0 w leaving := by
  have hset : (pivot_and_solve_the_system d
      (scan_last_row_to_work_vector d (replace_column_rotate d s w leaving).1
        (replace_column_rotate d s w leaving).2.2)
      (replace_column_rotate d s w leaving).2.1
      (replace_column_rotate d s w leaving).2.2).m_settings = s.m_settings :=
    (rotate_frame d s w leaving).2.1
  have h' : d.precise = true ∨ p = 0
      ∨ (replace_column_rotate d s w leaving).2.1 = (replace_column_rotate d s w leaving).2.2
      ∨ (pivot_and_solve_the_system d
          (scan_last_row_to_work_vector d (replace_column_rotate d s w leaving).1
            (replace_column_rotate d s w leaving).2.2)
          (replace_column_rotate d s w leaving).2.1
          (replace_column_rotate d s w
            leaving).2.2).m_settings.abs_val_is_smaller_than_pivot_tolerance
        (((pivot_and_solve_the_system d
          (scan_last_row_to_work_vector d (replace_column_rotate d s w leaving).1
            (replace_column_rotate d s w leaving).2.2)
          (replace_column_rotate d s w leaving).2.1
          (replace_column_rotate d s w leaving).2.2).m_row_eta_work_vector.m_data
            (replace_column_rotate d s w leaving).2.2 - p) / max (1 : ℚ) |p|) = true := by
    rcases h with h | h | h | h
    · exact Or.inl h
    · exact Or.inr (Or.inl h)
    · exact Or.inr (Or.inr (Or.inl h))
    · refine Or.inr (Or.inr (Or.inr ?_))
      rw [hset]
      unfold recomputed_diagonal at h
      simp only [] at h
      simpa [lp_settings.abs_val_is_smaller_than_pivot_tolerance] using h
  have e1 := get_row_eta_no_check d (replace_column_rotate d s w leaving).1
    (replace_column_rotate d s w leaving).2.1 (replace_column_rotate d s w leaving).2.2 p h'
  have e2 := get_row_eta_no_check d (replace_column_rotate d s w leaving).1
    (replace_column_rotate d s w leaving).2.1 (replace_column_rotate d s w leaving).2.2 0
    (Or.inr (Or.inl rfl))
  have e3 : get_row_eta_matrix_and_set_row_vector d (replace_column_rotate d s w leaving).1
      (replace_column_rotate d s w leaving).2.1 (replace_column_rotate d s w leaving).2.2 p
      = get_row_eta_matrix_and_set_row_vector d (replace_column_rotate d s w leaving).1
        (replace_column_rotate d s w leaving).2.1 (replace_column_rotate d s w leaving).2.2
        0 := e1.trans e2.symm
  unfold replace_column
  simp only []
  rw [e3]

/-- C27. The expected pivot does not influence an update in exact arithmetic, nor an
update with an empty bump: two calls of `replace_column` that differ only in
`pivot_elem_for_checking` return the same object.  In inexact arithmetic a zero expected
pivot is not checked: two calls return the same object whenever each expected pivot is
zero or passes the check of lines 839-842 (it differs from the recomputed diagonal by
less than the pivot tolerance times `max(1, |expected|)`). -/
theorem expected_pivot_unused (d : lu_deps n SM EM DM AM) (s : lu n SM EM DM AM)
    (w : indexed_vector n) (leaving : Fin n) (p p' : ℚ) :
    (d.precise = true →
      replace_column d s p w leaving = replace_column d s p' w leaving) ∧
    (d.perm.apply_reverse s.m_R leaving
        = d.U.lowest_row_in_column
            (d.U.replace_column s.m_U (d.perm.apply_reverse s.m_R leaving) w s.m_settings)
            (d.perm.apply_reverse s.m_R leaving) →
      replace_column d s p w leaving = replace_column d s p' w leaving) ∧
    ((p = 0 ∨ abs ((recomputed_diagonal d s w leaving - p) / max 1 (abs p))
          < s.m_settings.pivot_tolerance) →
      (p' = 0 ∨ abs ((recomputed_diagonal d s w leaving - p') / max 1 (abs p'))
          < s.m_settings.pivot_tolerance) →
      replace_column d s p w leaving = replace_column d s p' w leaving) := by
  refine ⟨?_, ?_, ?_⟩
  · intro hp
    exact (replace_column_no_check d s w leaving p (Or.inl hp)).trans
      (replace_column_no_check d s w leaving p' (Or.inl hp)).symm
  · intro he
    exact (replace_column_no_check d s w leaving p (Or.inr (Or.inr (Or.inl he)))).trans
      (replace_column_no_check d s w leaving p' (Or.inr (Or.inr (Or.inl he)))).symm
  · intro h1 h2
    have g1 : replace_column d s p w leaving = replace_column d s 0 w leaving := by
      rcases h1 with h | h
      · exact replace_column_no_check d s w leaving p (Or.inr (Or.inl h))
      · exact replace_column_no_check d s w leaving p (Or.inr (Or.inr (Or.inr h)))
    have g2 : replace_column d s p' w leaving = replace_column d s 0 w leaving := by
      rcases h2 with h | h
      · exact replace_column_no_check d s w leaving p' (Or.inr (Or.inl h))
      · exact replace_column_no_check d s w leaving p' (Or.inr (Or.inr (Or.inr h)))
    exact g1.trans g2.symm

theorem expected_pivot_unused_witness :
    replace_column (dense_deps 2 true 10 3) (example_lu_update example_settings_exact) 1
        (indexed_of_data ![1, 1]) 0
      = replace_column (dense_deps 2 true 10 3) (example_lu_update example_settings_exact) 7
        (indexed_of_data ![1, 1]) 0 :=
  (expected_pivot_unused (dense_deps 2 true 10 3) (example_lu_update example_settings_exact)
    (indexed_of_data ![1, 1]) 0 1 7).1 rfl

theorem foldl_zero_at (l : List (Fin n)) (data : Fin n → Nat) :
    l.foldl (fun data i => Function.update data i 0) data
      = fun i => if i ∈ l then 0 else data i := by
  induction l generalizing data with
  | nil => simp
  | cons a l ih =>
    simp only [List.foldl_cons]
    rw [ih]
    funext i
    by_cases hia : i = a
    · subst hia
      simp
    · simp [hia, Function.update_noteq hia]

theorem unsigned_clear_data (ii : indexed_vector_unsigned n) (h : ii.covers) :
    ii.clear.m_data = fun _ => 0 := by
  unfold indexed_vector_unsigned.clear
  simp only []
  rw [foldl_zero_at]
  funext i
  by_cases hi : i ∈ ii.m_index
  · rw [if_pos hi]
  · rw [if_neg hi]
    by_contra hne
    exact hi (h i hne)

theorem mark_fold (l : List (Fin n)) (ii : indexed_vector_unsigned n) :
    (l.foldl (fun (ii : indexed_vector_unsigned n) i => ii.set_value 1 i) ii).m_data
        = (fun i => if i ∈ l then 1 else ii.m_data i) ∧
      (l.foldl (fun (ii : indexed_vector_unsigned n) i => ii.set_value 1 i) ii).m_index
        = ii.m_index ++ l := by
  induction l generalizing ii with
  | nil => simp
  | cons a l ih =>
    simp only [List.foldl_cons]
    obtain ⟨h1, h2⟩ := ih (ii.set_value 1 a)
    rw [h1, h2]
    refine ⟨?_, by simp [indexed_vector_unsigned.set_value]⟩
    funext i
    by_cases hia : i = a
    · subst hia
      by_cases hil : i ∈ l
      · simp [hil]
      · simp [hil, indexed_vector_unsigned.set_value]
    · simp [hia, indexed_vector_unsigned.set_value, Function.update_noteq hia]

/-- The second loop of `add_delta_to_solution_indexed` (lines 313-317): the listed
entries of the delta are added, and the positions not marked yet are marked and listed. -/
theorem add_fold (yc : Vec n) (l : List (Fin n)) (hl : l.Nodup)
    (ii : indexed_vector_unsigned n) (data : Vec n) :
    (l.foldl
      (fun (r : indexed_vector_unsigned n × Vec n) i =>
        let data := Function.update r.2 i (r.2 i + yc i)
        if r.1.m_data i = 0 then (r.1.set_value 1 i, data) else (r.1, data))
      (ii, data)).2 = (fun i => if i ∈ l then data i + yc i else data i) ∧
    (l.foldl
      (fun (r : indexed_vector_unsigned n × Vec n) i =>
        let data := Function.update r.2 i (r.2 i + yc i)
        if r.1.m_data i = 0 then (r.1.set_value 1 i, data) else (r.1, data))
      (ii, data)).1.m_index = ii.m_index ++ l.filter (fun i => ii.m_data i = 0) := by
  induction l generalizing ii data with
  | nil => simp
  | cons a l ih =>
    rw [List.nodup_cons] at hl
    simp only [List.foldl_cons]
    by_cases h0 : ii.m_data a = 0
    · rw [if_pos h0]
      obtain ⟨h1, h2⟩ := ih hl.2 (ii.set_value 1 a)
        (Function.update data a (data a + yc a))
      rw [h1, h2]
      refine ⟨?_, ?_⟩
      · funext i
        by_cases hia : i = a
        · subst hia
          simp [hl.1]
        · simp [hia, Function.update_noteq hia]
      · have hf : l.filter (fun i => (ii.set_value 1 a).m_data i = 0)
            = l.filter (fun i => ii.m_data i = 0) := by
          apply List.filter_congr
          intro i hi
          have hia : i ≠ a := fun e => hl.1 (e ▸ hi)
          simp [indexed_vector_unsigned.set_value, Function.update_noteq hia]
        rw [hf]
        simp [indexed_vector_unsigned.set_value, List.filter_cons, h0]
    · rw [if_neg h0]
      obtain ⟨h1, h2⟩ := ih hl.2 ii (Function.update data a (data a + yc a))
      rw [h1, h2]
      refine ⟨?_, ?_⟩
      · funext i
        by_cases hia : i = a
        · subst hia
          simp [hl.1]
        · simp [hia, Function.update_noteq hia]
      · simp [List.filter_cons, h0]

theorem clean_fold_aux (eps : ℚ → Bool) (L : List (Fin n)) (hL : L.Nodup)
    (y0 : indexed_vector n) :
    L.foldl
      (fun (y : indexed_vector n) i =>
        if eps (y.m_data i) = true then { y with m_data := Function.update y.m_data i 0 }
        else { y with m_index := y.m_index ++ [i] })
      y0
      = { m_data := fun i => if i ∈ L ∧ eps (y0.m_data i) = true then 0 else y0.m_data i
          m_index := y0.m_index ++ L.filter (fun i => ¬ eps (y0.m_data i) = true) } := by
  induction L generalizing y0 with
  | nil => simp
  | cons a L ih =>
    rw [List.nodup_cons] at hL
    simp only [List.foldl_cons]
    by_cases he : eps (y0.m_data a) = true
    · rw [if_pos he, ih hL.2]
      congr 1
      · funext i
        by_cases hia : i = a
        · subst hia
          simp [he, hL.1]
        · simp [hia, Function.update_noteq hia]
      · simp only [List.filter_cons, he, not_true_eq_false, decide_False,
          Bool.false_eq_true, if_false]
        congr 1
        apply List.filter_congr
        intro i hi
        have hia : i ≠ a := fun e => hL.1 (e ▸ hi)
        simp [Function.update_noteq hia]
    · rw [if_neg he, ih hL.2]
      congr 1
      · funext i
        by_cases hia : i = a
        · subst hia
          simp [he]
        · simp [hia]
      · simp [List.filter_cons, he]

/-- The last loop of `add_delta_to_solution_indexed` (lines 321-327): the values that
are not small are listed, the small ones are set to zero. -/
theorem clean_fold (eps : ℚ → Bool) (L : List (Fin n)) (hL : L.Nodup)
    (y0 : indexed_vector n) :
    L.foldl
      (fun (y : indexed_vector n) i =>
        let v := y.m_data i
        if !eps v then { y with m_index := y.m_index ++ [i] }
        else if v ≠ 0 then { y with m_data := Function.update y.m_data i 0 }
        else y)
      y0
      = { m_data := fun i => if i ∈ L ∧ eps (y0.m_data i) = true then 0 else y0.m_data i
          m_index := y0.m_index ++ L.filter (fun i => ¬ eps (y0.m_data i) = true) } := by
  rw [← clean_fold_aux eps L hL y0]
  apply List.foldl_ext
  intro y i _
  by_cases he : eps (y.m_data i) = true
  · rw [if_pos he]
    simp only [he, Bool.not_true, Bool.false_eq_true, if_false]
    by_cases hv : y.m_data i = 0
    · rw [if_neg (not_not.2 hv)]
      have : Function.update y.m_data i 0 = y.m_data := by
        rw [← hv, Function.update_eq_self]
      rw [this]
    · rw [if_pos hv]
  · rw [if_neg he]
    have he2 : eps (y.m_data i) = false := by simpa using he
    simp only [he2, Bool.not_false, if_true]

/-- C25. When the marker vector `m_ii`, the vector `y` and the delta `m_y_copy` list
their non-zero positions, `y` and `m_y_copy` list no position twice, and zero is
eps-small: after `add_delta_to_solution_indexed` the data of `y` are the entry-wise sums
of the old `y` and `m_y_copy`, with every eps-small sum set to zero; the index of `y`
lists no position twice, every listed position holds a value that is not eps-small, so
not zero, and equal to the sum; and every non-zero position is listed. -/
theorem refined_solution_indexed (d : lu_deps n SM EM DM AM) (s : lu n SM EM DM AM)
    (y : indexed_vector n)
    (h_ii : s.m_ii.covers) (hy1 : y.m_index.Nodup) (hy2 : y.covers)
    (hc1 : s.m_y_copy.m_index.Nodup) (hc2 : s.m_y_copy.covers)
    (h_eps : d.is_eps_small_general 0 = true) :
    (∀ i, (add_delta_to_solution_indexed d s y).2.m_data i
      = if d.is_eps_small_general (y.m_data i + s.m_y_copy.m_data i) = true then 0
        else y.m_data i + s.m_y_copy.m_data i) ∧
    (add_delta_to_solution_indexed d s y).2.m_index.Nodup ∧
    (∀ i ∈ (add_delta_to_solution_indexed d s y).2.m_index,
      (add_delta_to_solution_indexed d s y).2.m_data i ≠ 0 ∧
      d.is_eps_small_general ((add_delta_to_solution_indexed d s y).2.m_data i) = false ∧
      (add_delta_to_solution_indexed d s y).2.m_data i
        = y.m_data i + s.m_y_copy.m_data i) ∧
    (∀ i, (add_delta_to_solution_indexed d s y).2.m_data i ≠ 0 →
      i ∈ (add_delta_to_solution_indexed d s y).2.m_index) := by
  have hclear := unsigned_clear_data s.m_ii h_ii
  obtain ⟨m1, m2⟩ := mark_fold y.m_index s.m_ii.clear
  obtain ⟨a1, a2⟩ := add_fold s.m_y_copy.m_data s.m_y_copy.m_index hc1
    (y.m_index.foldl (fun (ii : indexed_vector_unsigned n) i => ii.set_value 1 i)
      s.m_ii.clear) y.m_data
  rw [m1, m2, hclear] at a2
  have hidx : s.m_ii.clear.m_index = [] := rfl
  rw [hidx, List.nil_append] at a2
  have hfil : s.m_y_copy.m_index.filter
        (fun i => (if i ∈ y.m_index then 1 else 0 : Nat) = 0)
      = s.m_y_copy.m_index.filter (fun i => i ∉ y.m_index) := by
    apply List.filter_congr
    intro i _
    by_cases h : i ∈ y.m_index
    · simp [h]
    · simp [h]
  rw [hfil] at a2
  have hL : (y.m_index ++ s.m_y_copy.m_index.filter (fun i => i ∉ y.m_index)).Nodup := by
    rw [List.nodup_append]
    refine ⟨hy1, hc1.filter _, ?_⟩
    intro i h1 h2
    have := (List.mem_filter.1 h2).2
    simp only [decide_eq_true_eq] at this
    exact this h1
  have hres : (add_delta_to_solution_indexed d s y).2
      = { m_data := fun i =>
            if i ∈ y.m_index ++ s.m_y_copy.m_index.filter (fun i => i ∉ y.m_index)
                ∧ d.is_eps_small_general
                  (if i ∈ s.m_y_copy.m_index then y.m_data i + s.m_y_copy.m_data i
                    else y.m_data i) = true then 0
            else if i ∈ s.m_y_copy.m_index then y.m_data i + s.m_y_copy.m_data i
              else y.m_data i
          m_index := (y.m_index ++ s.m_y_copy.m_index.filter (fun i => i ∉ y.m_index)).filter
            (fun i => ¬ d.is_eps_small_general
              (if i ∈ s.m_y_copy.m_index then y.m_data i + s.m_y_copy.m_data i
                else y.m_data i) = true) } := by
    unfold add_delta_to_solution_indexed
    simp only []
    rw [a2, clean_fold d.is_eps_small_general _ hL, a1]
    simp
  have hS : ∀ i, (if i ∈ s.m_y_copy.m_index then y.m_data i + s.m_y_copy.m_data i
      else y.m_data i) = y.m_data i + s.m_y_copy.m_data i := by
    intro i
    by_cases h : i ∈ s.m_y_copy.m_index
    · rw [if_pos h]
    · rw [if_neg h]
      have : s.m_y_copy.m_data i = 0 := by
        by_contra hne
        exact h (hc2 i hne)
      rw [this, add_zero]
  simp only [hS] at hres
  have hmem : ∀ i, y.m_data i + s.m_y_copy.m_data i ≠ 0 →
      i ∈ y.m_index ++ s.m_y_copy.m_index.filter (fun i => i ∉ y.m_index) := by
    intro i hne
    by_cases h1 : i ∈ y.m_index
    · exact List.mem_append_left _ h1
    · apply List.mem_append_right
      rw [List.mem_filter]
      refine ⟨?_, by simpa using h1⟩
      apply hc2
      intro h0
      apply hne
      have : y.m_data i = 0 := by
        by_contra hy
        exact h1 (hy2 i hy)
      rw [this, h0, add_zero]
  have hdata : ∀ i, (add_delta_to_solution_indexed d s y).2.m_data i
      = if d.is_eps_small_general (y.m_data i + s.m_y_copy.m_data i) = true then 0
        else y.m_data i + s.m_y_copy.m_data i := by
    intro i
    rw [hres]
    simp only []
    by_cases he : d.is_eps_small_general (y.m_data i + s.m_y_copy.m_data i) = true
    · rw [if_pos he]
      by_cases hm : i ∈ y.m_index ++ s.m_y_copy.m_index.filter (fun i => i ∉ y.m_index)
      · rw [if_pos ⟨hm, he⟩]
      · rw [if_neg (fun h => hm h.1)]
        by_contra hne
        exact hm (hmem i hne)
    · rw [if_neg he, if_neg (fun h => he h.2)]
  have hidx2 : ∀ i, i ∈ (add_delta_to_solution_indexed d s y).2.m_index ↔
      (i ∈ y.m_index ++ s.m_y_copy.m_index.filter (fun i => i ∉ y.m_index)
        ∧ ¬ d.is_eps_small_general (y.m_data i + s.m_y_copy.m_data i) = true) := by
    intro i
    rw [hres]
    simp only [List.mem_filter, decide_eq_true_eq]
  refine ⟨hdata, ?_, ?_, ?_⟩
  · rw [hres]
    exact hL.filter _
  · intro i hi
    obtain ⟨-, he⟩ := (hidx2 i).1 hi
    have hd := hdata i
    rw [if_neg he] at hd
    refine ⟨?_, ?_, hd⟩
    · rw [hd]
      intro h0
      rw [h0] at he
      exact he h_eps
    · rw [hd]
      simpa using he
  · intro i hne
    have hd := hdata i
    by_cases he : d.is_eps_small_general (y.m_data i + s.m_y_copy.m_data i) = true
    · rw [if_pos he] at hd
      exact absurd hd hne
    · rw [if_neg he] at hd
      rw [hd] at hne
      exact (hidx2 i).2 ⟨hmem i hne, he⟩

theorem refined_solution_indexed_witness :
    (∀ i, (add_delta_to_solution_indexed (dense_deps 2 false 10 2) example_lu_delta
        (indexed_of_data ![3, 0])).2.m_data i
      = if (dense_deps 2 false 10 2).is_eps_small_general
            ((indexed_of_data ![3, 0]).m_data i + example_lu_delta.m_y_copy.m_data i)
            = true then 0
        else (indexed_of_data ![3, 0]).m_data i + example_lu_delta.m_y_copy.m_data i) ∧
    (add_delta_to_solution_indexed (dense_deps 2 false 10 2) example_lu_delta
      (indexed_of_data ![3, 0])).2.m_index.Nodup :=
  ⟨(refined_solution_indexed (dense_deps 2 false 10 2) example_lu_delta
      (indexed_of_data ![3, 0]) (fun _ hi => absurd rfl hi) (by decide!)
      (by unfold indexed_vector.covers; decide!) (by decide!)
      (by unfold indexed_vector.covers; decide!) (by decide!)).1,
    (refined_solution_indexed (dense_deps 2 false 10 2) example_lu_delta
      (indexed_of_data ![3, 0]) (fun _ hi => absurd rfl hi) (by decide!)
      (by unfold indexed_vector.covers; decide!) (by decide!)
      (by unfold indexed_vector.covers; decide!) (by decide!)).2.1⟩

/-- In inexact arithmetic with the drop tolerance `10⁻¹²`, for `y = (1, 1)` and the delta
`(-1 + 10⁻¹⁵, -1 + 10⁻¹³)`: both vectors list their positions once, hold values above the
drop tolerance there and list every non-zero position.  After
`add_delta_to_solution_indexed` position 0 of `y` holds `0`, not the sum `10⁻¹⁵`, and
the listed position 1 holds `10⁻¹³`, a value below the drop tolerance. -/
theorem refined_solution_is_cleaned :
    (dense_deps 2 false 10 2).precise = false ∧
    ((indexed_of_data ![1, (1 : ℚ)]).m_index.Nodup ∧
      (∀ i, i ∈ (indexed_of_data ![1, (1 : ℚ)]).m_index
        ↔ (indexed_of_data ![1, (1 : ℚ)]).m_data i ≠ 0) ∧
      ∀ i ∈ (indexed_of_data ![1, (1 : ℚ)]).m_index,
        example_lu_delta.m_settings.abs_val_is_smaller_than_drop_tolerance false
          ((indexed_of_data ![1, (1 : ℚ)]).m_data i) = false) ∧
    (example_lu_delta.m_y_copy.m_index.Nodup ∧
      (∀ i, i ∈ example_lu_delta.m_y_copy.m_index
        ↔ example_lu_delta.m_y_copy.m_data i ≠ 0) ∧
      ∀ i ∈ example_lu_delta.m_y_copy.m_index,
        example_lu_delta.m_settings.abs_val_is_smaller_than_drop_tolerance false
          (example_lu_delta.m_y_copy.m_data i) = false) ∧
    (add_delta_to_solution_indexed (dense_deps 2 false 10 2) example_lu_delta
      (indexed_of_data ![1, 1])).2.m_data 0 = 0 ∧
    (indexed_of_data ![1, (1 : ℚ)]).m_data 0 + example_lu_delta.m_y_copy.m_data 0
      = 1 / 1000000000000000 ∧
    (1 : Fin 2) ∈ (add_delta_to_solution_indexed (dense_deps 2 false 10 2) example_lu_delta
      (indexed_of_data ![1, 1])).2.m_index ∧
    example_lu_delta.m_settings.abs_val_is_smaller_than_drop_tolerance false
      ((add_delta_to_solution_indexed (dense_deps 2 false 10 2) example_lu_delta
        (indexed_of_data ![1, 1])).2.m_data 1) = true := by
  refine ⟨rfl, ⟨by decide!, by decide!, by decide!⟩, ⟨by decide!, by decide!, by decide!⟩,
    by decide!, by decide!, by decide!, by decide!⟩

/-- One marked update: the position is marked and listed unless it is marked already. -/
theorem mark_is_marked (ii : indexed_vector_unsigned n) (i : Fin n) (h : ii.is_marked) :
    (if ii.m_data i = 0 then ii.set_value 1 i else ii).is_marked ∧
      i ∈ (if ii.m_data i = 0 then ii.set_value 1 i else ii).m_index ∧
      (∀ j ∈ ii.m_index, j ∈ (if ii.m_data i = 0 then ii.set_value 1 i else ii).m_index) ∧
      (∀ j, j ∈ (if ii.m_data i = 0 then ii.set_value 1 i else ii).m_index →
        j ∈ ii.m_index ∨ j = i) := by
  by_cases h0 : ii.m_data i = 0
  · rw [if_pos h0]
    have hni : i ∉ ii.m_index := fun hm => ((h.2 i).2 hm) h0
    refine ⟨⟨?_, ?_⟩, ?_, ?_, ?_⟩
    · simp only [indexed_vector_unsigned.set_value]
      rw [List.nodup_append]
      refine ⟨h.1, List.nodup_singleton i, ?_⟩
      intro a ha hb
      rw [List.mem_singleton] at hb
      exact hni (hb ▸ ha)
    · intro j
      simp only [indexed_vector_unsigned.set_value, List.mem_append, List.mem_singleton]
      by_cases hji : j = i
      · subst hji
        simp
      · rw [Function.update_noteq hji]
        constructor
        · intro hne
          exact Or.inl ((h.2 j).1 hne)
        · intro hm
          rcases hm with hm | hm
          · exact (h.2 j).2 hm
          · exact absurd hm hji
    · simp [indexed_vector_unsigned.set_value]
    · intro j hj
      simp only [indexed_vector_unsigned.set_value, List.mem_append]
      exact Or.inl hj
    · intro j hj
      simpa [indexed_vector_unsigned.set_value] using hj
  · rw [if_neg h0]
    exact ⟨h, (h.2 i).1 h0, fun j hj => hj, fun j hj => Or.inl hj⟩

/-- A sequence of marked subtractions, each difference rounded: the data at a position
are the old data with the values for that position subtracted one after the other, the
marker vector stays consistent and keeps its listed positions, and nothing is subtracted
at a position that is not listed. -/
theorem touch_fold (round : ℚ → ℚ) (T : List (Fin n × ℚ)) (ii : indexed_vector_unsigned n)
    (data : Vec n) (h : ii.is_marked) :
    (T.foldl
      (fun (r : indexed_vector_unsigned n × Vec n) t =>
        (if r.1.m_data t.1 = 0 then r.1.set_value 1 t.1 else r.1,
          Function.update r.2 t.1 (round (r.2 t.1 - t.2))))
      (ii, data)).2
      = (fun i => ((T.filter (fun t => t.1 = i)).map Prod.snd).foldl
          (fun a v => round (a - v)) (data i)) ∧
    (T.foldl
      (fun (r : indexed_vector_unsigned n × Vec n) t =>
        (if r.1.m_data t.1 = 0 then r.1.set_value 1 t.1 else r.1,
          Function.update r.2 t.1 (round (r.2 t.1 - t.2))))
      (ii, data)).1.is_marked ∧
    (∀ j ∈ ii.m_index, j ∈ (T.foldl
      (fun (r : indexed_vector_unsigned n × Vec n) t =>
        (if r.1.m_data t.1 = 0 then r.1.set_value 1 t.1 else r.1,
          Function.update r.2 t.1 (round (r.2 t.1 - t.2))))
      (ii, data)).1.m_index) ∧
    (∀ j, j ∉ (T.foldl
      (fun (r : indexed_vector_unsigned n × Vec n) t =>
        (if r.1.m_data t.1 = 0 then r.1.set_value 1 t.1 else r.1,
          Function.update r.2 t.1 (round (r.2 t.1 - t.2))))
      (ii, data)).1.m_index → T.filter (fun t => t.1 = j) = []) := by
  induction T generalizing ii data with
  | nil => exact ⟨by simp, h, fun j hj => hj, fun j _ => by simp⟩
  | cons a T ih =>
    simp only [List.foldl_cons]
    obtain ⟨k1, k2, k3, -⟩ := mark_is_marked ii a.1 h
    obtain ⟨i1, i2, i3, i4⟩ := ih (if ii.m_data a.1 = 0 then ii.set_value 1 a.1 else ii)
      (Function.update data a.1 (round (data a.1 - a.2))) k1
    refine ⟨?_, i2, fun j hj => i3 j (k3 j hj), ?_⟩
    · rw [i1]
      funext i
      by_cases hia : a.1 = i
      · subst hia
        simp [List.filter_cons]
      · have hia2 : i ≠ a.1 := fun e => hia e.symm
        simp [List.filter_cons, hia, Function.update_noteq hia2]
    · intro j hj
      have hja : a.1 ≠ j := by
        intro e
        apply hj
        rw [← e]
        exact i3 a.1 k2
      simp only [List.filter_cons, hja, decide_False, Bool.false_eq_true, if_false]
      exact i4 j hj

/-- The inner loop of `find_error_of_yB_indexed` (lines 375-382) is the sequence of
marked subtractions `row_touches`. -/
theorem inner_loop_eq (round : ℚ → ℚ) (heading : Nat → Int) (y_k : ℚ)
    (row : List row_cell) (r : indexed_vector_unsigned n × Vec n) :
    row.foldl
      (fun (r : indexed_vector_unsigned n × Vec n) c =>
        let hj := heading c.m_j
        if hj < 0 then r
        else
          match (to_index hj : Option (Fin n)) with
          | none => r
          | some hj =>
            let ii := if r.1.m_data hj = 0 then r.1.set_value 1 hj else r.1
            (ii, Function.update r.2 hj (round (r.2 hj - round (c.m_value * y_k)))))
      r
      = (row_touches round heading y_k row).foldl
        (fun (r : indexed_vector_unsigned n × Vec n) t =>
          (if r.1.m_data t.1 = 0 then r.1.set_value 1 t.1 else r.1,
            Function.update r.2 t.1 (round (r.2 t.1 - t.2))))
        r := by
  induction row generalizing r with
  | nil => rfl
  | cons c row ih =>
    simp only [List.foldl_cons]
    unfold row_touches at ih ⊢
    by_cases hneg : heading c.m_j < 0
    · rw [if_pos hneg, List.filterMap_cons_none (by rw [if_pos hneg]), ih]
    · rw [if_neg hneg]
      cases hto : (to_index (heading c.m_j) : Option (Fin n)) with
      | none =>
        rw [List.filterMap_cons_none (by rw [if_neg hneg, hto]; rfl)]
        exact ih r
      | some hj =>
        rw [List.filterMap_cons_some (by rw [if_neg hneg, hto]; rfl)]
        simp only [List.foldl_cons]
        exact ih _

/-- The outer loop of `find_error_of_yB_indexed` over sequences of marked subtractions:
the data at a position are the old data with everything for that position subtracted in
the order of the loops, the marker vector stays consistent, and nothing is subtracted at
a position that is not listed. -/
theorem outer_fold (round : ℚ → ℚ) (T : Fin n → List (Fin n × ℚ)) (L : List (Fin n))
    (ii : indexed_vector_unsigned n) (data : Vec n) (h : ii.is_marked) :
    (L.foldl
      (fun (r : indexed_vector_unsigned n × Vec n) k =>
        (T k).foldl
          (fun (r : indexed_vector_unsigned n × Vec n) t =>
            (if r.1.m_data t.1 = 0 then r.1.set_value 1 t.1 else r.1,
              Function.update r.2 t.1 (round (r.2 t.1 - t.2))))
          r)
      (ii, data)).2
      = (fun i => L.foldl
          (fun acc k => (((T k).filter (fun t => t.1 = i)).map Prod.snd).foldl
            (fun a v => round (a - v)) acc)
          (data i)) ∧
    (L.foldl
      (fun (r : indexed_vector_unsigned n × Vec n) k =>
        (T k).foldl
          (fun (r : indexed_vector_unsigned n × Vec n) t =>
            (if r.1.m_data t.1 = 0 then r.1.set_value 1 t.1 else r.1,
              Function.update r.2 t.1 (round (r.2 t.1 - t.2))))
          r)
      (ii, data)).1.is_marked ∧
    (∀ j ∈ ii.m_index, j ∈ (L.foldl
      (fun (r : indexed_vector_unsigned n × Vec n) k =>
        (T k).foldl
          (fun (r : indexed_vector_unsigned n × Vec n) t =>
            (if r.1.m_data t.1 = 0 then r.1.set_value 1 t.1 else r.1,
              Function.update r.2 t.1 (round (r.2 t.1 - t.2))))
          r)
      (ii, data)).1.m_index) ∧
    (∀ j, j ∉ (L.foldl
      (fun (r : indexed_vector_unsigned n × Vec n) k =>
        (T k).foldl
          (fun (r : indexed_vector_unsigned n × Vec n) t =>
            (if r.1.m_data t.1 = 0 then r.1.set_value 1 t.1 else r.1,
              Function.update r.2 t.1 (round (r.2 t.1 - t.2))))
          r)
      (ii, data)).1.m_index →
      ∀ k ∈ L, (T k).filter (fun t => t.1 = j) = []) := by
  induction L generalizing ii data with
  | nil => exact ⟨by simp, h, fun j hj => hj, fun j _ k hk => by simp at hk⟩
  | cons k L ih =>
    simp only [List.foldl_cons]
    obtain ⟨t1, t2, t3, t4⟩ := touch_fold round (T k) ii data h
    generalize (T k).foldl
      (fun (r : indexed_vector_unsigned n × Vec n) t =>
        (if r.1.m_data t.1 = 0 then r.1.set_value 1 t.1 else r.1,
          Function.update r.2 t.1 (round (r.2 t.1 - t.2))))
      (ii, data) = r1 at t1 t2 t3 t4 ⊢
    obtain ⟨ii1, data1⟩ := r1
    simp only [] at t1 t2 t3 t4
    obtain ⟨i1, i2, i3, i4⟩ := ih ii1 data1 t2
    refine ⟨?_, i2, fun j hj => i3 j (t3 j hj), ?_⟩
    · rw [i1, t1]
    · intro j hj k1 hk1
      rcases List.mem_cons.1 hk1 with e | hk
      · rw [e]
        exact t4 j (fun hm => hj (i3 j hm))
      · exact i4 j hj k1 hk

/-- The position of a non-negative heading that is in range. -/
theorem to_index_coe (i : Fin n) :
    (to_index ((i.val : Nat) : Int) : Option (Fin n)) = some i := by
  unfold to_index
  have h : (0 : Int) ≤ ((i.val : Nat) : Int) ∧ ((i.val : Nat) : Int).toNat < n :=
    ⟨Int.ofNat_nonneg _, by simp⟩
  rw [dif_pos h]
  rfl

/-- When `heading` is the inverse of the basis, the values subtracted at position `i` for
one row of `A` are the rounded products of `y_k` with the entries of the row in column
`basis[i]`, in the order of the row. -/
theorem row_touches_filter (round : ℚ → ℚ) (heading : Nat → Int) (basis : Fin n → Nat)
    (h1 : ∀ i : Fin n, heading (basis i) = ((i.val : Nat) : Int))
    (h2 : ∀ j, 0 ≤ heading j → ∃ i : Fin n, j = basis i)
    (y_k : ℚ) (row : List row_cell) (i : Fin n) :
    ((row_touches round heading y_k row : List (Fin n × ℚ)).filter (fun t => t.1 = i)).map
        Prod.snd
      = (row.filter (fun c => c.m_j = basis i)).map (fun c => round (c.m_value * y_k)) := by
  induction row with
  | nil => simp [row_touches]
  | cons c row ih =>
    unfold row_touches at ih ⊢
    by_cases hneg : heading c.m_j < 0
    · have hne : c.m_j ≠ basis i := by
        intro e
        rw [e, h1 i] at hneg
        exact absurd (Int.ofNat_nonneg _) (not_le.2 hneg)
      rw [List.filterMap_cons_none (by rw [if_pos hneg]), ih]
      simp [List.filter_cons, hne]
    · obtain ⟨i1, e1⟩ := h2 c.m_j (not_lt.1 hneg)
      have hh : heading c.m_j = ((i1.val : Nat) : Int) := by rw [e1, h1 i1]
      rw [List.filterMap_cons_some (by rw [if_neg hneg, hh, to_index_coe]; rfl)]
      by_cases hi : i1 = i
      · subst hi
        simp only [List.filter_cons, e1, decide_True, if_true, List.map_cons]
        rw [ih]
      · have hne : c.m_j ≠ basis i := by
          intro e
          apply hi
          have := h1 i
          rw [← e, hh] at this
          exact Fin.ext (Int.ofNat.inj this)
        simp only [List.filter_cons, hi, hne, decide_False, Bool.false_eq_true, if_false]
        exact ih

/-- The loop that adds an index to the marker vector (lines 385-388): the marker vector
stays consistent, keeps its listed positions and lists the added ones. -/
theorem mark_loop (l : List (Fin n)) (ii : indexed_vector_unsigned n) (h : ii.is_marked) :
    (l.foldl
      (fun (ii : indexed_vector_unsigned n) i =>
        if ii.m_data i = 0 then ii.set_value 1 i else ii) ii).is_marked ∧
    (∀ j ∈ ii.m_index, j ∈ (l.foldl
      (fun (ii : indexed_vector_unsigned n) i =>
        if ii.m_data i = 0 then ii.set_value 1 i else ii) ii).m_index) ∧
    (∀ j ∈ l, j ∈ (l.foldl
      (fun (ii : indexed_vector_unsigned n) i =>
        if ii.m_data i = 0 then ii.set_value 1 i else ii) ii).m_index) := by
  induction l generalizing ii with
  | nil => exact ⟨h, fun j hj => hj, fun j hj => by simp at hj⟩
  | cons a l ih =>
    simp only [List.foldl_cons]
    obtain ⟨k1, k2, k3, -⟩ := mark_is_marked ii a h
    obtain ⟨i1, i2, i3⟩ := ih (if ii.m_data a = 0 then ii.set_value 1 a else ii) k1
    refine ⟨i1, fun j hj => i2 j (k3 j hj), ?_⟩
    intro j hj
    rcases List.mem_cons.1 hj with e | hm
    · rw [e]
      exact i2 a k2
    · exact i3 j hm

/-- A fold that subtracts nothing returns its start value. -/
theorem foldl_of_all_nil (round : ℚ → ℚ) (g : Fin n → List ℚ) (L : List (Fin n))
    (h : ∀ k ∈ L, g k = []) (a : ℚ) :
    L.foldl (fun acc k => (g k).foldl (fun a v => round (a - v)) acc) a = a := by
  induction L generalizing a with
  | nil => rfl
  | cons k L ih =>
    simp only [List.foldl_cons]
    rw [h k (List.mem_cons_self k L)]
    exact ih (fun k1 hk1 => h k1 (List.mem_cons_of_mem k hk1)) a

/-- Without rounding, subtracting the products of a list of entries with `y_k` one after
the other subtracts the sum of the entries times `y_k`. -/
theorem foldl_sub_products (y_k : ℚ) (row : List row_cell) (a : ℚ) :
    row.foldl (fun a c => a - c.m_value * y_k) a
      = a - (row.map row_cell.m_value).sum * y_k := by
  induction row generalizing a with
  | nil => simp
  | cons c row ih =>
    simp only [List.foldl_cons, List.map_cons, List.sum_cons]
    rw [ih]
    ring

/-- Subtracting the terms of a list one after the other subtracts their sum. -/
theorem foldl_sub_terms {α : Type} (S : α → ℚ) (L : List α) (a : ℚ) :
    L.foldl (fun a k => a - S k) a = a - (L.map S).sum := by
  induction L generalizing a with
  | nil => simp
  | cons k L ih =>
    simp only [List.foldl_cons, List.map_cons, List.sum_cons]
    rw [ih]
    ring

/-- Summing over the index of a vector that lists its non-zero positions once is summing
over all positions. -/
theorem sum_over_index (y : indexed_vector n) (hy1 : y.m_index.Nodup) (hy2 : y.covers)
    (a : Fin n → ℚ) :
    (y.m_index.map (fun k => a k * y.m_data k)).sum = ∑ k, y.m_data k * a k := by
  rw [← List.sum_toFinset _ hy1]
  rw [Finset.sum_subset (Finset.subset_univ _)]
  · apply Finset.sum_congr rfl
    intro k _
    ring
  · intro k _ hk
    have : y.m_data k = 0 := by
      by_contra hne
      exact hk (List.mem_toFinset.2 (hy2 k hne))
    rw [this, mul_zero]

/-- Without rounding, when the rows of `A` hold the entries of the basic columns and `y`
lists its non-zero positions once, the residual in loop order is `c[i]` minus the dot
product of `y` with the column `basis[i]`. -/
theorem residual_in_loop_order_exact (d : lu_deps n SM EM DM AM) (s : lu n SM EM DM AM)
    (y : indexed_vector n) (basis : Fin n → Nat)
    (h_round : ∀ x, d.round x = x) (hy1 : y.m_index.Nodup) (hy2 : y.covers)
    (h_dot : ∀ i : Fin n, d.A.dot_product_with_column s.m_A y.m_data (basis i)
      = ∑ k, y.m_data k * d.A.get_elem s.m_A k (basis i))
    (h_rows : ∀ k i : Fin n,
      (((d.A.m_rows s.m_A k).filter (fun c => c.m_j = basis i)).map row_cell.m_value).sum
        = d.A.get_elem s.m_A k (basis i))
    (i : Fin n) :
    residual_in_loop_order d s y basis i
      = s.m_y_copy.m_data i - d.A.dot_product_with_column s.m_A y.m_data (basis i) := by
  unfold residual_in_loop_order
  have e : (fun (a : ℚ) (k : Fin n) =>
        ((d.A.m_rows s.m_A k).filter (fun c => c.m_j = basis i)).foldl
          (fun a c => d.round (a - d.round (c.m_value * y.m_data k))) a)
      = fun a k => a - d.A.get_elem s.m_A k (basis i) * y.m_data k := by
    funext a k
    simp only [h_round]
    rw [foldl_sub_products, h_rows]
  rw [e, foldl_sub_terms, sum_over_index y hy1 hy2, h_dot]

/-- The reference version in closed form: at every position the rounded difference of
`c[i]` and the dot product, zeroed when it is below the drop tolerance, and the other
positions listed from the last to the first. -/
theorem find_error_of_yB_indexed_reference_eq (d : lu_deps n SM EM DM AM)
    (s : lu n SM EM DM AM) (y : indexed_vector n) (d_basis : Fin n → Nat)
    (settings : lp_settings) :
    find_error_of_yB_indexed_reference d s y d_basis settings
      = { m_data := fun i =>
            if settings.abs_val_is_smaller_than_drop_tolerance d.precise
                (d.round (s.m_y_copy.m_data i
                  - d.A.dot_product_with_column s.m_A y.m_data (d_basis i))) = true then 0
            else d.round (s.m_y_copy.m_data i
              - d.A.dot_product_with_column s.m_A y.m_data (d_basis i))
          m_index := (List.finRange n).reverse.filter (fun i =>
            ¬ settings.abs_val_is_smaller_than_drop_tolerance d.precise
                (d.round (s.m_y_copy.m_data i
                  - d.A.dot_product_with_column s.m_A y.m_data (d_basis i))) = true) } := by
  unfold find_error_of_yB_indexed_reference
  have key : ∀ (L : List (Fin n)) (hL : L.Nodup) (y0 : indexed_vector n),
      L.foldl
        (fun (yc : indexed_vector n) i =>
          let v :=
            d.round (yc.m_data i - d.A.dot_product_with_column s.m_A y.m_data (d_basis i))
          if settings.abs_val_is_smaller_than_drop_tolerance d.precise v then
            { yc with m_data := Function.update yc.m_data i 0 }
          else { m_data := Function.update yc.m_data i v, m_index := yc.m_index ++ [i] })
        y0
        = { m_data := fun i =>
              if i ∈ L then
                (if settings.abs_val_is_smaller_than_drop_tolerance d.precise
                    (d.round (y0.m_data i
                      - d.A.dot_product_with_column s.m_A y.m_data (d_basis i)))
                      = true then 0
                else d.round (y0.m_data i
                  - d.A.dot_product_with_column s.m_A y.m_data (d_basis i)))
              else y0.m_data i
            m_index := y0.m_index ++ L.filter (fun i =>
              ¬ settings.abs_val_is_smaller_than_drop_tolerance d.precise
                (d.round (y0.m_data i
                  - d.A.dot_product_with_column s.m_A y.m_data (d_basis i)))
                  = true) } := by
    intro L
    induction L with
    | nil => intro _ y0; simp
    | cons a L ih =>
      intro hL y0
      rw [List.nodup_cons] at hL
      simp only [List.foldl_cons]
      by_cases he : settings.abs_val_is_smaller_than_drop_tolerance d.precise
          (d.round (y0.m_data a
            - d.A.dot_product_with_column s.m_A y.m_data (d_basis a))) = true
      · rw [if_pos he, ih hL.2]
        congr 1
        · funext i
          by_cases hia : i = a
          · subst hia
            simp [he, hL.1]
          · simp [hia, Function.update_noteq hia]
        · simp only [List.filter_cons, he, not_true_eq_false, decide_False,
            Bool.false_eq_true, if_false]
          congr 1
          apply List.filter_congr
          intro i hi
          have hia : i ≠ a := fun e => hL.1 (e ▸ hi)
          simp [Function.update_noteq hia]
      · rw [if_neg he, ih hL.2]
        congr 1
        · funext i
          by_cases hia : i = a
          · subst hia
            simp [he, hL.1]
          · simp [hia, Function.update_noteq hia]
        · simp only [List.filter_cons, he, not_false_eq_true, decide_True, if_true]
          rw [List.append_assoc, List.singleton_append]
          congr 2
          apply List.filter_congr
          intro i hi
          have hia : i ≠ a := fun e => hL.1 (e ▸ hi)
          simp [Function.update_noteq hia]
  rw [key _ (List.nodup_reverse.2 (List.nodup_finRange n))]
  congr 1
  funext i
  simp

/-- The scratch vector `m_y_copy` after `find_error_of_yB_indexed`, under the
preconditions the function asserts: the data are the residual in loop order, zeroed where
it is below the drop tolerance, and the index lists the other positions once. -/
theorem find_error_of_yB_indexed_y_copy (d : lu_deps n SM EM DM AM) (s : lu n SM EM DM AM)
    (y : indexed_vector n) (basis : Fin n → Nat) (heading : Nat → Int)
    (settings : lp_settings)
    (h_heading : ∀ i : Fin n, heading (basis i) = ((i.val : Nat) : Int))
    (h_nonbasic : ∀ j, 0 ≤ heading j → ∃ i : Fin n, j = basis i)
    (h_ii : s.m_ii.covers) (hc : s.m_y_copy.covers)
    (h_tol : 0 < settings.drop_tolerance) :
    (find_error_of_yB_indexed d s y heading settings).m_y_copy.m_data
      = (fun i =>
          if settings.abs_val_is_smaller_than_drop_tolerance d.precise
              (residual_in_loop_order d s y basis i) = true then 0
          else residual_in_loop_order d s y basis i) ∧
    (find_error_of_yB_indexed d s y heading settings).m_y_copy.m_index.Nodup ∧
    ∀ i, i ∈ (find_error_of_yB_indexed d s y heading settings).m_y_copy.m_index ↔
      ¬ settings.abs_val_is_smaller_than_drop_tolerance d.precise
          (residual_in_loop_order d s y basis i) = true := by
  have hfold : ∀ r0 : indexed_vector_unsigned n × Vec n,
      y.m_index.foldl
        (fun (r : indexed_vector_unsigned n × Vec n) k =>
          let y_k := y.m_data k
          (d.A.m_rows s.m_A k).foldl
            (fun (r : indexed_vector_unsigned n × Vec n) c =>
              let hj := heading c.m_j
              if hj < 0 then r
              else
                match (to_index hj : Option (Fin n)) with
                | none => r
                | some hj =>
                  let ii := if r.1.m_data hj = 0 then r.1.set_value 1 hj else r.1
                  (ii, Function.update r.2 hj
                    (d.round (r.2 hj - d.round (c.m_value * y_k)))))
            r)
        r0
        = y.m_index.foldl
          (fun (r : indexed_vector_unsigned n × Vec n) k =>
            (row_touches d.round heading (y.m_data k) (d.A.m_rows s.m_A k)).foldl
              (fun (r : indexed_vector_unsigned n × Vec n) t =>
                (if r.1.m_data t.1 = 0 then r.1.set_value 1 t.1 else r.1,
                  Function.update r.2 t.1 (d.round (r.2 t.1 - t.2))))
              r)
          r0 := by
    intro r0
    apply List.foldl_ext
    intro r k _
    exact inner_loop_eq d.round heading (y.m_data k) (d.A.m_rows s.m_A k) r
  have hclean : ∀ (L : List (Fin n)) (y0 : indexed_vector n),
      L.foldl
        (fun (yc : indexed_vector n) k =>
          let v := yc.m_data k
          if settings.abs_val_is_smaller_than_drop_tolerance d.precise v then
            { yc with m_data := Function.update yc.m_data k 0 }
          else yc.set_value v k)
        y0
        = L.foldl
          (fun (y : indexed_vector n) i =>
            if settings.abs_val_is_smaller_than_drop_tolerance d.precise (y.m_data i)
                = true then
              { y with m_data := Function.update y.m_data i 0 }
            else { y with m_index := y.m_index ++ [i] })
          y0 := by
    intro L y0
    apply List.foldl_ext
    intro yc k _
    by_cases he : settings.abs_val_is_smaller_than_drop_tolerance d.precise (yc.m_data k)
        = true
    · simp only [he, if_true]
    · simp only [he, if_false, indexed_vector.set_value, Bool.false_eq_true,
        Function.update_eq_self]
  have hmarked : s.m_ii.clear.is_marked := by
    refine ⟨List.nodup_nil, ?_⟩
    intro i
    rw [unsigned_clear_data s.m_ii h_ii]
    simp [indexed_vector_unsigned.clear]
  have hzero : settings.abs_val_is_smaller_than_drop_tolerance d.precise 0 = true := by
    cases d.precise <;> simp [lp_settings.abs_val_is_smaller_than_drop_tolerance, h_tol]
  unfold find_error_of_yB_indexed
  simp only [] at hfold hclean ⊢
  erw [hfold, hclean]
  obtain ⟨o1, o2, -, o4⟩ := outer_fold d.round
    (fun k => row_touches d.round heading (y.m_data k) (d.A.m_rows s.m_A k))
    y.m_index s.m_ii.clear s.m_y_copy.m_data hmarked
  generalize y.m_index.foldl
      (fun (r : indexed_vector_unsigned n × Vec n) k =>
        (row_touches d.round heading (y.m_data k) (d.A.m_rows s.m_A k)).foldl
          (fun (r : indexed_vector_unsigned n × Vec n) t =>
            (if r.1.m_data t.1 = 0 then r.1.set_value 1 t.1 else r.1,
              Function.update r.2 t.1 (d.round (r.2 t.1 - t.2))))
          r)
      (s.m_ii.clear, s.m_y_copy.m_data) = r1 at o1 o2 o4 ⊢
  obtain ⟨ii1, data1⟩ := r1
  simp only [] at o1 o2 o4 ⊢
  obtain ⟨m1, m2, m3⟩ := mark_loop s.m_y_copy.m_index ii1 o2
  generalize s.m_y_copy.m_index.foldl
      (fun (ii : indexed_vector_unsigned n) i =>
        if ii.m_data i = 0 then ii.set_value 1 i else ii) ii1 = ii2 at m1 m2 m3 ⊢
  rw [clean_fold_aux _ _ m1.1]
  have hdata : data1 = residual_in_loop_order d s y basis := by
    rw [o1]
    funext i
    unfold residual_in_loop_order
    apply List.foldl_ext
    intro a k _
    rw [row_touches_filter d.round heading basis h_heading h_nonbasic, List.foldl_map]
  have hun : ∀ i, i ∉ ii2.m_index → residual_in_loop_order d s y basis i = 0 := by
    intro i hi
    have hci : s.m_y_copy.m_data i = 0 := by
      by_contra hne
      exact hi (m3 i (hc i hne))
    have hs := o4 i (fun hm => hi (m2 i hm))
    rw [← hdata, o1]
    simp only []
    rw [foldl_of_all_nil d.round
      (fun k => ((row_touches d.round heading (y.m_data k)
        (d.A.m_rows s.m_A k) : List (Fin n × ℚ)).filter (fun t => t.1 = i)).map Prod.snd)
      y.m_index (fun k hk => by simp only [hs k hk, List.map_nil])]
    exact hci
  subst hdata
  refine ⟨?_, ?_, ?_⟩
  · funext i
    simp only []
    by_cases hi : i ∈ ii2.m_index
    · simp [hi]
    · rw [hun i hi]
      simp
  · simp only [List.nil_append]
    exact List.Nodup.filter _ m1.1
  · intro i
    simp only [List.nil_append, List.mem_filter, decide_eq_true_eq]
    constructor
    · intro h
      exact h.2
    · intro h
      refine ⟨?_, h⟩
      by_contra hi
      apply h
      rw [hun i hi]
      exact hzero

/-- C24, as amended.  When `heading` is the inverse of the basis (`heading[basis[i]] = i`,
negative for the other columns), `m_y_copy` (holding `c`) and the marker vector `m_ii`
list their non-zero positions and the drop tolerance is positive, then after
`find_error_of_yB_indexed` the data of `m_y_copy` at every position `i` are the residual
in loop order (from `c[i]` the products of `y[k]` with the entries of column `basis[i]`
are subtracted one after the other, each product and each difference rounded in the
arithmetic of `T`) with the values below the drop tolerance replaced by zero, and the
index of `m_y_copy` lists exactly the positions that were not zeroed, each once.  When no
operation rounds, `y` lists its non-zero positions once and the rows of the original
matrix hold the entries of the basic columns, the residual in loop order is
`c[i] - y * column basis[i]`, and data and index agree with the disabled reference
version. -/
theorem sparse_residual_in_loop_order (d : lu_deps n SM EM DM AM)
    (s : lu n SM EM DM AM) (y : indexed_vector n) (basis : Fin n → Nat)
    (heading : Nat → Int) (settings : lp_settings)
    (h_heading : ∀ i : Fin n, heading (basis i) = ((i.val : Nat) : Int))
    (h_nonbasic : ∀ j, 0 ≤ heading j → ∃ i : Fin n, j = basis i)
    (h_ii : s.m_ii.covers) (hc : s.m_y_copy.covers)
    (h_tol : 0 < settings.drop_tolerance) :
    (∀ i, (find_error_of_yB_indexed d s y heading settings).m_y_copy.m_data i
      = if settings.abs_val_is_smaller_than_drop_tolerance d.precise
            (residual_in_loop_order d s y basis i) = true then 0
        else residual_in_loop_order d s y basis i) ∧
    (find_error_of_yB_indexed d s y heading settings).m_y_copy.m_index.Nodup ∧
    (∀ i, i ∈ (find_error_of_yB_indexed d s y heading settings).m_y_copy.m_index ↔
      ¬ settings.abs_val_is_smaller_than_drop_tolerance d.precise
          (residual_in_loop_order d s y basis i) = true) ∧
    ((∀ x, d.round x = x) → y.m_index.Nodup → y.covers →
      (∀ i : Fin n, d.A.dot_product_with_column s.m_A y.m_data (basis i)
        = ∑ k, y.m_data k * d.A.get_elem s.m_A k (basis i)) →
      (∀ k i : Fin n,
        (((d.A.m_rows s.m_A k).filter (fun c => c.m_j = basis i)).map
          row_cell.m_value).sum = d.A.get_elem s.m_A k (basis i)) →
      (∀ i, residual_in_loop_order d s y basis i
        = s.m_y_copy.m_data i - d.A.dot_product_with_column s.m_A y.m_data (basis i)) ∧
      (find_error_of_yB_indexed d s y heading settings).m_y_copy.m_data
        = (find_error_of_yB_indexed_reference d s y basis settings).m_data ∧
      (∀ i, i ∈ (find_error_of_yB_indexed d s y heading settings).m_y_copy.m_index ↔
        i ∈ (find_error_of_yB_indexed_reference d s y basis settings).m_index)) := by
  obtain ⟨e1, e2, e3⟩ := find_error_of_yB_indexed_y_copy d s y basis heading settings
    h_heading h_nonbasic h_ii hc h_tol
  refine ⟨fun i => by rw [e1], e2, e3, ?_⟩
  intro h_round hy1 hy2 h_dot h_rows
  have hres := residual_in_loop_order_exact d s y basis h_round hy1 hy2 h_dot h_rows
  rw [find_error_of_yB_indexed_reference_eq]
  simp only [h_round]
  refine ⟨hres, ?_, ?_⟩
  · rw [e1]
    funext i
    rw [hres i]
  · intro i
    rw [e3 i, hres i]
    simp only [List.mem_filter, List.mem_reverse, List.mem_finRange, true_and,
      decide_eq_true_eq]

theorem sparse_residual_in_loop_order_witness :
    (∀ i, (find_error_of_yB_indexed (dense_deps 2 false 10 2) example_lu_residual
        (indexed_of_data ![1, 1]) example_heading example_settings).m_y_copy.m_data i
      = if example_settings.abs_val_is_smaller_than_drop_tolerance
            (dense_deps 2 false 10 2).precise
            (residual_in_loop_order (dense_deps 2 false 10 2) example_lu_residual
              (indexed_of_data ![1, 1]) (fun i : Fin 2 => i.val) i) = true then 0
        else residual_in_loop_order (dense_deps 2 false 10 2) example_lu_residual
          (indexed_of_data ![1, 1]) (fun i : Fin 2 => i.val) i) ∧
    (find_error_of_yB_indexed (dense_deps 2 false 10 2) example_lu_residual
      (indexed_of_data ![1, 1]) example_heading example_settings).m_y_copy.m_data
      = (find_error_of_yB_indexed_reference (dense_deps 2 false 10 2) example_lu_residual
          (indexed_of_data ![1, 1]) (fun i : Fin 2 => i.val) example_settings).m_data :=
  ⟨(sparse_residual_in_loop_order (dense_deps 2 false 10 2) example_lu_residual
      (indexed_of_data ![1, 1]) (fun i : Fin 2 => i.val) example_heading example_settings
      (by decide!)
      (by
        intro j hj
        unfold example_heading at hj
        by_cases h0 : j = 0
        · exact ⟨0, h0⟩
        · by_cases h1 : j = 1
          · exact ⟨1, h1⟩
          · rw [if_neg h0, if_neg h1] at hj
            exact absurd hj (by decide))
      (by unfold indexed_vector_unsigned.covers; decide!)
      (by unfold indexed_vector.covers; decide!)
      (by decide!)).1,
    ((sparse_residual_in_loop_order (dense_deps 2 false 10 2) example_lu_residual
      (indexed_of_data ![1, 1]) (fun i : Fin 2 => i.val) example_heading example_settings
      (by decide!)
      (by
        intro j hj
        unfold example_heading at hj
        by_cases h0 : j = 0
        · exact ⟨0, h0⟩
        · by_cases h1 : j = 1
          · exact ⟨1, h1⟩
          · rw [if_neg h0, if_neg h1] at hj
            exact absurd hj (by decide))
      (by unfold indexed_vector_unsigned.covers; decide!)
      (by unfold indexed_vector.covers; decide!)
      (by decide!)).2.2.2 (fun _ => rfl) (by decide!)
      (by unfold indexed_vector.covers; decide!) (by decide!) (by decide!)).2.1⟩

/-- The run of the residual example without rounding: the residual of `c = (2, 9)` and
`y = (1, 1)` is `(0, 1)`, position 0 is zeroed and position 1 is listed. -/
theorem sparse_residual_example :
    (find_error_of_yB_indexed (dense_deps 2 false 10 2) example_lu_residual
      (indexed_of_data ![1, 1]) example_heading example_settings).m_y_copy.m_data = ![0, 1] ∧
    (find_error_of_yB_indexed (dense_deps 2 false 10 2) example_lu_residual
      (indexed_of_data ![1, 1]) example_heading example_settings).m_y_copy.m_index = [1] := by
  decide!

/-- In double precision, for the original matrix with the columns `(10¹⁶, -10¹⁶)` and
`(0, 1)`, the basis `0, 1` with its heading, `y = (1, 1)` and `c = (1, 5)`: `y` and
`m_y_copy` list their non-zero positions once and hold no value below the drop tolerance,
the dot product of `y` with column 0 is `0`, so that `c[0] - y * column 0 = 1`, a value
that is not below the drop tolerance and that the reference version stores and lists.
`find_error_of_yB_indexed` subtracts `10¹⁶` from `1`, which rounds to `-10¹⁶`, then adds
`10¹⁶`: position 0 of `m_y_copy` holds `0` and is not listed. -/
theorem sparse_residual_differs_in_double :
    (double_deps 2 10 2).precise = false ∧
    (∀ i : Fin 2, example_heading ((fun i : Fin 2 => i.val) i) = ((i.val : Nat) : Int)) ∧
    (∀ j, 0 ≤ example_heading j → ∃ i : Fin 2, j = (fun i : Fin 2 => i.val) i) ∧
    ((indexed_of_data ![1, (1 : ℚ)]).m_index.Nodup ∧
      (∀ i, i ∈ (indexed_of_data ![1, (1 : ℚ)]).m_index
        ↔ (indexed_of_data ![1, (1 : ℚ)]).m_data i ≠ 0) ∧
      ∀ i ∈ (indexed_of_data ![1, (1 : ℚ)]).m_index,
        example_settings.abs_val_is_smaller_than_drop_tolerance false
          ((indexed_of_data ![1, (1 : ℚ)]).m_data i) = false) ∧
    (example_lu_cancel.m_y_copy.m_data = ![1, 5] ∧
      example_lu_cancel.m_y_copy.m_index.Nodup ∧
      (∀ i, i ∈ example_lu_cancel.m_y_copy.m_index
        ↔ example_lu_cancel.m_y_copy.m_data i ≠ 0) ∧
      ∀ i ∈ example_lu_cancel.m_y_copy.m_index,
        example_settings.abs_val_is_smaller_than_drop_tolerance false
          (example_lu_cancel.m_y_copy.m_data i) = false) ∧
    (double_deps 2 10 2).A.dot_product_with_column example_lu_cancel.m_A
      (indexed_of_data ![1, (1 : ℚ)]).m_data 0 = 0 ∧
    example_settings.abs_val_is_smaller_than_drop_tolerance false (1 - 0) = false ∧
    (find_error_of_yB_indexed_reference (double_deps 2 10 2) example_lu_cancel
      (indexed_of_data ![1, 1]) (fun i : Fin 2 => i.val) example_settings).m_data 0 = 1 ∧
    (0 : Fin 2) ∈ (find_error_of_yB_indexed_reference (double_deps 2 10 2) example_lu_cancel
      (indexed_of_data ![1, 1]) (fun i : Fin 2 => i.val) example_settings).m_index ∧
    (find_error_of_yB_indexed (double_deps 2 10 2) example_lu_cancel
      (indexed_of_data ![1, 1]) example_heading example_settings).m_y_copy.m_data 0 = 0 ∧
    (0 : Fin 2) ∉ (find_error_of_yB_indexed (double_deps 2 10 2) example_lu_cancel
      (indexed_of_data ![1, 1]) example_heading example_settings).m_y_copy.m_index := by
  refine ⟨rfl, by decide!, ?_, ⟨by decide!, by decide!, by decide!⟩,
    ⟨by decide!, by decide!, by decide!, by decide!⟩, by decide!, by decide!, by decide!,
    by decide!, by decide!, by decide!⟩
  intro j hj
  unfold example_heading at hj
  by_cases h0 : j = 0
  · exact ⟨0, h0⟩
  · by_cases h1 : j = 1
    · exact ⟨1, h1⟩
    · rw [if_neg h0, if_neg h1] at hj
      exact absurd hj (by decide)

/-- C17.  In double precision, for the basis `B = [[49]]` factorized as `U = [[1]]` with
the scaling by `1/49` in the tail, `y = (10⁶)` and an empty, zeroed `m_y_copy`: the
factorization identity holds, the indexed solve returns the double nearest to `10⁶/49`,
the residual is `-2⁻³³`, and after `solve_yB_with_error_check_indexed` the vector
`m_y_copy` is not empty and not zero: it holds the solved correction at the listed
position 0. -/
theorem y_copy_left_with_correction :
    (double_deps 1 10 11).precise = false ∧
    get_left_side (double_deps 1 10 11) example_lu_row (fun _ => 0)
      = get_right_side (double_deps 1 10 11) example_lu_row ∧
    example_lu_row.m_y_copy.m_index = [] ∧ (∀ i, example_lu_row.m_y_copy.m_data i = 0) ∧
    (solve_yB_indexed (double_deps 1 10 11) example_lu_row
      (indexed_of_data ![1000000])).m_data 0 = 701219150367347 / 34359738368 ∧
    (find_error_of_yB_indexed (double_deps 1 10 11)
      { example_lu_row with m_y_copy := indexed_of_data ![1000000] }
      (solve_yB_indexed (double_deps 1 10 11) example_lu_row (indexed_of_data ![1000000]))
      example_heading_row example_settings).m_y_copy.m_data 0 = -1 / 8589934592 ∧
    (solve_yB_with_error_check_indexed (double_deps 1 10 11) example_lu_row
        (indexed_of_data ![1000000]) example_heading_row (fun _ => 0)
        example_settings).1.m_y_copy.m_index = [0] ∧
    (solve_yB_with_error_check_indexed (double_deps 1 10 11) example_lu_row
        (indexed_of_data ![1000000]) example_heading_row (fun _ => 0)
        example_settings).1.m_y_copy.m_data 0
      = -5882252574524729 / 2475880078570760549798248448 := by
  refine ⟨rfl, by decide!, rfl, fun _ => rfl, by decide!, by decide!, by decide!, by decide!⟩

end LU
